import Mathlib

/-! # EM classification of DNA sequences: embedding of the engine

Shallow embedding of `src/Clustering/EMSequenceEngine.cpp`, `src/Utility/DNA_utility.cpp`,
`src/Statistics/Statistics.{hpp,cpp}` and `Application::set_options` of
`src/Application/Application.cpp`.

Conventions of the embedding.

* `double` arithmetic is exact arithmetic in a linearly ordered field `R` (the definitions are
  polymorphic in `R`; they are executable at `R = ℚ` and can be read at `R = ℝ`).
* A floating-point division whose divisor is zero produces `inf` or `NaN` in the program.  Neither
  is a number of `R`, so every function that divides reports `Err.division_by_zero` when one of the
  divisions it executes has divisor zero.  The program does not stop there: it stores the `inf` or
  `NaN` and goes on, and `cluster()` returns.  A result `Err.division_by_zero` therefore stands
  for an execution of the program whose values are no longer numbers, and a statement about the
  engines that a function returns with `.ok` says nothing of such an execution: what the program
  does in one is stated apart, at the input that leads to it.
* `log`, `exp`, `sqrt` and `M_PI` come from the C library; they are the fields of a `Libm R`.
  `log 0 = -inf`, `-inf + x = -inf` and `exp (-inf) = 0` are kept: logarithms live in `WithBot R`.
* `size_t` sizes and counters are natural numbers.  No size of the program comes near `2^64`
  (the tensors are allocated), and the iteration counter would need `2^64` calls to wrap.
* The loops that accumulate into a `double` are finite sums over `Finset.range`.
* The matrix classes are absent from the sources.  A matrix is its shape and a total function of
  the indices, so that the functions of the engine are defined on every engine; which cells a
  function reads and writes, and whether they lie within the shapes, is stated apart by the
  predicates `has_cell` and `*_in_range`.
-/

open Finset

namespace EMSeq

/-- Ways in which the program leaves its normal control flow. -/
inductive Err
  /-- A thrown `std::invalid_argument`. -/
  | invalid_argument
  /-- A thrown `std::runtime_error`. -/
  | runtime_error
  /-- A failed `assert`. -/
  | assertion_failure
  /-- A read of `v[i]` in a `std::vector` that has no element `i` (undefined behaviour), or an
  access to a cell of a matrix outside its shape (fatal, by the specification of the matrix
  classes). -/
  | out_of_range_access
  /-- A floating-point division by zero: the program goes on with `inf` or `NaN`. -/
  | division_by_zero
  deriving DecidableEq

/-- Modelled from the spec: the class `Matrix2D` of `Matrix/Matrix2D.hpp`, which is absent.
A dense rank-2 array: `nrow`, `ncol` and the element read by `m(i,j)`. -/
structure Matrix2D (α : Type) where
  nrow : Nat
  ncol : Nat
  elem : Nat → Nat → α

/-- Modelled from the spec: the class `Matrix3D` of `Matrix/Matrix3D.hpp`, which is absent.
A dense rank-3 array with its three dimensions and the element read by `m(i,j,k)`. -/
structure Matrix3D (α : Type) where
  dim1 : Nat
  dim2 : Nat
  dim3 : Nat
  elem : Nat → Nat → Nat → α

/-- Modelled from the spec: the class `Matrix4D` of `Matrix/Matrix4D.hpp`, which is absent.
A dense rank-4 array with its four dimensions and the element read by `m(i,j,k,l)`. -/
structure Matrix4D (α : Type) where
  dim1 : Nat
  dim2 : Nat
  dim3 : Nat
  dim4 : Nat
  elem : Nat → Nat → Nat → Nat → α

namespace Matrix4D

/-- Modelled from the spec: `Matrix4D::get_data_size()`, the number of stored elements. -/
def get_data_size {α : Type} (m : Matrix4D α) : Nat :=
  m.dim1 * m.dim2 * m.dim3 * m.dim4

/-- Modelled from the spec: the offset of element `(i,j,k,l)` in the contiguous row-major
storage. -/
def offset {α : Type} (m : Matrix4D α) (i j k l : Nat) : Nat :=
  ((i * m.dim2 + j) * m.dim3 + k) * m.dim4 + l

/-- Modelled from the spec: `Matrix4D::get(offset)`, the element at a flat index of the
contiguous row-major storage. -/
def get {α : Type} (m : Matrix4D α) (u : Nat) : α :=
  m.elem (u / (m.dim2 * m.dim3 * m.dim4)) (u / (m.dim3 * m.dim4) % m.dim2)
    (u / m.dim4 % m.dim3) (u % m.dim4)

end Matrix4D

/-- Modelled from the spec: the shape check of the element access `m(i, j)` of a `Matrix2D`. -/
def Matrix2D.has_cell {α : Type} (m : Matrix2D α) (i j : Nat) : Prop :=
  i < m.nrow ∧ j < m.ncol

/-- Modelled from the spec: the shape check of the element access `m(i, j, k)` of a
`Matrix3D`. -/
def Matrix3D.has_cell {α : Type} (m : Matrix3D α) (i j k : Nat) : Prop :=
  i < m.dim1 ∧ j < m.dim2 ∧ k < m.dim3

/-- Modelled from the spec: the shape check of the element access `m(i, j, k, l)` of a
`Matrix4D`. -/
def Matrix4D.has_cell {α : Type} (m : Matrix4D α) (i j k l : Nat) : Prop :=
  i < m.dim1 ∧ j < m.dim2 ∧ k < m.dim3 ∧ l < m.dim4

instance {α : Type} (m : Matrix2D α) (i j : Nat) : Decidable (m.has_cell i j) :=
  inferInstanceAs (Decidable (i < m.nrow ∧ j < m.ncol))

instance {α : Type} (m : Matrix3D α) (i j k : Nat) : Decidable (m.has_cell i j k) :=
  inferInstanceAs (Decidable (i < m.dim1 ∧ j < m.dim2 ∧ k < m.dim3))

instance {α : Type} (m : Matrix4D α) (i j k l : Nat) : Decidable (m.has_cell i j k l) :=
  inferInstanceAs (Decidable (i < m.dim1 ∧ j < m.dim2 ∧ k < m.dim3 ∧ l < m.dim4))

/-- The numerical constants of `Utility/Constants.hpp`.  Their values are set in a file that is
absent, so they are parameters. -/
structure Constants (R : Type) where
  delta_max : R
  pseudo_counts : R

/-- The enumeration `Constants::clustering_codes`. -/
inductive clustering_codes
  | CONVERGENCE
  | SUCCESS
  | FAILURE
  deriving DecidableEq

/-- `Constants::FORWARD`. -/
def FORWARD : Nat := 0

/-- `Constants::REVERSE`. -/
def REVERSE : Nat := 1

/-- The functions and the constant of the C mathematical library used by the program. -/
structure Libm (R : Type) where
  log : R → R
  exp : R → R
  sqrt : R → R
  pi : R

/-- What the proofs use of the mathematical library: `exp` is positive, `sqrt` is positive on
positive numbers, and `M_PI` is positive. -/
structure Libm.Sound {R : Type} [LinearOrderedField R] (lm : Libm R) : Prop where
  exp_pos : ∀ x, 0 < lm.exp x
  sqrt_pos : ∀ x, 0 < x → 0 < lm.sqrt x
  pi_pos : 0 < lm.pi

/-- `log` on a `double`: `log(0)` is `-inf`, written `⊥`. -/
def dlog {R : Type} [LinearOrderedField R] (lm : Libm R) (x : R) : WithBot R :=
  if x = 0 then ⊥ else ((lm.log x : R) : WithBot R)

/-- `exp` on a `double` that may be `-inf`: `exp(-inf)` is `0`. -/
def dexp {R : Type} [LinearOrderedField R] (lm : Libm R) : WithBot R → R
  | none => 0
  | some x => lm.exp x

/-! ## `Utility/DNA_utility.cpp` -/

namespace dna

/-- The table `hash_map` of `dna::hash`. -/
def hash_map (base : Char) : Option Nat :=
  if base = 'A' ∨ base = 'a' then some 0
  else if base = 'C' ∨ base = 'c' then some 1
  else if base = 'G' ∨ base = 'g' then some 2
  else if base = 'T' ∨ base = 't' then some 3
  else none

/-- The table `hash_map_rev` of `dna::hash`: each base has the code of its complement. -/
def hash_map_rev (base : Char) : Option Nat :=
  if base = 'A' ∨ base = 'a' then hash_map 'T'
  else if base = 'C' ∨ base = 'c' then hash_map 'G'
  else if base = 'G' ∨ base = 'g' then hash_map 'C'
  else if base = 'T' ∨ base = 't' then hash_map 'A'
  else none

/-- `dna::hash(base, rev_compl)`: a lookup in one of the two tables; a missing key throws
`std::invalid_argument`. -/
def hash (base : Char) (rev_compl : Bool) : Except Err Nat :=
  match (if rev_compl then hash_map_rev base else hash_map base) with
  | some h => .ok h
  | none => .error .invalid_argument

/-- The value `dna::hash` returns when it returns (`0` stands for the throwing case, which the
callers below exclude before they use the value). -/
def hash_val (base : Char) (rev_compl : Bool) : Nat :=
  match hash base rev_compl with
  | .ok h => h
  | .error _ => 0

/-- `dna::score_sequence`: the sum over the motif columns `j` of
`motif_log(hash(sequences(seq_index, from + j)), j)`. -/
def score_sequence {R : Type} [LinearOrderedField R] (sequences : Matrix2D Char)
    (seq_index start : Nat) (motif_log : Matrix2D (WithBot R)) : WithBot R :=
  ∑ j ∈ range motif_log.ncol,
    motif_log.elem (hash_val (sequences.elem seq_index (start + j)) false) j

/-- `dna::base_composition`: the frequency of each base over all positions, each position
counting also for the complementary base (row `4 - c_hash - 1`) when `both_strands`. -/
def base_composition {R : Type} [LinearOrderedField R] (sequences : Matrix2D Char)
    (both_strands : Bool) : Except Err (Nat → R) :=
  if ∃ i ∈ range sequences.nrow, ∃ j ∈ range sequences.ncol,
      hash_map (sequences.elem i j) = none then
    .error .invalid_argument
  else
    let total : R := ∑ _i ∈ range sequences.nrow, ∑ _j ∈ range sequences.ncol,
      (1 + if both_strands then 1 else 0)
    let count : Nat → R := fun r =>
      ∑ i ∈ range sequences.nrow, ∑ j ∈ range sequences.ncol,
        ((if hash_val (sequences.elem i j) false = r then 1 else 0) +
          (if both_strands ∧ 4 - hash_val (sequences.elem i j) false - 1 = r then 1 else 0))
    if total = 0 then .error .division_by_zero
    else .ok (fun r => count r / total)

/-- `dna::get_valid_dna_char()`: the characters "ACGTacgt". -/
def get_valid_dna_char : List Char := ['A', 'C', 'G', 'T', 'a', 'c', 'g', 't']

/-- The table `compl_map` of `dna::complement`. -/
def compl_map (base : Char) : Option Char :=
  if base = 'A' then some 'T'
  else if base = 'a' then some 't'
  else if base = 'C' then some 'G'
  else if base = 'c' then some 'g'
  else if base = 'G' then some 'C'
  else if base = 'g' then some 'c'
  else if base = 'T' then some 'A'
  else if base = 't' then some 'a'
  else none

/-- `dna::complement(base)`: a lookup in the table; a missing key throws
`std::invalid_argument`. -/
def complement (base : Char) : Except Err Char :=
  match compl_map base with
  | some b => .ok b
  | none => .error .invalid_argument

/-- The number of positions of the matrix whose base has hash `r`. -/
def base_count (sequences : Matrix2D Char) (r : Nat) : Nat :=
  ∑ i ∈ range sequences.nrow, ∑ j ∈ range sequences.ncol,
    if hash_val (sequences.elem i j) false = r then 1 else 0

/-- A call of `dna::score_sequence(sequences, seq_index, from, motif_log)`: its four assertions,
then the sum `score_sequence`, in which `dna::hash` throws on a character that is not a base. -/
def score_sequence_call {R : Type} [LinearOrderedField R] (sequences : Matrix2D Char)
    (seq_index start : Nat) (motif_log : Matrix2D (WithBot R)) : Except Err (WithBot R) :=
  if ¬ (sequences.ncol ≥ motif_log.ncol) then .error .assertion_failure
  else if ¬ (sequences.nrow > seq_index) then .error .assertion_failure
  else if ¬ (motif_log.nrow = 4) then .error .assertion_failure
  else if ¬ (start + motif_log.ncol ≤ sequences.ncol) then .error .assertion_failure
  else if ∃ j ∈ range motif_log.ncol, hash_map (sequences.elem seq_index (start + j)) = none then
    .error .invalid_argument
  else .ok (score_sequence sequences seq_index start motif_log)

/-- The value `dna::complement` returns when it returns (the base itself stands for the throwing
case, which the statements below exclude before they use the value). -/
def complement_val (base : Char) : Char :=
  match complement base with
  | .ok b => b
  | .error _ => base

/-- The reverse complement of the window `S[i, s .. s + W)`, materialised as a sequence matrix of
one row: its column `j` holds the complement of `S[i, s + W - 1 - j]`. -/
def reverse_complement_window (sequences : Matrix2D Char) (i s W : Nat) : Matrix2D Char :=
  ⟨1, W, fun _ j => complement_val (sequences.elem i (s + (W - 1 - j)))⟩

/-- The assertions and the element accesses of `dna::score_sequence(sequences, seq_index, from,
motif_log)` are in range: its four assertions hold, and for every column `j` of `motif_log` the
loop reads the cell `(seq_index, from + j)` of `sequences` and the cell of `motif_log` in the
row of its hash and in column `j`. -/
def score_sequence_in_range {β : Type} (sequences : Matrix2D Char) (seq_index start : Nat)
    (motif_log : Matrix2D β) : Prop :=
  sequences.ncol ≥ motif_log.ncol ∧ sequences.nrow > seq_index ∧ motif_log.nrow = 4 ∧
  start + motif_log.ncol ≤ sequences.ncol ∧
  ∀ j < motif_log.ncol, sequences.has_cell seq_index (start + j) ∧
    motif_log.has_cell (hash_val (sequences.elem seq_index (start + j)) false) j

instance {β : Type} (sequences : Matrix2D Char) (seq_index start : Nat)
    (motif_log : Matrix2D β) :
    Decidable (score_sequence_in_range sequences seq_index start motif_log) := by
  unfold score_sequence_in_range
  infer_instance

end dna

/-! ## `Statistics/Statistics.{hpp,cpp}`

A `std::vector<double>` argument is a list; `x[i]` is `x.getD i 0`. -/

section Statistics

variable {R : Type} [LinearOrderedField R]

/-- The expression returned by `dnorm(x, mean, sd)`:
`(1 / (sd * sqrt(2 pi))) * exp(-0.5 * ((x - mean) / sd)^2)`. -/
def dnorm_val (lm : Libm R) (x mean sd : R) : R :=
  (1 / (sd * lm.sqrt (2 * lm.pi))) * lm.exp (-(1 / 2) * ((x - mean) / sd) ^ 2)

/-- `dnorm(x, mean, sd)`, which divides by `sd * sqrt(2 pi)` and by `sd`. -/
def dnorm (lm : Libm R) (x mean sd : R) : Except Err R :=
  if sd * lm.sqrt (2 * lm.pi) = 0 ∨ sd = 0 then .error .division_by_zero
  else .ok (dnorm_val lm x mean sd)

/-- `mean(x, p)`: the sum of `x[i] * (p[i] / total)` where `total` is the sum of `p`. -/
def mean (x p : List R) : Except Err R :=
  if x.length ≠ p.length then .error .assertion_failure
  else if ∃ _i ∈ range x.length, p.sum = 0 then .error .division_by_zero
  else .ok (∑ i ∈ range x.length, x.getD i 0 * (p.getD i 0 / p.sum))

/-- `sd_unbiased(x, p)`. -/
def sd_unbiased (lm : Libm R) (x p : List R) : Except Err R :=
  if x.length ≠ p.length then .error .assertion_failure
  else do
    let m ← mean x p
    let p_norm : Nat → R := fun i => p.getD i 0 / p.sum
    let sd : R := ∑ i ∈ range x.length, (x.getD i 0 - m) ^ 2 * p_norm i
    let v1 : R := ∑ i ∈ range x.length, p_norm i
    let v2 : R := ∑ i ∈ range x.length, (p_norm i) ^ 2
    if (∃ _i ∈ range x.length, p.sum = 0) ∨ v1 = 0 ∨ v1 - v2 / v1 = 0 then
      .error .division_by_zero
    else .ok (lm.sqrt (sd / (v1 - v2 / v1)))

/-- `sd_biased(x, p)`: the square root of the sum of `(x[i] - m)^2 * (p[i] / total)`, `m` being
`mean(x, p)`. -/
def sd_biased (lm : Libm R) (x p : List R) : Except Err R :=
  if x.length ≠ p.length then .error .assertion_failure
  else do
    let m ← mean x p
    if ∃ _i ∈ range x.length, p.sum = 0 then .error .division_by_zero
    else .ok (lm.sqrt (∑ i ∈ range x.length, (x.getD i 0 - m) ^ 2 * (p.getD i 0 / p.sum)))

/-- `sd(x, p, unbiased)`. -/
def sd (lm : Libm R) (x p : List R) (unbiased : Bool) : Except Err R :=
  if unbiased then sd_unbiased lm x p else sd_biased lm x p

/-- The five sums of `cor_pearson` and `cor_pearson_rev` over the `n` pairs `(a t, b t)` read by
their loop, and the quotient they return,
`(n * sum_v1v2 - sum_v1 * sum_v2) / (sqrt(n * sum_v1_2 - sum_v1^2) * sqrt(n * sum_v2_2 - sum_v2^2))`.
The two functions have the same statements here and differ in the pairs they read. -/
def cor_pearson_terms (lm : Libm R) (n : Nat) (a b : Nat → R) : Except Err R :=
  let sum_v1v2 : R := ∑ t ∈ range n, a t * b t
  let sum_v1 : R := ∑ t ∈ range n, a t
  let sum_v2 : R := ∑ t ∈ range n, b t
  let sum_v1_2 : R := ∑ t ∈ range n, a t ^ 2
  let sum_v2_2 : R := ∑ t ∈ range n, b t ^ 2
  if lm.sqrt (n * sum_v1_2 - sum_v1 ^ 2) * lm.sqrt (n * sum_v2_2 - sum_v2 ^ 2) = 0 then
    .error .division_by_zero
  else .ok ((n * sum_v1v2 - sum_v1 * sum_v2) /
    (lm.sqrt (n * sum_v1_2 - sum_v1 ^ 2) * lm.sqrt (n * sum_v2_2 - sum_v2 ^ 2)))

/-- `cor_pearson(v1, v2, from1, to1, from2, to2)`, on `v1[from1, to1)` and `v2[from2, to2)`.  A
bound equal to `-1` is replaced by the start or the end of its vector.  The loop runs
`to1 - from1` times and reads `v1[from1 + t]` and `v2[from2 + t]`; `to2` is only asserted, so
the read of `v2` can leave the vector. -/
def cor_pearson (lm : Libm R) (v1 v2 : List R) (from1 to1 from2 to2 : Int) : Except Err R :=
  let from1 : Int := if from1 = -1 then 0 else from1
  let to1 : Int := if to1 = -1 then v1.length else to1
  let from2 : Int := if from2 = -1 then 0 else from2
  let to2 : Int := if to2 = -1 then v2.length else to2
  if ¬ (from1 ≥ 0 ∧ from1 < to1 ∧ to1 ≤ v1.length ∧
      from2 ≥ 0 ∧ from2 < to2 ∧ to2 ≤ v2.length) then .error .assertion_failure
  else
    let n : Nat := (to1 - from1).toNat
    if ∃ t ∈ range n, (v2.length : Int) ≤ from2 + t then .error .out_of_range_access
    else cor_pearson_terms lm n (fun t => v1.getD (from1 + t).toNat 0)
      (fun t => v2.getD (from2 + t).toNat 0)

/-- `cor_pearson_rev(v1, v2, from1, to1, from2, to2)`, on `v1[from1, to1)` read forward and
`v2[to2, from2]` read backward from `from2`.  A bound equal to `-1` is replaced: `from2` by the
last index of `v2` and `to2` by `0`.  The loop runs `to1 - from1` times and reads `v1[from1 + t]`
and `v2[from2 - t]`; `to2` is only asserted, so the read of `v2` can leave the vector. -/
def cor_pearson_rev (lm : Libm R) (v1 v2 : List R) (from1 to1 from2 to2 : Int) :
    Except Err R :=
  let from1 : Int := if from1 = -1 then 0 else from1
  let to1 : Int := if to1 = -1 then v1.length else to1
  let from2 : Int := if from2 = -1 then (v2.length : Int) - 1 else from2
  let to2 : Int := if to2 = -1 then 0 else to2
  if ¬ (from1 ≥ 0 ∧ from1 < to1 ∧ to1 ≤ v1.length ∧
      to2 ≥ 0 ∧ to2 < from2 ∧ from2 < v2.length) then .error .assertion_failure
  else
    let n : Nat := (to1 - from1).toNat
    if ∃ t ∈ range n, from2 - t < 0 then .error .out_of_range_access
    else cor_pearson_terms lm n (fun t => v1.getD (from1 + t).toNat 0)
      (fun t => v2.getD (from2 - t).toNat 0)

end Statistics

/-! ## `Application/Application.{hpp,cpp}` -/

namespace Application

/-- The structure `options` (`from_pos` and `to_pos` are its fields `from` and `to`, and
`write_path` is the field that holds the beginning of the names of the files written). -/
structure options where
  file_data : String
  file_fasta : Bool
  from_pos : Int
  to_pos : Int
  iteration_n : Nat
  classes_n : Nat
  motif_l : Nat
  flip : Bool
  bg_class : Bool
  center_shift : Bool
  seed : String
  seeding : String
  write_path : String
  nogui : Bool
  deriving DecidableEq

/-- What `po::store(po::parse_command_line(argn, argv, desc), vm)` and `po::notify(vm)` leave
when they do not throw, the parser being outside the repository: for each option without a
value whether `vm.count` finds it, and for each option with a value the value that was given,
if any (`from_pos` and `to_pos` are the options `from` and `to`). -/
structure variables_map where
  help : Bool
  version : Bool
  fasta : Bool
  flip : Bool
  centershift : Bool
  bgclass : Bool
  nogui : Bool
  data : Option String
  from_pos : Option Int
  to_pos : Option Int
  iter : Option Nat
  classes : Option Nat
  length : Option Nat
  write : Option String
  seeding : Option String
  seed : Option String

/-- The global `seeding_random`. -/
def seeding_random : String := "random"

/-- `EXIT_FAILURE`. -/
def EXIT_FAILURE : Int := 1

/-- The values `set_options` gives the options before it reads the command line. -/
def default_options : options :=
  { file_data := ""
    file_fasta := false
    from_pos := 0
    to_pos := 0
    iteration_n := 1
    classes_n := 1
    motif_l := 1
    flip := false
    center_shift := false
    bg_class := false
    seed := ""
    seeding := seeding_random
    write_path := ""
    nogui := false }

/-- `Application::set_options(argn, argv)`, on the exit code the constructor has set.  The
argument is `none` for `argv == nullptr`, and otherwise the outcome of the parsing: an exception,
which is rethrown as `std::runtime_error`, or the variables map, whose values `po::notify` has
stored in the options.  After the checks, each of the seven `if(vm.count(...))` statements sets
what it sets, and the two positions are made 0-based.  The result is the options and the exit
code. -/
def set_options (argv : Option (Except String variables_map)) (exit_code : Int) :
    Except Err (options × Int) :=
  match argv with
  | none => .ok (default_options, -1)
  | some (.error _) => .error .runtime_error
  | some (.ok vm) =>
    let file_data := vm.data.getD default_options.file_data
    let from_pos := vm.from_pos.getD default_options.from_pos
    let to_pos := vm.to_pos.getD default_options.to_pos
    let classes_n := vm.classes.getD default_options.classes_n
    let motif_l := vm.length.getD default_options.motif_l
    let seeding := vm.seeding.getD default_options.seeding
    if file_data = "" ∧ ¬ vm.help ∧ ¬ vm.version then .error .runtime_error
    else if ',' ∉ seeding.data ∧ seeding ≠ seeding_random then .error .runtime_error
    else if classes_n = 0 then .error .runtime_error
    else if motif_l = 0 then .error .runtime_error
    else if from_pos < 0 then .error .runtime_error
    else if to_pos < 0 then .error .runtime_error
    else
      .ok ({ file_data := file_data
             file_fasta := if vm.fasta then true else default_options.file_fasta
             from_pos := from_pos - 1
             to_pos := to_pos - 1
             iteration_n := vm.iter.getD default_options.iteration_n
             classes_n := classes_n
             motif_l := motif_l
             flip := if vm.flip then true else default_options.flip
             center_shift := if vm.flip then true else default_options.center_shift
             bg_class := if vm.bgclass then true else default_options.bg_class
             seed := vm.seed.getD default_options.seed
             seeding := seeding
             write_path := vm.write.getD default_options.write_path
             nogui := if vm.nogui then true else default_options.nogui },
           if vm.version then EXIT_FAILURE else if vm.help then EXIT_FAILURE else exit_code)

/-- The variables map of a command line that gives the data file `f` and no other option with a
value, with the two flags `--flip` and `--centershift` present or not. -/
def data_and_flags (flip centershift : Bool) : variables_map :=
  { help := false
    version := false
    fasta := false
    flip := flip
    centershift := centershift
    bgclass := false
    nogui := false
    data := some "f"
    from_pos := none
    to_pos := none
    iter := none
    classes := none
    length := none
    write := none
    seeding := none
    seed := none }

end Application

/-! ## `Clustering/EMSequenceEngine.{hpp,cpp}` -/

/-- The fields of the class `EMSequenceEngine`.  The two `std::vector<double>` fields, whose
lengths are `4` and `n_class`, are their index functions. -/
structure EMSequenceEngine (R : Type) where
  sequences : Matrix2D Char
  motifs : List (Matrix2D R)
  bg_prob : Nat → R
  class_prob : Matrix3D R
  class_prob_tot : Nat → R
  post_prob : Matrix4D R
  post_prob_prev : Matrix4D R
  likelihood : Matrix4D R
  n_iter : Nat
  n_seq : Nat
  l_seq : Nat
  n_class : Nat
  l_motif : Nat
  n_shift : Nat
  n_flip : Nat
  bg_class : Bool
  shift_center : Bool

namespace EMSequenceEngine

variable {R : Type} [LinearOrderedField R]

/-- The motif `_motifs[k]` (a matrix without columns stands for a missing element, which no
engine built by a constructor has for `k < n_class`). -/
def motif (e : EMSequenceEngine R) (k : Nat) : Matrix2D R :=
  e.motifs.getD k ⟨0, 0, fun _ _ => 0⟩

/-- `get_motifs()`. -/
def get_motifs (e : EMSequenceEngine R) : List (Matrix2D R) := e.motifs

/-- `get_post_prob()`. -/
def get_post_prob (e : EMSequenceEngine R) : Matrix4D R := e.post_prob

/-- `get_class_prob()`. -/
def get_class_prob (e : EMSequenceEngine R) : Matrix3D R := e.class_prob

/-- `get_class_prob_total()`. -/
def get_class_prob_total (e : EMSequenceEngine R) : Nat → R := e.class_prob_tot

/-- `hasConverged()`: false at the first iteration; otherwise true unless some flat index has
posterior values of this and of the previous iteration more than `delta_max` apart. -/
def hasConverged (c : Constants R) (e : EMSequenceEngine R) : Bool :=
  if e.n_iter = 1 then false
  else decide (∀ u ∈ range e.post_prob.get_data_size,
    ¬ (|e.post_prob.get u - e.post_prob_prev.get u| > c.delta_max))

/-- `add_background_class()`: appends a motif whose every column is `_bg_prob` and increments
`_n_class`. -/
def add_background_class (e : EMSequenceEngine R) : EMSequenceEngine R :=
  { e with
    motifs := e.motifs ++ [⟨4, e.l_motif, fun i _ => e.bg_prob i⟩]
    n_class := e.n_class + 1 }

/-- `compute_class_prob()`: `_class_prob(k,s,f)` is the sum over the sequences of the posterior,
divided by the sum over everything; `_class_prob_tot[k]` is its sum over `(s,f)`. -/
def compute_class_prob (e : EMSequenceEngine R) : Except Err (EMSequenceEngine R) :=
  let prob : Nat → Nat → Nat → R := fun k s f => ∑ i ∈ range e.n_seq, e.post_prob.elem i k s f
  let prob_tot : R :=
    ∑ k ∈ range e.n_class, ∑ s ∈ range e.n_shift, ∑ f ∈ range e.n_flip, prob k s f
  if ∃ _k ∈ range e.n_class, prob_tot = 0 then .error .division_by_zero
  else .ok { e with
    class_prob :=
      { e.class_prob with
        elem := fun k s f => prob k s f / prob_tot }
    class_prob_tot := fun k =>
      (∑ s ∈ range e.n_shift, ∑ f ∈ range e.n_flip, prob k s f) / prob_tot }

/-- The vector `base_prob` of `compute_motifs` for class `k`, shift `s` and motif column `j`:
entry `r` is the sum of the forward posteriors of the sequences whose base at `s + j` has code
`r`. -/
def base_prob (e : EMSequenceEngine R) (k s j r : Nat) : R :=
  ∑ i ∈ range e.n_seq,
    if dna.hash_val (e.sequences.elem i (s + j)) false = r then e.post_prob.elem i k s FORWARD
    else 0

/-- The vector `base_prob_rev` of `compute_motifs`: entry `r` is the sum of the reverse posteriors
of the sequences whose base at `s + j` has complement code `r`. -/
def base_prob_rev (e : EMSequenceEngine R) (k s j r : Nat) : R :=
  ∑ i ∈ range e.n_seq,
    if dna.hash_val (e.sequences.elem i (s + j)) true = r then e.post_prob.elem i k s REVERSE
    else 0

/-- The value of `_motifs[k](r, j)` in `compute_motifs` once the accumulation loops are over:
every `(s, j2)` adds `base_prob[r]` to column `j2` and, with two flip states, `base_prob_rev[r]`
to column `l_motif - j2 - 1`. -/
def motif_counts (e : EMSequenceEngine R) (k r j : Nat) : R :=
  ∑ s ∈ range e.n_shift, ∑ j2 ∈ range e.l_motif,
    ((if j2 = j then base_prob e k s j2 r else 0) +
      (if e.n_flip = 2 ∧ e.l_motif - j2 - 1 = j then base_prob_rev e k s j2 r else 0))

/-- `compute_motifs()`: every class but a background class gets its weighted base counts, a
pseudo-count on every cell, and columns divided by their sums.  The loops write the four rows
and the `l_motif` columns of a motif; a cell outside them keeps its value. -/
def compute_motifs (c : Constants R) (e : EMSequenceEngine R) : Except Err (EMSequenceEngine R) :=
  let n_class := e.n_class - (if e.bg_class then 1 else 0)
  let sum : Nat → Nat → R := fun k j =>
    ∑ r ∈ range 4, (motif_counts e k r j + c.pseudo_counts)
  if ∃ k ∈ range n_class, ∃ s ∈ range e.n_shift, ∃ j ∈ range e.l_motif, ∃ i ∈ range e.n_seq,
      dna.hash_map (e.sequences.elem i (s + j)) = none then
    .error .invalid_argument
  else if ∃ k ∈ range n_class, ∃ j ∈ range e.l_motif, ∃ _r ∈ range 4, sum k j = 0 then
    .error .division_by_zero
  else .ok { e with
    motifs := e.motifs.mapIdx fun k m =>
      if k < n_class then
        { m with
          elem := fun r j =>
            if r < 4 ∧ j < e.l_motif then (motif_counts e k r j + c.pseudo_counts) / sum k j
            else m.elem r j }
      else m }

/-- The matrix `motif_log` of `compute_likelihood` for class `k`. -/
def motif_log (lm : Libm R) (e : EMSequenceEngine R) (k : Nat) : Matrix2D (WithBot R) :=
  ⟨4, e.l_motif, fun i j => dlog lm ((e.motif k).elem i j)⟩

/-- The matrix `motif_log_rev` of `compute_likelihood` for class `k`: its cell
`(4 - i - 1, l_motif - j - 1)` holds the logarithm of cell `(i, j)` of the motif. -/
def motif_log_rev (lm : Libm R) (e : EMSequenceEngine R) (k : Nat) : Matrix2D (WithBot R) :=
  ⟨4, e.l_motif, fun i j => dlog lm ((e.motif k).elem (4 - i - 1) (e.l_motif - j - 1))⟩

/-- `compute_likelihood()`: the exponential of the score of every window under the logarithm of
every motif and, with two flip states, under its reverse complement. -/
def compute_likelihood (lm : Libm R) (e : EMSequenceEngine R) :
    Except Err (EMSequenceEngine R) :=
  if ∃ _k ∈ range e.n_class, ∃ i ∈ range e.n_seq, ∃ s ∈ range e.n_shift, ∃ j ∈ range e.l_motif,
      dna.hash_map (e.sequences.elem i (s + j)) = none then
    .error .invalid_argument
  else .ok { e with
    likelihood :=
      { e.likelihood with
        elem := fun i k s f =>
          if f = FORWARD then dexp lm (dna.score_sequence e.sequences i s (motif_log lm e k))
          else if e.n_flip = 2 ∧ f = REVERSE then
            dexp lm (dna.score_sequence e.sequences i s (motif_log_rev lm e k))
          else e.likelihood.elem i k s f } }

/-- `compute_posterior_prob()`: likelihood times class probability, divided by its sum over
`(k,s,f)` for each sequence; a quotient equal to zero is replaced by the pseudo-count. -/
def compute_posterior_prob (c : Constants R) (e : EMSequenceEngine R) :
    Except Err (EMSequenceEngine R) :=
  let p : Nat → Nat → Nat → Nat → R := fun i k s f =>
    e.likelihood.elem i k s f * e.class_prob.elem k s f
  let sum : Nat → R := fun i =>
    ∑ k ∈ range e.n_class, ∑ s ∈ range e.n_shift, ∑ f ∈ range e.n_flip, p i k s f
  if ∃ i ∈ range e.n_seq, ∃ _k ∈ range e.n_class, ∃ _s ∈ range e.n_shift,
      ∃ _f ∈ range e.n_flip, sum i = 0 then
    .error .division_by_zero
  else .ok { e with
    post_prob :=
      { e.post_prob with
        elem := fun i k s f =>
          if p i k s f / sum i = 0 then c.pseudo_counts else p i k s f / sum i } }

/-- `normalise_motifs()`: for every class but a background class, the base composition of each
row over the motif, the ratio of each cell to it, and the division of each cell by the sum of
its column. -/
def normalise_motifs (e : EMSequenceEngine R) : Except Err (EMSequenceEngine R) :=
  let n_class := e.n_class - (if e.bg_class then 1 else 0)
  let row_sum : Nat → Nat → R := fun k i => ∑ j ∈ range e.l_motif, (e.motif k).elem i j
  let base_comp : Nat → Nat → R := fun k i => row_sum k i / row_sum k i
  let ratio : Nat → Nat → Nat → R := fun k i j => (e.motif k).elem i j / base_comp k i
  let sum : Nat → Nat → R := fun k j => ∑ i ∈ range (e.motif k).nrow, (e.motif k).elem i j
  if ∃ k ∈ range n_class,
      (∃ i ∈ range (e.motif k).nrow, row_sum k i = 0) ∨
      (∃ _j ∈ range e.l_motif, ∃ i ∈ range (e.motif k).nrow, base_comp k i = 0) ∨
      (∃ j ∈ range e.l_motif, ∃ _i ∈ range (e.motif k).nrow, sum k j = 0) then
    .error .division_by_zero
  else .ok { e with
    motifs := e.motifs.mapIdx fun k m =>
      if k < n_class then
        { m with
          elem := fun i j =>
            if i < m.nrow ∧ j < e.l_motif then ratio k i j / sum k j else m.elem i j }
      else m }

/-- `center_shifts()`: nothing with a single shift state; otherwise the class probabilities
become `_class_prob_tot[k]` times a Gaussian density of the shift, centred on the middle shift
state and with the standard deviation of the measured shift distribution, divided by the number
of flip states and by the sum of the densities.  The densities are the values of `dnorm`, whose
two divisors are tested here. -/
def center_shifts (lm : Libm R) (e : EMSequenceEngine R) : Except Err (EMSequenceEngine R) :=
  if e.n_shift = 1 then .ok e
  else do
    let shifts : List R := (List.range e.n_shift).map fun (s : Nat) => (s : R) + 1
    let shifts_prob_measured : List R := (List.range e.n_shift).map fun s =>
      ∑ k ∈ range e.n_class, ∑ f ∈ range e.n_flip, e.class_prob.elem k s f
    let shifts_sd ← sd lm shifts shifts_prob_measured false
    if (∃ _i ∈ range shifts.length, shifts_sd * lm.sqrt (2 * lm.pi) = 0 ∨ shifts_sd = 0) then
      .error .division_by_zero
    else
      let shifts_prob_centered : Nat → R := fun i =>
        dnorm_val lm (shifts.getD i 0) ((e.n_shift / 2 + 1 : Nat) : R) shifts_sd
      let shifts_prob_centered_tot : R := ∑ i ∈ range shifts.length, shifts_prob_centered i
      if ∃ _k ∈ range e.n_class, ∃ _f ∈ range e.n_flip, ∃ _s ∈ range e.n_shift,
          (e.n_flip : R) * shifts_prob_centered_tot = 0 then
        .error .division_by_zero
      else .ok { e with
        class_prob :=
          { e.class_prob with
            elem := fun k s _f =>
              e.class_prob_tot k * shifts_prob_centered s /
                ((e.n_flip : R) * shifts_prob_centered_tot) } }

/-- `seeding_random()`: the posterior at flat index `u` is the `u`-th number drawn from the beta
distribution (the generator is in a file that is absent: `draws` is the sequence it yields);
then each sequence is divided by its sum, and the class probabilities and the motifs are
computed. -/
def seeding_random (c : Constants R) (draws : Nat → R) (e : EMSequenceEngine R) :
    Except Err (EMSequenceEngine R) :=
  let drawn : Nat → Nat → Nat → Nat → R := fun i k s f => draws (e.post_prob.offset i k s f)
  let sum : Nat → R := fun i =>
    ∑ k ∈ range e.n_class, ∑ s ∈ range e.n_shift, ∑ f ∈ range e.n_flip, drawn i k s f
  if ∃ i ∈ range e.n_seq, ∃ _k ∈ range e.n_class, ∃ _s ∈ range e.n_shift,
      ∃ _f ∈ range e.n_flip, sum i = 0 then
    .error .division_by_zero
  else do
    let e1 ← compute_class_prob { e with
      post_prob :=
        { e.post_prob with
          elem := fun i k s f => drawn i k s f / sum i } }
    compute_motifs c e1

/-- `seeding(method)`: only the method "random" exists. -/
def seeding (c : Constants R) (draws : Nat → R) (e : EMSequenceEngine R) (method : String) :
    Except Err (EMSequenceEngine R) :=
  if method = "random" then seeding_random c draws e else .error .runtime_error

/-- The constructor `EMSequenceEngine(sequences, n_class, l_motif, flip, center_shift, bg_class,
seed, seeding)`.  `rng seed` is the sequence of numbers the generator seeded with `seed` yields.
`_n_shift` is computed before the checks; when `l_motif > l_seq` the program wraps it around
and the truncated subtraction does not, but the constructor throws then. -/
def construct (c : Constants R) (rng : String → Nat → R) (sequences : Matrix2D Char)
    (n_class l_motif : Nat) (flip center_shift bg_class : Bool) (seed method : String) :
    Except Err (EMSequenceEngine R) :=
  let n_seq := sequences.nrow
  let l_seq := sequences.ncol
  let n_shift := l_seq - l_motif + 1
  let n_flip := 1 + (if flip then 1 else 0)
  let bg := if bg_class then 1 else 0
  if n_class = 0 ∨ n_class > n_seq then .error .invalid_argument
  else if l_motif = 0 ∨ l_motif > l_seq then .error .invalid_argument
  else do
    let bg_prob ← dna.base_composition sequences flip
    let e : EMSequenceEngine R :=
      { sequences := sequences
        motifs := List.replicate n_class ⟨4, l_motif, fun _ _ => 0⟩
        bg_prob := bg_prob
        class_prob := ⟨n_class + bg, n_shift, n_flip, fun _ _ _ => 0⟩
        class_prob_tot := fun _ => 0
        post_prob := ⟨n_seq, n_class + bg, n_shift, n_flip, fun _ _ _ _ => 0⟩
        post_prob_prev := ⟨0, 0, 0, 0, fun _ _ _ _ => 0⟩
        likelihood := ⟨n_seq, n_class + bg, n_shift, n_flip, fun _ _ _ _ => 0⟩
        n_iter := 0
        n_seq := n_seq
        l_seq := l_seq
        n_class := n_class
        l_motif := l_motif
        n_shift := n_shift
        n_flip := n_flip
        bg_class := bg_class
        shift_center := center_shift }
    seeding c (rng seed) (if bg_class then add_background_class e else e) method

/-- The constructor `EMSequenceEngine(sequences, motifs, flip, center_shift, bg_class)`.  The
member initialiser list reads `_motifs[0].get_ncol()` before the body runs its checks.  The call
of `compute_likelihood` in the body reads the rows `0` to `3` of every motif that was given;
modelled from the spec, the element access of a matrix is shape-checked and a cell outside the
shape is fatal, so a motif with fewer than four rows ends the constructor there. -/
def construct_from_motifs (lm : Libm R) (c : Constants R) (sequences : Matrix2D Char)
    (motifs : List (Matrix2D R)) (flip center_shift bg_class : Bool) :
    Except Err (EMSequenceEngine R) :=
  match motifs with
  | [] => .error .out_of_range_access
  | m0 :: _ =>
    let n_seq := sequences.nrow
    let l_seq := sequences.ncol
    let n_class := motifs.length
    let l_motif := m0.ncol
    let n_shift := l_seq - l_motif + 1
    let n_flip := 1 + (if flip then 1 else 0)
    let bg := if bg_class then 1 else 0
    if n_class = 0 ∨ n_class > n_seq then .error .invalid_argument
    else if l_motif = 0 ∨ l_motif > l_seq then .error .invalid_argument
    else if ∃ m ∈ motifs, m.ncol ≠ l_motif then .error .invalid_argument
    else do
      let bg_prob ← dna.base_composition sequences flip
      let e : EMSequenceEngine R :=
        { sequences := sequences
          motifs := motifs
          bg_prob := bg_prob
          class_prob := ⟨n_class + bg, n_shift, n_flip, fun _ _ _ => 0⟩
          class_prob_tot := fun _ => 0
          post_prob := ⟨n_seq, n_class + bg, n_shift, n_flip, fun _ _ _ _ => 0⟩
          post_prob_prev := ⟨0, 0, 0, 0, fun _ _ _ _ => 0⟩
          likelihood := ⟨n_seq, n_class + bg, n_shift, n_flip, fun _ _ _ _ => 0⟩
          n_iter := 0
          n_seq := n_seq
          l_seq := l_seq
          n_class := n_class
          l_motif := l_motif
          n_shift := n_shift
          n_flip := n_flip
          bg_class := bg_class
          shift_center := center_shift }
      if ∃ m ∈ motifs, m.nrow < 4 then .error .out_of_range_access
      else do
        let e1 ← compute_likelihood lm (if bg_class then add_background_class e else e)
        let sum : Nat → R := fun i =>
          ∑ k ∈ range e1.n_class, ∑ s ∈ range e1.n_shift, ∑ f ∈ range e1.n_flip,
            e1.likelihood.elem i k s f
        if ∃ i ∈ range e1.n_seq, ∃ k ∈ range e1.n_class, ∃ s ∈ range e1.n_shift,
            ∃ f ∈ range e1.n_flip, e1.likelihood.elem i k s f ≠ 0 ∧ sum i = 0 then
          .error .division_by_zero
        else
          compute_class_prob { e1 with
            post_prob :=
              { e1.post_prob with
                elem := fun i k s f =>
                  if e1.likelihood.elem i k s f = 0 then c.pseudo_counts
                  else e1.likelihood.elem i k s f / sum i } }

/-- `cluster()`: keeps the posterior of the last iteration, runs the E-step and the M-step,
increments the iteration counter, centres the shifts if asked, and tells whether the posterior
has converged. -/
def cluster (lm : Libm R) (c : Constants R) (e : EMSequenceEngine R) :
    Except Err (clustering_codes × EMSequenceEngine R) := do
  let e0 := if e.n_iter > 0 then { e with post_prob_prev := e.post_prob } else e
  let e1 ← compute_likelihood lm e0
  let e2 ← compute_posterior_prob c e1
  let e3 ← compute_class_prob e2
  let e4 ← compute_motifs c e3
  let e5 ← normalise_motifs e4
  let e6 := { e5 with n_iter := e5.n_iter + 1 }
  let e7 ← if e6.shift_center then center_shifts lm e6 else pure e6
  pure (if hasConverged c e7 then .CONVERGENCE else .SUCCESS, e7)

/-- The engine after `n` successive calls of `cluster()`. -/
def cluster_n (lm : Libm R) (c : Constants R) :
    Nat → EMSequenceEngine R → Except Err (EMSequenceEngine R)
  | 0, e => .ok e
  | n + 1, e => do
    let e1 ← cluster_n lm c n e
    let r ← cluster lm c e1
    pure r.2

/-- The number of classes that are trained: all but a background class
(`_n_class - _bg_class` in `compute_motifs` and `normalise_motifs`). -/
def n_trained (e : EMSequenceEngine R) : Nat :=
  e.n_class - (if e.bg_class then 1 else 0)

/-- The sum of the posterior of sequence `i` over the classes, the shifts and the flip
states. -/
def post_prob_sum (e : EMSequenceEngine R) (i : Nat) : R :=
  ∑ k ∈ range e.n_class, ∑ s ∈ range e.n_shift, ∑ f ∈ range e.n_flip, e.post_prob.elem i k s f

/-- The sum of the class probabilities over the classes, the shifts and the flip states. -/
def class_prob_sum (e : EMSequenceEngine R) : R :=
  ∑ k ∈ range e.n_class, ∑ s ∈ range e.n_shift, ∑ f ∈ range e.n_flip, e.class_prob.elem k s f

/-- The sum of column `j` of the motif of class `k` over the four bases. -/
def motif_col_sum (e : EMSequenceEngine R) (k j : Nat) : R :=
  ∑ r ∈ range 4, (e.motif k).elem r j

/-- What a constructor sets up and no method changes afterwards (but for the values of the
trained motifs): non-empty dimensions, windows inside the sequences, valid bases, as many
motifs as classes, four rows in each trained motif, and a background motif equal to the base
composition, which is positive on the bases that occur. -/
structure Setup (e : EMSequenceEngine R) : Prop where
  n_seq_pos : 0 < e.n_seq
  n_trained_pos : 0 < e.n_trained
  n_shift_pos : 0 < e.n_shift
  n_flip_pos : 0 < e.n_flip
  n_flip_le : e.n_flip ≤ 2
  l_motif_pos : 0 < e.l_motif
  window : e.n_shift + e.l_motif ≤ e.l_seq + 1
  valid : ∀ i < e.n_seq, ∀ j < e.l_seq, dna.hash_map (e.sequences.elem i j) ≠ none
  motifs_len : e.motifs.length = e.n_class
  motif_nrow : ∀ k < e.n_trained, (e.motif k).nrow = 4
  bg_motif : e.bg_class = true → ∀ r < 4, ∀ j < e.l_motif,
    (e.motif (e.n_class - 1)).elem r j = e.bg_prob r
  bg_used : e.bg_class = true → ∀ i < e.n_seq, ∀ j < e.l_seq,
    0 < e.bg_prob (dna.hash_val (e.sequences.elem i j) false) ∧
    (e.n_flip = 2 → 0 < e.bg_prob (4 - dna.hash_val (e.sequences.elem i j) false - 1))

/-- The state of an engine in which nothing is zero that the next iteration divides by or takes
the logarithm of: the setup, a positive posterior summing to one for each sequence, positive
class probabilities summing to one with their marginals, and positive trained motifs. -/
structure Inv (e : EMSequenceEngine R) extends Setup e : Prop where
  post_pos : ∀ i < e.n_seq, ∀ k < e.n_class, ∀ s < e.n_shift, ∀ f < e.n_flip,
    0 < e.post_prob.elem i k s f
  post_sum : ∀ i < e.n_seq, e.post_prob_sum i = 1
  class_pos : ∀ k < e.n_class, ∀ s < e.n_shift, ∀ f < e.n_flip, 0 < e.class_prob.elem k s f
  class_sum : e.class_prob_sum = 1
  class_tot : ∀ k < e.n_class,
    e.class_prob_tot k = ∑ s ∈ range e.n_shift, ∑ f ∈ range e.n_flip, e.class_prob.elem k s f
  motif_pos : ∀ k < e.n_trained, ∀ r < 4, ∀ j < e.l_motif, 0 < (e.motif k).elem r j

/-- Every column of every trained motif sums to one. -/
def ColumnsNormalised (e : EMSequenceEngine R) : Prop :=
  ∀ k < e.n_trained, ∀ j < e.l_motif, e.motif_col_sum k j = 1

/-- The second engine has the sequences, the background, the dimensions and the flags of the
first. -/
def same_setup (e e2 : EMSequenceEngine R) : Prop :=
  e2.sequences = e.sequences ∧ e2.bg_prob = e.bg_prob ∧ e2.n_seq = e.n_seq ∧
  e2.l_seq = e.l_seq ∧ e2.n_class = e.n_class ∧ e2.l_motif = e.l_motif ∧
  e2.n_shift = e.n_shift ∧ e2.n_flip = e.n_flip ∧ e2.bg_class = e.bg_class ∧
  e2.shift_center = e.shift_center

/-- The engine a constructor returns, after `n` successive calls of `cluster()` on it. -/
def cluster_n_after (lm : Libm R) (c : Constants R) (r : Except Err (EMSequenceEngine R))
    (n : Nat) : Except Err (EMSequenceEngine R) := do
  let e ← r
  cluster_n lm c n e

/-- The class probabilities sum to one, every marginal is the sum of its class over shifts and
flip states, and the marginals sum to one. -/
def ClassProbNormalised (e : EMSequenceEngine R) : Prop :=
  e.class_prob_sum = 1 ∧
  (∀ k < e.n_class,
    e.class_prob_tot k = ∑ s ∈ range e.n_shift, ∑ f ∈ range e.n_flip, e.class_prob.elem k s f) ∧
  (∑ k ∈ range e.n_class, e.class_prob_tot k) = 1

/-- Every column of every trained motif sums to one within ten pseudo-counts, and every cell of
every trained motif is positive. -/
def MotifsNormalised (c : Constants R) (e : EMSequenceEngine R) : Prop :=
  ∀ k < e.n_trained, ∀ j < e.l_motif,
    |1 - e.motif_col_sum k j| ≤ 10 * c.pseudo_counts ∧ ∀ r < 4, 0 < (e.motif k).elem r j

/-- The single sequence "ACGT", an input on which the statements below are instantiated. -/
def acgt : Matrix2D Char :=
  ⟨1, 4, fun _ j => if j = 0 then 'A' else if j = 1 then 'C' else if j = 2 then 'G' else 'T'⟩

/-- A motif of width two with every cell equal to one quarter, an input on which the
statements below are instantiated. -/
def uniform_motif : Matrix2D R := ⟨4, 2, fun _ _ => 1 / 4⟩

/-- A motif of width one with all its weight on the base `A`, an input on which the statements
below are instantiated. -/
def one_hot_a : Matrix2D R := ⟨4, 1, fun r _ => if r = 0 then 1 else 0⟩

/-- The single sequence "C", an input on which the statements below are instantiated. -/
def single_c : Matrix2D Char := ⟨1, 1, fun _ _ => 'C'⟩

/-- The single sequence "AC", an input on which the statements below are instantiated. -/
def ac : Matrix2D Char := ⟨1, 2, fun _ j => if j = 0 then 'A' else 'C'⟩

/-- A motif of width one whose cells are one quarter, but for `A`, which has `2 / 10000000`
more, and `C`, which has as much less: an input on which the statements below are
instantiated. -/
def tilted_motif : Matrix2D R :=
  ⟨4, 1, fun r _ => if r = 0 then 1250001 / 5000000 else if r = 1 then 1249999 / 5000000
    else 1 / 4⟩

/-- The two sequences "ACGT" and "AAAA" of the unit test of `dna::base_composition`. -/
def acgt_aaaa : Matrix2D Char :=
  ⟨2, 4, fun i j => if i = 0 then
    (if j = 0 then 'A' else if j = 1 then 'C' else if j = 2 then 'G' else 'T') else 'A'⟩

/-- The vector `shifts_prob_measured` of `center_shifts`: entry `s` is the sum of the class
probabilities of shift `s` over the classes and the flip states. -/
def shifts_prob_measured (e : EMSequenceEngine R) (s : Nat) : R :=
  ∑ k ∈ range e.n_class, ∑ f ∈ range e.n_flip, e.class_prob.elem k s f

/-- An engine with one class, two shift states and one flip state, whose class probabilities
are `c0` for the first shift and `c1` for the second: an input on which the statements below
are instantiated. -/
def shift_engine (c0 c1 : R) : EMSequenceEngine R :=
  { sequences := ⟨1, 2, fun _ _ => 'A'⟩
    motifs := [⟨4, 1, fun _ _ => 1 / 4⟩]
    bg_prob := fun _ => 1 / 4
    class_prob := ⟨1, 2, 1, fun _ s _ => if s = 0 then c0 else c1⟩
    class_prob_tot := fun _ => c0 + c1
    post_prob := ⟨1, 1, 2, 1, fun _ _ s _ => if s = 0 then c0 else c1⟩
    post_prob_prev := ⟨0, 0, 0, 0, fun _ _ _ _ => 0⟩
    likelihood := ⟨1, 1, 2, 1, fun _ _ _ _ => 0⟩
    n_iter := 1
    n_seq := 1
    l_seq := 2
    n_class := 1
    l_motif := 1
    n_shift := 2
    n_flip := 1
    bg_class := false
    shift_center := true }

/-- No division of `center_shifts` has divisor zero: the standard deviation `sd(shifts,
shifts_prob_measured, false)` is computed and is positive, as is its product with
`sqrt(2 pi)`, the two divisors of `dnorm`; the sum of the Gaussian densities is positive; and
`center_shifts` returns. -/
def CenterShiftsDivisorsNonzero (lm : Libm R) (e : EMSequenceEngine R) : Prop :=
  ∃ sigma : R,
    sd lm ((List.range e.n_shift).map fun (s : Nat) => (s : R) + 1)
      ((List.range e.n_shift).map e.shifts_prob_measured) false = .ok sigma ∧
    0 < sigma ∧ 0 < sigma * lm.sqrt (2 * lm.pi) ∧
    0 < ∑ s ∈ range e.n_shift,
      dnorm_val lm ((s : R) + 1) ((e.n_shift / 2 + 1 : Nat) : R) sigma ∧
    ∃ e2, center_shifts lm e = .ok e2

/-- The value `compute_likelihood` writes in `_likelihood(i,k,s,f)`; with one flip state the
entries of the reverse strand keep their value. -/
def likelihood_value (lm : Libm R) (e : EMSequenceEngine R) (i k s f : Nat) : R :=
  if f = FORWARD then dexp lm (dna.score_sequence e.sequences i s (motif_log lm e k))
  else if e.n_flip = 2 ∧ f = REVERSE then
    dexp lm (dna.score_sequence e.sequences i s (motif_log_rev lm e k))
  else e.likelihood.elem i k s f

/-- The motif of class `k` is palindromic: its cell `(r, j)` equals its cell
`(3 - r, l_motif - 1 - j)`. -/
def Palindromic (e : EMSequenceEngine R) (k : Nat) : Prop :=
  ∀ r < 4, ∀ j < e.l_motif, (e.motif k).elem r j = (e.motif k).elem (3 - r) (e.l_motif - 1 - j)

/-- A motif of width four with every cell equal to one quarter, an input on which the
statements below are instantiated. -/
def uniform_motif4 : Matrix2D R := ⟨4, 4, fun _ _ => 1 / 4⟩

/-- The weighted count `A_k[r, j]` in the words of the specification: the sum of the forward
posteriors `P[i,k,s,0]` over the pairs `(i, s)` whose base at `s + j` has code `r`, plus, with two
flip states, the sum of the reverse posteriors `P[i,k,s,1]` over the pairs whose base at
`s + W - 1 - j` has code `3 - r`. -/
def weighted_count (e : EMSequenceEngine R) (k r j : Nat) : R :=
  (∑ i ∈ range e.n_seq, ∑ s ∈ range e.n_shift,
    if dna.hash_val (e.sequences.elem i (s + j)) false = r then e.post_prob.elem i k s 0
    else 0) +
  (if e.n_flip = 2 then
    ∑ i ∈ range e.n_seq, ∑ s ∈ range e.n_shift,
      if dna.hash_val (e.sequences.elem i (s + (e.l_motif - 1 - j))) false = 3 - r then
        e.post_prob.elem i k s 1
      else 0
  else 0)

/-- The normalisation of a motif as the documentation of `normalise_motifs` in
`EMSequenceEngine.hpp` describes it, and as the reference function quoted after its body
computes it: the composition of a row is its total over the total of the motif, the ratio of a
cell is the cell over the composition of its row, and the new cell `(i, j)` is its ratio over the
sum of the ratios of column `j`. -/
def normalise_documented (m : Matrix2D R) (l_motif i j : Nat) : R :=
  let total : R := ∑ i2 ∈ range m.nrow, ∑ j2 ∈ range l_motif, m.elem i2 j2
  let comp : Nat → R := fun i2 => (∑ j2 ∈ range l_motif, m.elem i2 j2) / total
  let ratio : Nat → Nat → R := fun i2 j2 => m.elem i2 j2 / comp i2
  ratio i j / ∑ i2 ∈ range m.nrow, ratio i2 j

/-- The single sequence "AA", an input on which the statements below are instantiated. -/
def aa : Matrix2D Char := ⟨1, 2, fun _ _ => 'A'⟩

/-- The element accesses of the first loops of `compute_likelihood()` for class `k` are in
range: for the rows `i < 4` and the columns `j < l_motif` they read `_motifs[k](i,j)` and write
`motif_log(i,j)` and `motif_log_rev(4-i-1, l_motif-j-1)`, two unsigned subtractions that must
not wrap around. -/
def motif_log_in_range (lm : Libm R) (e : EMSequenceEngine R) (k : Nat) : Prop :=
  ∀ i < 4, ∀ j < e.l_motif,
    (e.motif k).has_cell i j ∧ (motif_log lm e k).has_cell i j ∧
    i + 1 ≤ 4 ∧ j + 1 ≤ e.l_motif ∧
    (motif_log_rev lm e k).has_cell (4 - i - 1) (e.l_motif - j - 1)

instance (lm : Libm R) (e : EMSequenceEngine R) (k : Nat) :
    Decidable (motif_log_in_range lm e k) := by
  unfold motif_log_in_range
  infer_instance

/-- The element accesses of `compute_likelihood()` are in range.  For every class `k`: the
element `_motifs[k]` exists; the first loops stay in range; and for every sequence and shift the
function writes `_likelihood(i,k,s,FORWARD)` from a call of `dna::score_sequence` and, with two
flip states, `_likelihood(i,k,s,REVERSE)` from another. -/
def compute_likelihood_in_range (lm : Libm R) (e : EMSequenceEngine R) : Prop :=
  ∀ k < e.n_class,
    k < e.motifs.length ∧ motif_log_in_range lm e k ∧
    (∀ i < e.n_seq, ∀ s < e.n_shift,
      e.likelihood.has_cell i k s FORWARD ∧
      dna.score_sequence_in_range e.sequences i s (motif_log lm e k) ∧
      (e.n_flip = 2 →
        e.likelihood.has_cell i k s REVERSE ∧
        dna.score_sequence_in_range e.sequences i s (motif_log_rev lm e k)))

/-- The element accesses of `compute_posterior_prob()` are in range: for every sequence, class,
shift and flip state it reads `_likelihood(i,k,s,f)` and `_class_prob(k,s,f)` and reads and
writes `_post_prob(i,k,s,f)`. -/
def compute_posterior_prob_in_range (e : EMSequenceEngine R) : Prop :=
  ∀ i < e.n_seq, ∀ k < e.n_class, ∀ s < e.n_shift, ∀ f < e.n_flip,
    e.post_prob.has_cell i k s f ∧ e.likelihood.has_cell i k s f ∧
    e.class_prob.has_cell k s f

/-- The element accesses of `compute_class_prob()` are in range: for every class, shift and flip
state it reads `_post_prob(i,k,s,f)` for every sequence, reads and writes `_class_prob(k,s,f)`,
and reads and writes element `k` of `_class_prob_tot`, which it has just given `_n_class`
elements. -/
def compute_class_prob_in_range (e : EMSequenceEngine R) : Prop :=
  ∀ k < e.n_class, ∀ s < e.n_shift, ∀ f < e.n_flip,
    (∀ i < e.n_seq, e.post_prob.has_cell i k s f) ∧ e.class_prob.has_cell k s f ∧
    k < e.n_class

/-- The element accesses of the loop over the sequences in `compute_motifs()`, for class `k`,
shift `s` and column `j`, are in range: it reads `_sequences(i, s+j)` and
`_post_prob(i,k,s,FORWARD)` and increments the element of `base_prob`, of size four, at the hash
of the base, and with two flip states reads `_post_prob(i,k,s,REVERSE)` and increments the
element of `base_prob_rev`, of size four, at the hash of the complement. -/
def base_prob_in_range (e : EMSequenceEngine R) (k s j : Nat) : Prop :=
  ∀ i < e.n_seq,
    e.sequences.has_cell i (s + j) ∧
    dna.hash_val (e.sequences.elem i (s + j)) false < 4 ∧
    e.post_prob.has_cell i k s FORWARD ∧
    (e.n_flip = 2 →
      dna.hash_val (e.sequences.elem i (s + j)) true < 4 ∧
      e.post_prob.has_cell i k s REVERSE)

instance (e : EMSequenceEngine R) (k s j : Nat) : Decidable (base_prob_in_range e k s j) := by
  unfold base_prob_in_range
  infer_instance

/-- The element accesses of the loop over the bases in `compute_motifs()`, for class `k` and
column `j`, are in range: for `i < 4` it reads `base_prob[i]` and writes `_motifs[k](i,j)`, and
with two flip states reads `base_prob_rev[i]` and writes `_motifs[k](i, l_motif-j-1)`, an
unsigned subtraction that must not wrap around. -/
def motif_add_in_range (e : EMSequenceEngine R) (k j : Nat) : Prop :=
  ∀ i < 4,
    i < 4 ∧ (e.motif k).has_cell i j ∧
    (e.n_flip = 2 → j + 1 ≤ e.l_motif ∧ (e.motif k).has_cell i (e.l_motif - j - 1))

instance (e : EMSequenceEngine R) (k j : Nat) : Decidable (motif_add_in_range e k j) := by
  unfold motif_add_in_range
  infer_instance

/-- The element accesses of `compute_motifs()` are in range.  For every class `k` but a
background class: the element `_motifs[k]` exists; the reset and the normalisation read and
write `_motifs[k](i,j)` for `i < 4` and `j < l_motif`; and for every shift `s` and column `j`
the loop over the sequences and the loop over the bases stay in range. -/
def compute_motifs_in_range (e : EMSequenceEngine R) : Prop :=
  ∀ k < e.n_trained,
    k < e.motifs.length ∧
    (∀ i < 4, ∀ j < e.l_motif, (e.motif k).has_cell i j) ∧
    (∀ s < e.n_shift, ∀ j < e.l_motif,
      base_prob_in_range e k s j ∧ motif_add_in_range e k j)

/-- The shapes an engine has once it is constructed: the sequence matrix has `n_seq` rows and
`l_seq` columns, `1 ≤ l_motif ≤ l_seq`, `n_shift = l_seq - l_motif + 1`, one or two flip states,
as many motifs as classes, each with at least four rows and with `l_motif` columns, and the
likelihood, the posterior and the class probabilities have the dimensions of the engine. -/
def Shapes (e : EMSequenceEngine R) : Prop :=
  e.sequences.nrow = e.n_seq ∧ e.sequences.ncol = e.l_seq ∧
  1 ≤ e.l_motif ∧ e.l_motif ≤ e.l_seq ∧ e.n_shift = e.l_seq - e.l_motif + 1 ∧
  (e.n_flip = 1 ∨ e.n_flip = 2) ∧
  e.motifs.length = e.n_class ∧
  (∀ k < e.n_class, 4 ≤ (e.motif k).nrow ∧ (e.motif k).ncol = e.l_motif) ∧
  (e.likelihood.dim1 = e.n_seq ∧ e.likelihood.dim2 = e.n_class ∧
    e.likelihood.dim3 = e.n_shift ∧ e.likelihood.dim4 = e.n_flip) ∧
  (e.post_prob.dim1 = e.n_seq ∧ e.post_prob.dim2 = e.n_class ∧
    e.post_prob.dim3 = e.n_shift ∧ e.post_prob.dim4 = e.n_flip) ∧
  (e.class_prob.dim1 = e.n_class ∧ e.class_prob.dim2 = e.n_shift ∧
    e.class_prob.dim3 = e.n_flip)

instance (lm : Libm R) (e : EMSequenceEngine R) :
    Decidable (compute_likelihood_in_range lm e) := by
  unfold compute_likelihood_in_range
  infer_instance

instance (e : EMSequenceEngine R) : Decidable (compute_posterior_prob_in_range e) := by
  unfold compute_posterior_prob_in_range
  infer_instance

instance (e : EMSequenceEngine R) : Decidable (compute_class_prob_in_range e) := by
  unfold compute_class_prob_in_range
  infer_instance

instance (e : EMSequenceEngine R) : Decidable (compute_motifs_in_range e) := by
  unfold compute_motifs_in_range
  infer_instance

instance (e : EMSequenceEngine R) : Decidable (Shapes e) := by
  unfold Shapes
  infer_instance

end EMSequenceEngine

end EMSeq

/-! # Lemmas

Auxiliary facts on sums, lists and the library functions, then one lemma for each method of
the engine: under the invariant the method succeeds and its result has the stated properties. -/

namespace EMSeq

section Auxiliary

variable {R : Type} [LinearOrderedField R]

theorem dexp_coe (lm : Libm R) (x : R) : dexp lm (x : WithBot R) = lm.exp x := rfl

theorem dlog_of_ne_zero (lm : Libm R) {x : R} (h : x ≠ 0) :
    dlog lm x = ((lm.log x : R) : WithBot R) := by
  simp [dlog, h]

/-- A window none of whose scored cells is zero has a positive likelihood. -/
theorem dexp_sum_dlog_pos (lm : Libm R) (hlm : lm.Sound) (n : Nat) (x : Nat → R)
    (h : ∀ j ∈ range n, x j ≠ 0) : 0 < dexp lm (∑ j ∈ range n, dlog lm (x j)) := by
  have h1 : (∑ j ∈ range n, dlog lm (x j)) = ((∑ j ∈ range n, lm.log (x j) : R) : WithBot R) := by
    rw [WithBot.coe_sum]
    exact Finset.sum_congr rfl fun j hj => dlog_of_ne_zero lm (h j hj)
  rw [h1, dexp_coe]
  exact hlm.exp_pos _

theorem hash_val_lt (b : Char) (r : Bool) : dna.hash_val b r < 4 := by
  unfold dna.hash_val dna.hash dna.hash_map_rev dna.hash_map
  cases r <;> simp <;> split_ifs <;> simp

/-- A triple sum over non-empty ranges of positive numbers is positive. -/
theorem sum3_pos {K S F : Nat} (hK : 0 < K) (hS : 0 < S) (hF : 0 < F) (g : Nat → Nat → Nat → R)
    (h : ∀ k < K, ∀ s < S, ∀ f < F, 0 < g k s f) :
    0 < ∑ k ∈ range K, ∑ s ∈ range S, ∑ f ∈ range F, g k s f := by
  refine Finset.sum_pos (fun k hk => ?_) (nonempty_range_iff.mpr hK.ne')
  refine Finset.sum_pos (fun s hs => ?_) (nonempty_range_iff.mpr hS.ne')
  refine Finset.sum_pos (fun f hf => ?_) (nonempty_range_iff.mpr hF.ne')
  exact h k (mem_range.mp hk) s (mem_range.mp hs) f (mem_range.mp hf)

theorem sum2_pos {S F : Nat} (hS : 0 < S) (hF : 0 < F) (g : Nat → Nat → R)
    (h : ∀ s < S, ∀ f < F, 0 < g s f) :
    0 < ∑ s ∈ range S, ∑ f ∈ range F, g s f := by
  refine Finset.sum_pos (fun s hs => ?_) (nonempty_range_iff.mpr hS.ne')
  refine Finset.sum_pos (fun f hf => ?_) (nonempty_range_iff.mpr hF.ne')
  exact h s (mem_range.mp hs) f (mem_range.mp hf)

/-- Dividing every term of a triple sum by the sum gives a triple sum equal to one. -/
theorem sum3_div_self {K S F : Nat} (g : Nat → Nat → Nat → R)
    (h : (∑ k ∈ range K, ∑ s ∈ range S, ∑ f ∈ range F, g k s f) ≠ 0) :
    (∑ k ∈ range K, ∑ s ∈ range S, ∑ f ∈ range F,
      g k s f / (∑ k ∈ range K, ∑ s ∈ range S, ∑ f ∈ range F, g k s f)) = 1 := by
  simp only [← Finset.sum_div]
  exact div_self h

/-- Reading position `k` of a list transformed by `mapIdx`. -/
theorem getD_mapIdx {α : Type} (f : Nat → α → α) (l : List α) (k : Nat) (d : α) :
    (l.mapIdx f).getD k d = if k < l.length then f k (l.getD k d) else d := by
  rw [List.getD_eq_getElem?_getD, List.getD_eq_getElem?_getD, List.getElem?_mapIdx]
  by_cases hk : k < l.length
  · rw [if_pos hk, List.getElem?_eq_getElem hk]
    rfl
  · rw [if_neg hk, List.getElem?_eq_none (by omega)]
    rfl

theorem getD_map_range {α : Type} (f : Nat → α) (n i : Nat) (d : α) (hi : i < n) :
    ((List.range n).map f).getD i d = f i := by
  rw [List.getD_eq_getElem?_getD, List.getElem?_map, List.getElem?_range hi]
  rfl

theorem sum_map_range (f : Nat → R) (n : Nat) :
    ((List.range n).map f).sum = ∑ i ∈ range n, f i := by
  induction n with
  | zero => simp
  | succ n ih => rw [List.range_succ, List.map_append, List.sum_append, ih, Finset.sum_range_succ]; simp

/-- `mean` returns the weighted sum when the lengths agree and the weights do not sum to zero. -/
theorem mean_ok (x p : List R) (hlen : x.length = p.length) (hp : p.sum ≠ 0) :
    mean x p = .ok (∑ i ∈ range x.length, x.getD i 0 * (p.getD i 0 / p.sum)) := by
  unfold mean
  rw [if_neg (not_not.mpr hlen), if_neg]
  push_neg
  intro _ _
  exact hp

/-- `sd_biased` returns the square root of the weighted variance when the lengths agree and the
weights do not sum to zero. -/
theorem sd_biased_ok (lm : Libm R) (x p : List R) (hlen : x.length = p.length)
    (hp : p.sum ≠ 0) :
    sd_biased lm x p = .ok (lm.sqrt (∑ i ∈ range x.length,
      (x.getD i 0 - ∑ i ∈ range x.length, x.getD i 0 * (p.getD i 0 / p.sum)) ^ 2 *
        (p.getD i 0 / p.sum))) := by
  have hg : ¬ ∃ _i ∈ range x.length, p.sum = 0 := by
    push_neg
    intro _ _
    exact hp
  unfold sd_biased
  rw [if_neg (not_not.mpr hlen), mean_ok x p hlen hp]
  simp only [bind, Except.bind]
  rw [if_neg hg]

/-- The weighted variance of at least two consecutive integers under positive weights is
positive. -/
theorem variance_pos (n : Nat) (hn : 2 ≤ n) (q : Nat → R) (m : R) (hq : ∀ i < n, 0 < q i) :
    0 < ∑ i ∈ range n, (((i : R) + 1) - m) ^ 2 * q i := by
  have hnn : ∀ i ∈ range n, 0 ≤ (((i : R) + 1) - m) ^ 2 * q i := fun i hi =>
    mul_nonneg (sq_nonneg _) (hq i (mem_range.mp hi)).le
  by_cases hm : m = 1
  · refine Finset.sum_pos' hnn ⟨1, mem_range.mpr (by omega), ?_⟩
    refine mul_pos ?_ (hq 1 (by omega))
    rw [hm]
    norm_num
  · refine Finset.sum_pos' hnn ⟨0, mem_range.mpr (by omega), ?_⟩
    refine mul_pos ?_ (hq 0 (by omega))
    have : ((0 : Nat) : R) + 1 - m ≠ 0 := by
      simp only [Nat.cast_zero, zero_add]
      intro h
      exact hm (by linarith)
    positivity

theorem dnorm_val_pos (lm : Libm R) (hlm : lm.Sound) (x m sd : R) (hsd : 0 < sd) :
    0 < dnorm_val lm x m sd := by
  unfold dnorm_val
  have h2 : 0 < lm.sqrt (2 * lm.pi) := hlm.sqrt_pos _ (mul_pos (by norm_num) hlm.pi_pos)
  exact mul_pos (div_pos one_pos (mul_pos hsd h2)) (hlm.exp_pos _)

/-- Spreading a total `T` over shifts and flips in proportion to weights `g` keeps the total. -/
theorem centered_marginal (S F : Nat) (T : R) (g : Nat → R) (n : Nat) (hn : n = S)
    (hden : (F : R) * ∑ i ∈ range n, g i ≠ 0) :
    (∑ s ∈ range S, ∑ _f ∈ range F, T * g s / ((F : R) * ∑ i ∈ range n, g i)) = T := by
  subst hn
  simp only [Finset.sum_const, card_range, nsmul_eq_mul]
  rw [← Finset.mul_sum, ← Finset.sum_div, ← Finset.mul_sum]
  field_simp
  ring

/-- On a non-empty matrix of valid bases `base_composition` returns the counts of the bases
divided by the number of positions counted. -/
theorem base_composition_ok (sequences : Matrix2D Char) (both_strands : Bool)
    (hrow : 0 < sequences.nrow) (hcol : 0 < sequences.ncol)
    (hvalid : ∀ i < sequences.nrow, ∀ j < sequences.ncol,
      dna.hash_map (sequences.elem i j) ≠ none) :
    dna.base_composition (R := R) sequences both_strands = .ok (fun r =>
      (∑ i ∈ range sequences.nrow, ∑ j ∈ range sequences.ncol,
        ((if dna.hash_val (sequences.elem i j) false = r then 1 else 0) +
          (if both_strands ∧ 4 - dna.hash_val (sequences.elem i j) false - 1 = r then 1
            else 0))) /
      ∑ _i ∈ range sequences.nrow, ∑ _j ∈ range sequences.ncol,
        (1 + if both_strands then 1 else 0)) := by
  have hg : ¬ ∃ i ∈ range sequences.nrow, ∃ j ∈ range sequences.ncol,
      dna.hash_map (sequences.elem i j) = none := by
    push_neg
    intro i hi j hj
    exact hvalid i (mem_range.mp hi) j (mem_range.mp hj)
  have hone : (0 : R) < 1 + if both_strands = true then 1 else 0 := by
    split_ifs <;> norm_num
  have htot : (0 : R) < ∑ _i ∈ range sequences.nrow, ∑ _j ∈ range sequences.ncol,
      (1 + if both_strands = true then 1 else 0) :=
    Finset.sum_pos (fun _ _ => Finset.sum_pos (fun _ _ => hone)
      (nonempty_range_iff.mpr hcol.ne')) (nonempty_range_iff.mpr hrow.ne')
  unfold dna.base_composition
  rw [if_neg hg]
  simp only
  rw [if_neg htot.ne']

/-- On a non-empty matrix of valid bases `base_composition` succeeds, and the frequency of every
base that occurs is positive, as is that of its complement when both strands are counted. -/
theorem base_composition_pos (sequences : Matrix2D Char) (both_strands : Bool)
    (hrow : 0 < sequences.nrow) (hcol : 0 < sequences.ncol)
    (hvalid : ∀ i < sequences.nrow, ∀ j < sequences.ncol,
      dna.hash_map (sequences.elem i j) ≠ none) :
    ∃ b : Nat → R, dna.base_composition sequences both_strands = .ok b ∧
      ∀ i < sequences.nrow, ∀ j < sequences.ncol,
        0 < b (dna.hash_val (sequences.elem i j) false) ∧
        (both_strands = true → 0 < b (4 - dna.hash_val (sequences.elem i j) false - 1)) := by
  have hg : ¬ ∃ i ∈ range sequences.nrow, ∃ j ∈ range sequences.ncol,
      dna.hash_map (sequences.elem i j) = none := by
    push_neg
    intro i hi j hj
    exact hvalid i (mem_range.mp hi) j (mem_range.mp hj)
  have hone : (0 : R) < 1 + if both_strands = true then 1 else 0 := by
    split_ifs <;> norm_num
  have htot : (0 : R) < ∑ _i ∈ range sequences.nrow, ∑ _j ∈ range sequences.ncol,
      (1 + if both_strands = true then 1 else 0) :=
    Finset.sum_pos (fun _ _ => Finset.sum_pos (fun _ _ => hone)
      (nonempty_range_iff.mpr hcol.ne')) (nonempty_range_iff.mpr hrow.ne')
  have hterm : ∀ (r i j : Nat), (0 : R) ≤
      (if dna.hash_val (sequences.elem i j) false = r then 1 else 0) +
        (if both_strands = true ∧ 4 - dna.hash_val (sequences.elem i j) false - 1 = r then 1
          else 0) := by
    intro r i j
    split_ifs <;> norm_num
  have hcount : ∀ r i j, i < sequences.nrow → j < sequences.ncol →
      (0 : R) < (if dna.hash_val (sequences.elem i j) false = r then 1 else 0) +
        (if both_strands = true ∧ 4 - dna.hash_val (sequences.elem i j) false - 1 = r then 1
          else 0) →
      (0 : R) < ∑ i ∈ range sequences.nrow, ∑ j ∈ range sequences.ncol,
        ((if dna.hash_val (sequences.elem i j) false = r then 1 else 0) +
          (if both_strands = true ∧ 4 - dna.hash_val (sequences.elem i j) false - 1 = r then 1
            else 0)) := by
    intro r i j hi hj hpos
    refine Finset.sum_pos' (fun i _ => Finset.sum_nonneg fun j _ => hterm r i j)
      ⟨i, mem_range.mpr hi, ?_⟩
    exact Finset.sum_pos' (fun j _ => hterm r i j) ⟨j, mem_range.mpr hj, hpos⟩
  refine ⟨_, by unfold dna.base_composition; rw [if_neg hg]; simp only; rw [if_neg htot.ne'],
    ?_⟩
  intro i hi j hj
  constructor
  · refine div_pos (hcount _ i j hi hj ?_) htot
    rw [if_pos rfl]
    split_ifs <;> norm_num
  · intro hb
    refine div_pos (hcount _ i j hi hj ?_) htot
    have h1 : (if both_strands = true ∧ 4 - dna.hash_val (sequences.elem i j) false - 1 =
        4 - dna.hash_val (sequences.elem i j) false - 1 then (1 : R) else 0) = 1 :=
      if_pos ⟨hb, rfl⟩
    rw [h1]
    split_ifs <;> norm_num

theorem getD_append_left {α : Type} (l1 l2 : List α) (k : Nat) (d : α) (hk : k < l1.length) :
    (l1 ++ l2).getD k d = l1.getD k d := by
  rw [List.getD_eq_getElem?_getD, List.getD_eq_getElem?_getD, List.getElem?_append_left hk]

theorem getD_append_singleton {α : Type} (l1 : List α) (a d : α) :
    (l1 ++ [a]).getD l1.length d = a := by
  rw [List.getD_eq_getElem?_getD, List.getElem?_append_right (le_refl _)]
  simp

theorem getD_replicate {α : Type} (n k : Nat) (a d : α) (hk : k < n) :
    (List.replicate n a).getD k d = a := by
  rw [List.getD_eq_getElem?_getD, List.getElem?_replicate]
  simp [hk]

/-- A guarded computation that returns has passed its guard. -/
theorem ite_error_eq_ok {α : Type} {g : Prop} [Decidable g] {a : Except Err α} {x : α}
    {err : Err} (h : (if g then .error err else a) = .ok x) : a = .ok x := by
  split_ifs at h
  exact h

/-- A guarded computation that returns has passed its guard, which did not hold. -/
theorem ite_error_eq_ok_guard {α : Type} {g : Prop} [Decidable g] {a : Except Err α} {x : α}
    {err : Err} (h : (if g then .error err else a) = .ok x) : ¬ g ∧ a = .ok x := by
  split_ifs at h with hg
  exact ⟨hg, h⟩

theorem dexp_nonneg (lm : Libm R) (hlm : lm.Sound) (x : WithBot R) : 0 ≤ dexp lm x := by
  cases x with
  | bot => exact le_rfl
  | coe a => exact (hlm.exp_pos a).le

/-- A triple sum of numbers that are not negative, one of which is positive, is positive. -/
theorem sum3_pos_of_nonneg {K S F : Nat} (g : Nat → Nat → Nat → R)
    (h : ∀ k < K, ∀ s < S, ∀ f < F, 0 ≤ g k s f) {k s f : Nat} (hk : k < K) (hs : s < S)
    (hf : f < F) (hpos : 0 < g k s f) :
    0 < ∑ k ∈ range K, ∑ s ∈ range S, ∑ f ∈ range F, g k s f := by
  refine Finset.sum_pos' (fun k hk => Finset.sum_nonneg fun s hs => Finset.sum_nonneg fun f hf =>
    h k (mem_range.mp hk) s (mem_range.mp hs) f (mem_range.mp hf)) ⟨k, mem_range.mpr hk, ?_⟩
  refine Finset.sum_pos' (fun s hs => Finset.sum_nonneg fun f hf =>
    h k hk s (mem_range.mp hs) f (mem_range.mp hf)) ⟨s, mem_range.mpr hs, ?_⟩
  exact Finset.sum_pos' (fun f hf => h k hk s hs f (mem_range.mp hf)) ⟨f, mem_range.mpr hf, hpos⟩

/-- The bases the table of `dna::hash` holds are the characters "ACGTacgt". -/
theorem hash_map_eq_none_iff (base : Char) :
    dna.hash_map base = none ↔ base ∉ dna.get_valid_dna_char := by
  simp only [dna.hash_map, dna.get_valid_dna_char, List.mem_cons, List.mem_singleton,
    List.not_mem_nil, or_false]
  split_ifs <;> simp <;> tauto

theorem hash_map_rev_eq_none_iff (base : Char) :
    dna.hash_map_rev base = none ↔ base ∉ dna.get_valid_dna_char := by
  simp only [dna.hash_map_rev, dna.hash_map, dna.get_valid_dna_char, List.mem_cons,
    List.mem_singleton, List.not_mem_nil, or_false]
  split_ifs <;> simp <;> tauto

/-- C15: `dna::hash(c, rev)` throws `std::invalid_argument` exactly when `c` is not one of
"ACGTacgt", and throws nothing else; for a valid `c`, `dna::hash(c, false)` is `0` for `A` and
`a`, `1` for `C` and `c`, `2` for `G` and `g`, `3` for `T` and `t`, and `dna::hash(c, true)` is
`3 - dna::hash(c, false)`. -/
theorem hash_table (c : Char) (rev : Bool) :
    (dna.hash c rev = .error .invalid_argument ↔ c ∉ dna.get_valid_dna_char) ∧
    (∀ err, dna.hash c rev = .error err → err = .invalid_argument) ∧
    (c = 'A' ∨ c = 'a' → dna.hash c false = .ok 0) ∧
    (c = 'C' ∨ c = 'c' → dna.hash c false = .ok 1) ∧
    (c = 'G' ∨ c = 'g' → dna.hash c false = .ok 2) ∧
    (c = 'T' ∨ c = 't' → dna.hash c false = .ok 3) ∧
    (c ∈ dna.get_valid_dna_char →
      ∃ h, h < 4 ∧ dna.hash c false = .ok h ∧ dna.hash c true = .ok (3 - h)) := by
  refine ⟨?_, ?_, ?_, ?_, ?_, ?_, ?_⟩
  · cases rev
    · rw [← hash_map_eq_none_iff]
      simp only [dna.hash, Bool.false_eq_true, if_false]
      cases dna.hash_map c <;> simp
    · rw [← hash_map_rev_eq_none_iff]
      simp only [dna.hash, if_true]
      cases dna.hash_map_rev c <;> simp
  · intro err h
    simp only [dna.hash] at h
    split at h
    · exact absurd h (by simp)
    · exact (Except.error.inj h).symm
  · rintro (h | h) <;> rw [h] <;> rfl
  · rintro (h | h) <;> rw [h] <;> rfl
  · rintro (h | h) <;> rw [h] <;> rfl
  · rintro (h | h) <;> rw [h] <;> rfl
  · intro h
    simp only [dna.get_valid_dna_char, List.mem_cons, List.mem_singleton, List.not_mem_nil,
      or_false] at h
    rcases h with h | h | h | h | h | h | h | h <;> rw [h]
    · exact ⟨0, by omega, rfl, rfl⟩
    · exact ⟨1, by omega, rfl, rfl⟩
    · exact ⟨2, by omega, rfl, rfl⟩
    · exact ⟨3, by omega, rfl, rfl⟩
    · exact ⟨0, by omega, rfl, rfl⟩
    · exact ⟨1, by omega, rfl, rfl⟩
    · exact ⟨2, by omega, rfl, rfl⟩
    · exact ⟨3, by omega, rfl, rfl⟩

/-- C16: `dna::complement(c)` throws `std::invalid_argument` exactly when `c` is not one of
"ACGTacgt", and throws nothing else; for a valid `c` it returns the complementary base in the
same letter case, the hash of which is `dna::hash(c, true)`, and the complement of which is
`c`. -/
theorem complement_table (c : Char) :
    (dna.complement c = .error .invalid_argument ↔ c ∉ dna.get_valid_dna_char) ∧
    (∀ err, dna.complement c = .error err → err = .invalid_argument) ∧
    dna.complement 'A' = .ok 'T' ∧ dna.complement 'T' = .ok 'A' ∧
    dna.complement 'C' = .ok 'G' ∧ dna.complement 'G' = .ok 'C' ∧
    dna.complement 'a' = .ok 't' ∧ dna.complement 't' = .ok 'a' ∧
    dna.complement 'c' = .ok 'g' ∧ dna.complement 'g' = .ok 'c' ∧
    (c ∈ dna.get_valid_dna_char →
      ∃ d, dna.complement c = .ok d ∧ dna.hash d false = dna.hash c true ∧
        dna.complement d = .ok c ∧ (d.isUpper = c.isUpper)) := by
  refine ⟨?_, ?_, rfl, rfl, rfl, rfl, rfl, rfl, rfl, rfl, ?_⟩
  · simp only [dna.complement, dna.compl_map, dna.get_valid_dna_char, List.mem_cons,
      List.mem_singleton, List.not_mem_nil, or_false]
    split_ifs <;> simp_all
  · intro err h
    simp only [dna.complement] at h
    split at h
    · exact absurd h (by simp)
    · exact (Except.error.inj h).symm
  · intro h
    simp only [dna.get_valid_dna_char, List.mem_cons, List.mem_singleton, List.not_mem_nil,
      or_false] at h
    rcases h with h | h | h | h | h | h | h | h <;> rw [h]
    · exact ⟨'T', rfl, rfl, rfl, rfl⟩
    · exact ⟨'G', rfl, rfl, rfl, rfl⟩
    · exact ⟨'C', rfl, rfl, rfl, rfl⟩
    · exact ⟨'A', rfl, rfl, rfl, rfl⟩
    · exact ⟨'t', rfl, rfl, rfl, rfl⟩
    · exact ⟨'g', rfl, rfl, rfl, rfl⟩
    · exact ⟨'c', rfl, rfl, rfl, rfl⟩
    · exact ⟨'a', rfl, rfl, rfl, rfl⟩



/-- Reading a scaled list: cell `i` of `p.map (c * ·)` is `c` times cell `i` of `p`. -/
theorem getD_map_mul (c : R) (p : List R) (i : Nat) :
    (p.map fun w => c * w).getD i 0 = c * p.getD i 0 := by
  induction p generalizing i with
  | nil => simp
  | cons a p ih =>
    cases i with
    | zero => simp
    | succ i => simpa using ih i

/-- The sum of a scaled list. -/
theorem sum_map_mul (c : R) (p : List R) : (p.map fun w => c * w).sum = c * p.sum := by
  induction p with
  | nil => simp
  | cons a p ih => simp [ih, mul_add]

/-- C21: for equal-length vectors `x` and `p` whose weights do not sum to zero, `mean(x, p)`
returns the sum of `x[i] * (p[i] / sum p)`; the weights need not sum to one, and scaling every
weight by the same non-zero factor `c` leaves the mean unchanged. -/
theorem mean_weighted_sum (x p : List R) (hlen : x.length = p.length) (hp : p.sum ≠ 0) :
    mean x p = .ok (∑ i ∈ range x.length, x.getD i 0 * (p.getD i 0 / p.sum)) ∧
    ∀ c : R, c ≠ 0 → mean x (p.map fun w => c * w) = mean x p := by
  refine ⟨mean_ok x p hlen hp, fun c hc => ?_⟩
  have hs : (p.map fun w => c * w).sum ≠ 0 := by
    rw [sum_map_mul]
    exact mul_ne_zero hc hp
  rw [mean_ok x p hlen hp, mean_ok x _ (by simpa using hlen) hs]
  congr 1
  refine Finset.sum_congr rfl fun i _ => ?_
  rw [getD_map_mul, sum_map_mul, mul_div_mul_left _ _ hc]

/-- C21 at the vectors of the unit test: `x = (-2.5, 4.3, 5, -10, 33)` with the weights
`(1, 2, 3, 4, 5)`, which sum to fifteen, has mean `9.74`, also after doubling the weights. -/
theorem mean_weighted_sum_witness :
    mean [-5 / 2, 43 / 10, 5, -10, 33] [(1 : ℚ), 2, 3, 4, 5] = .ok (487 / 50) ∧
    mean [-5 / 2, 43 / 10, 5, -10, 33] ([(1 : ℚ), 2, 3, 4, 5].map fun w => 2 * w) =
      .ok (487 / 50) := by
  have h := mean_weighted_sum [-5 / 2, 43 / 10, 5, -10, 33] [(1 : ℚ), 2, 3, 4, 5] rfl
    (by norm_num)
  have hv : (∑ i ∈ range [(-5 / 2 : ℚ), 43 / 10, 5, -10, 33].length,
      [(-5 / 2 : ℚ), 43 / 10, 5, -10, 33].getD i 0 *
        ([(1 : ℚ), 2, 3, 4, 5].getD i 0 / [(1 : ℚ), 2, 3, 4, 5].sum)) = 487 / 50 := by
    simp [Finset.sum_range_succ]
    norm_num
  rw [hv] at h
  exact ⟨h.1, (h.2 2 (by norm_num)).trans h.1⟩

/-- The sum of a list is the sum of its cells. -/
theorem list_sum_eq_sum_getD (p : List R) : p.sum = ∑ i ∈ range p.length, p.getD i 0 := by
  induction p with
  | nil => simp
  | cons a p ih =>
    rw [List.sum_cons, List.length_cons, Finset.sum_range_succ', ih]
    simp [add_comm]

/-- The normalised weights sum to one. -/
theorem sum_p_norm (p : List R) (hp : p.sum ≠ 0) :
    ∑ i ∈ range p.length, p.getD i 0 / p.sum = 1 := by
  rw [← Finset.sum_div, ← list_sum_eq_sum_getD, div_self hp]

/-- `sd_unbiased` returns the square root of the weighted variance over `V1 - V2 / V1` when the
lengths agree, the weights do not sum to zero and the sum of the squared normalised weights is
not one. -/
theorem sd_unbiased_ok (lm : Libm R) (x p : List R) (hlen : x.length = p.length)
    (hp : p.sum ≠ 0) (hv : ∑ i ∈ range x.length, (p.getD i 0 / p.sum) ^ 2 ≠ 1) :
    sd_unbiased lm x p = .ok (lm.sqrt ((∑ i ∈ range x.length,
      (x.getD i 0 - ∑ i ∈ range x.length, x.getD i 0 * (p.getD i 0 / p.sum)) ^ 2 *
        (p.getD i 0 / p.sum)) /
      ((∑ i ∈ range x.length, p.getD i 0 / p.sum) -
        (∑ i ∈ range x.length, (p.getD i 0 / p.sum) ^ 2) /
          (∑ i ∈ range x.length, p.getD i 0 / p.sum)))) := by
  have h1 : ∑ i ∈ range x.length, p.getD i 0 / p.sum = 1 := by
    rw [hlen]
    exact sum_p_norm p hp
  have hg : ¬ ((∃ _i ∈ range x.length, p.sum = 0) ∨
      (∑ i ∈ range x.length, p.getD i 0 / p.sum) = 0 ∨
      (∑ i ∈ range x.length, p.getD i 0 / p.sum) -
        (∑ i ∈ range x.length, (p.getD i 0 / p.sum) ^ 2) /
          (∑ i ∈ range x.length, p.getD i 0 / p.sum) = 0) := by
    rw [h1, div_one]
    rintro (⟨_, _, h⟩ | h | h)
    · exact hp h
    · exact one_ne_zero h
    · exact hv (sub_eq_zero.mp h).symm
  unfold sd_unbiased
  rw [if_neg (not_not.mpr hlen), mean_ok x p hlen hp]
  simp only [bind, Except.bind]
  rw [if_neg hg]

/-- With non-negative normalised weights of which two are positive, the squared normalised
weights sum to less than one. -/
theorem sum_sq_p_norm_lt (n : Nat) (q : Nat → R) (hq : ∀ i < n, 0 ≤ q i)
    (h1 : ∑ i ∈ range n, q i = 1) (a b : Nat) (hab : a ≠ b) (ha : a < n) (hb : b < n)
    (hqa : 0 < q a) (hqb : 0 < q b) : ∑ i ∈ range n, q i ^ 2 < 1 := by
  have hle : ∀ i < n, q i ≤ 1 := by
    intro i hi
    rw [← h1]
    exact Finset.single_le_sum (f := q) (fun j hj => hq j (mem_range.mp hj))
      (mem_range.mpr hi)
  have hqa1 : q a < 1 := by
    have h2 : q a + q b ≤ ∑ i ∈ range n, q i := by
      have hsub : ({a, b} : Finset Nat) ⊆ range n := by
        intro i hi
        simp only [mem_insert, mem_singleton] at hi
        rcases hi with rfl | rfl <;> exact mem_range.mpr (by assumption)
      have := Finset.sum_le_sum_of_subset_of_nonneg (f := q) hsub
        (fun i hi _ => hq i (mem_range.mp hi))
      rwa [Finset.sum_pair hab] at this
    rw [h1] at h2
    linarith
  rw [← h1]
  refine Finset.sum_lt_sum (fun i hi => ?_) ⟨a, mem_range.mpr ha, ?_⟩
  · have h0 := hq i (mem_range.mp hi)
    have h1 := hle i (mem_range.mp hi)
    nlinarith
  · nlinarith

/-- C22, amended: for equal-length vectors `x` and `p` whose weights do not sum to zero and whose
normalised weights `q = p / sum p` are non-negative, with `m = mean(x, p)`: the square of
`sd(x, p, false)` is the sum of `(x[i] - m)^2 * q[i]`; when two of the normalised weights are
positive, `sd(x, p, true)`, which is what the two-argument call `sd(x, p)` evaluates, returns a
value whose square is that sum over `V1 - V2 / V1`; and for at least two equal weights it returns
the sample standard deviation, the square root of the sum of `(x[i] - m)^2` over `n - 1`. -/
theorem sd_squared (x p : List ℝ) (hlen : x.length = p.length) (hp : p.sum ≠ 0)
    (hq : ∀ i < x.length, 0 ≤ p.getD i 0 / p.sum) :
    ∃ m, mean x p = .ok m ∧
      (∃ s, sd ⟨Real.log, Real.exp, Real.sqrt, Real.pi⟩ x p false = .ok s ∧
        s ^ 2 = ∑ i ∈ range x.length, (x.getD i 0 - m) ^ 2 * (p.getD i 0 / p.sum)) ∧
      ((∃ a < x.length, ∃ b < x.length, a ≠ b ∧ 0 < p.getD a 0 / p.sum ∧
          0 < p.getD b 0 / p.sum) →
        ∃ s, sd ⟨Real.log, Real.exp, Real.sqrt, Real.pi⟩ x p true = .ok s ∧
          s ^ 2 = (∑ i ∈ range x.length, (x.getD i 0 - m) ^ 2 * (p.getD i 0 / p.sum)) /
            ((∑ i ∈ range x.length, p.getD i 0 / p.sum) -
              (∑ i ∈ range x.length, (p.getD i 0 / p.sum) ^ 2) /
                (∑ i ∈ range x.length, p.getD i 0 / p.sum))) ∧
      (2 ≤ x.length → (∀ i < x.length, p.getD i 0 = p.getD 0 0) →
        sd ⟨Real.log, Real.exp, Real.sqrt, Real.pi⟩ x p true =
          .ok (Real.sqrt ((∑ i ∈ range x.length, (x.getD i 0 - m) ^ 2) /
            ((x.length : ℝ) - 1)))) := by
  have h1 : ∑ i ∈ range x.length, p.getD i 0 / p.sum = 1 := by
    rw [hlen]
    exact sum_p_norm p hp
  have hA : 0 ≤ ∑ i ∈ range x.length,
      (x.getD i 0 - ∑ i ∈ range x.length, x.getD i 0 * (p.getD i 0 / p.sum)) ^ 2 *
        (p.getD i 0 / p.sum) :=
    Finset.sum_nonneg fun i hi => mul_nonneg (sq_nonneg _) (hq i (mem_range.mp hi))
  refine ⟨_, mean_ok x p hlen hp, ⟨_, ?_, Real.sq_sqrt hA⟩, ?_, ?_⟩
  · simp only [sd, Bool.false_eq_true, if_false]
    exact sd_biased_ok _ x p hlen hp
  · rintro ⟨a, ha, b, hb, hab, hqa, hqb⟩
    have hv := sum_sq_p_norm_lt x.length (fun i => p.getD i 0 / p.sum) hq h1 a b hab ha hb
      hqa hqb
    refine ⟨_, ?_, Real.sq_sqrt ?_⟩
    · simp only [sd, if_true]
      exact sd_unbiased_ok _ x p hlen hp (ne_of_lt hv)
    · refine div_nonneg hA ?_
      rw [h1, div_one]
      exact le_of_lt (sub_pos.mpr hv)
  · intro hn heq
    have hsum : p.sum = (x.length : ℝ) * p.getD 0 0 := by
      rw [list_sum_eq_sum_getD, ← hlen, Finset.sum_congr rfl fun i hi => heq i (mem_range.mp hi)]
      simp
    have hn0 : (x.length : ℝ) ≠ 0 := by
      have : (0 : ℝ) < x.length := by exact_mod_cast (by omega : 0 < x.length)
      exact ne_of_gt this
    have hn1 : (x.length : ℝ) - 1 ≠ 0 := by
      have : (2 : ℝ) ≤ x.length := by exact_mod_cast hn
      intro h
      linarith
    have hp0 : p.getD 0 0 ≠ 0 := by
      intro h
      rw [h, mul_zero] at hsum
      exact hp hsum
    have hqi : ∀ i < x.length, p.getD i 0 / p.sum = 1 / (x.length : ℝ) := by
      intro i hi
      rw [heq i hi, hsum]
      generalize p.getD 0 0 = c at hp0 ⊢
      field_simp
      ring
    have hv2 : ∑ i ∈ range x.length, (p.getD i 0 / p.sum) ^ 2 = 1 / (x.length : ℝ) := by
      rw [Finset.sum_congr rfl fun i hi => by rw [hqi i (mem_range.mp hi)]]
      simp only [sum_const, card_range, nsmul_eq_mul]
      field_simp
      ring
    have hv : ∑ i ∈ range x.length, (p.getD i 0 / p.sum) ^ 2 ≠ 1 := by
      rw [hv2]
      intro h
      rw [div_eq_iff hn0, one_mul] at h
      exact hn1 (by rw [← h]; ring)
    simp only [sd, if_true]
    rw [sd_unbiased_ok _ x p hlen hp hv, h1, hv2, div_one]
    congr 2
    rw [Finset.sum_congr rfl fun i hi => by rw [hqi i (mem_range.mp hi)], ← Finset.sum_mul]
    field_simp

/-- C22 at the vectors of the unit test: the five values `(-2.5, 4.3, 5, -10, 33)` with the weight
`0.2` each have mean `5.96` and `sd(x, p, true)` is the square root of `1061.132 / 4 = 265.283`,
which is `16.28751`. -/
theorem sd_squared_witness :
    mean [-5 / 2, 43 / 10, 5, -10, 33] [(1 / 5 : ℝ), 1 / 5, 1 / 5, 1 / 5, 1 / 5] =
      .ok (149 / 25) ∧
    sd ⟨Real.log, Real.exp, Real.sqrt, Real.pi⟩ [-5 / 2, 43 / 10, 5, -10, 33]
      [(1 / 5 : ℝ), 1 / 5, 1 / 5, 1 / 5, 1 / 5] true = .ok (Real.sqrt (265283 / 1000)) := by
  have hq : ∀ i < [(-5 / 2 : ℝ), 43 / 10, 5, -10, 33].length,
      0 ≤ [(1 / 5 : ℝ), 1 / 5, 1 / 5, 1 / 5, 1 / 5].getD i 0 /
        [(1 / 5 : ℝ), 1 / 5, 1 / 5, 1 / 5, 1 / 5].sum := by
    intro i hi
    simp only [List.length_cons, List.length_nil] at hi
    interval_cases i <;> norm_num
  obtain ⟨m, hm, -, -, h3⟩ := sd_squared [-5 / 2, 43 / 10, 5, -10, 33]
    [(1 / 5 : ℝ), 1 / 5, 1 / 5, 1 / 5, 1 / 5] rfl (by norm_num) hq
  have hm2 : mean [-5 / 2, 43 / 10, 5, -10, 33] [(1 / 5 : ℝ), 1 / 5, 1 / 5, 1 / 5, 1 / 5] =
      .ok (149 / 25) := by
    rw [mean_ok [-5 / 2, 43 / 10, 5, -10, 33] [(1 / 5 : ℝ), 1 / 5, 1 / 5, 1 / 5, 1 / 5] rfl
      (by norm_num)]
    simp [Finset.sum_range_succ]
    norm_num
  have hmv : m = 149 / 25 := by
    rw [hm2] at hm
    exact (Except.ok.inj hm).symm
  subst hmv
  refine ⟨hm2, ?_⟩
  rw [h3 (by simp) (by
    intro i hi
    simp only [List.length_cons, List.length_nil] at hi
    interval_cases i <;> rfl)]
  congr 2
  simp [Finset.sum_range_succ]
  norm_num

/-- C22 fails outside non-negative weights with two positive entries.  With `x = (0, 1)` and the
weights `(2, -1)`, which sum to one, the mean is `-1` and the weighted sum of squares is `-2`,
which is the square of no value, whatever `sqrt` returns.  With `x = (1, 2)` and the weights
`(1, 0)`, `V1 - V2 / V1` is zero and `sd(x, p, true)` divides zero by zero. -/
theorem sd_not_squared :
    ([(2 : ℝ), -1].sum ≠ 0 ∧ mean [0, 1] [(2 : ℝ), -1] = .ok (-1) ∧
      (∑ i ∈ range 2, ([(0 : ℝ), 1].getD i 0 - -1) ^ 2 *
        ([(2 : ℝ), -1].getD i 0 / [(2 : ℝ), -1].sum)) = -2 ∧
      ∀ lm : Libm ℝ, ¬ ∃ s, sd lm [0, 1] [(2 : ℝ), -1] false = .ok s ∧ s ^ 2 = -2) ∧
    ([(1 : ℝ), 0].sum ≠ 0 ∧
      ∀ lm : Libm ℝ, sd lm [1, 2] [(1 : ℝ), 0] true = .error .division_by_zero) := by
  refine ⟨⟨by norm_num, ?_, ?_, ?_⟩, by norm_num, ?_⟩
  · rw [mean_ok [0, 1] [(2 : ℝ), -1] rfl (by norm_num)]
    simp [Finset.sum_range_succ]
    norm_num
  · simp [Finset.sum_range_succ]
    norm_num
  · rintro lm ⟨s, -, hs⟩
    have := sq_nonneg s
    linarith
  · intro lm
    simp only [sd, if_true]
    unfold sd_unbiased
    rw [if_neg (by simp), mean_ok [1, 2] [(1 : ℝ), 0] rfl (by norm_num)]
    simp only [bind, Except.bind]
    rw [if_pos]
    refine Or.inr (Or.inr ?_)
    simp [Finset.sum_range_succ]

/-- The terms of the correlation only depend on the pairs read. -/
theorem cor_pearson_terms_congr (lm : Libm R) (n : Nat) (a b a2 b2 : Nat → R)
    (ha : ∀ t < n, a t = a2 t) (hb : ∀ t < n, b t = b2 t) :
    cor_pearson_terms lm n a b = cor_pearson_terms lm n a2 b2 := by
  unfold cor_pearson_terms
  have e1 : ∑ t ∈ range n, a t * b t = ∑ t ∈ range n, a2 t * b2 t :=
    Finset.sum_congr rfl fun t ht => by rw [ha t (mem_range.mp ht), hb t (mem_range.mp ht)]
  have e2 : ∑ t ∈ range n, a t = ∑ t ∈ range n, a2 t :=
    Finset.sum_congr rfl fun t ht => ha t (mem_range.mp ht)
  have e3 : ∑ t ∈ range n, b t = ∑ t ∈ range n, b2 t :=
    Finset.sum_congr rfl fun t ht => hb t (mem_range.mp ht)
  have e4 : ∑ t ∈ range n, a t ^ 2 = ∑ t ∈ range n, a2 t ^ 2 :=
    Finset.sum_congr rfl fun t ht => by rw [ha t (mem_range.mp ht)]
  have e5 : ∑ t ∈ range n, b t ^ 2 = ∑ t ∈ range n, b2 t ^ 2 :=
    Finset.sum_congr rfl fun t ht => by rw [hb t (mem_range.mp ht)]
  simp only [e1, e2, e3, e4, e5]

/-- The terms of the correlation are symmetric in the two series. -/
theorem cor_pearson_terms_comm (lm : Libm R) (n : Nat) (a b : Nat → R) :
    cor_pearson_terms lm n a b = cor_pearson_terms lm n b a := by
  unfold cor_pearson_terms
  have e1 : ∑ t ∈ range n, a t * b t = ∑ t ∈ range n, b t * a t :=
    Finset.sum_congr rfl fun t _ => mul_comm _ _
  simp only [e1, mul_comm (lm.sqrt (n * ∑ t ∈ range n, a t ^ 2 - (∑ t ∈ range n, a t) ^ 2)),
    mul_comm (∑ t ∈ range n, a t)]

/-- With default bounds, `cor_pearson` on two non-empty vectors, the second at least as long as
the first, pairs cell `t` of the first with cell `t` of the second. -/
theorem cor_pearson_default (lm : Libm R) (v1 v2 : List R) (h1 : 0 < v1.length)
    (h2 : v1.length ≤ v2.length) :
    cor_pearson lm v1 v2 (-1) (-1) (-1) (-1) =
      cor_pearson_terms lm v1.length (fun t => v1.getD t 0) (fun t => v2.getD t 0) := by
  unfold cor_pearson
  simp only [if_true]
  rw [if_neg, if_neg]
  · simp
  · simp only [mem_range, sub_zero, Int.toNat_ofNat, zero_add, Nat.cast_le, not_exists, not_and,
      not_le]
    intro t ht
    omega
  · simp only [not_not]
    refine ⟨le_refl _, ?_, le_refl _, le_refl _, ?_, le_refl _⟩ <;> omega

/-- With default bounds, `cor_pearson_rev` on a non-empty vector and a vector of at least two
cells that is at least as long pairs cell `t` of the first with cell `t` from the end of the
second. -/
theorem cor_pearson_rev_default (lm : Libm R) (v1 v2 : List R) (h1 : 0 < v1.length)
    (h2 : v1.length ≤ v2.length) (h3 : 2 ≤ v2.length) :
    cor_pearson_rev lm v1 v2 (-1) (-1) (-1) (-1) =
      cor_pearson_terms lm v1.length (fun t => v1.getD t 0)
        (fun t => v2.getD (v2.length - 1 - t) 0) := by
  unfold cor_pearson_rev
  simp only [if_true]
  rw [if_neg, if_neg]
  · simp only [sub_zero, Int.toNat_ofNat, zero_add]
    refine cor_pearson_terms_congr lm _ _ _ _ _ (fun t _ => rfl) fun t ht => ?_
    congr 1
    omega
  · simp only [mem_range, not_exists, not_and, not_lt, sub_zero, Int.toNat_ofNat]
    intro t ht
    omega
  · simp only [not_not]
    refine ⟨le_refl _, ?_, le_refl _, le_refl _, ?_, ?_⟩ <;> omega

/-- Cell `t` of a reversed list is cell `t` from the end of the list. -/
theorem getD_reverse (v : List R) (t : Nat) (ht : t < v.length) :
    v.reverse.getD t 0 = v.getD (v.length - 1 - t) 0 := by
  rw [List.getD_eq_getElem?_getD, List.getD_eq_getElem?_getD, List.getElem?_reverse ht]

/-- C23: for two vectors of the same length `n ≥ 2`, `cor_pearson_rev(v1, v2)` with default
bounds returns what `cor_pearson(v1, reverse(v2))` with default bounds returns, and
`cor_pearson(v1, v2)` returns what `cor_pearson(v2, v1)` returns. -/
theorem cor_pearson_rev_reverse (lm : Libm R) (v1 v2 : List R)
    (hlen : v1.length = v2.length) (hn : 2 ≤ v1.length) :
    cor_pearson_rev lm v1 v2 (-1) (-1) (-1) (-1) =
      cor_pearson lm v1 v2.reverse (-1) (-1) (-1) (-1) ∧
    cor_pearson lm v1 v2 (-1) (-1) (-1) (-1) = cor_pearson lm v2 v1 (-1) (-1) (-1) (-1) := by
  constructor
  · rw [cor_pearson_rev_default lm v1 v2 (by omega) (by omega) (by omega),
      cor_pearson_default lm v1 v2.reverse (by omega) (by simp; omega)]
    refine cor_pearson_terms_congr lm _ _ _ _ _ (fun t _ => rfl) fun t ht => ?_
    exact (getD_reverse v2 t (by omega)).symm
  · rw [cor_pearson_default lm v1 v2 (by omega) (by omega),
      cor_pearson_default lm v2 v1 (by omega) (by omega), hlen]
    exact cor_pearson_terms_comm lm _ _ _

/-- C23 at the vectors of the unit tests: `v1 = (0,0,1,2,3,0,0,1)` and `v2 = (1,2,3,0,0,0,0,1)`
have the correlation `-17 / 71 = -0.2394366`, in either order, and `cor_pearson_rev` returns it
on `v1` and the reverse of `v2`. -/
theorem cor_pearson_rev_reverse_witness :
    cor_pearson ⟨Real.log, Real.exp, Real.sqrt, Real.pi⟩ [0, 0, 1, 2, 3, 0, 0, 1]
      [1, 2, 3, 0, 0, 0, 0, 1] (-1) (-1) (-1) (-1) = .ok (-17 / 71) ∧
    cor_pearson ⟨Real.log, Real.exp, Real.sqrt, Real.pi⟩ [1, 2, 3, 0, 0, 0, 0, 1]
      [0, 0, 1, 2, 3, 0, 0, 1] (-1) (-1) (-1) (-1) = .ok (-17 / 71) ∧
    cor_pearson_rev ⟨Real.log, Real.exp, Real.sqrt, Real.pi⟩ [0, 0, 1, 2, 3, 0, 0, 1]
      [1, 0, 0, 0, 0, 3, 2, 1] (-1) (-1) (-1) (-1) = .ok (-17 / 71) := by
  have hv : cor_pearson ⟨Real.log, Real.exp, Real.sqrt, Real.pi⟩ [0, 0, 1, 2, 3, 0, 0, 1]
      [1, 2, 3, 0, 0, 0, 0, 1] (-1) (-1) (-1) (-1) = .ok (-17 / 71) := by
    rw [cor_pearson_default _ [0, 0, 1, 2, 3, 0, 0, 1] [1, 2, 3, 0, 0, 0, 0, 1] (by simp)
      (by simp)]
    have h71 : Real.sqrt 71 * Real.sqrt 71 = 71 := Real.mul_self_sqrt (by norm_num)
    simp only [cor_pearson_terms, List.length_cons, List.length_nil, Finset.sum_range_succ,
      Finset.sum_range_zero]
    norm_num [h71]
  have h1 := cor_pearson_rev_reverse ⟨Real.log, Real.exp, Real.sqrt, Real.pi⟩
    [0, 0, 1, 2, 3, 0, 0, 1] [1, 2, 3, 0, 0, 0, 0, 1] rfl (by simp)
  have h2 := cor_pearson_rev_reverse ⟨Real.log, Real.exp, Real.sqrt, Real.pi⟩
    [0, 0, 1, 2, 3, 0, 0, 1] [1, 0, 0, 0, 0, 3, 2, 1] rfl (by simp)
  refine ⟨hv, h1.2 ▸ hv, ?_⟩
  rw [h2.1]
  exact hv

/-- The options `set_options` returns on a command line it accepts: `flip` and `center_shift`
are both set from the presence of `--flip`, and the presence of `--centershift` is not read. -/
theorem set_options_of_ok {vm : Application.variables_map} {exit_code code : Int}
    {o : Application.options}
    (h : Application.set_options (some (.ok vm)) exit_code = .ok (o, code)) :
    o.flip = vm.flip ∧ o.center_shift = vm.flip := by
  unfold Application.set_options at h
  simp only at h
  have h2 := ite_error_eq_ok (ite_error_eq_ok (ite_error_eq_ok (ite_error_eq_ok
    (ite_error_eq_ok (ite_error_eq_ok h)))))
  have h3 := congrArg Prod.fst (Except.ok.inj h2)
  simp only at h3
  rw [← h3]
  cases vm.flip <;> exact ⟨rfl, rfl⟩

/-- C28 does not hold of the code: the command line `--data f --flip`, which `set_options`
accepts, leaves the option `center_shift` true although `--centershift` is absent; the command
line `--data f --centershift`, which it accepts too, leaves `center_shift` false although
`--centershift` is present; in both the option `flip` is the presence of `--flip`. -/
theorem set_options_center_shift_is_flip :
    (∃ o code, Application.set_options
        (some (.ok (Application.data_and_flags true false))) 0 = .ok (o, code) ∧
      o.flip = true ∧ o.center_shift = true) ∧
    (∃ o code, Application.set_options
        (some (.ok (Application.data_and_flags false true))) 0 = .ok (o, code) ∧
      o.flip = false ∧ o.center_shift = false) := by
  refine ⟨⟨_, _, rfl, rfl, rfl⟩, ⟨_, _, rfl, rfl, rfl⟩⟩

end Auxiliary

namespace EMSequenceEngine

theorem n_trained_le {R : Type} (e : EMSequenceEngine R) : e.n_trained ≤ e.n_class := by
  unfold n_trained
  omega

variable {R : Type} [LinearOrderedField R]

/-- The setup only reads some of the fields. -/
theorem setup_of_fields {e e2 : EMSequenceEngine R} (h : e.Setup)
    (h1 : e2.sequences = e.sequences) (h2 : e2.motifs = e.motifs) (h3 : e2.bg_prob = e.bg_prob)
    (h7 : e2.n_seq = e.n_seq) (h8 : e2.l_seq = e.l_seq)
    (h9 : e2.n_class = e.n_class) (h10 : e2.l_motif = e.l_motif) (h11 : e2.n_shift = e.n_shift)
    (h12 : e2.n_flip = e.n_flip) (h13 : e2.bg_class = e.bg_class) : e2.Setup := by
  obtain ⟨a1, a2, a3, a4, a5, a6, a7, a8, a9, a10, a11, a12, a13, a14, a15, a16, a17⟩ := e
  obtain ⟨b1, b2, b3, b4, b5, b6, b7, b8, b9, b10, b11, b12, b13, b14, b15, b16, b17⟩ := e2
  simp only at h1 h2 h3 h7 h8 h9 h10 h11 h12 h13
  subst h1 h2 h3 h7 h8 h9 h10 h11 h12 h13
  exact ⟨h.1, h.2, h.3, h.4, h.5, h.6, h.7, h.8, h.9, h.10, h.11, h.12⟩

/-- The invariant only reads some of the fields. -/
theorem inv_of_fields {e e2 : EMSequenceEngine R} (h : e.Inv)
    (h1 : e2.sequences = e.sequences) (h2 : e2.motifs = e.motifs) (h3 : e2.bg_prob = e.bg_prob)
    (h4 : e2.class_prob = e.class_prob) (h5 : e2.class_prob_tot = e.class_prob_tot)
    (h6 : e2.post_prob = e.post_prob) (h7 : e2.n_seq = e.n_seq) (h8 : e2.l_seq = e.l_seq)
    (h9 : e2.n_class = e.n_class) (h10 : e2.l_motif = e.l_motif) (h11 : e2.n_shift = e.n_shift)
    (h12 : e2.n_flip = e.n_flip) (h13 : e2.bg_class = e.bg_class) : e2.Inv := by
  have hs := setup_of_fields h.toSetup h1 h2 h3 h7 h8 h9 h10 h11 h12 h13
  obtain ⟨a1, a2, a3, a4, a5, a6, a7, a8, a9, a10, a11, a12, a13, a14, a15, a16, a17⟩ := e
  obtain ⟨b1, b2, b3, b4, b5, b6, b7, b8, b9, b10, b11, b12, b13, b14, b15, b16, b17⟩ := e2
  simp only at h1 h2 h3 h4 h5 h6 h7 h8 h9 h10 h11 h12 h13
  subst h1 h2 h3 h4 h5 h6 h7 h8 h9 h10 h11 h12 h13
  exact ⟨hs, h.2, h.3, h.4, h.5, h.6, h.7⟩

/-- Positions read by a window stay inside the sequence. -/
theorem Setup.pos_lt {e : EMSequenceEngine R} (h : e.Setup) {s j : Nat} (hs : s < e.n_shift)
    (hj : j < e.l_motif) : s + j < e.l_seq := by
  have := h.window
  omega

theorem Setup.n_class_pos {e : EMSequenceEngine R} (h : e.Setup) : 0 < e.n_class := by
  have := h.n_trained_pos
  unfold n_trained at this
  omega

/-- With the setup and positive trained motifs, every cell of a motif that scoring reads is a
non-zero number. -/
theorem Setup.scored_ne_zero {e : EMSequenceEngine R} (h : e.Setup)
    (hM : ∀ k < e.n_trained, ∀ r < 4, ∀ j < e.l_motif, 0 < (e.motif k).elem r j)
    {i k s j : Nat}
    (hi : i < e.n_seq) (hk : k < e.n_class) (hs : s < e.n_shift) (hj : j < e.l_motif) :
    (e.motif k).elem (dna.hash_val (e.sequences.elem i (s + j)) false) j ≠ 0 ∧
    (e.n_flip = 2 →
      (e.motif k).elem (4 - dna.hash_val (e.sequences.elem i (s + j)) false - 1)
        (e.l_motif - j - 1) ≠ 0) := by
  have hpos := h.pos_lt hs hj
  have hlt := hash_val_lt (e.sequences.elem i (s + j)) false
  by_cases hkt : k < e.n_trained
  · constructor
    · exact (hM k hkt _ hlt j hj).ne'
    · intro _
      exact (hM k hkt _ (by omega) _ (by omega)).ne'
  · have hbg : e.bg_class = true := by
      unfold n_trained at hkt
      by_contra hb
      simp [hb] at hkt
      omega
    have hk1 : k = e.n_class - 1 := by
      unfold n_trained at hkt
      simp [hbg] at hkt
      omega
    subst hk1
    obtain ⟨h1, h2⟩ := h.bg_used hbg i hi (s + j) hpos
    constructor
    · rw [h.bg_motif hbg _ hlt j hj]
      exact h1.ne'
    · intro hf
      rw [h.bg_motif hbg _ (by omega) _ (by omega)]
      exact (h2 hf).ne'

/-- `compute_likelihood` succeeds with the setup and positive trained motifs, and every
likelihood is positive. -/
theorem compute_likelihood_pos (lm : Libm R) (hlm : lm.Sound) {e : EMSequenceEngine R}
    (h : e.Setup)
    (hM : ∀ k < e.n_trained, ∀ r < 4, ∀ j < e.l_motif, 0 < (e.motif k).elem r j) :
    ∃ L : Matrix4D R, compute_likelihood lm e = .ok { e with likelihood := L } ∧
      ∀ i < e.n_seq, ∀ k < e.n_class, ∀ s < e.n_shift, ∀ f < e.n_flip, 0 < L.elem i k s f := by
  have hg : ¬ ∃ _k ∈ range e.n_class, ∃ i ∈ range e.n_seq, ∃ s ∈ range e.n_shift,
      ∃ j ∈ range e.l_motif, dna.hash_map (e.sequences.elem i (s + j)) = none := by
    push_neg
    intro _ _ i hi s hs j hj
    exact h.valid i (mem_range.mp hi) _ (h.pos_lt (mem_range.mp hs) (mem_range.mp hj))
  refine ⟨_, by unfold compute_likelihood; rw [if_neg hg], ?_⟩
  · intro i hi k hk s hs f hf
    have hfle := h.n_flip_le
    simp only [FORWARD, REVERSE]
    by_cases hf0 : f = 0
    · rw [if_pos hf0]
      unfold dna.score_sequence motif_log
      exact dexp_sum_dlog_pos lm hlm _ _ fun j hj =>
        (h.scored_ne_zero hM hi hk hs (mem_range.mp hj)).1
    · have hf1 : f = 1 := by omega
      have hn : e.n_flip = 2 := by omega
      rw [if_neg hf0, if_pos ⟨hn, hf1⟩]
      unfold dna.score_sequence motif_log_rev
      exact dexp_sum_dlog_pos lm hlm _ _ fun j hj =>
        (h.scored_ne_zero hM hi hk hs (mem_range.mp hj)).2 hn

/-- `compute_posterior_prob` on positive likelihoods and class probabilities: it succeeds, the
posterior is positive, and the posterior of each sequence sums to one. -/
theorem compute_posterior_prob_pos (c : Constants R) {e : EMSequenceEngine R}
    (hK : 0 < e.n_class) (hS : 0 < e.n_shift) (hF : 0 < e.n_flip)
    (hL : ∀ i < e.n_seq, ∀ k < e.n_class, ∀ s < e.n_shift, ∀ f < e.n_flip,
      0 < e.likelihood.elem i k s f)
    (hC : ∀ k < e.n_class, ∀ s < e.n_shift, ∀ f < e.n_flip, 0 < e.class_prob.elem k s f) :
    ∃ P : Matrix4D R, compute_posterior_prob c e = .ok { e with post_prob := P } ∧
      (∀ i < e.n_seq, ∀ k < e.n_class, ∀ s < e.n_shift, ∀ f < e.n_flip, 0 < P.elem i k s f) ∧
      ∀ i < e.n_seq,
        (∑ k ∈ range e.n_class, ∑ s ∈ range e.n_shift, ∑ f ∈ range e.n_flip, P.elem i k s f)
          = 1 := by
  have hp : ∀ i < e.n_seq, ∀ k < e.n_class, ∀ s < e.n_shift, ∀ f < e.n_flip,
      0 < e.likelihood.elem i k s f * e.class_prob.elem k s f := fun i hi k hk s hs f hf =>
    mul_pos (hL i hi k hk s hs f hf) (hC k hk s hs f hf)
  have hsum : ∀ i < e.n_seq, 0 < ∑ k ∈ range e.n_class, ∑ s ∈ range e.n_shift,
      ∑ f ∈ range e.n_flip, e.likelihood.elem i k s f * e.class_prob.elem k s f :=
    fun i hi => sum3_pos hK hS hF _ (hp i hi)
  have hg : ¬ ∃ i ∈ range e.n_seq, ∃ _k ∈ range e.n_class, ∃ _s ∈ range e.n_shift,
      ∃ _f ∈ range e.n_flip, (∑ k ∈ range e.n_class, ∑ s ∈ range e.n_shift,
        ∑ f ∈ range e.n_flip, e.likelihood.elem i k s f * e.class_prob.elem k s f) = 0 := by
    push_neg
    intro i hi _ _ _ _ _ _
    exact (hsum i (mem_range.mp hi)).ne'
  have hq : ∀ i < e.n_seq, ∀ k < e.n_class, ∀ s < e.n_shift, ∀ f < e.n_flip,
      0 < e.likelihood.elem i k s f * e.class_prob.elem k s f /
        ∑ k ∈ range e.n_class, ∑ s ∈ range e.n_shift, ∑ f ∈ range e.n_flip,
          e.likelihood.elem i k s f * e.class_prob.elem k s f :=
    fun i hi k hk s hs f hf => div_pos (hp i hi k hk s hs f hf) (hsum i hi)
  refine ⟨_, by unfold compute_posterior_prob; rw [if_neg hg], ?_, ?_⟩
  · intro i hi k hk s hs f hf
    simp only
    rw [if_neg (hq i hi k hk s hs f hf).ne']
    exact hq i hi k hk s hs f hf
  · intro i hi
    simp only
    rw [← sum3_div_self _ (hsum i hi).ne']
    refine Finset.sum_congr rfl fun k hk => Finset.sum_congr rfl fun s hs =>
      Finset.sum_congr rfl fun f hf => ?_
    rw [if_neg (hq i hi k (mem_range.mp hk) s (mem_range.mp hs) f (mem_range.mp hf)).ne']

/-- `compute_class_prob` on a positive posterior: it succeeds, the class probabilities are
positive and sum to one, and each marginal is the sum of its class over shifts and flips. -/
theorem compute_class_prob_pos {e : EMSequenceEngine R}
    (hN : 0 < e.n_seq) (hK : 0 < e.n_class) (hS : 0 < e.n_shift) (hF : 0 < e.n_flip)
    (hP : ∀ i < e.n_seq, ∀ k < e.n_class, ∀ s < e.n_shift, ∀ f < e.n_flip,
      0 < e.post_prob.elem i k s f) :
    ∃ (C : Matrix3D R) (T : Nat → R),
      compute_class_prob e = .ok { e with class_prob := C, class_prob_tot := T } ∧
      (∀ k < e.n_class, ∀ s < e.n_shift, ∀ f < e.n_flip, 0 < C.elem k s f) ∧
      (∑ k ∈ range e.n_class, ∑ s ∈ range e.n_shift, ∑ f ∈ range e.n_flip, C.elem k s f) = 1 ∧
      (∀ k, T k = ∑ s ∈ range e.n_shift, ∑ f ∈ range e.n_flip, C.elem k s f) := by
  have hprob : ∀ k < e.n_class, ∀ s < e.n_shift, ∀ f < e.n_flip,
      0 < ∑ i ∈ range e.n_seq, e.post_prob.elem i k s f := fun k hk s hs f hf =>
    Finset.sum_pos (fun i hi => hP i (mem_range.mp hi) k hk s hs f hf)
      (nonempty_range_iff.mpr hN.ne')
  have htot := sum3_pos hK hS hF _ hprob
  have hg : ¬ ∃ _k ∈ range e.n_class, (∑ k ∈ range e.n_class, ∑ s ∈ range e.n_shift,
      ∑ f ∈ range e.n_flip, ∑ i ∈ range e.n_seq, e.post_prob.elem i k s f) = 0 := by
    push_neg
    intro _ _
    exact htot.ne'
  refine ⟨_, _, by unfold compute_class_prob; rw [if_neg hg], ?_, ?_, ?_⟩
  · intro k hk s hs f hf
    exact div_pos (hprob k hk s hs f hf) htot
  · exact sum3_div_self _ htot.ne'
  · intro k
    simp only [Finset.sum_div]

theorem base_prob_nonneg {e : EMSequenceEngine R} {k s : Nat} (j r : Nat)
    (hP : ∀ i < e.n_seq, 0 ≤ e.post_prob.elem i k s FORWARD) : 0 ≤ e.base_prob k s j r := by
  unfold base_prob
  refine Finset.sum_nonneg fun i hi => ?_
  split_ifs
  · exact hP i (mem_range.mp hi)
  · exact le_rfl

theorem base_prob_rev_nonneg {e : EMSequenceEngine R} {k s : Nat} (j r : Nat)
    (hP : ∀ i < e.n_seq, 0 ≤ e.post_prob.elem i k s REVERSE) : 0 ≤ e.base_prob_rev k s j r := by
  unfold base_prob_rev
  refine Finset.sum_nonneg fun i hi => ?_
  split_ifs
  · exact hP i (mem_range.mp hi)
  · exact le_rfl

/-- The weighted base counts are not negative when the posterior is not. -/
theorem motif_counts_nonneg {e : EMSequenceEngine R} {k : Nat} (r j : Nat) (hF : 0 < e.n_flip)
    (hP : ∀ i < e.n_seq, ∀ s < e.n_shift, ∀ f < e.n_flip, 0 ≤ e.post_prob.elem i k s f) :
    0 ≤ e.motif_counts k r j := by
  unfold motif_counts
  refine Finset.sum_nonneg fun s hs => Finset.sum_nonneg fun j2 _ => add_nonneg ?_ ?_
  · split_ifs
    · exact base_prob_nonneg _ _ fun i hi => hP i hi s (mem_range.mp hs) _ hF
    · exact le_rfl
  · split_ifs with h2
    · exact base_prob_rev_nonneg _ _ fun i hi =>
        hP i hi s (mem_range.mp hs) _ (by simp [REVERSE, h2.1])
    · exact le_rfl

/-- `compute_motifs` on a posterior without negative entries: it succeeds, the trained motifs
are positive with columns summing to one, and nothing else changes in the list of motifs. -/
theorem compute_motifs_pos (c : Constants R) (hc : 0 < c.pseudo_counts) {e : EMSequenceEngine R}
    (hF : 0 < e.n_flip) (hwin : e.n_shift + e.l_motif ≤ e.l_seq + 1)
    (hvalid : ∀ i < e.n_seq, ∀ j < e.l_seq, dna.hash_map (e.sequences.elem i j) ≠ none)
    (hlen : e.motifs.length = e.n_class)
    (hP : ∀ i < e.n_seq, ∀ k < e.n_class, ∀ s < e.n_shift, ∀ f < e.n_flip,
      0 ≤ e.post_prob.elem i k s f) :
    ∃ M : List (Matrix2D R), compute_motifs c e = .ok { e with motifs := M } ∧
      M.length = e.motifs.length ∧
      (∀ k < e.n_trained, (M.getD k ⟨0, 0, fun _ _ => 0⟩).nrow = (e.motif k).nrow) ∧
      (∀ k < e.n_trained, ∀ r < 4, ∀ j < e.l_motif,
        0 < (M.getD k ⟨0, 0, fun _ _ => 0⟩).elem r j) ∧
      (∀ k < e.n_trained, ∀ j < e.l_motif,
        (∑ r ∈ range 4, (M.getD k ⟨0, 0, fun _ _ => 0⟩).elem r j) = 1) ∧
      (∀ k, e.n_trained ≤ k → M.getD k ⟨0, 0, fun _ _ => 0⟩ = e.motif k) := by
  have hcnt : ∀ k < e.n_trained, ∀ r j, 0 ≤ e.motif_counts k r j := fun k hk r j =>
    motif_counts_nonneg r j hF fun i hi s hs f hf =>
      hP i hi k (lt_of_lt_of_le hk e.n_trained_le) s hs f hf
  have hcell : ∀ k < e.n_trained, ∀ r j, 0 < e.motif_counts k r j + c.pseudo_counts :=
    fun k hk r j => add_pos_of_nonneg_of_pos (hcnt k hk r j) hc
  have hsum : ∀ k < e.n_trained, ∀ j,
      0 < ∑ r ∈ range 4, (e.motif_counts k r j + c.pseudo_counts) := fun k hk j =>
    Finset.sum_pos (fun r _ => hcell k hk r j) (nonempty_range_iff.mpr (by norm_num))
  have hg1 : ¬ ∃ k ∈ range (e.n_class - (if e.bg_class then 1 else 0)),
      ∃ s ∈ range e.n_shift, ∃ j ∈ range e.l_motif, ∃ i ∈ range e.n_seq,
        dna.hash_map (e.sequences.elem i (s + j)) = none := by
    push_neg
    intro _ _ s hs j hj i hi
    have hs := mem_range.mp hs
    have hj := mem_range.mp hj
    exact hvalid i (mem_range.mp hi) _ (by omega)
  have hg2 : ¬ ∃ k ∈ range (e.n_class - (if e.bg_class then 1 else 0)),
      ∃ j ∈ range e.l_motif, ∃ _r ∈ range 4,
        (∑ r ∈ range 4, (e.motif_counts k r j + c.pseudo_counts)) = 0 := by
    push_neg
    intro k hk j _ _ _
    exact (hsum k (mem_range.mp hk) j).ne'
  refine ⟨_, by unfold compute_motifs; rw [if_neg hg1, if_neg hg2], ?_, ?_, ?_, ?_, ?_⟩
  · exact List.length_mapIdx
  · intro k hk
    have hkl : k < e.motifs.length := by
      rw [hlen]; exact lt_of_lt_of_le hk e.n_trained_le
    rw [getD_mapIdx, if_pos hkl,
      if_pos (show k < e.n_class - (if e.bg_class then 1 else 0) from hk)]
    rfl
  · intro k hk r _ j _
    have hkl : k < e.motifs.length := by
      rw [hlen]; exact lt_of_lt_of_le hk e.n_trained_le
    rw [getD_mapIdx, if_pos hkl,
      if_pos (show k < e.n_class - (if e.bg_class then 1 else 0) from hk)]
    simp only
    rw [if_pos ⟨‹r < 4›, ‹j < e.l_motif›⟩]
    exact div_pos (hcell k hk r j) (hsum k hk j)
  · intro k hk j _
    have hkl : k < e.motifs.length := by
      rw [hlen]; exact lt_of_lt_of_le hk e.n_trained_le
    rw [getD_mapIdx, if_pos hkl,
      if_pos (show k < e.n_class - (if e.bg_class then 1 else 0) from hk)]
    simp only
    rw [← div_self (hsum k hk j).ne', Finset.sum_div]
    refine Finset.sum_congr rfl fun r hr => ?_
    rw [if_pos ⟨mem_range.mp hr, ‹j < e.l_motif›⟩]
  · intro k hk
    rw [getD_mapIdx]
    have hk2 : ¬ k < e.n_class - (if e.bg_class then 1 else 0) := not_lt.mpr hk
    split_ifs with h1
    · rfl
    · unfold motif
      rw [List.getD_eq_getElem?_getD, List.getElem?_eq_none (by omega)]
      rfl

/-- `normalise_motifs` on positive trained motifs with four rows: it succeeds, every cell of a
trained motif is divided by the sum of its column, and nothing else changes in the list. -/
theorem normalise_motifs_pos {e : EMSequenceEngine R}
    (hW : 0 < e.l_motif) (hlen : e.motifs.length = e.n_class)
    (hrow : ∀ k < e.n_trained, (e.motif k).nrow = 4)
    (hM : ∀ k < e.n_trained, ∀ r < 4, ∀ j < e.l_motif, 0 < (e.motif k).elem r j) :
    ∃ M : List (Matrix2D R), normalise_motifs e = .ok { e with motifs := M } ∧
      M.length = e.motifs.length ∧
      (∀ k < e.n_trained, (M.getD k ⟨0, 0, fun _ _ => 0⟩).nrow = (e.motif k).nrow) ∧
      (∀ k < e.n_trained, ∀ r < 4, ∀ j < e.l_motif,
        (M.getD k ⟨0, 0, fun _ _ => 0⟩).elem r j =
          (e.motif k).elem r j / ∑ i ∈ range 4, (e.motif k).elem i j) ∧
      (∀ k, e.n_trained ≤ k → M.getD k ⟨0, 0, fun _ _ => 0⟩ = e.motif k) := by
  have hrs : ∀ k < e.n_trained, ∀ r < 4, 0 < ∑ j ∈ range e.l_motif, (e.motif k).elem r j :=
    fun k hk r hr => Finset.sum_pos (fun j hj => hM k hk r hr j (mem_range.mp hj))
      (nonempty_range_iff.mpr hW.ne')
  have hbc : ∀ k < e.n_trained, ∀ r < 4,
      (∑ j ∈ range e.l_motif, (e.motif k).elem r j) /
        (∑ j ∈ range e.l_motif, (e.motif k).elem r j) = 1 :=
    fun k hk r hr => div_self (hrs k hk r hr).ne'
  have hcs : ∀ k < e.n_trained, ∀ j < e.l_motif, 0 < ∑ i ∈ range 4, (e.motif k).elem i j :=
    fun k hk j hj => Finset.sum_pos (fun r hr => hM k hk r (mem_range.mp hr) j hj)
      (nonempty_range_iff.mpr (by norm_num))
  have hg : ¬ ∃ k ∈ range (e.n_class - (if e.bg_class then 1 else 0)),
      (∃ i ∈ range (e.motif k).nrow, (∑ j ∈ range e.l_motif, (e.motif k).elem i j) = 0) ∨
      (∃ _j ∈ range e.l_motif, ∃ i ∈ range (e.motif k).nrow,
        (∑ j ∈ range e.l_motif, (e.motif k).elem i j) /
          (∑ j ∈ range e.l_motif, (e.motif k).elem i j) = 0) ∨
      (∃ j ∈ range e.l_motif, ∃ _i ∈ range (e.motif k).nrow,
        (∑ i ∈ range (e.motif k).nrow, (e.motif k).elem i j) = 0) := by
    push_neg
    intro k hk
    have hk := mem_range.mp hk
    have hr4 := hrow k hk
    refine ⟨fun i hi => ?_, fun _ _ i hi => ?_, fun j hj _ _ => ?_⟩
    · rw [hr4] at hi
      exact (hrs k hk i (mem_range.mp hi)).ne'
    · rw [hr4] at hi
      rw [hbc k hk i (mem_range.mp hi)]
      exact one_ne_zero
    · rw [hr4]
      exact (hcs k hk j (mem_range.mp hj)).ne'
  refine ⟨_, by unfold normalise_motifs; rw [if_neg hg], ?_, ?_, ?_, ?_⟩
  · exact List.length_mapIdx
  · intro k hk
    have hkl : k < e.motifs.length := by
      rw [hlen]; exact lt_of_lt_of_le hk e.n_trained_le
    rw [getD_mapIdx, if_pos hkl,
      if_pos (show k < e.n_class - (if e.bg_class then 1 else 0) from hk)]
    rfl
  · intro k hk r hr j _
    have hkl : k < e.motifs.length := by
      rw [hlen]; exact lt_of_lt_of_le hk e.n_trained_le
    rw [getD_mapIdx, if_pos hkl,
      if_pos (show k < e.n_class - (if e.bg_class then 1 else 0) from hk)]
    simp only
    have hr2 : r < (e.motifs.getD k ⟨0, 0, fun _ _ => 0⟩).nrow := by
      have := hrow k hk
      unfold motif at this
      rw [this]
      exact hr
    rw [if_pos ⟨hr2, ‹j < e.l_motif›⟩, hbc k hk r hr, div_one, hrow k hk]
  · intro k hk
    rw [getD_mapIdx]
    have hk2 : ¬ k < e.n_class - (if e.bg_class then 1 else 0) := not_lt.mpr hk
    split_ifs with h1
    · rfl
    · unfold motif
      rw [List.getD_eq_getElem?_getD, List.getElem?_eq_none (by omega)]
      rfl

/-- `center_shifts` on positive class probabilities: it succeeds, the class probabilities stay
positive, and the sum of each class over shifts and flips is its unchanged marginal. -/
theorem center_shifts_pos (lm : Libm R) (hlm : lm.Sound) {e : EMSequenceEngine R}
    (hK : 0 < e.n_class) (hS : 0 < e.n_shift) (hF : 0 < e.n_flip)
    (hC : ∀ k < e.n_class, ∀ s < e.n_shift, ∀ f < e.n_flip, 0 < e.class_prob.elem k s f)
    (hT : ∀ k < e.n_class,
      e.class_prob_tot k = ∑ s ∈ range e.n_shift, ∑ f ∈ range e.n_flip, e.class_prob.elem k s f) :
    ∃ C : Matrix3D R, center_shifts lm e = .ok { e with class_prob := C } ∧
      (∀ k < e.n_class, ∀ s < e.n_shift, ∀ f < e.n_flip, 0 < C.elem k s f) ∧
      (∀ k < e.n_class,
        (∑ s ∈ range e.n_shift, ∑ f ∈ range e.n_flip, C.elem k s f) = e.class_prob_tot k) := by
  by_cases hS1 : e.n_shift = 1
  · exact ⟨e.class_prob, by unfold center_shifts; rw [if_pos hS1], hC, fun k hk => (hT k hk).symm⟩
  · have hT0 : ∀ k < e.n_class, 0 < e.class_prob_tot k := fun k hk => by
      rw [hT k hk]
      exact sum2_pos hS hF _ (hC k hk)
    have hq : ∀ s < e.n_shift,
        0 < ∑ k ∈ range e.n_class, ∑ f ∈ range e.n_flip, e.class_prob.elem k s f :=
      fun s hs => sum2_pos hK hF _ fun k hk f hf => hC k hk s hs f hf
    have hlen : ((List.range e.n_shift).map fun (s : Nat) => (s : R) + 1).length =
        ((List.range e.n_shift).map fun s =>
          ∑ k ∈ range e.n_class, ∑ f ∈ range e.n_flip, e.class_prob.elem k s f).length := by
      simp
    have hqs : 0 < ((List.range e.n_shift).map fun s =>
        ∑ k ∈ range e.n_class, ∑ f ∈ range e.n_flip, e.class_prob.elem k s f).sum := by
      rw [sum_map_range]
      exact Finset.sum_pos (fun s hs => hq s (mem_range.mp hs)) (nonempty_range_iff.mpr hS.ne')
    have hvar : 0 < ∑ i ∈ range ((List.range e.n_shift).map fun (s : Nat) => (s : R) + 1).length,
        (((List.range e.n_shift).map fun (s : Nat) => (s : R) + 1).getD i 0 -
          ∑ i ∈ range ((List.range e.n_shift).map fun (s : Nat) => (s : R) + 1).length,
            ((List.range e.n_shift).map fun (s : Nat) => (s : R) + 1).getD i 0 *
              (((List.range e.n_shift).map fun s =>
                ∑ k ∈ range e.n_class, ∑ f ∈ range e.n_flip, e.class_prob.elem k s f).getD i 0 /
                ((List.range e.n_shift).map fun s =>
                  ∑ k ∈ range e.n_class, ∑ f ∈ range e.n_flip,
                    e.class_prob.elem k s f).sum)) ^ 2 *
        (((List.range e.n_shift).map fun s =>
            ∑ k ∈ range e.n_class, ∑ f ∈ range e.n_flip, e.class_prob.elem k s f).getD i 0 /
          ((List.range e.n_shift).map fun s =>
            ∑ k ∈ range e.n_class, ∑ f ∈ range e.n_flip, e.class_prob.elem k s f).sum) := by
      rw [List.length_map, List.length_range]
      have := variance_pos e.n_shift (by omega)
        (fun i => (∑ k ∈ range e.n_class, ∑ f ∈ range e.n_flip, e.class_prob.elem k i f) /
          ((List.range e.n_shift).map fun s =>
            ∑ k ∈ range e.n_class, ∑ f ∈ range e.n_flip, e.class_prob.elem k s f).sum)
        (∑ i ∈ range e.n_shift,
            ((List.range e.n_shift).map fun (s : Nat) => (s : R) + 1).getD i 0 *
              (((List.range e.n_shift).map fun s =>
                ∑ k ∈ range e.n_class, ∑ f ∈ range e.n_flip, e.class_prob.elem k s f).getD i 0 /
                ((List.range e.n_shift).map fun s =>
                  ∑ k ∈ range e.n_class, ∑ f ∈ range e.n_flip,
                    e.class_prob.elem k s f).sum))
        (fun i hi => div_pos (hq i hi) hqs)
      refine lt_of_lt_of_eq this (Finset.sum_congr rfl fun i hi => ?_)
      rw [getD_map_range _ _ _ _ (mem_range.mp hi), getD_map_range _ _ _ _ (mem_range.mp hi)]
    have hsd := hlm.sqrt_pos _ hvar
    have h2pi : 0 < lm.sqrt (2 * lm.pi) := hlm.sqrt_pos _ (mul_pos (by norm_num) hlm.pi_pos)
    have hg : ∀ i, 0 < dnorm_val lm (((List.range e.n_shift).map fun (s : Nat) => (s : R) + 1).getD i 0)
        ((e.n_shift / 2 + 1 : Nat) : R) _ := fun i => dnorm_val_pos lm hlm _ _ _ hsd
    have hgs := Finset.sum_pos (fun i (_ : i ∈ range
        ((List.range e.n_shift).map fun (s : Nat) => (s : R) + 1).length) => hg i)
      (nonempty_range_iff.mpr (by simp; omega))
    have hFR : (0 : R) < (e.n_flip : R) := Nat.cast_pos.mpr hF
    have hden := mul_pos hFR hgs
    refine ⟨_, by
      unfold center_shifts
      rw [if_neg hS1]
      simp only [sd, Bool.false_eq_true, if_false, sd_biased_ok lm _ _ hlen hqs.ne', bind,
        Except.bind]
      rw [if_neg, if_neg]
      · push_neg
        intro _ _ _ _ _ _
        exact hden.ne'
      · push_neg
        intro _ _
        exact ⟨(mul_pos hsd h2pi).ne', hsd.ne'⟩, ?_, ?_⟩
    · intro k hk s hs f hf
      exact div_pos (mul_pos (hT0 k hk) (hg s)) hden
    · intro k _
      exact centered_marginal _ _ _ _ _ (by rw [List.length_map, List.length_range]) hden.ne'

omit [LinearOrderedField R] in
theorem same_setup_refl (e : EMSequenceEngine R) : same_setup e e :=
  ⟨rfl, rfl, rfl, rfl, rfl, rfl, rfl, rfl, rfl, rfl⟩

omit [LinearOrderedField R] in
theorem same_setup_trans {e1 e2 e3 : EMSequenceEngine R} (h : same_setup e1 e2)
    (h2 : same_setup e2 e3) : same_setup e1 e3 := by
  obtain ⟨a1, a2, a3, a4, a5, a6, a7, a8, a9, a10⟩ := h
  obtain ⟨b1, b2, b3, b4, b5, b6, b7, b8, b9, b10⟩ := h2
  exact ⟨b1.trans a1, b2.trans a2, b3.trans a3, b4.trans a4, b5.trans a5, b6.trans a6,
    b7.trans a7, b8.trans a8, b9.trans a9, b10.trans a10⟩

/-- One call of `cluster()` on an engine that satisfies the invariant succeeds, and the engine
it leaves satisfies the invariant again, with normalised motif columns, the same setup and one
more iteration. -/
theorem cluster_inv (lm : Libm R) (hlm : lm.Sound) (c : Constants R) (hc : 0 < c.pseudo_counts)
    {e : EMSequenceEngine R} (h : e.Inv) :
    ∃ e2, cluster lm c e =
        .ok (if hasConverged c e2 then .CONVERGENCE else .SUCCESS, e2) ∧
      e2.Inv ∧ e2.ColumnsNormalised ∧ same_setup e e2 ∧ e2.n_iter = e.n_iter + 1 := by
  obtain ⟨e0, he0⟩ : ∃ e0, e0 = (if e.n_iter > 0 then { e with post_prob_prev := e.post_prob }
      else e) := ⟨_, rfl⟩
  have h0 : e0.Inv ∧ same_setup e e0 ∧ e0.n_iter = e.n_iter := by
    rw [he0]
    split_ifs
    · exact ⟨inv_of_fields h rfl rfl rfl rfl rfl rfl rfl rfl rfl rfl rfl rfl rfl,
        ⟨rfl, rfl, rfl, rfl, rfl, rfl, rfl, rfl, rfl, rfl⟩, rfl⟩
    · exact ⟨h, same_setup_refl e, rfl⟩
  obtain ⟨hI, hss, hit⟩ := h0
  have hK := hI.n_class_pos
  have hS := hI.n_shift_pos
  have hF := hI.n_flip_pos
  have hN := hI.n_seq_pos
  obtain ⟨L, h1, hL⟩ := compute_likelihood_pos lm hlm hI.toSetup hI.motif_pos
  obtain ⟨P, h2, hPpos, hPsum⟩ := compute_posterior_prob_pos c
    (e := { e0 with likelihood := L }) hK hS hF hL hI.class_pos
  obtain ⟨C, T, h3, hCpos, hCsum, hT⟩ := compute_class_prob_pos
    (e := { e0 with likelihood := L, post_prob := P }) hN hK hS hF hPpos
  obtain ⟨M, h4, hMlen, hMrow, hMpos, hMcol, hMbg⟩ := compute_motifs_pos c hc
    (e := { e0 with likelihood := L, post_prob := P, class_prob := C, class_prob_tot := T })
    hF hI.window hI.valid hI.motifs_len
    (fun i hi k hk s hs f hf => (hPpos i hi k hk s hs f hf).le)
  obtain ⟨M2, h5, hM2len, hM2row, hM2val, hM2bg⟩ := normalise_motifs_pos
    (e :=
      { e0 with
        likelihood := L
        post_prob := P
        class_prob := C
        class_prob_tot := T
        motifs := M })
    hI.l_motif_pos (hMlen.trans hI.motifs_len)
    (fun k hk => (hMrow k hk).trans (hI.motif_nrow k hk)) hMpos
  -- the normalised motifs are the motifs of `compute_motifs`
  have hM2eq : ∀ k < e0.n_trained, ∀ r < 4, ∀ j < e0.l_motif,
      (M2.getD k ⟨0, 0, fun _ _ => 0⟩).elem r j = (M.getD k ⟨0, 0, fun _ _ => 0⟩).elem r j := by
    intro k hk r hr j hj
    have := hM2val k hk r hr j hj
    simp only [motif] at this
    rw [this, hMcol k hk j hj, div_one]
  -- whatever the final class probabilities, if they are positive with the marginals `T`
  have key : ∀ Cf : Matrix3D R,
      (∀ k < e0.n_class, ∀ s < e0.n_shift, ∀ f < e0.n_flip, 0 < Cf.elem k s f) →
      (∀ k < e0.n_class,
        (∑ s ∈ range e0.n_shift, ∑ f ∈ range e0.n_flip, Cf.elem k s f) = T k) →
      Inv
        { e0 with
          likelihood := L
          post_prob := P
          class_prob := Cf
          class_prob_tot := T
          motifs := M2
          n_iter := e0.n_iter + 1 } ∧
      ColumnsNormalised
        { e0 with
          likelihood := L
          post_prob := P
          class_prob := Cf
          class_prob_tot := T
          motifs := M2
          n_iter := e0.n_iter + 1 } := by
    intro Cf hCf hCfT
    refine ⟨⟨⟨hI.n_seq_pos, hI.n_trained_pos, hI.n_shift_pos, hI.n_flip_pos, hI.n_flip_le,
      hI.l_motif_pos, hI.window, hI.valid, hM2len.trans (hMlen.trans hI.motifs_len),
      fun k hk => (hM2row k hk).trans ((hMrow k hk).trans (hI.motif_nrow k hk)),
      ?_, hI.bg_used⟩, hPpos, hPsum, hCf, ?_, fun k hk => (hCfT k hk).symm, ?_⟩, ?_⟩
    rotate_left
    · show (∑ k ∈ range e0.n_class, ∑ s ∈ range e0.n_shift, ∑ f ∈ range e0.n_flip,
        Cf.elem k s f) = 1
      rw [← hCsum]
      refine Finset.sum_congr rfl fun k hk => ?_
      rw [hCfT k (mem_range.mp hk), hT k]
    · intro k hk r hr j hj
      show 0 < (M2.getD k ⟨0, 0, fun _ _ => 0⟩).elem r j
      rw [hM2eq k hk r hr j hj]
      exact hMpos k hk r hr j hj
    · intro k hk j hj
      show (∑ r ∈ range 4, (M2.getD k ⟨0, 0, fun _ _ => 0⟩).elem r j) = 1
      rw [← hMcol k hk j hj]
      exact Finset.sum_congr rfl fun r hr => hM2eq k hk r (mem_range.mp hr) j hj
    · intro hbg r hr j hj
      have hle : e0.n_trained ≤ e0.n_class - 1 := by
        unfold n_trained
        rw [if_pos hbg]
      show (M2.getD (e0.n_class - 1) ⟨0, 0, fun _ _ => 0⟩).elem r j = e0.bg_prob r
      rw [hM2bg _ hle]
      show (M.getD (e0.n_class - 1) ⟨0, 0, fun _ _ => 0⟩).elem r j = e0.bg_prob r
      rw [hMbg _ hle]
      exact hI.bg_motif hbg r hr j hj
  have hss2 : ∀ Cf : Matrix3D R, same_setup e
      { e0 with
        likelihood := L
        post_prob := P
        class_prob := Cf
        class_prob_tot := T
        motifs := M2
        n_iter := e0.n_iter + 1 } := fun Cf =>
    same_setup_trans hss ⟨rfl, rfl, rfl, rfl, rfl, rfl, rfl, rfl, rfl, rfl⟩
  by_cases hsc : e0.shift_center = true
  · obtain ⟨C2, h6, hC2pos, hC2T⟩ := center_shifts_pos lm hlm
      (e :=
        { e0 with
          likelihood := L
          post_prob := P
          class_prob := C
          class_prob_tot := T
          motifs := M2
          n_iter := e0.n_iter + 1 })
      hK hS hF hCpos (fun k _ => hT k)
    refine ⟨_, ?_, (key C2 hC2pos hC2T).1, (key C2 hC2pos hC2T).2, hss2 C2,
      by rw [← hit]⟩
    unfold cluster
    rw [← he0]
    simp only [h1, h2, h3, h4, h5, bind, Except.bind, pure, Except.pure]
    rw [if_pos hsc, h6]
  · refine ⟨_, ?_, (key C hCpos fun k _ => (hT k).symm).1,
      (key C hCpos fun k _ => (hT k).symm).2, hss2 C, by rw [← hit]⟩
    unfold cluster
    rw [← he0]
    simp only [h1, h2, h3, h4, h5, bind, Except.bind, pure, Except.pure]
    rw [if_neg hsc]

/-- Any number of calls of `cluster()` on an engine that satisfies the invariant succeed and
leave an engine that satisfies it. -/
theorem cluster_n_inv (lm : Libm R) (hlm : lm.Sound) (c : Constants R) (hc : 0 < c.pseudo_counts)
    {e : EMSequenceEngine R} (h : e.Inv) (n : Nat) :
    ∃ e2, cluster_n lm c n e = .ok e2 ∧ e2.Inv ∧ same_setup e e2 ∧ e2.n_iter = e.n_iter + n ∧
      (0 < n → e2.ColumnsNormalised) := by
  induction n with
  | zero => exact ⟨e, rfl, h, same_setup_refl e, rfl, fun h0 => absurd h0 (lt_irrefl 0)⟩
  | succ n ih =>
    obtain ⟨e1, h1, hI1, hs1, hn1, _⟩ := ih
    obtain ⟨e2, h2, hI2, hC2, hs2, hn2⟩ := cluster_inv lm hlm c hc hI1
    refine ⟨e2, ?_, hI2, same_setup_trans hs1 hs2, by rw [hn2, hn1]; ring, fun _ => hC2⟩
    simp only [cluster_n, h1, h2, bind, Except.bind, pure, Except.pure]

/-- `seeding_random` with positive draws on an engine that has the setup succeeds and leaves an
engine that satisfies the invariant, with normalised motif columns. -/
theorem seeding_random_inv (c : Constants R) (hc : 0 < c.pseudo_counts) (draws : Nat → R)
    (hd : ∀ u, 0 < draws u) {e : EMSequenceEngine R} (h : e.Setup) :
    ∃ e2, seeding_random c draws e = .ok e2 ∧ e2.Inv ∧ e2.ColumnsNormalised ∧
      same_setup e e2 ∧ e2.n_iter = e.n_iter := by
  have hK := h.n_class_pos
  have hS := h.n_shift_pos
  have hF := h.n_flip_pos
  have hN := h.n_seq_pos
  have hsum : ∀ i, 0 < ∑ k ∈ range e.n_class, ∑ s ∈ range e.n_shift, ∑ f ∈ range e.n_flip,
      draws (e.post_prob.offset i k s f) := fun i =>
    sum3_pos hK hS hF _ fun _ _ _ _ _ _ => hd _
  have hg : ¬ ∃ i ∈ range e.n_seq, ∃ _k ∈ range e.n_class, ∃ _s ∈ range e.n_shift,
      ∃ _f ∈ range e.n_flip, (∑ k ∈ range e.n_class, ∑ s ∈ range e.n_shift,
        ∑ f ∈ range e.n_flip, draws (e.post_prob.offset i k s f)) = 0 := by
    push_neg
    intro i _ _ _ _ _ _ _
    exact (hsum i).ne'
  obtain ⟨P, hP, hPpos, hPsum⟩ : ∃ P : Matrix4D R,
      P = { e.post_prob with
            elem := fun i k s f => draws (e.post_prob.offset i k s f) /
              ∑ k ∈ range e.n_class, ∑ s ∈ range e.n_shift, ∑ f ∈ range e.n_flip,
                draws (e.post_prob.offset i k s f) } ∧
      (∀ i < e.n_seq, ∀ k < e.n_class, ∀ s < e.n_shift, ∀ f < e.n_flip, 0 < P.elem i k s f) ∧
      (∀ i < e.n_seq, (∑ k ∈ range e.n_class, ∑ s ∈ range e.n_shift, ∑ f ∈ range e.n_flip,
        P.elem i k s f) = 1) :=
    ⟨_, rfl, fun i _ k _ s _ f _ => div_pos (hd _) (hsum i),
      fun i _ => sum3_div_self _ (hsum i).ne'⟩
  obtain ⟨C, T, h3, hCpos, hCsum, hT⟩ := compute_class_prob_pos
    (e := { e with post_prob := P }) hN hK hS hF hPpos
  obtain ⟨M, h4, hMlen, hMrow, hMpos, hMcol, hMbg⟩ := compute_motifs_pos c hc
    (e :=
      { e with
        post_prob := P
        class_prob := C
        class_prob_tot := T })
    hF h.window h.valid h.motifs_len
    (fun i hi k hk s hs f hf => (hPpos i hi k hk s hs f hf).le)
  refine ⟨
      { e with
        post_prob := P
        class_prob := C
        class_prob_tot := T
        motifs := M }, ?_, ⟨⟨h.n_seq_pos, h.n_trained_pos, h.n_shift_pos, h.n_flip_pos, h.n_flip_le,
      h.l_motif_pos, h.window, h.valid, hMlen.trans h.motifs_len,
      fun k hk => (hMrow k hk).trans (h.motif_nrow k hk), ?_, h.bg_used⟩,
      hPpos, hPsum, hCpos, hCsum, fun k _ => hT k, hMpos⟩, hMcol,
    ⟨rfl, rfl, rfl, rfl, rfl, rfl, rfl, rfl, rfl, rfl⟩, rfl⟩
  · unfold seeding_random
    rw [if_neg hg]
    simp only [← hP, h3, h4, bind, Except.bind]
  · intro hbg r hr j hj
    have hle : e.n_trained ≤ e.n_class - 1 := by
      unfold n_trained
      rw [if_pos hbg]
    show (M.getD (e.n_class - 1) ⟨0, 0, fun _ _ => 0⟩).elem r j = e.bg_prob r
    rw [hMbg _ hle]
    exact h.bg_motif hbg r hr j hj

/-- The engine a constructor has built when it starts computing has the setup. -/
theorem setup_of_initial {e : EMSequenceEngine R} (bg : Bool) (hbg : e.bg_class = bg)
    (hN : 0 < e.n_seq) (hK : 0 < e.n_class) (hlen : e.motifs.length = e.n_class)
    (hS : 0 < e.n_shift) (hF : 0 < e.n_flip) (hF2 : e.n_flip ≤ 2) (hW : 0 < e.l_motif)
    (hwin : e.n_shift + e.l_motif ≤ e.l_seq + 1)
    (hvalid : ∀ i < e.n_seq, ∀ j < e.l_seq, dna.hash_map (e.sequences.elem i j) ≠ none)
    (hrow : ∀ k < e.n_class, (e.motif k).nrow = 4)
    (hb : ∀ i < e.n_seq, ∀ j < e.l_seq,
      0 < e.bg_prob (dna.hash_val (e.sequences.elem i j) false) ∧
      (e.n_flip = 2 → 0 < e.bg_prob (4 - dna.hash_val (e.sequences.elem i j) false - 1))) :
    Setup (if bg = true then add_background_class e else e) := by
  subst hbg
  by_cases hbg : e.bg_class = true
  · rw [if_pos hbg]
    refine ⟨hN, ?_, hS, hF, hF2, hW, hwin, hvalid, ?_, ?_, ?_, fun _ => hb⟩
    · simp only [n_trained, add_background_class, hbg, if_true]
      omega
    · simp only [add_background_class, List.length_append, List.length_singleton, hlen]
    · intro k hk
      have hk2 : k < e.n_class := by
        simp only [n_trained, add_background_class, hbg, if_true] at hk
        omega
      have := hrow k hk2
      simp only [motif, add_background_class] at this ⊢
      rw [getD_append_left _ _ _ _ (by rw [hlen]; exact hk2)]
      exact this
    · intro _ r _ j _
      simp only [motif, add_background_class, Nat.add_sub_cancel]
      rw [← hlen, getD_append_singleton]
  · rw [if_neg hbg]
    refine ⟨hN, ?_, hS, hF, hF2, hW, hwin, hvalid, hlen, ?_, fun h => absurd h hbg, fun _ => hb⟩
    · simp only [n_trained, hbg]
      exact hK
    · intro k hk
      exact hrow k (lt_of_lt_of_le hk e.n_trained_le)

/-- The constructor of an engine without initial motifs, on valid bases, with a number of
classes and a motif length within bounds, and positive random draws: it succeeds and the
engine satisfies the invariant, with normalised motif columns and no iteration done. -/
theorem construct_inv (c : Constants R) (hc : 0 < c.pseudo_counts) (rng : String → Nat → R)
    (sequences : Matrix2D Char) (n_class l_motif : Nat) (flip center_shift bg_class : Bool)
    (seed : String) (hd : ∀ u, 0 < rng seed u)
    (hvalid : ∀ i < sequences.nrow, ∀ j < sequences.ncol,
      dna.hash_map (sequences.elem i j) ≠ none)
    (hK : 0 < n_class) (hKN : n_class ≤ sequences.nrow)
    (hW : 0 < l_motif) (hWL : l_motif ≤ sequences.ncol) :
    ∃ e, construct c rng sequences n_class l_motif flip center_shift bg_class seed "random"
        = .ok e ∧
      e.Inv ∧ e.ColumnsNormalised ∧ e.n_iter = 0 ∧ e.sequences = sequences ∧
      dna.base_composition sequences flip = .ok e.bg_prob ∧
      e.n_class = n_class + (if bg_class then 1 else 0) ∧ e.l_motif = l_motif ∧
      e.n_flip = 1 + (if flip then 1 else 0) ∧ e.bg_class = bg_class ∧
      e.shift_center = center_shift := by
  obtain ⟨b, hb, hbpos⟩ := base_composition_pos (R := R) sequences flip (by omega) (by omega) hvalid
  have hflip : 1 + (if flip = true then 1 else 0) = 2 → flip = true := by
    intro h
    by_contra hf
    simp [hf] at h
  obtain ⟨e2, h2, hI, hC, hss, hit⟩ := seeding_random_inv c hc (rng seed) hd
    (setup_of_initial
      (e :=
        { sequences := sequences
          motifs := List.replicate n_class ⟨4, l_motif, fun _ _ => 0⟩
          bg_prob := b
          class_prob := ⟨n_class + (if bg_class then 1 else 0), sequences.ncol - l_motif + 1,
            1 + (if flip then 1 else 0), fun _ _ _ => 0⟩
          class_prob_tot := fun _ => 0
          post_prob := ⟨sequences.nrow, n_class + (if bg_class then 1 else 0),
            sequences.ncol - l_motif + 1, 1 + (if flip then 1 else 0), fun _ _ _ _ => 0⟩
          post_prob_prev := ⟨0, 0, 0, 0, fun _ _ _ _ => 0⟩
          likelihood := ⟨sequences.nrow, n_class + (if bg_class then 1 else 0),
            sequences.ncol - l_motif + 1, 1 + (if flip then 1 else 0), fun _ _ _ _ => 0⟩
          n_iter := 0
          n_seq := sequences.nrow
          l_seq := sequences.ncol
          n_class := n_class
          l_motif := l_motif
          n_shift := sequences.ncol - l_motif + 1
          n_flip := 1 + (if flip then 1 else 0)
          bg_class := bg_class
          shift_center := center_shift })
      bg_class rfl (by show 0 < sequences.nrow; omega) hK (List.length_replicate _ _)
      (Nat.succ_pos _) (by show 0 < 1 + _; omega)
      (by show 1 + (if flip = true then 1 else 0) ≤ 2; split_ifs <;> omega) hW
      (by show sequences.ncol - l_motif + 1 + l_motif ≤ sequences.ncol + 1; omega) hvalid
      (fun k hk => by
        simp only [motif]
        rw [getD_replicate _ _ _ _ hk])
      (fun i hi j hj => ⟨(hbpos i hi j hj).1, fun h => (hbpos i hi j hj).2 (hflip h)⟩))
  obtain ⟨s1, s2, s3, s4, s5, s6, s7, s8, s9, s10⟩ := hss
  refine ⟨e2, ?_, hI, hC, ?_, ?_, ?_, ?_, ?_, ?_, ?_, ?_⟩
  · unfold construct
    rw [if_neg (by omega), if_neg (by omega)]
    simp only [hb, bind, Except.bind, seeding, if_true]
    exact h2
  · rw [hit]; split_ifs <;> rfl
  · rw [s1]; split_ifs <;> rfl
  · rw [s2]; split_ifs <;> exact hb
  · rw [s5]; split_ifs <;> rfl
  · rw [s6]; split_ifs <;> rfl
  · rw [s8]; split_ifs <;> rfl
  · rw [s9]; split_ifs with h <;> simp [add_background_class, h]
  · rw [s10]; split_ifs <;> rfl

/-- The constructor of an engine from initial motifs that have four rows, one width within
bounds and positive cells, on valid bases: it succeeds and the engine satisfies the invariant,
with no iteration done. -/
theorem construct_from_motifs_inv (lm : Libm R) (hlm : lm.Sound) (c : Constants R)
    (sequences : Matrix2D Char) (m0 : Matrix2D R) (rest : List (Matrix2D R))
    (flip center_shift bg_class : Bool)
    (hvalid : ∀ i < sequences.nrow, ∀ j < sequences.ncol,
      dna.hash_map (sequences.elem i j) ≠ none)
    (hKN : (m0 :: rest).length ≤ sequences.nrow)
    (hW : 0 < m0.ncol) (hWL : m0.ncol ≤ sequences.ncol)
    (hcol : ∀ m ∈ m0 :: rest, m.ncol = m0.ncol)
    (hrow : ∀ m ∈ m0 :: rest, m.nrow = 4)
    (hpos : ∀ m ∈ m0 :: rest, ∀ r < 4, ∀ j < m0.ncol, 0 < m.elem r j) :
    ∃ e, construct_from_motifs lm c sequences (m0 :: rest) flip center_shift bg_class = .ok e ∧
      e.Inv ∧ e.n_iter = 0 ∧ e.sequences = sequences ∧
      dna.base_composition sequences flip = .ok e.bg_prob ∧
      e.n_class = (m0 :: rest).length + (if bg_class then 1 else 0) ∧ e.l_motif = m0.ncol ∧
      e.n_flip = 1 + (if flip then 1 else 0) ∧ e.bg_class = bg_class ∧
      e.shift_center = center_shift := by
  obtain ⟨b, hb, hbpos⟩ := base_composition_pos (R := R) sequences flip
    (by simp only [List.length_cons] at hKN; omega) (by omega) hvalid
  have hflip : 1 + (if flip = true then 1 else 0) = 2 → flip = true := by
    intro h
    by_contra hf
    simp [hf] at h
  have hmem : ∀ k < (m0 :: rest).length,
      (m0 :: rest).getD k ⟨0, 0, fun _ _ => 0⟩ ∈ m0 :: rest := by
    intro k hk
    rw [List.getD_eq_getElem?_getD, List.getElem?_eq_getElem hk]
    exact List.getElem_mem hk
  obtain ⟨e0, he0⟩ : ∃ e0 : EMSequenceEngine R, e0 =
      { sequences := sequences
        motifs := m0 :: rest
        bg_prob := b
        class_prob := ⟨(m0 :: rest).length + (if bg_class then 1 else 0),
          sequences.ncol - m0.ncol + 1, 1 + (if flip then 1 else 0), fun _ _ _ => 0⟩
        class_prob_tot := fun _ => 0
        post_prob := ⟨sequences.nrow, (m0 :: rest).length + (if bg_class then 1 else 0),
          sequences.ncol - m0.ncol + 1, 1 + (if flip then 1 else 0), fun _ _ _ _ => 0⟩
        post_prob_prev := ⟨0, 0, 0, 0, fun _ _ _ _ => 0⟩
        likelihood := ⟨sequences.nrow, (m0 :: rest).length + (if bg_class then 1 else 0),
          sequences.ncol - m0.ncol + 1, 1 + (if flip then 1 else 0), fun _ _ _ _ => 0⟩
        n_iter := 0
        n_seq := sequences.nrow
        l_seq := sequences.ncol
        n_class := (m0 :: rest).length
        l_motif := m0.ncol
        n_shift := sequences.ncol - m0.ncol + 1
        n_flip := 1 + (if flip then 1 else 0)
        bg_class := bg_class
        shift_center := center_shift } := ⟨_, rfl⟩
  have hset0 : Setup (if bg_class = true then add_background_class e0 else e0) := by
    refine setup_of_initial bg_class (by rw [he0]) ?_ ?_ ?_ ?_ ?_ ?_ ?_ ?_ ?_ ?_ ?_
    · rw [he0]; show 0 < sequences.nrow
      simp only [List.length_cons] at hKN; omega
    · rw [he0]; show 0 < (m0 :: rest).length
      simp
    · rw [he0]
    · rw [he0]; exact Nat.succ_pos _
    · rw [he0]; show 0 < 1 + _; omega
    · rw [he0]; show 1 + (if flip = true then 1 else 0) ≤ 2; split_ifs <;> omega
    · rw [he0]; exact hW
    · rw [he0]; show sequences.ncol - m0.ncol + 1 + m0.ncol ≤ sequences.ncol + 1; omega
    · rw [he0]; exact hvalid
    · rw [he0]; intro k hk; exact hrow _ (hmem k hk)
    · rw [he0]
      exact fun i hi j hj => ⟨(hbpos i hi j hj).1, fun h => (hbpos i hi j hj).2 (hflip h)⟩
  obtain ⟨e1, he1⟩ : ∃ e1, e1 = (if bg_class = true then add_background_class e0 else e0) :=
    ⟨_, rfl⟩
  rw [← he1] at hset0
  have hfacts : e1.n_iter = 0 ∧ e1.sequences = sequences ∧ e1.bg_prob = b ∧
      e1.n_class = (m0 :: rest).length + (if bg_class then 1 else 0) ∧ e1.l_motif = m0.ncol ∧
      e1.n_flip = 1 + (if flip then 1 else 0) ∧ e1.bg_class = bg_class ∧
      e1.shift_center = center_shift ∧
      (∀ k < (m0 :: rest).length, e1.motif k = (m0 :: rest).getD k ⟨0, 0, fun _ _ => 0⟩) ∧
      e1.n_trained = (m0 :: rest).length := by
    rw [he1, he0]
    by_cases hbg : bg_class = true
    · simp only [hbg, if_true, add_background_class, n_trained, motif, Nat.add_sub_cancel,
        true_and]
      refine ⟨fun k hk => ?_, trivial⟩
      rw [getD_append_left _ _ _ _ hk]
    · simp only [hbg, if_false, n_trained, motif, Nat.sub_zero, Nat.add_zero, true_and,
        Bool.false_eq_true]
      simp
  obtain ⟨f1, f2, f3, f4, f5, f6, f7, f8, f9, f10⟩ := hfacts
  have hM : ∀ k < e1.n_trained, ∀ r < 4, ∀ j < e1.l_motif, 0 < (e1.motif k).elem r j := by
    intro k hk r hr j hj
    rw [f10] at hk
    rw [f5] at hj
    rw [f9 k hk]
    exact hpos _ (hmem k hk) r hr j hj
  have hK := hset0.n_class_pos
  have hS := hset0.n_shift_pos
  have hF := hset0.n_flip_pos
  have hN := hset0.n_seq_pos
  obtain ⟨L, h1, hL⟩ := compute_likelihood_pos lm hlm hset0 hM
  have hsum : ∀ i < e1.n_seq, 0 < ∑ k ∈ range e1.n_class, ∑ s ∈ range e1.n_shift,
      ∑ f ∈ range e1.n_flip, L.elem i k s f := fun i hi => sum3_pos hK hS hF _ (hL i hi)
  have hg : ¬ ∃ i ∈ range e1.n_seq, ∃ k ∈ range e1.n_class, ∃ s ∈ range e1.n_shift,
      ∃ f ∈ range e1.n_flip, L.elem i k s f ≠ 0 ∧ (∑ k ∈ range e1.n_class,
        ∑ s ∈ range e1.n_shift, ∑ f ∈ range e1.n_flip, L.elem i k s f) = 0 := by
    push_neg
    intro i hi _ _ _ _ _ _ _
    exact (hsum i (mem_range.mp hi)).ne'
  obtain ⟨P, hP, hPpos, hPsum⟩ : ∃ P : Matrix4D R,
      P = { e1.post_prob with
            elem := fun i k s f =>
              if L.elem i k s f = 0 then c.pseudo_counts
              else L.elem i k s f / ∑ k ∈ range e1.n_class, ∑ s ∈ range e1.n_shift,
                ∑ f ∈ range e1.n_flip, L.elem i k s f } ∧
      (∀ i < e1.n_seq, ∀ k < e1.n_class, ∀ s < e1.n_shift, ∀ f < e1.n_flip,
        0 < P.elem i k s f) ∧
      (∀ i < e1.n_seq, (∑ k ∈ range e1.n_class, ∑ s ∈ range e1.n_shift,
        ∑ f ∈ range e1.n_flip, P.elem i k s f) = 1) := by
    refine ⟨_, rfl, ?_, ?_⟩
    · intro i hi k hk s hs f hf
      simp only
      rw [if_neg (hL i hi k hk s hs f hf).ne']
      exact div_pos (hL i hi k hk s hs f hf) (hsum i hi)
    · intro i hi
      rw [← sum3_div_self _ (hsum i hi).ne']
      refine Finset.sum_congr rfl fun k hk => Finset.sum_congr rfl fun s hs =>
        Finset.sum_congr rfl fun f hf => ?_
      simp only
      rw [if_neg (hL i hi k (mem_range.mp hk) s (mem_range.mp hs) f (mem_range.mp hf)).ne']
  obtain ⟨C, T, h3, hCpos, hCsum, hT⟩ := compute_class_prob_pos
    (e :=
      { e1 with
        likelihood := L
        post_prob := P })
    hN hK hS hF hPpos
  refine ⟨
      { e1 with
        likelihood := L
        post_prob := P
        class_prob := C
        class_prob_tot := T }, ?_,
      ⟨setup_of_fields hset0 rfl rfl rfl rfl rfl rfl rfl rfl rfl rfl, hPpos, hPsum, hCpos, hCsum,
        fun k _ => hT k, hM⟩, f1, f2, by rw [hb]; exact congrArg _ f3.symm, f4, f5, f6, f7, f8⟩
  unfold construct_from_motifs
  have hc1 : ¬ ((m0 :: rest).length = 0 ∨ (m0 :: rest).length > sequences.nrow) := by
    simp only [List.length_cons] at hKN ⊢
    omega
  have hc3 : ¬ ∃ m ∈ m0 :: rest, m.ncol ≠ m0.ncol := by
    push_neg
    exact hcol
  have hc4 : ¬ ∃ m ∈ m0 :: rest, m.nrow < 4 := by
    push_neg
    exact fun m hm => (hrow m hm).ge
  simp only
  rw [if_neg hc1, if_neg (by omega), if_neg hc3]
  simp only [hb, bind, Except.bind]
  rw [if_neg hc4]
  simp only [← he0, ← he1, h1]
  rw [if_neg hg, ← hP]
  exact h3

/-- What `compute_likelihood` returns when it returns. -/
theorem compute_likelihood_of_ok {lm : Libm R} {e e2 : EMSequenceEngine R}
    (h : compute_likelihood lm e = .ok e2) :
    e2 = { e with
      likelihood :=
        { e.likelihood with
          elem := fun i k s f =>
            if f = FORWARD then dexp lm (dna.score_sequence e.sequences i s (motif_log lm e k))
            else if e.n_flip = 2 ∧ f = REVERSE then
              dexp lm (dna.score_sequence e.sequences i s (motif_log_rev lm e k))
            else e.likelihood.elem i k s f } } := by
  exact (Except.ok.inj (ite_error_eq_ok h)).symm

/-- What `compute_posterior_prob` returns when it returns. -/
theorem compute_posterior_prob_of_ok {c : Constants R} {e e2 : EMSequenceEngine R}
    (h : compute_posterior_prob c e = .ok e2) :
    e2 = { e with
      post_prob :=
        { e.post_prob with
          elem := fun i k s f =>
            if e.likelihood.elem i k s f * e.class_prob.elem k s f /
                (∑ k ∈ range e.n_class, ∑ s ∈ range e.n_shift, ∑ f ∈ range e.n_flip,
                  e.likelihood.elem i k s f * e.class_prob.elem k s f) = 0
            then c.pseudo_counts
            else e.likelihood.elem i k s f * e.class_prob.elem k s f /
              (∑ k ∈ range e.n_class, ∑ s ∈ range e.n_shift, ∑ f ∈ range e.n_flip,
                e.likelihood.elem i k s f * e.class_prob.elem k s f) } } := by
  exact (Except.ok.inj (ite_error_eq_ok h)).symm

/-- What `compute_class_prob` returns when it returns. -/
theorem compute_class_prob_of_ok {e e2 : EMSequenceEngine R}
    (h : compute_class_prob e = .ok e2) :
    e2 = { e with
      class_prob :=
        { e.class_prob with
          elem := fun k s f => (∑ i ∈ range e.n_seq, e.post_prob.elem i k s f) /
            (∑ k ∈ range e.n_class, ∑ s ∈ range e.n_shift, ∑ f ∈ range e.n_flip,
              ∑ i ∈ range e.n_seq, e.post_prob.elem i k s f) }
      class_prob_tot := fun k =>
        (∑ s ∈ range e.n_shift, ∑ f ∈ range e.n_flip,
          ∑ i ∈ range e.n_seq, e.post_prob.elem i k s f) /
          (∑ k ∈ range e.n_class, ∑ s ∈ range e.n_shift, ∑ f ∈ range e.n_flip,
            ∑ i ∈ range e.n_seq, e.post_prob.elem i k s f) } := by
  exact (Except.ok.inj (ite_error_eq_ok h)).symm

/-- What `compute_motifs` returns when it returns. -/
theorem compute_motifs_of_ok {c : Constants R} {e e2 : EMSequenceEngine R}
    (h : compute_motifs c e = .ok e2) :
    e2 = { e with
      motifs := e.motifs.mapIdx fun k m =>
        if k < e.n_class - (if e.bg_class then 1 else 0) then
          { m with
            elem := fun r j =>
              if r < 4 ∧ j < e.l_motif then
                (motif_counts e k r j + c.pseudo_counts) /
                  ∑ r ∈ range 4, (motif_counts e k r j + c.pseudo_counts)
              else m.elem r j }
        else m } := by
  exact (Except.ok.inj (ite_error_eq_ok (ite_error_eq_ok h))).symm

/-- What `normalise_motifs` returns when it returns. -/
theorem normalise_motifs_of_ok {e e2 : EMSequenceEngine R}
    (h : normalise_motifs e = .ok e2) :
    e2 = { e with
      motifs := e.motifs.mapIdx fun k m =>
        if k < e.n_class - (if e.bg_class then 1 else 0) then
          { m with
            elem := fun i j =>
              if i < m.nrow ∧ j < e.l_motif then
                (e.motif k).elem i j /
                  ((∑ j ∈ range e.l_motif, (e.motif k).elem i j) /
                    (∑ j ∈ range e.l_motif, (e.motif k).elem i j)) /
                ∑ i ∈ range (e.motif k).nrow, (e.motif k).elem i j
              else m.elem i j }
        else m } := by
  exact (Except.ok.inj (ite_error_eq_ok h)).symm

/-- `center_shifts` only changes the class probabilities. -/
theorem center_shifts_of_ok {lm : Libm R} {e e2 : EMSequenceEngine R}
    (h : center_shifts lm e = .ok e2) : e2 = { e with class_prob := e2.class_prob } := by
  unfold center_shifts at h
  dsimp only at h
  split_ifs at h with h1
  · rw [← Except.ok.inj h]
  · simp only [bind, Except.bind] at h
    split at h
    · exact absurd h (by simp)
    · split_ifs at h
      rw [← Except.ok.inj h]

/-- The steps of a call of `cluster()` that returns. -/
theorem cluster_of_ok {lm : Libm R} {c : Constants R} {e e2 : EMSequenceEngine R}
    {code : clustering_codes} (h : cluster lm c e = .ok (code, e2)) :
    ∃ e1 e3 e4 e5 e6,
      compute_likelihood lm
        (if e.n_iter > 0 then { e with post_prob_prev := e.post_prob } else e) = .ok e1 ∧
      compute_posterior_prob c e1 = .ok e3 ∧ compute_class_prob e3 = .ok e4 ∧
      compute_motifs c e4 = .ok e5 ∧ normalise_motifs e5 = .ok e6 ∧
      (if e6.shift_center then center_shifts lm { e6 with n_iter := e6.n_iter + 1 }
        else .ok { e6 with n_iter := e6.n_iter + 1 }) = .ok e2 ∧
      code = if hasConverged c e2 then .CONVERGENCE else .SUCCESS := by
  unfold cluster at h
  simp only [bind, Except.bind, pure, Except.pure] at h
  split at h
  · exact absurd h (by simp)
  · rename_i e1 h1
    split at h
    · exact absurd h (by simp)
    · rename_i e3 h3
      split at h
      · exact absurd h (by simp)
      · rename_i e4 h4
        split at h
        · exact absurd h (by simp)
        · rename_i e5 h5
          split at h
          · exact absurd h (by simp)
          · rename_i e6 h6
            refine ⟨e1, e3, e4, e5, e6, h1, h3, h4, h5, h6, ?_⟩
            by_cases hsc : e6.shift_center = true
            · rw [if_pos hsc] at h ⊢
              split at h
              · exact absurd h (by simp)
              · rename_i e7 h7
                have := Except.ok.inj h
                simp only [Prod.mk.injEq] at this
                obtain ⟨h8, h9⟩ := this
                subst h9
                exact ⟨h7, h8.symm⟩
            · rw [if_neg hsc] at h ⊢
              have := Except.ok.inj h
              simp only [Prod.mk.injEq] at this
              obtain ⟨h8, h9⟩ := this
              subst h9
              exact ⟨rfl, h8.symm⟩

/-- C10: the constructor from initial motifs, called with an empty list of motifs, does not
reach its check on the number of classes: the member initialiser list has already read
`_motifs[0]`, an element that does not exist, so the outcome is an out-of-range access and not
`std::invalid_argument`. -/
theorem construct_from_motifs_empty (lm : Libm R) (c : Constants R) (sequences : Matrix2D Char)
    (flip center_shift bg_class : Bool) :
    construct_from_motifs lm c sequences [] flip center_shift bg_class
      = .error .out_of_range_access ∧
    construct_from_motifs lm c sequences [] flip center_shift bg_class
      ≠ .error .invalid_argument := by
  constructor
  · rfl
  · intro h
    exact absurd (Except.error.inj h) (by decide)

/-- C9: on a matrix of valid bases, with the seeding method "random", positive random draws and
a positive pseudo-count, the constructor without initial motifs throws `std::invalid_argument`
exactly when the number of classes is zero or exceeds the number of sequences, or the motif
length is zero or exceeds the sequence length; otherwise it returns an engine whose iteration
counter is zero. -/
theorem construct_invalid_argument_iff (c : Constants R) (hc : 0 < c.pseudo_counts)
    (rng : String → Nat → R) (sequences : Matrix2D Char) (n_class l_motif : Nat)
    (flip center_shift bg_class : Bool) (seed : String) (hd : ∀ u, 0 < rng seed u)
    (hvalid : ∀ i < sequences.nrow, ∀ j < sequences.ncol,
      dna.hash_map (sequences.elem i j) ≠ none) :
    (construct c rng sequences n_class l_motif flip center_shift bg_class seed "random"
        = .error .invalid_argument ↔
      (n_class = 0 ∨ n_class > sequences.nrow ∨ l_motif = 0 ∨ l_motif > sequences.ncol)) ∧
    (¬ (n_class = 0 ∨ n_class > sequences.nrow ∨ l_motif = 0 ∨ l_motif > sequences.ncol) →
      ∃ e, construct c rng sequences n_class l_motif flip center_shift bg_class seed "random"
        = .ok e ∧ e.n_iter = 0) := by
  have hok : ¬ (n_class = 0 ∨ n_class > sequences.nrow ∨ l_motif = 0 ∨
      l_motif > sequences.ncol) →
      ∃ e, construct c rng sequences n_class l_motif flip center_shift bg_class seed "random"
        = .ok e ∧ e.n_iter = 0 := by
    intro hb
    obtain ⟨e, he, _, _, hn, _⟩ := construct_inv c hc rng sequences n_class l_motif flip
      center_shift bg_class seed hd hvalid (by omega) (by omega) (by omega) (by omega)
    exact ⟨e, he, hn⟩
  refine ⟨⟨fun h => ?_, fun h => ?_⟩, hok⟩
  · by_contra hb
    obtain ⟨e, he, _⟩ := hok hb
    rw [he] at h
    exact absurd h (by simp)
  · unfold construct
    by_cases h1 : n_class = 0 ∨ n_class > sequences.nrow
    · simp only
      rw [if_pos h1]
    · have h2 : l_motif = 0 ∨ l_motif > sequences.ncol := by omega
      simp only
      rw [if_neg h1, if_pos h2]

/-- Reading a motif that `mapIdx` leaves alone. -/
theorem getD_mapIdx_of_fix {α : Type} (f : Nat → α → α) (l : List α) (k : Nat) (d : α)
    (hf : ∀ m, f k m = m) : (l.mapIdx f).getD k d = l.getD k d := by
  rw [getD_mapIdx]
  split_ifs with h
  · exact hf _
  · rw [List.getD_eq_getElem?_getD, List.getElem?_eq_none (by omega)]
    rfl

/-- What a call of `cluster()` that returns leaves unchanged, and what it returns. -/
theorem cluster_frame {lm : Libm R} {c : Constants R} {e e2 : EMSequenceEngine R}
    {code : clustering_codes} (h : cluster lm c e = .ok (code, e2)) :
    same_setup e e2 ∧ e2.n_iter = e.n_iter + 1 ∧
    e2.post_prob_prev = (if e.n_iter > 0 then e.post_prob else e.post_prob_prev) ∧
    e2.motifs.length = e.motifs.length ∧
    (∀ k, e.n_trained ≤ k → e2.motif k = e.motif k) ∧
    code = (if hasConverged c e2 then .CONVERGENCE else .SUCCESS) := by
  obtain ⟨e1, e3, e4, e5, e6, h1, h3, h4, h5, h6, h7, hcode⟩ := cluster_of_ok h
  have g1 := compute_likelihood_of_ok h1
  have g3 := compute_posterior_prob_of_ok h3
  have g4 := compute_class_prob_of_ok h4
  have g5 := compute_motifs_of_ok h5
  have g6 := normalise_motifs_of_ok h6
  have g7 : e2 = { e6 with n_iter := e6.n_iter + 1, class_prob := e2.class_prob } := by
    by_cases hsc : e6.shift_center = true
    · rw [if_pos hsc] at h7
      exact center_shifts_of_ok h7
    · rw [if_neg hsc] at h7
      rw [← Except.ok.inj h7]
  have hm6 : ∀ k, e5.n_trained ≤ k → e6.motif k = e5.motif k := by
    intro k hk
    rw [g6]
    simp only [motif]
    exact getD_mapIdx_of_fix _ _ _ _ fun m =>
      if_neg (not_lt.mpr (show e5.n_class - (if e5.bg_class then 1 else 0) ≤ k from hk))
  have hm5 : ∀ k, e4.n_trained ≤ k → e5.motif k = e4.motif k := by
    intro k hk
    rw [g5]
    simp only [motif]
    exact getD_mapIdx_of_fix _ _ _ _ fun m =>
      if_neg (not_lt.mpr (show e4.n_class - (if e4.bg_class then 1 else 0) ≤ k from hk))
  have hl6 : e6.motifs.length = e5.motifs.length := by
    rw [g6]; exact List.length_mapIdx
  have hl5 : e5.motifs.length = e4.motifs.length := by
    rw [g5]; exact List.length_mapIdx
  have key : ∀ e0 : EMSequenceEngine R, compute_likelihood lm e0 = .ok e1 →
      same_setup e0 e2 ∧ e2.n_iter = e0.n_iter + 1 ∧ e2.post_prob_prev = e0.post_prob_prev ∧
      e2.motifs.length = e0.motifs.length ∧ (∀ k, e0.n_trained ≤ k → e2.motif k = e0.motif k) := by
    intro e0 h0
    have g0 := compute_likelihood_of_ok h0
    have a5 : e5.n_trained = e0.n_trained := by rw [g5, g4, g3, g0]; rfl
    have a4 : e4.n_trained = e0.n_trained := by rw [g4, g3, g0]; rfl
    have b4 : e4.motifs = e0.motifs := by rw [g4, g3, g0]
    refine ⟨?_, ?_, ?_, ?_, ?_⟩
    · rw [g7, g6, g5, g4, g3, g0]
      exact ⟨rfl, rfl, rfl, rfl, rfl, rfl, rfl, rfl, rfl, rfl⟩
    · rw [g7, g6, g5, g4, g3, g0]
    · rw [g7, g6, g5, g4, g3, g0]
    · have : e2.motifs = e6.motifs := by rw [g7]
      rw [this, hl6, hl5, b4]
    · intro k hk
      have h26 : e2.motif k = e6.motif k := by rw [g7]; rfl
      have h40 : e4.motif k = e0.motif k := by unfold motif; rw [b4]
      rw [h26, hm6 k (by rw [a5]; exact hk), hm5 k (by rw [a4]; exact hk), h40]
  by_cases hn : e.n_iter > 0
  · rw [if_pos hn] at h1 ⊢
    obtain ⟨k1, k2, k3, k4, k5⟩ := key _ h1
    exact ⟨k1, k2, k3, k4, k5, hcode⟩
  · rw [if_neg hn] at h1 ⊢
    obtain ⟨k1, k2, k3, k4, k5⟩ := key _ h1
    exact ⟨k1, k2, k3, k4, k5, hcode⟩

/-- The code `cluster()` returns, in terms of the engine before the call. -/
theorem cluster_code {lm : Libm R} {c : Constants R} {e e2 : EMSequenceEngine R}
    {code : clustering_codes} (h : cluster lm c e = .ok (code, e2)) :
    (code = .CONVERGENCE ↔ 2 ≤ e2.n_iter ∧ ∀ u < e2.post_prob.get_data_size,
      |e2.post_prob.get u - e.post_prob.get u| ≤ c.delta_max) ∧
    (code ≠ .CONVERGENCE → code = .SUCCESS) := by
  obtain ⟨_, hit, hprev, _, _, hcode⟩ := cluster_frame h
  constructor
  · rw [hcode]
    unfold hasConverged
    by_cases h1 : e2.n_iter = 1
    · simp only [h1, if_true]
      constructor
      · intro hx
        exact absurd hx (by simp)
      · intro hx
        omega
    · have hpos : e.n_iter > 0 := by omega
      rw [if_pos hpos] at hprev
      rw [if_neg h1, hprev]
      simp only [not_lt, mem_range, decide_eq_true_eq]
      constructor
      · intro hx
        split_ifs at hx with h2
        exact ⟨by omega, h2⟩
      · intro hx
        rw [if_pos hx.2]
  · intro hne
    rw [hcode] at hne ⊢
    split_ifs at hne ⊢
    · exact absurd rfl hne
    · rfl

/-- Any number of calls of `cluster()` after the constructor without initial motifs, on valid
bases, bounds respected and positive random draws: every call succeeds and the invariant
holds, with normalised motif columns. -/
theorem construct_run (lm : Libm R) (hlm : lm.Sound) (c : Constants R)
    (hc : 0 < c.pseudo_counts) (rng : String → Nat → R)
    (sequences : Matrix2D Char) (n_class l_motif : Nat) (flip center_shift bg_class : Bool)
    (seed : String) (hd : ∀ u, 0 < rng seed u)
    (hvalid : ∀ i < sequences.nrow, ∀ j < sequences.ncol,
      dna.hash_map (sequences.elem i j) ≠ none)
    (hK : 0 < n_class) (hKN : n_class ≤ sequences.nrow)
    (hW : 0 < l_motif) (hWL : l_motif ≤ sequences.ncol) (n : Nat) :
    ∃ e, cluster_n_after lm c
        (construct c rng sequences n_class l_motif flip center_shift bg_class seed "random") n
        = .ok e ∧
      e.Inv ∧ e.ColumnsNormalised ∧ e.n_iter = n ∧ e.sequences = sequences ∧
      dna.base_composition sequences flip = .ok e.bg_prob ∧
      e.n_class = n_class + (if bg_class then 1 else 0) ∧ e.l_motif = l_motif ∧
      e.bg_class = bg_class := by
  obtain ⟨e0, h0, hI0, hC0, hn0, hs0, hb0, hk0, hl0, _, hbg0, _⟩ := construct_inv c hc rng
    sequences n_class l_motif flip center_shift bg_class seed hd hvalid hK hKN hW hWL
  obtain ⟨e, h1, hI, hss, hn, hC⟩ := cluster_n_inv lm hlm c hc hI0 n
  obtain ⟨s1, s2, _, _, s5, s6, _, _, s9, _⟩ := hss
  refine ⟨e, ?_, hI, ?_, by rw [hn, hn0, Nat.zero_add], s1.trans hs0, by rw [s2]; exact hb0,
    s5.trans hk0, s6.trans hl0, s9.trans hbg0⟩
  · simp only [cluster_n_after, h0, bind, Except.bind]
    exact h1
  · rcases Nat.eq_zero_or_pos n with hz | hp
    · subst hz
      simp only [cluster_n, Except.ok.injEq] at h1
      rw [← h1]
      exact hC0
    · exact hC hp

/-- Any number of calls of `cluster()` after the constructor from initial motifs that have four
rows, one width within bounds and positive cells, on valid bases: every call succeeds and the
invariant holds, with normalised motif columns once `cluster()` has been called. -/
theorem construct_from_motifs_run (lm : Libm R) (hlm : lm.Sound) (c : Constants R)
    (hc : 0 < c.pseudo_counts)
    (sequences : Matrix2D Char) (m0 : Matrix2D R) (rest : List (Matrix2D R))
    (flip center_shift bg_class : Bool)
    (hvalid : ∀ i < sequences.nrow, ∀ j < sequences.ncol,
      dna.hash_map (sequences.elem i j) ≠ none)
    (hKN : (m0 :: rest).length ≤ sequences.nrow)
    (hW : 0 < m0.ncol) (hWL : m0.ncol ≤ sequences.ncol)
    (hcol : ∀ m ∈ m0 :: rest, m.ncol = m0.ncol)
    (hrow : ∀ m ∈ m0 :: rest, m.nrow = 4)
    (hpos : ∀ m ∈ m0 :: rest, ∀ r < 4, ∀ j < m0.ncol, 0 < m.elem r j) (n : Nat) :
    ∃ e, cluster_n_after lm c
        (construct_from_motifs lm c sequences (m0 :: rest) flip center_shift bg_class) n
        = .ok e ∧
      e.Inv ∧ (0 < n → e.ColumnsNormalised) ∧ e.n_iter = n ∧ e.sequences = sequences ∧
      dna.base_composition sequences flip = .ok e.bg_prob ∧
      e.n_class = (m0 :: rest).length + (if bg_class then 1 else 0) ∧ e.l_motif = m0.ncol ∧
      e.bg_class = bg_class := by
  obtain ⟨e0, h0, hI0, hn0, hs0, hb0, hk0, hl0, _, hbg0, _⟩ := construct_from_motifs_inv lm hlm
    c sequences m0 rest flip center_shift bg_class hvalid hKN hW hWL hcol hrow hpos
  obtain ⟨e, h1, hI, hss, hn, hC⟩ := cluster_n_inv lm hlm c hc hI0 n
  obtain ⟨s1, s2, _, _, s5, s6, _, _, s9, _⟩ := hss
  refine ⟨e, ?_, hI, hC, by rw [hn, hn0, Nat.zero_add], s1.trans hs0, by rw [s2]; exact hb0,
    s5.trans hk0, s6.trans hl0, s9.trans hbg0⟩
  simp only [cluster_n_after, h0, bind, Except.bind]
  exact h1

/-- The invariant gives the normalisation of the class probabilities. -/
theorem class_prob_normalised_of_inv {e : EMSequenceEngine R} (h : e.Inv) :
    e.ClassProbNormalised := by
  refine ⟨h.class_sum, h.class_tot, ?_⟩
  rw [← h.class_sum]
  exact Finset.sum_congr rfl fun k hk => h.class_tot k (mem_range.mp hk)

/-- The invariant and normalised columns give motifs normalised within the tolerance. -/
theorem motifs_normalised_of_inv {e : EMSequenceEngine R} (h : e.Inv)
    (hcol : e.ColumnsNormalised) (c : Constants R) (hc : 0 < c.pseudo_counts) :
    e.MotifsNormalised c := by
  intro k hk j hj
  refine ⟨?_, fun r hr => h.motif_pos k hk r hr j hj⟩
  rw [hcol k hk j hj, sub_self, abs_zero]
  positivity

/-- The functions of the real numbers have what `Libm.Sound` asks. -/
theorem real_libm_sound : (⟨Real.log, Real.exp, Real.sqrt, Real.pi⟩ : Libm ℝ).Sound :=
  ⟨Real.exp_pos, fun _ hx => Real.sqrt_pos.mpr hx, Real.pi_pos⟩

theorem acgt_valid : ∀ i < acgt.nrow, ∀ j < acgt.ncol,
    dna.hash_map (acgt.elem i j) ≠ none := by
  intro i _ j _
  simp only [acgt]
  split_ifs <;> decide

/-- The class probabilities on the executions in which no division has divisor zero: after the
constructor without initial motifs, given positive random draws, or the constructor from initial
motifs, given motifs of four rows whose cells are all positive, and after any number of calls of
`cluster()`, with or without shift centring, the class probabilities sum to one, every marginal
`_class_prob_tot[k]` is the sum of `_class_prob(k,s,f)` over shifts and flip states, and the
marginals sum to one; and `center_shifts` leaves the marginals unchanged and equal to the sums
of the class probabilities it has rewritten. -/
theorem class_prob_normalised (lm : Libm R) (hlm : lm.Sound) (c : Constants R)
    (hc : 0 < c.pseudo_counts) :
    (∀ (rng : String → Nat → R) (sequences : Matrix2D Char) (n_class l_motif : Nat)
        (flip center_shift bg_class : Bool) (seed : String),
      (∀ u, 0 < rng seed u) →
      (∀ i < sequences.nrow, ∀ j < sequences.ncol, dna.hash_map (sequences.elem i j) ≠ none) →
      0 < n_class → n_class ≤ sequences.nrow → 0 < l_motif → l_motif ≤ sequences.ncol →
      ∀ n, ∃ e, cluster_n_after lm c
          (construct c rng sequences n_class l_motif flip center_shift bg_class seed "random") n
          = .ok e ∧ e.ClassProbNormalised) ∧
    (∀ (sequences : Matrix2D Char) (m0 : Matrix2D R) (rest : List (Matrix2D R))
        (flip center_shift bg_class : Bool),
      (∀ i < sequences.nrow, ∀ j < sequences.ncol, dna.hash_map (sequences.elem i j) ≠ none) →
      (m0 :: rest).length ≤ sequences.nrow → 0 < m0.ncol → m0.ncol ≤ sequences.ncol →
      (∀ m ∈ m0 :: rest, m.ncol = m0.ncol) → (∀ m ∈ m0 :: rest, m.nrow = 4) →
      (∀ m ∈ m0 :: rest, ∀ r < 4, ∀ j < m0.ncol, 0 < m.elem r j) →
      ∀ n, ∃ e, cluster_n_after lm c
          (construct_from_motifs lm c sequences (m0 :: rest) flip center_shift bg_class) n
          = .ok e ∧ e.ClassProbNormalised) ∧
    (∀ e : EMSequenceEngine R, e.Inv →
      ∃ e2, center_shifts lm e = .ok e2 ∧ e2.class_prob_tot = e.class_prob_tot ∧
        ∀ k < e.n_class,
          (∑ s ∈ range e.n_shift, ∑ f ∈ range e.n_flip, e2.class_prob.elem k s f)
            = e.class_prob_tot k) := by
  refine ⟨?_, ?_, ?_⟩
  · intro rng sequences n_class l_motif flip center_shift bg_class seed hd hvalid hK hKN hW hWL n
    obtain ⟨e, he, hI, _⟩ := construct_run lm hlm c hc rng sequences n_class l_motif flip
      center_shift bg_class seed hd hvalid hK hKN hW hWL n
    exact ⟨e, he, class_prob_normalised_of_inv hI⟩
  · intro sequences m0 rest flip center_shift bg_class hvalid hKN hW hWL hcol hrow hpos n
    obtain ⟨e, he, hI, _⟩ := construct_from_motifs_run lm hlm c hc sequences m0 rest flip
      center_shift bg_class hvalid hKN hW hWL hcol hrow hpos n
    exact ⟨e, he, class_prob_normalised_of_inv hI⟩
  · intro e hI
    obtain ⟨C, h1, _, h3⟩ := center_shifts_pos lm hlm hI.n_class_pos hI.n_shift_pos
      hI.n_flip_pos hI.class_pos hI.class_tot
    exact ⟨_, h1, rfl, h3⟩

/-- The normalisation of the class probabilities on an instance: the sequence "ACGT", one class
and a background class, motifs of width two, both strands, shift centring, and three calls of
`cluster()`. -/
theorem class_prob_normalised_witness :
    ∃ e, cluster_n_after (⟨Real.log, Real.exp, Real.sqrt, Real.pi⟩ : Libm ℝ)
        ⟨1 / 1000000, 1 / 100000000⟩
        (construct ⟨1 / 1000000, 1 / 100000000⟩ (fun _ _ => 1 / 2) acgt 1 2 true true true ""
          "random") 3 = .ok e ∧ e.ClassProbNormalised :=
  (class_prob_normalised (⟨Real.log, Real.exp, Real.sqrt, Real.pi⟩ : Libm ℝ) real_libm_sound
    ⟨1 / 1000000, 1 / 100000000⟩ (by norm_num)).1 (fun _ _ => 1 / 2) acgt 1 2 true true true ""
    (fun _ => by norm_num) acgt_valid (by decide) (by decide) (by decide) (by decide) 3

theorem uniform_motif_props :
    (∀ m ∈ [(uniform_motif : Matrix2D ℝ)], m.ncol = (uniform_motif : Matrix2D ℝ).ncol) ∧
    (∀ m ∈ [(uniform_motif : Matrix2D ℝ)], m.nrow = 4) ∧
    (∀ m ∈ [(uniform_motif : Matrix2D ℝ)], ∀ r < 4,
      ∀ j < (uniform_motif : Matrix2D ℝ).ncol, 0 < m.elem r j) := by
  refine ⟨?_, ?_, ?_⟩
  · intro m hm
    rw [List.mem_singleton.mp hm]
  · intro m hm
    rw [List.mem_singleton.mp hm]
    rfl
  · intro m hm r _ j _
    rw [List.mem_singleton.mp hm]
    simp only [uniform_motif]
    norm_num

/-- The last element of a non-empty list, by its index. -/
theorem getLast?_eq_getD {α : Type} (l : List α) (d : α) (h : 0 < l.length) :
    l.getLast? = some (l.getD (l.length - 1) d) := by
  rw [List.getLast?_eq_getElem?, List.getD_eq_getElem?_getD,
    List.getElem?_eq_getElem (by omega)]
  rfl

/-- With a background class, the invariant says that the last motif is the base composition. -/
theorem Inv.last_motif {e : EMSequenceEngine R} (h : e.Inv) (hbg : e.bg_class = true) :
    ∃ m, e.get_motifs.getLast? = some m ∧ ∀ r < 4, ∀ j < e.l_motif, m.elem r j = e.bg_prob r := by
  refine ⟨e.motif (e.n_class - 1), ?_, h.bg_motif hbg⟩
  unfold get_motifs motif
  rw [← h.motifs_len]
  exact getLast?_eq_getD _ _ (by rw [h.motifs_len]; exact h.n_class_pos)

/-- C4: `compute_motifs` followed by `normalise_motifs`, on an engine with a positive posterior
and with a positive pseudo-count, succeeds and leaves every trained motif with each column
summing to one within ten pseudo-counts and with every cell positive; hence this holds after
the constructor without initial motifs and after every call of `cluster()` on an engine built
by either constructor. -/
theorem motifs_normalised (lm : Libm R) (hlm : lm.Sound) (c : Constants R)
    (hc : 0 < c.pseudo_counts) :
    (∀ e : EMSequenceEngine R, e.Setup →
      (∀ i < e.n_seq, ∀ k < e.n_class, ∀ s < e.n_shift, ∀ f < e.n_flip,
        0 < e.post_prob.elem i k s f) →
      ∃ e1 e2, compute_motifs c e = .ok e1 ∧ normalise_motifs e1 = .ok e2 ∧
        e2.MotifsNormalised c) ∧
    (∀ (rng : String → Nat → R) (sequences : Matrix2D Char) (n_class l_motif : Nat)
        (flip center_shift bg_class : Bool) (seed : String),
      (∀ u, 0 < rng seed u) →
      (∀ i < sequences.nrow, ∀ j < sequences.ncol, dna.hash_map (sequences.elem i j) ≠ none) →
      0 < n_class → n_class ≤ sequences.nrow → 0 < l_motif → l_motif ≤ sequences.ncol →
      ∀ n, ∃ e, cluster_n_after lm c
          (construct c rng sequences n_class l_motif flip center_shift bg_class seed "random") n
          = .ok e ∧ e.MotifsNormalised c) ∧
    (∀ (sequences : Matrix2D Char) (m0 : Matrix2D R) (rest : List (Matrix2D R))
        (flip center_shift bg_class : Bool),
      (∀ i < sequences.nrow, ∀ j < sequences.ncol, dna.hash_map (sequences.elem i j) ≠ none) →
      (m0 :: rest).length ≤ sequences.nrow → 0 < m0.ncol → m0.ncol ≤ sequences.ncol →
      (∀ m ∈ m0 :: rest, m.ncol = m0.ncol) → (∀ m ∈ m0 :: rest, m.nrow = 4) →
      (∀ m ∈ m0 :: rest, ∀ r < 4, ∀ j < m0.ncol, 0 < m.elem r j) →
      ∀ n, ∃ e, cluster_n_after lm c
          (construct_from_motifs lm c sequences (m0 :: rest) flip center_shift bg_class) (n + 1)
          = .ok e ∧ e.MotifsNormalised c) := by
  refine ⟨?_, ?_, ?_⟩
  · intro e hS hP
    obtain ⟨M, h4, hMlen, hMrow, hMpos, hMcol, _⟩ := compute_motifs_pos c hc
      hS.n_flip_pos hS.window hS.valid hS.motifs_len
      (fun i hi k hk s hs f hf => (hP i hi k hk s hs f hf).le)
    obtain ⟨M2, h5, _, _, hM2val, _⟩ := normalise_motifs_pos
      (e := { e with motifs := M })
      hS.l_motif_pos (hMlen.trans hS.motifs_len)
      (fun k hk => (hMrow k hk).trans (hS.motif_nrow k hk)) hMpos
    refine ⟨_, _, h4, h5, ?_⟩
    have hM2eq : ∀ k < e.n_trained, ∀ r < 4, ∀ j < e.l_motif,
        (M2.getD k ⟨0, 0, fun _ _ => 0⟩).elem r j = (M.getD k ⟨0, 0, fun _ _ => 0⟩).elem r j := by
      intro k hk r hr j hj
      have := hM2val k hk r hr j hj
      simp only [motif] at this
      rw [this, hMcol k hk j hj, div_one]
    intro k hk j hj
    constructor
    · have h1 : motif_col_sum { e with motifs := M2 } k j = 1 := by
        show (∑ r ∈ range 4, (M2.getD k ⟨0, 0, fun _ _ => 0⟩).elem r j) = 1
        rw [← hMcol k hk j hj]
        exact Finset.sum_congr rfl fun r hr => hM2eq k hk r (mem_range.mp hr) j hj
      rw [h1, sub_self, abs_zero]
      positivity
    · intro r hr
      show 0 < (M2.getD k ⟨0, 0, fun _ _ => 0⟩).elem r j
      rw [hM2eq k hk r hr j hj]
      exact hMpos k hk r hr j hj
  · intro rng sequences n_class l_motif flip center_shift bg_class seed hd hvalid hK hKN hW hWL n
    obtain ⟨e, he, hI, hcol, _⟩ := construct_run lm hlm c hc rng sequences n_class l_motif flip
      center_shift bg_class seed hd hvalid hK hKN hW hWL n
    exact ⟨e, he, motifs_normalised_of_inv hI hcol c hc⟩
  · intro sequences m0 rest flip center_shift bg_class hvalid hKN hW hWL hcol hrow hpos n
    obtain ⟨e, he, hI, hcn, _⟩ := construct_from_motifs_run lm hlm c hc sequences m0 rest flip
      center_shift bg_class hvalid hKN hW hWL hcol hrow hpos (n + 1)
    exact ⟨e, he, motifs_normalised_of_inv hI (hcn (Nat.succ_pos n)) c hc⟩

/-- C4, on an instance: the sequence "ACGT", a uniform initial motif of width two, a
background class, both strands, and two calls of `cluster()`. -/
theorem motifs_normalised_witness :
    ∃ e, cluster_n_after (⟨Real.log, Real.exp, Real.sqrt, Real.pi⟩ : Libm ℝ)
        ⟨1 / 1000000, 1 / 100000000⟩
        (construct_from_motifs ⟨Real.log, Real.exp, Real.sqrt, Real.pi⟩
          ⟨1 / 1000000, 1 / 100000000⟩ acgt [uniform_motif] true false true) (1 + 1) = .ok e ∧
      e.MotifsNormalised ⟨1 / 1000000, 1 / 100000000⟩ :=
  (motifs_normalised (⟨Real.log, Real.exp, Real.sqrt, Real.pi⟩ : Libm ℝ) real_libm_sound
    ⟨1 / 1000000, 1 / 100000000⟩ (by norm_num)).2.2 acgt uniform_motif [] true false true
    acgt_valid (by decide) (by decide) (by decide) uniform_motif_props.1 uniform_motif_props.2.1
    uniform_motif_props.2.2 1

/-- C6: with a background class, after either constructor and after any number of calls of
`cluster()`, the last motif of `get_motifs()` has in every column the base composition computed
from the sequences; and a call of `cluster()` leaves the motifs of the classes that are not
trained, and the background vector, as they were. -/
theorem background_motif_frozen (lm : Libm R) (hlm : lm.Sound) (c : Constants R)
    (hc : 0 < c.pseudo_counts) :
    (∀ (rng : String → Nat → R) (sequences : Matrix2D Char) (n_class l_motif : Nat)
        (flip center_shift : Bool) (seed : String),
      (∀ u, 0 < rng seed u) →
      (∀ i < sequences.nrow, ∀ j < sequences.ncol, dna.hash_map (sequences.elem i j) ≠ none) →
      0 < n_class → n_class ≤ sequences.nrow → 0 < l_motif → l_motif ≤ sequences.ncol →
      ∀ n, ∃ e b m, cluster_n_after lm c
          (construct c rng sequences n_class l_motif flip center_shift true seed "random") n
          = .ok e ∧ dna.base_composition sequences flip = .ok b ∧
        e.get_motifs.getLast? = some m ∧ ∀ r < 4, ∀ j < l_motif, m.elem r j = b r) ∧
    (∀ (sequences : Matrix2D Char) (m0 : Matrix2D R) (rest : List (Matrix2D R))
        (flip center_shift : Bool),
      (∀ i < sequences.nrow, ∀ j < sequences.ncol, dna.hash_map (sequences.elem i j) ≠ none) →
      (m0 :: rest).length ≤ sequences.nrow → 0 < m0.ncol → m0.ncol ≤ sequences.ncol →
      (∀ m ∈ m0 :: rest, m.ncol = m0.ncol) → (∀ m ∈ m0 :: rest, m.nrow = 4) →
      (∀ m ∈ m0 :: rest, ∀ r < 4, ∀ j < m0.ncol, 0 < m.elem r j) →
      ∀ n, ∃ e b m, cluster_n_after lm c
          (construct_from_motifs lm c sequences (m0 :: rest) flip center_shift true) n
          = .ok e ∧ dna.base_composition sequences flip = .ok b ∧
        e.get_motifs.getLast? = some m ∧ ∀ r < 4, ∀ j < m0.ncol, m.elem r j = b r) ∧
    (∀ (e e2 : EMSequenceEngine R) (code : clustering_codes),
      cluster lm c e = .ok (code, e2) →
      e2.bg_prob = e.bg_prob ∧ e2.get_motifs.length = e.get_motifs.length ∧
      ∀ k, e.n_trained ≤ k → e2.motif k = e.motif k) := by
  refine ⟨?_, ?_, ?_⟩
  · intro rng sequences n_class l_motif flip center_shift seed hd hvalid hK hKN hW hWL n
    obtain ⟨e, he, hI, _, _, _, hb, _, hl, hbg⟩ := construct_run lm hlm c hc rng sequences
      n_class l_motif flip center_shift true seed hd hvalid hK hKN hW hWL n
    obtain ⟨m, hm, hmb⟩ := hI.last_motif hbg
    exact ⟨e, e.bg_prob, m, he, hb, hm, fun r hr j hj => hmb r hr j (by rw [hl]; exact hj)⟩
  · intro sequences m0 rest flip center_shift hvalid hKN hW hWL hcol hrow hpos n
    obtain ⟨e, he, hI, _, _, _, hb, _, hl, hbg⟩ := construct_from_motifs_run lm hlm c hc
      sequences m0 rest flip center_shift true hvalid hKN hW hWL hcol hrow hpos n
    obtain ⟨m, hm, hmb⟩ := hI.last_motif hbg
    exact ⟨e, e.bg_prob, m, he, hb, hm, fun r hr j hj => hmb r hr j (by rw [hl]; exact hj)⟩
  · intro e e2 code h
    obtain ⟨hss, _, _, hlen, hm, _⟩ := cluster_frame h
    exact ⟨hss.2.1, hlen, hm⟩

/-- C6, on an instance: the sequence "ACGT", one class and a background class, motifs of width
two, and five calls of `cluster()`. -/
theorem background_motif_frozen_witness :
    ∃ e b m, cluster_n_after (⟨Real.log, Real.exp, Real.sqrt, Real.pi⟩ : Libm ℝ)
        ⟨1 / 1000000, 1 / 100000000⟩
        (construct ⟨1 / 1000000, 1 / 100000000⟩ (fun _ _ => 1 / 2) acgt 1 2 false false true ""
          "random") 5 = .ok e ∧
      dna.base_composition acgt false = .ok b ∧
      e.get_motifs.getLast? = some m ∧ ∀ r < 4, ∀ j < 2, m.elem r j = b r :=
  (background_motif_frozen (⟨Real.log, Real.exp, Real.sqrt, Real.pi⟩ : Libm ℝ) real_libm_sound
    ⟨1 / 1000000, 1 / 100000000⟩ (by norm_num)).1 (fun _ _ => 1 / 2) acgt 1 2 false false ""
    (fun _ => by norm_num) acgt_valid (by decide) (by decide) (by decide) (by decide) 5

/-- The code of a call of `cluster()` in which no division has divisor zero, so that the
posterior holds numbers: the call increments the iteration counter; it returns `CONVERGENCE`
exactly when the incremented counter is at least two and, at every flat index of the posterior
tensor, the new posterior is within `delta_max` of the posterior the call started with;
otherwise it returns `SUCCESS`; so the first call on a new engine does not return
`CONVERGENCE`. -/
theorem cluster_returns_convergence_iff {lm : Libm R} {c : Constants R}
    {e e2 : EMSequenceEngine R} {code : clustering_codes}
    (h : cluster lm c e = .ok (code, e2)) :
    e2.n_iter = e.n_iter + 1 ∧
    (code = .CONVERGENCE ↔ 2 ≤ e2.n_iter ∧ ∀ u < e2.post_prob.get_data_size,
      |e2.post_prob.get u - e.post_prob.get u| ≤ c.delta_max) ∧
    (code ≠ .CONVERGENCE → code = .SUCCESS) ∧
    (e.n_iter = 0 → code ≠ .CONVERGENCE) := by
  obtain ⟨_, hit, _⟩ := cluster_frame h
  obtain ⟨h1, h2⟩ := cluster_code h
  refine ⟨hit, h1, h2, fun h0 hcv => ?_⟩
  have := (h1.mp hcv).1
  omega

/-- The code of the first call of `cluster()` on the engine built for the sequence "ACGT" with
one class and motifs of width two. -/
theorem cluster_returns_convergence_iff_witness :
    ∃ e code e2,
      construct (⟨1 / 1000000, 1 / 100000000⟩ : Constants ℝ) (fun _ _ => 1 / 2) acgt 1 2 false
        false false "" "random" = .ok e ∧
      cluster (⟨Real.log, Real.exp, Real.sqrt, Real.pi⟩ : Libm ℝ) ⟨1 / 1000000, 1 / 100000000⟩ e
        = .ok (code, e2) ∧
      e2.n_iter = e.n_iter + 1 ∧
      (code = .CONVERGENCE ↔ 2 ≤ e2.n_iter ∧ ∀ u < e2.post_prob.get_data_size,
        |e2.post_prob.get u - e.post_prob.get u| ≤ 1 / 1000000) ∧
      (code ≠ .CONVERGENCE → code = .SUCCESS) ∧
      (e.n_iter = 0 → code ≠ .CONVERGENCE) := by
  obtain ⟨e, he, hI, _⟩ := construct_inv (⟨1 / 1000000, 1 / 100000000⟩ : Constants ℝ)
    (by norm_num) (fun _ _ => 1 / 2) acgt 1 2 false false false "" (fun _ => by norm_num)
    acgt_valid (by decide) (by decide) (by decide) (by decide)
  obtain ⟨e2, h2, _⟩ := cluster_inv (⟨Real.log, Real.exp, Real.sqrt, Real.pi⟩ : Libm ℝ)
    real_libm_sound ⟨1 / 1000000, 1 / 100000000⟩ (by norm_num) hI
  exact ⟨e, _, e2, he, h2, cluster_returns_convergence_iff h2⟩

/-- `compute_likelihood` returns when the windows stay inside valid sequences. -/
theorem compute_likelihood_ok (lm : Libm R) {e : EMSequenceEngine R}
    (hwin : e.n_shift + e.l_motif ≤ e.l_seq + 1)
    (hvalid : ∀ i < e.n_seq, ∀ j < e.l_seq, dna.hash_map (e.sequences.elem i j) ≠ none) :
    compute_likelihood lm e = .ok { e with
      likelihood :=
        { e.likelihood with
          elem := fun i k s f =>
            if f = FORWARD then dexp lm (dna.score_sequence e.sequences i s (motif_log lm e k))
            else if e.n_flip = 2 ∧ f = REVERSE then
              dexp lm (dna.score_sequence e.sequences i s (motif_log_rev lm e k))
            else e.likelihood.elem i k s f } } := by
  have hg : ¬ ∃ _k ∈ range e.n_class, ∃ i ∈ range e.n_seq, ∃ s ∈ range e.n_shift,
      ∃ j ∈ range e.l_motif, dna.hash_map (e.sequences.elem i (s + j)) = none := by
    push_neg
    intro _ _ i hi s hs j hj
    have hs := mem_range.mp hs
    have hj := mem_range.mp hj
    exact hvalid i (mem_range.mp hi) _ (by omega)
  unfold compute_likelihood
  rw [if_neg hg]

/-- `compute_posterior_prob` divides by zero when, for some sequence, the products of
likelihood and class probability sum to zero. -/
theorem compute_posterior_prob_div0 (c : Constants R) {e : EMSequenceEngine R} {i : Nat}
    (hi : i < e.n_seq) (hK : 0 < e.n_class) (hS : 0 < e.n_shift) (hF : 0 < e.n_flip)
    (hsum : (∑ k ∈ range e.n_class, ∑ s ∈ range e.n_shift, ∑ f ∈ range e.n_flip,
      e.likelihood.elem i k s f * e.class_prob.elem k s f) = 0) :
    compute_posterior_prob c e = .error .division_by_zero := by
  unfold compute_posterior_prob
  rw [if_pos]
  exact ⟨i, mem_range.mpr hi, 0, mem_range.mpr hK, 0, mem_range.mpr hS, 0, mem_range.mpr hF,
    hsum⟩

/-- The constructor from initial motifs, whatever their cells, on valid bases and with bounds
respected: it returns, the posterior is the likelihood divided by its sum for the sequence
where the likelihood is not zero and the pseudo-count where it is zero, and the likelihood is
the one `compute_likelihood` computes from the motifs of the engine. -/
theorem construct_from_motifs_ok (lm : Libm R) (hlm : lm.Sound) (c : Constants R)
    (hc : 0 < c.pseudo_counts)
    (sequences : Matrix2D Char) (m0 : Matrix2D R) (rest : List (Matrix2D R))
    (flip center_shift bg_class : Bool)
    (hvalid : ∀ i < sequences.nrow, ∀ j < sequences.ncol,
      dna.hash_map (sequences.elem i j) ≠ none)
    (hKN : (m0 :: rest).length ≤ sequences.nrow)
    (hW : 0 < m0.ncol) (hWL : m0.ncol ≤ sequences.ncol)
    (hcol : ∀ m ∈ m0 :: rest, m.ncol = m0.ncol)
    (hrow4 : ∀ m ∈ m0 :: rest, 4 ≤ m.nrow) :
    ∃ e, construct_from_motifs lm c sequences (m0 :: rest) flip center_shift bg_class = .ok e ∧
      e.n_iter = 0 ∧ e.sequences = sequences ∧ e.n_seq = sequences.nrow ∧
      e.l_seq = sequences.ncol ∧
      e.n_class = (m0 :: rest).length + (if bg_class then 1 else 0) ∧ e.l_motif = m0.ncol ∧
      e.n_shift = sequences.ncol - m0.ncol + 1 ∧
      e.n_flip = 1 + (if flip then 1 else 0) ∧ e.bg_class = bg_class ∧
      e.shift_center = center_shift ∧
      (∀ k < (m0 :: rest).length, e.motif k = (m0 :: rest).getD k ⟨0, 0, fun _ _ => 0⟩) ∧
      (∀ i k s, e.likelihood.elem i k s FORWARD =
        dexp lm (dna.score_sequence e.sequences i s (motif_log lm e k))) ∧
      (∀ i k s f, e.post_prob.elem i k s f =
        if e.likelihood.elem i k s f = 0 then c.pseudo_counts
        else e.likelihood.elem i k s f /
          ∑ k ∈ range e.n_class, ∑ s ∈ range e.n_shift, ∑ f ∈ range e.n_flip,
            e.likelihood.elem i k s f) ∧
      (∀ k < e.n_class, ∀ s < e.n_shift, ∀ f < e.n_flip, 0 < e.class_prob.elem k s f) ∧
      dna.base_composition sequences flip = .ok e.bg_prob ∧
      (bg_class = true →
        e.motif (m0 :: rest).length = ⟨4, m0.ncol, fun r _ => e.bg_prob r⟩) ∧
      (∀ k s f, e.class_prob.elem k s f = (∑ i ∈ range e.n_seq, e.post_prob.elem i k s f) /
        ∑ k ∈ range e.n_class, ∑ s ∈ range e.n_shift, ∑ f ∈ range e.n_flip,
          ∑ i ∈ range e.n_seq, e.post_prob.elem i k s f) ∧
      e.motifs.length = e.n_class ∧
      e.post_prob.dim1 = e.n_seq ∧ e.post_prob.dim2 = e.n_class ∧
      e.post_prob.dim3 = e.n_shift ∧ e.post_prob.dim4 = e.n_flip := by
  obtain ⟨b, hb, -⟩ := base_composition_pos (R := R) sequences flip
    (by simp only [List.length_cons] at hKN; omega) (by omega) hvalid
  obtain ⟨e0, he0⟩ : ∃ e0 : EMSequenceEngine R, e0 =
      { sequences := sequences
        motifs := m0 :: rest
        bg_prob := b
        class_prob := ⟨(m0 :: rest).length + (if bg_class then 1 else 0),
          sequences.ncol - m0.ncol + 1, 1 + (if flip then 1 else 0), fun _ _ _ => 0⟩
        class_prob_tot := fun _ => 0
        post_prob := ⟨sequences.nrow, (m0 :: rest).length + (if bg_class then 1 else 0),
          sequences.ncol - m0.ncol + 1, 1 + (if flip then 1 else 0), fun _ _ _ _ => 0⟩
        post_prob_prev := ⟨0, 0, 0, 0, fun _ _ _ _ => 0⟩
        likelihood := ⟨sequences.nrow, (m0 :: rest).length + (if bg_class then 1 else 0),
          sequences.ncol - m0.ncol + 1, 1 + (if flip then 1 else 0), fun _ _ _ _ => 0⟩
        n_iter := 0
        n_seq := sequences.nrow
        l_seq := sequences.ncol
        n_class := (m0 :: rest).length
        l_motif := m0.ncol
        n_shift := sequences.ncol - m0.ncol + 1
        n_flip := 1 + (if flip then 1 else 0)
        bg_class := bg_class
        shift_center := center_shift } := ⟨_, rfl⟩
  obtain ⟨e1, he1⟩ : ∃ e1, e1 = (if bg_class = true then add_background_class e0 else e0) :=
    ⟨_, rfl⟩
  have hfacts : e1.n_iter = 0 ∧ e1.sequences = sequences ∧ e1.n_seq = sequences.nrow ∧
      e1.l_seq = sequences.ncol ∧
      e1.n_class = (m0 :: rest).length + (if bg_class then 1 else 0) ∧ e1.l_motif = m0.ncol ∧
      e1.n_shift = sequences.ncol - m0.ncol + 1 ∧
      e1.n_flip = 1 + (if flip then 1 else 0) ∧ e1.bg_class = bg_class ∧
      e1.shift_center = center_shift ∧
      (∀ k < (m0 :: rest).length, e1.motif k = (m0 :: rest).getD k ⟨0, 0, fun _ _ => 0⟩) ∧
      e1.bg_prob = b ∧
      (bg_class = true →
        e1.motif (m0 :: rest).length = ⟨4, m0.ncol, fun r _ => e1.bg_prob r⟩) ∧
      e1.motifs.length = e1.n_class ∧
      e1.post_prob.dim1 = e1.n_seq ∧ e1.post_prob.dim2 = e1.n_class ∧
      e1.post_prob.dim3 = e1.n_shift ∧ e1.post_prob.dim4 = e1.n_flip := by
    rw [he1, he0]
    by_cases hbg : bg_class = true
    · simp only [hbg, if_true, add_background_class, motif, true_and, List.length_append,
        List.length_singleton, and_true]
      refine ⟨fun k hk => ?_, fun _ => ?_⟩
      · rw [getD_append_left _ _ _ _ hk]
      · rw [getD_append_singleton]
    · simp only [hbg, if_false, motif, Nat.add_zero, true_and, Bool.false_eq_true]
      simp
  obtain ⟨f1, f2, f3, f4, f5, f6, f7, f8, f9, f10, f11, f12, f13, f14, f15, f16, f17, f18⟩ :=
    hfacts
  have hK : 0 < e1.n_class := by rw [f5]; simp only [List.length_cons]; omega
  have hS : 0 < e1.n_shift := by rw [f7]; omega
  have hF : 0 < e1.n_flip := by rw [f8]; omega
  have hN : 0 < e1.n_seq := by rw [f3]; simp only [List.length_cons] at hKN; omega
  have h1 := compute_likelihood_ok lm (e := e1) (by rw [f7, f6, f4]; omega)
    (by rw [f2, f3, f4]; exact hvalid)
  obtain ⟨L, hL⟩ : ∃ L : Matrix4D R, L =
      { e1.likelihood with
        elem := fun i k s f =>
          if f = FORWARD then dexp lm (dna.score_sequence e1.sequences i s (motif_log lm e1 k))
          else if e1.n_flip = 2 ∧ f = REVERSE then
            dexp lm (dna.score_sequence e1.sequences i s (motif_log_rev lm e1 k))
          else e1.likelihood.elem i k s f } := ⟨_, rfl⟩
  rw [← hL] at h1
  have hL0 : ∀ i k s f, f < e1.n_flip → 0 ≤ L.elem i k s f := by
    intro i k s f hf
    rw [hL]
    simp only
    split_ifs
    · exact dexp_nonneg lm hlm _
    · exact dexp_nonneg lm hlm _
    · have h2 : e1.n_flip ≤ 2 := by rw [f8]; split_ifs <;> omega
      simp only [FORWARD, REVERSE] at *
      omega
  have hg : ¬ ∃ i ∈ range e1.n_seq, ∃ k ∈ range e1.n_class, ∃ s ∈ range e1.n_shift,
      ∃ f ∈ range e1.n_flip, L.elem i k s f ≠ 0 ∧ (∑ k ∈ range e1.n_class,
        ∑ s ∈ range e1.n_shift, ∑ f ∈ range e1.n_flip, L.elem i k s f) = 0 := by
    push_neg
    intro i _ k hk s hs f hf hne
    have hpos : 0 < L.elem i k s f := lt_of_le_of_ne (hL0 i k s f (mem_range.mp hf)) hne.symm
    exact (sum3_pos_of_nonneg _ (fun k _ s _ f hf => hL0 i k s f hf) (mem_range.mp hk)
      (mem_range.mp hs) (mem_range.mp hf) hpos).ne'
  obtain ⟨P, hP, hPpos⟩ : ∃ P : Matrix4D R,
      P = { e1.post_prob with
            elem := fun i k s f =>
              if L.elem i k s f = 0 then c.pseudo_counts
              else L.elem i k s f / ∑ k ∈ range e1.n_class, ∑ s ∈ range e1.n_shift,
                ∑ f ∈ range e1.n_flip, L.elem i k s f } ∧
      (∀ i < e1.n_seq, ∀ k < e1.n_class, ∀ s < e1.n_shift, ∀ f < e1.n_flip,
        0 < P.elem i k s f) := by
    refine ⟨_, rfl, ?_⟩
    intro i _ k hk s hs f hf
    simp only
    split_ifs with hz
    · exact hc
    · have hpos : 0 < L.elem i k s f := lt_of_le_of_ne (hL0 i k s f hf) (Ne.symm hz)
      exact div_pos hpos (sum3_pos_of_nonneg _ (fun k _ s _ f hf => hL0 i k s f hf) hk hs hf hpos)
  obtain ⟨C, T, h3, hCpos, -, -⟩ := compute_class_prob_pos
    (e :=
      { e1 with
        likelihood := L
        post_prob := P })
    hN hK hS hF hPpos
  refine ⟨
      { e1 with
        likelihood := L
        post_prob := P
        class_prob := C
        class_prob_tot := T }, ?_, f1, f2, f3, f4, f5, f6, f7, f8, f9, f10, f11, ?_, ?_, hCpos,
    by rw [hb]; exact congrArg _ f12.symm, f13, ?_, f14, by rw [hP]; exact f15,
    by rw [hP]; exact f16, by rw [hP]; exact f17, by rw [hP]; exact f18⟩
  · unfold construct_from_motifs
    have hc1 : ¬ ((m0 :: rest).length = 0 ∨ (m0 :: rest).length > sequences.nrow) := by
      simp only [List.length_cons] at hKN ⊢
      omega
    have hc3 : ¬ ∃ m ∈ m0 :: rest, m.ncol ≠ m0.ncol := by
      push_neg
      exact hcol
    have hc4 : ¬ ∃ m ∈ m0 :: rest, m.nrow < 4 := by
      push_neg
      exact hrow4
    simp only
    rw [if_neg hc1, if_neg (by omega), if_neg hc3]
    simp only [hb, bind, Except.bind]
    rw [if_neg hc4]
    simp only [← he0, ← he1, h1]
    rw [if_neg hg, ← hP]
    exact h3
  · intro i k s
    show L.elem i k s FORWARD = dexp lm (dna.score_sequence e1.sequences i s (motif_log lm e1 k))
    rw [hL]
    simp only [if_true]
  · intro i k s f
    show P.elem i k s f = _
    rw [hP]
  · intro k s f
    have h4 := compute_class_prob_of_ok h3
    have h5 := congrArg (fun x => x.class_prob.elem k s f) h4
    exact h5

/-- C9, on an instance: one class and motifs of width two on the sequence "ACGT". -/
theorem construct_invalid_argument_iff_witness :
    (construct (⟨1 / 1000000, 1 / 100000000⟩ : Constants ℝ) (fun _ _ => 1 / 2) acgt 1 2 false
        false false "" "random" = .error .invalid_argument ↔
      (1 = 0 ∨ 1 > acgt.nrow ∨ 2 = 0 ∨ 2 > acgt.ncol)) ∧ (0 : ℝ) < 1 / 100000000 :=
  ⟨(construct_invalid_argument_iff (⟨1 / 1000000, 1 / 100000000⟩ : Constants ℝ) (by norm_num)
    (fun _ _ => 1 / 2) acgt 1 2 false false false "" (fun _ => by norm_num) acgt_valid).1,
    by norm_num⟩

/-- C2, at the failing input: the constructor from initial motifs, given the motif of width one
with all its weight on `A` and the single sequence "C", returns an engine; in the first call of
`cluster()` on it `compute_likelihood` returns a likelihood whose only entry is zero, the class
probability is positive, and `compute_posterior_prob` divides zero by the sum zero: no entry is
replaced by the pseudo-count, and `cluster()` has no positive posterior to return. -/
theorem cluster_posterior_division_by_zero :
    ∃ e, construct_from_motifs (⟨Real.log, Real.exp, Real.sqrt, Real.pi⟩ : Libm ℝ)
        ⟨1 / 1000000, 1 / 100000000⟩ single_c [one_hot_a] false false false = .ok e ∧
      e.n_seq = 1 ∧ e.n_class = 1 ∧ e.n_shift = 1 ∧ e.n_flip = 1 ∧
      (∃ e1, compute_likelihood (⟨Real.log, Real.exp, Real.sqrt, Real.pi⟩ : Libm ℝ) e = .ok e1 ∧
        e1.likelihood.elem 0 0 0 0 = 0 ∧ 0 < e1.class_prob.elem 0 0 0 ∧
        compute_posterior_prob ⟨1 / 1000000, 1 / 100000000⟩ e1 = .error .division_by_zero) ∧
      cluster (⟨Real.log, Real.exp, Real.sqrt, Real.pi⟩ : Libm ℝ) ⟨1 / 1000000, 1 / 100000000⟩ e
        = .error .division_by_zero := by
  obtain ⟨e, he, f1, f2, f3, f4, f5, f6, f7, f8, _, _, f11, _, _, f14, _⟩ :=
    construct_from_motifs_ok (⟨Real.log, Real.exp, Real.sqrt, Real.pi⟩ : Libm ℝ)
      real_libm_sound ⟨1 / 1000000, 1 / 100000000⟩ (by norm_num) single_c one_hot_a [] false
      false false (by intro i _ j _; simp only [single_c]; decide)
      (by decide) (by decide) (by decide) (by intro m hm; rw [List.mem_singleton.mp hm])
      (by intro m hm; rw [List.mem_singleton.mp hm]; exact le_refl 4)
  have hN : e.n_seq = 1 := f3
  have hK : e.n_class = 1 := f5
  have hS : e.n_shift = 1 := f7
  have hF : e.n_flip = 1 := f8
  have hW : e.l_motif = 1 := f6
  have hLs : e.l_seq = 1 := f4
  have hm : e.motif 0 = one_hot_a := f11 0 (by decide)
  have h1 := compute_likelihood_ok (⟨Real.log, Real.exp, Real.sqrt, Real.pi⟩ : Libm ℝ) (e := e)
    (by rw [hS, hW, hLs])
    (by rw [f2]; intro i _ j _; simp only [single_c]; decide)
  have hc1 : dna.hash_val 'C' false = 1 := by decide
  have hL : dexp (⟨Real.log, Real.exp, Real.sqrt, Real.pi⟩ : Libm ℝ)
      (dna.score_sequence e.sequences 0 0
        (motif_log (⟨Real.log, Real.exp, Real.sqrt, Real.pi⟩ : Libm ℝ) e 0)) = 0 := by
    rw [f2]
    simp only [dna.score_sequence, motif_log, hW, hm, one_hot_a, single_c, sum_range_one, hc1]
    simp [dlog, dexp]
  have h2 := compute_posterior_prob_div0 (⟨1 / 1000000, 1 / 100000000⟩ : Constants ℝ)
    (e := { e with
      likelihood :=
        { e.likelihood with
          elem := fun i k s f =>
            if f = FORWARD then dexp (⟨Real.log, Real.exp, Real.sqrt, Real.pi⟩ : Libm ℝ)
              (dna.score_sequence e.sequences i s
                (motif_log (⟨Real.log, Real.exp, Real.sqrt, Real.pi⟩ : Libm ℝ) e k))
            else if e.n_flip = 2 ∧ f = REVERSE then
              dexp (⟨Real.log, Real.exp, Real.sqrt, Real.pi⟩ : Libm ℝ)
                (dna.score_sequence e.sequences i s
                  (motif_log_rev (⟨Real.log, Real.exp, Real.sqrt, Real.pi⟩ : Libm ℝ) e k))
            else e.likelihood.elem i k s f } })
    (i := 0) (by show 0 < e.n_seq; omega) (by show 0 < e.n_class; omega)
    (by show 0 < e.n_shift; omega) (by show 0 < e.n_flip; omega)
    (by
      simp only [hK, hS, hF, sum_range_one, FORWARD, if_true]
      rw [hL, zero_mul])
  refine ⟨e, he, hN, hK, hS, hF, ⟨_, h1, ?_, ?_, h2⟩, ?_⟩
  · simp only [FORWARD, if_true]
    exact hL
  · exact f14 0 (by omega) 0 (by omega) 0 (by omega)
  · unfold cluster
    have h0 : ¬ e.n_iter > 0 := by omega
    simp only [if_neg h0, h1, bind, Except.bind, h2]

/-- What the constructor from initial motifs leaves in the marginal class probabilities: the
value `compute_class_prob` computes from the posterior. -/
theorem construct_from_motifs_class_prob_tot {lm : Libm R} {c : Constants R}
    {sequences : Matrix2D Char} {motifs : List (Matrix2D R)} {flip center_shift bg_class : Bool}
    {e : EMSequenceEngine R}
    (h : construct_from_motifs lm c sequences motifs flip center_shift bg_class = .ok e) :
    ∀ k, e.class_prob_tot k =
      (∑ s ∈ range e.n_shift, ∑ f ∈ range e.n_flip,
        ∑ i ∈ range e.n_seq, e.post_prob.elem i k s f) /
      (∑ k ∈ range e.n_class, ∑ s ∈ range e.n_shift, ∑ f ∈ range e.n_flip,
        ∑ i ∈ range e.n_seq, e.post_prob.elem i k s f) := by
  unfold construct_from_motifs at h
  cases motifs with
  | nil => exact absurd h (by simp)
  | cons m0 rest =>
    simp only at h
    have h2 := ite_error_eq_ok (ite_error_eq_ok (ite_error_eq_ok h))
    simp only [bind, Except.bind] at h2
    split at h2
    · exact absurd h2 (by simp)
    · rename_i b hb
      have h2 := ite_error_eq_ok h2
      split at h2
      · exact absurd h2 (by simp)
      · rename_i e1 he1
        have k2 := compute_class_prob_of_ok (ite_error_eq_ok h2)
        intro k
        rw [k2]

/-- The constructor from initial motifs on the single sequence "C" and the motif of width one
with all its weight on `A`: it returns an engine with one class, one shift state and one flip
state, whose class probability is one; in the first call of `cluster()` the likelihood is zero,
so that the divisor of `compute_posterior_prob` is zero, and the call reports the division. -/
theorem single_c_cluster :
    ∃ e, construct_from_motifs (⟨Real.log, Real.exp, Real.sqrt, Real.pi⟩ : Libm ℝ)
        ⟨1 / 1000000, 1 / 100000000⟩ single_c [one_hot_a] false false false = .ok e ∧
      e.n_iter = 0 ∧ e.n_seq = 1 ∧ e.n_class = 1 ∧ e.n_shift = 1 ∧ e.n_flip = 1 ∧
      e.class_prob.elem 0 0 0 = 1 ∧ e.class_prob_tot 0 = 1 ∧
      (∃ e1, compute_likelihood (⟨Real.log, Real.exp, Real.sqrt, Real.pi⟩ : Libm ℝ) e = .ok e1 ∧
        e1.n_seq = 1 ∧ e1.n_class = 1 ∧ e1.n_shift = 1 ∧ e1.n_flip = 1 ∧
        e1.likelihood.elem 0 0 0 0 * e1.class_prob.elem 0 0 0 = 0 ∧
        compute_posterior_prob ⟨1 / 1000000, 1 / 100000000⟩ e1 = .error .division_by_zero) ∧
      cluster (⟨Real.log, Real.exp, Real.sqrt, Real.pi⟩ : Libm ℝ) ⟨1 / 1000000, 1 / 100000000⟩ e
        = .error .division_by_zero := by
  obtain ⟨e, he, f1, f2, f3, f4, f5, f6, f7, f8, _, _, f11, f12, f13, f14, _, _, f17, _⟩ :=
    construct_from_motifs_ok (⟨Real.log, Real.exp, Real.sqrt, Real.pi⟩ : Libm ℝ)
      real_libm_sound ⟨1 / 1000000, 1 / 100000000⟩ (by norm_num) single_c one_hot_a [] false
      false false (by intro i _ j _; simp only [single_c]; decide)
      (by decide) (by decide) (by decide) (by intro m hm; rw [List.mem_singleton.mp hm])
      (by intro m hm; rw [List.mem_singleton.mp hm]; exact le_refl 4)
  have hN : e.n_seq = 1 := f3
  have hK : e.n_class = 1 := f5
  have hS : e.n_shift = 1 := f7
  have hF : e.n_flip = 1 := f8
  have hW : e.l_motif = 1 := f6
  have hLs : e.l_seq = 1 := f4
  have hm : e.motif 0 = one_hot_a := f11 0 (by decide)
  have h1 := compute_likelihood_ok (⟨Real.log, Real.exp, Real.sqrt, Real.pi⟩ : Libm ℝ) (e := e)
    (by rw [hS, hW, hLs])
    (by rw [f2]; intro i _ j _; simp only [single_c]; decide)
  have hc1 : dna.hash_val 'C' false = 1 := by decide
  have hL : dexp (⟨Real.log, Real.exp, Real.sqrt, Real.pi⟩ : Libm ℝ)
      (dna.score_sequence e.sequences 0 0
        (motif_log (⟨Real.log, Real.exp, Real.sqrt, Real.pi⟩ : Libm ℝ) e 0)) = 0 := by
    rw [f2]
    simp only [dna.score_sequence, motif_log, hW, hm, one_hot_a, single_c, sum_range_one, hc1]
    simp [dlog, dexp]
  have h2 := compute_posterior_prob_div0 (⟨1 / 1000000, 1 / 100000000⟩ : Constants ℝ)
    (e := { e with
      likelihood :=
        { e.likelihood with
          elem := fun i k s f =>
            if f = FORWARD then dexp (⟨Real.log, Real.exp, Real.sqrt, Real.pi⟩ : Libm ℝ)
              (dna.score_sequence e.sequences i s
                (motif_log (⟨Real.log, Real.exp, Real.sqrt, Real.pi⟩ : Libm ℝ) e k))
            else if e.n_flip = 2 ∧ f = REVERSE then
              dexp (⟨Real.log, Real.exp, Real.sqrt, Real.pi⟩ : Libm ℝ)
                (dna.score_sequence e.sequences i s
                  (motif_log_rev (⟨Real.log, Real.exp, Real.sqrt, Real.pi⟩ : Libm ℝ) e k))
            else e.likelihood.elem i k s f } })
    (i := 0) (by show 0 < e.n_seq; omega) (by show 0 < e.n_class; omega)
    (by show 0 < e.n_shift; omega) (by show 0 < e.n_flip; omega)
    (by
      simp only [hK, hS, hF, sum_range_one, FORWARD, if_true]
      rw [hL, zero_mul])
  have hP : e.post_prob.elem 0 0 0 0 = 1 / 100000000 := by
    have hL0 : e.likelihood.elem 0 0 0 0 = 0 := (f12 0 0 0).trans hL
    rw [f13, if_pos hL0]
  have hC : e.class_prob.elem 0 0 0 = 1 := by
    rw [f17]
    simp only [hN, hK, hS, hF, sum_range_one, hP]
    norm_num
  have hT : e.class_prob_tot 0 = 1 := by
    rw [construct_from_motifs_class_prob_tot he]
    simp only [hN, hK, hS, hF, sum_range_one, hP]
    norm_num
  refine ⟨e, he, f1, hN, hK, hS, hF, hC, hT, ⟨_, h1, hN, hK, hS, hF, ?_, h2⟩, ?_⟩
  · simp only [FORWARD, if_true]
    rw [hL, zero_mul]
  · unfold cluster
    have h0 : ¬ e.n_iter > 0 := by omega
    simp only [if_neg h0, h1, bind, Except.bind, h2]

/-- Once a call of `cluster()` has divided by zero, so has every later one. -/
theorem cluster_n_error_of_cluster {lm : Libm R} {c : Constants R} {e : EMSequenceEngine R}
    {err : Err} (h : cluster lm c e = .error err) (n : Nat) :
    cluster_n lm c (n + 1) e = .error err := by
  induction n with
  | zero => simp only [cluster_n, bind, Except.bind, h]
  | succ n ih =>
    rw [cluster_n, ih]
    rfl

/-- C3, at the failing input: the constructor from initial motifs, given the single sequence "C"
and the motif of width one with all its weight on `A`, returns an engine whose class
probabilities are normalised. In the first call of `cluster()` on it the likelihood times the
class probability is zero for the only class, shift and flip state, so that
`compute_posterior_prob` divides zero by zero (`NaN` in `double` arithmetic) and
`compute_class_prob` sums and divides values that are not numbers: no call of `cluster()`, the
first or a later one, returns an engine whose class probabilities sum to one. -/
theorem cluster_class_prob_division_by_zero :
    ∃ e, construct_from_motifs (⟨Real.log, Real.exp, Real.sqrt, Real.pi⟩ : Libm ℝ)
        ⟨1 / 1000000, 1 / 100000000⟩ single_c [one_hot_a] false false false = .ok e ∧
      e.ClassProbNormalised ∧
      (∃ e1, compute_likelihood (⟨Real.log, Real.exp, Real.sqrt, Real.pi⟩ : Libm ℝ) e = .ok e1 ∧
        (∑ k ∈ range e1.n_class, ∑ s ∈ range e1.n_shift, ∑ f ∈ range e1.n_flip,
          e1.likelihood.elem 0 k s f * e1.class_prob.elem k s f) = 0 ∧
        compute_posterior_prob ⟨1 / 1000000, 1 / 100000000⟩ e1 = .error .division_by_zero) ∧
      (∀ n, cluster_n (⟨Real.log, Real.exp, Real.sqrt, Real.pi⟩ : Libm ℝ)
        ⟨1 / 1000000, 1 / 100000000⟩ (n + 1) e = .error .division_by_zero) ∧
      ¬ ∃ n e2, cluster_n (⟨Real.log, Real.exp, Real.sqrt, Real.pi⟩ : Libm ℝ)
        ⟨1 / 1000000, 1 / 100000000⟩ (n + 1) e = .ok e2 ∧ e2.ClassProbNormalised := by
  obtain ⟨e, he, _, _, hK, hS, hF, hC, hT, ⟨e1, h1, _, hK1, hS1, hF1, hz, h2⟩, h3⟩ :=
    single_c_cluster
  refine ⟨e, he, ⟨?_, ?_, ?_⟩, ⟨e1, h1, ?_, h2⟩, cluster_n_error_of_cluster h3, ?_⟩
  · simp only [class_prob_sum, hK, hS, hF, sum_range_one]
    exact hC
  · intro k hk
    have hk0 : k = 0 := by omega
    subst hk0
    simp only [hS, hF, sum_range_one]
    rw [hT, hC]
  · simp only [hK, sum_range_one]
    exact hT
  · simp only [hK1, hS1, hF1, sum_range_one]
    exact hz
  · rintro ⟨n, e2, hn, _⟩
    rw [cluster_n_error_of_cluster h3 n] at hn
    exact absurd hn (by simp)

/-- C7, at the failing input: the constructor from initial motifs, given the single sequence "C"
and the motif of width one with all its weight on `A`, returns an engine whose counter is zero.
The first call of `cluster()` on it divides zero by zero in `compute_posterior_prob`, so the
posterior it leaves is `NaN` in `double` arithmetic, and so is the posterior the second call
computes and compares with its copy of the first: two calls, and any larger number of them,
report the division. The test of `hasConverged` is the negation of
`abs(post - prev) > delta_max` for every index, and not `abs(post - prev) <= delta_max`: with
a counter of two it answers that the posterior has converged unless a difference compares
greater than `delta_max`, which a `NaN` does not. -/
theorem second_cluster_division_by_zero :
    ∃ e, construct_from_motifs (⟨Real.log, Real.exp, Real.sqrt, Real.pi⟩ : Libm ℝ)
        ⟨1 / 1000000, 1 / 100000000⟩ single_c [one_hot_a] false false false = .ok e ∧
      e.n_iter = 0 ∧
      (∀ n, cluster_n_after (⟨Real.log, Real.exp, Real.sqrt, Real.pi⟩ : Libm ℝ)
        ⟨1 / 1000000, 1 / 100000000⟩
        (construct_from_motifs (⟨Real.log, Real.exp, Real.sqrt, Real.pi⟩ : Libm ℝ)
          ⟨1 / 1000000, 1 / 100000000⟩ single_c [one_hot_a] false false false) (n + 1)
        = .error .division_by_zero) ∧
      ∀ e2 : EMSequenceEngine ℝ, e2.n_iter = 2 →
        (hasConverged ⟨1 / 1000000, 1 / 100000000⟩ e2 = true ↔
          ¬ ∃ u < e2.post_prob.get_data_size,
            |e2.post_prob.get u - e2.post_prob_prev.get u| > 1 / 1000000) := by
  obtain ⟨e, he, hit, _, _, _, _, _, _, _, h3⟩ := single_c_cluster
  refine ⟨e, he, hit, fun n => ?_, fun e2 h2 => ?_⟩
  · simp only [cluster_n_after, he, bind, Except.bind]
    exact cluster_n_error_of_cluster h3 n
  · unfold hasConverged
    rw [if_neg (by omega)]
    simp only [mem_range, decide_eq_true_eq]
    push_neg
    exact Iff.rfl

theorem tilted_motif_props :
    (∀ m ∈ [(tilted_motif : Matrix2D R)], m.ncol = (tilted_motif : Matrix2D R).ncol) ∧
    (∀ m ∈ [(tilted_motif : Matrix2D R)], m.nrow = 4) ∧
    (∀ m ∈ [(tilted_motif : Matrix2D R)], ∀ r < 4,
      ∀ j < (tilted_motif : Matrix2D R).ncol, 0 < m.elem r j) := by
  refine ⟨?_, ?_, ?_⟩
  · intro m hm
    rw [List.mem_singleton.mp hm]
  · intro m hm
    rw [List.mem_singleton.mp hm]
    rfl
  · intro m hm r _ j _
    rw [List.mem_singleton.mp hm]
    simp only [tilted_motif]
    split_ifs <;> norm_num

theorem ac_valid : ∀ i < ac.nrow, ∀ j < ac.ncol, dna.hash_map (ac.elem i j) ≠ none := by
  intro i _ j _
  simp only [ac]
  split_ifs <;> decide

/-- C19: `dna::base_composition(S, both_strands)` throws `std::invalid_argument` exactly when
`S` holds a character that is not one of "ACGTacgt". -/
theorem base_composition_invalid_argument_iff (sequences : Matrix2D Char)
    (both_strands : Bool) :
    dna.base_composition (R := R) sequences both_strands = .error .invalid_argument ↔
      ∃ i < sequences.nrow, ∃ j < sequences.ncol,
        sequences.elem i j ∉ dna.get_valid_dna_char := by
  have hiff : (∃ i ∈ range sequences.nrow, ∃ j ∈ range sequences.ncol,
      dna.hash_map (sequences.elem i j) = none) ↔
      ∃ i < sequences.nrow, ∃ j < sequences.ncol,
        sequences.elem i j ∉ dna.get_valid_dna_char := by
    simp only [mem_range, hash_map_eq_none_iff]
  rw [← hiff]
  unfold dna.base_composition
  by_cases hg : ∃ i ∈ range sequences.nrow, ∃ j ∈ range sequences.ncol,
      dna.hash_map (sequences.elem i j) = none
  · rw [if_pos hg]
    simp only [hg]
  · rw [if_neg hg]
    simp only [hg, iff_false]
    split_ifs <;> simp

/-- On a non-empty matrix of valid bases, the value of `base_composition` at a hash `r`: the
number of positions of hash `r`, plus with both strands the number of positions of hash `3 - r`,
divided by the number of positions, counted twice with both strands; and the four values sum to
one. -/
theorem base_composition_value (sequences : Matrix2D Char) (both_strands : Bool)
    (hrow : 0 < sequences.nrow) (hcol : 0 < sequences.ncol)
    (hvalid : ∀ i < sequences.nrow, ∀ j < sequences.ncol,
      dna.hash_map (sequences.elem i j) ≠ none) :
    ∃ b : Nat → R, dna.base_composition sequences both_strands = .ok b ∧
      (∀ r < 4, b r =
        ((dna.base_count sequences r : R) +
          (if both_strands then (dna.base_count sequences (3 - r) : R) else 0)) /
        ((1 + if both_strands then 1 else 0) * ((sequences.nrow : R) * (sequences.ncol : R)))) ∧
      (∑ r ∈ range 4, b r) = 1 := by
  refine ⟨_, base_composition_ok sequences both_strands hrow hcol hvalid, ?_, ?_⟩
  · intro r hr
    have htot : (∑ _i ∈ range sequences.nrow, ∑ _j ∈ range sequences.ncol,
        ((1 : R) + if both_strands = true then 1 else 0)) =
        (1 + if both_strands = true then 1 else 0) *
          ((sequences.nrow : R) * (sequences.ncol : R)) := by
      simp only [sum_const, card_range, nsmul_eq_mul]
      ring
    have hcnt : (∑ i ∈ range sequences.nrow, ∑ j ∈ range sequences.ncol,
        (((if dna.hash_val (sequences.elem i j) false = r then 1 else 0) : R) +
          (if both_strands = true ∧ 4 - dna.hash_val (sequences.elem i j) false - 1 = r then 1
            else 0))) =
        (dna.base_count sequences r : R) +
          (if both_strands = true then (dna.base_count sequences (3 - r) : R) else 0) := by
      simp only [dna.base_count, Nat.cast_sum, Nat.cast_ite, Nat.cast_one, Nat.cast_zero,
        sum_add_distrib]
      congr 1
      by_cases hb : both_strands = true
      · simp only [hb, true_and, if_true]
        refine Finset.sum_congr rfl fun i _ => Finset.sum_congr rfl fun j _ => ?_
        have hlt := hash_val_lt (sequences.elem i j) false
        have hiff : (4 - dna.hash_val (sequences.elem i j) false - 1 = r) ↔
            (dna.hash_val (sequences.elem i j) false = 3 - r) := by omega
        simp only [hiff]
      · have hb2 : both_strands = false := by simpa using hb
        simp [hb2]
    rw [htot, hcnt]
  · rw [← Finset.sum_div, div_eq_one_iff_eq]
    · rw [Finset.sum_comm]
      refine Finset.sum_congr rfl fun i _ => ?_
      rw [Finset.sum_comm]
      refine Finset.sum_congr rfl fun j _ => ?_
      have hlt := hash_val_lt (sequences.elem i j) false
      rw [sum_add_distrib]
      congr 1
      · rw [Finset.sum_ite_eq (range 4) (dna.hash_val (sequences.elem i j) false)
          (fun _ => (1 : R)), if_pos (mem_range.mpr hlt)]
      · by_cases hb : both_strands = true
        · simp only [hb, true_and, if_true]
          rw [Finset.sum_ite_eq (range 4) (4 - dna.hash_val (sequences.elem i j) false - 1)
            (fun _ => (1 : R)), if_pos (mem_range.mpr (by omega))]
        · have hb2 : both_strands = false := by simpa using hb
          simp [hb2]
    · have hone : (0 : R) < 1 + if both_strands = true then 1 else 0 := by
        split_ifs <;> norm_num
      exact (Finset.sum_pos (fun _ _ => Finset.sum_pos (fun _ _ => hone)
        (nonempty_range_iff.mpr hcol.ne')) (nonempty_range_iff.mpr hrow.ne')).ne'

theorem acgt_aaaa_valid : ∀ i < acgt_aaaa.nrow, ∀ j < acgt_aaaa.ncol,
    dna.hash_map (acgt_aaaa.elem i j) ≠ none := by
  intro i _ j _
  simp only [acgt_aaaa]
  split_ifs <;> decide

theorem acgt_aaaa_counts : dna.base_count acgt_aaaa 0 = 5 ∧ dna.base_count acgt_aaaa 1 = 1 ∧
    dna.base_count acgt_aaaa 2 = 1 ∧ dna.base_count acgt_aaaa 3 = 1 := by
  refine ⟨?_, ?_, ?_, ?_⟩ <;> decide

/-- C17: on a non-empty matrix of valid bases, `dna::base_composition(S, false)[r]` is the
number of positions of hash `r` divided by the number of positions, and
`dna::base_composition(S, true)[r]` is the number of positions of hash `r` or `3 - r` divided by
twice the number of positions, for `r` in `0..3`; both vectors sum to one. -/
theorem base_composition_counts (sequences : Matrix2D Char)
    (hrow : 0 < sequences.nrow) (hcol : 0 < sequences.ncol)
    (hvalid : ∀ i < sequences.nrow, ∀ j < sequences.ncol,
      sequences.elem i j ∈ dna.get_valid_dna_char) :
    (∃ b : Nat → R, dna.base_composition sequences false = .ok b ∧
      (∀ r < 4, b r = (dna.base_count sequences r : R) /
        ((sequences.nrow : R) * (sequences.ncol : R))) ∧
      (∑ r ∈ range 4, b r) = 1) ∧
    (∃ b : Nat → R, dna.base_composition sequences true = .ok b ∧
      (∀ r < 4, b r =
        ((dna.base_count sequences r : R) + (dna.base_count sequences (3 - r) : R)) /
          (2 * (sequences.nrow : R) * (sequences.ncol : R))) ∧
      (∑ r ∈ range 4, b r) = 1) := by
  have hv : ∀ i < sequences.nrow, ∀ j < sequences.ncol,
      dna.hash_map (sequences.elem i j) ≠ none := fun i hi j hj h =>
    (hash_map_eq_none_iff _).mp h (hvalid i hi j hj)
  constructor
  · obtain ⟨b, hb, hval, hsum⟩ := base_composition_value (R := R) sequences false hrow hcol hv
    refine ⟨b, hb, fun r hr => ?_, hsum⟩
    rw [hval r hr]
    simp
  · obtain ⟨b, hb, hval, hsum⟩ := base_composition_value (R := R) sequences true hrow hcol hv
    refine ⟨b, hb, fun r hr => ?_, hsum⟩
    rw [hval r hr]
    simp only [if_true]
    norm_num
    ring_nf

/-- C17, on the two sequences "ACGT" and "AAAA" of the unit test: the compositions are
`{5/8, 1/8, 1/8, 1/8}` and `{6/16, 2/16, 2/16, 6/16}`. -/
theorem base_composition_counts_witness :
    (∃ b : Nat → ℚ, dna.base_composition acgt_aaaa false = .ok b ∧
      b 0 = 5 / 8 ∧ b 1 = 1 / 8 ∧ b 2 = 1 / 8 ∧ b 3 = 1 / 8) ∧
    (∃ b : Nat → ℚ, dna.base_composition acgt_aaaa true = .ok b ∧
      b 0 = 6 / 16 ∧ b 1 = 2 / 16 ∧ b 2 = 2 / 16 ∧ b 3 = 6 / 16) := by
  obtain ⟨⟨b, hb, hval, _⟩, ⟨b2, hb2, hval2, _⟩⟩ := base_composition_counts (R := ℚ) acgt_aaaa
    (by decide) (by decide)
    (fun i hi j hj => by
      have := acgt_aaaa_valid i hi j hj
      by_contra hc
      exact this ((hash_map_eq_none_iff _).mpr hc))
  obtain ⟨c0, c1, c2, c3⟩ := acgt_aaaa_counts
  refine ⟨⟨b, hb, ?_, ?_, ?_, ?_⟩, ⟨b2, hb2, ?_, ?_, ?_, ?_⟩⟩
  · rw [hval 0 (by omega), c0]; norm_num [acgt_aaaa]
  · rw [hval 1 (by omega), c1]; norm_num [acgt_aaaa]
  · rw [hval 2 (by omega), c2]; norm_num [acgt_aaaa]
  · rw [hval 3 (by omega), c3]; norm_num [acgt_aaaa]
  · rw [hval2 0 (by omega), c0, show 3 - 0 = 3 from rfl, c3]; norm_num [acgt_aaaa]
  · rw [hval2 1 (by omega), c1, show 3 - 1 = 2 from rfl, c2]; norm_num [acgt_aaaa]
  · rw [hval2 2 (by omega), c2, show 3 - 2 = 1 from rfl, c1]; norm_num [acgt_aaaa]
  · rw [hval2 3 (by omega), c3, show 3 - 3 = 0 from rfl, c0]; norm_num [acgt_aaaa]

/-- C18: on a non-empty matrix of valid bases, the vector `dna::base_composition(S, true)` has
equal values for `A` and `T` and equal values for `C` and `G`; it is the background of an engine
built with `flip = true` by either constructor, and still after any number of calls of
`cluster()`. -/
theorem base_composition_palindromic (lm : Libm R) (hlm : lm.Sound) (c : Constants R)
    (hc : 0 < c.pseudo_counts) :
    (∀ sequences : Matrix2D Char, 0 < sequences.nrow → 0 < sequences.ncol →
      (∀ i < sequences.nrow, ∀ j < sequences.ncol,
        sequences.elem i j ∈ dna.get_valid_dna_char) →
      ∃ b : Nat → R, dna.base_composition sequences true = .ok b ∧ b 0 = b 3 ∧ b 1 = b 2) ∧
    (∀ (rng : String → Nat → R) (sequences : Matrix2D Char) (n_class l_motif : Nat)
        (center_shift bg_class : Bool) (seed : String),
      (∀ u, 0 < rng seed u) →
      (∀ i < sequences.nrow, ∀ j < sequences.ncol,
        sequences.elem i j ∈ dna.get_valid_dna_char) →
      0 < n_class → n_class ≤ sequences.nrow → 0 < l_motif → l_motif ≤ sequences.ncol →
      ∀ n, ∃ e, cluster_n_after lm c
          (construct c rng sequences n_class l_motif true center_shift bg_class seed "random") n
          = .ok e ∧
        dna.base_composition sequences true = .ok e.bg_prob ∧
        e.bg_prob 0 = e.bg_prob 3 ∧ e.bg_prob 1 = e.bg_prob 2) ∧
    (∀ (sequences : Matrix2D Char) (m0 : Matrix2D R) (rest : List (Matrix2D R))
        (center_shift bg_class : Bool),
      (∀ i < sequences.nrow, ∀ j < sequences.ncol,
        sequences.elem i j ∈ dna.get_valid_dna_char) →
      (m0 :: rest).length ≤ sequences.nrow → 0 < m0.ncol → m0.ncol ≤ sequences.ncol →
      (∀ m ∈ m0 :: rest, m.ncol = m0.ncol) → (∀ m ∈ m0 :: rest, m.nrow = 4) →
      (∀ m ∈ m0 :: rest, ∀ r < 4, ∀ j < m0.ncol, 0 < m.elem r j) →
      ∀ n, ∃ e, cluster_n_after lm c
          (construct_from_motifs lm c sequences (m0 :: rest) true center_shift bg_class) n
          = .ok e ∧
        dna.base_composition sequences true = .ok e.bg_prob ∧
        e.bg_prob 0 = e.bg_prob 3 ∧ e.bg_prob 1 = e.bg_prob 2) := by
  have hv : ∀ sequences : Matrix2D Char,
      (∀ i < sequences.nrow, ∀ j < sequences.ncol,
        sequences.elem i j ∈ dna.get_valid_dna_char) →
      ∀ i < sequences.nrow, ∀ j < sequences.ncol,
        dna.hash_map (sequences.elem i j) ≠ none := fun sequences hvalid i hi j hj h =>
    (hash_map_eq_none_iff _).mp h (hvalid i hi j hj)
  have key : ∀ sequences : Matrix2D Char, 0 < sequences.nrow → 0 < sequences.ncol →
      (∀ i < sequences.nrow, ∀ j < sequences.ncol,
        sequences.elem i j ∈ dna.get_valid_dna_char) →
      ∀ b : Nat → R, dna.base_composition sequences true = .ok b → b 0 = b 3 ∧ b 1 = b 2 := by
    intro sequences hrow hcol hvalid b hb
    obtain ⟨b', hb', hval, _⟩ := base_composition_value (R := R) sequences true hrow hcol
      (hv sequences hvalid)
    have hbb : b = b' := Except.ok.inj (hb.symm.trans hb')
    rw [hbb, hval 0 (by omega), hval 1 (by omega), hval 2 (by omega), hval 3 (by omega)]
    simp only [if_true, show 3 - 0 = 3 from rfl, show 3 - 1 = 2 from rfl,
      show 3 - 2 = 1 from rfl, show 3 - 3 = 0 from rfl]
    exact ⟨by rw [add_comm], by rw [add_comm]⟩
  refine ⟨?_, ?_, ?_⟩
  · intro sequences hrow hcol hvalid
    obtain ⟨b, hb, _⟩ := base_composition_value (R := R) sequences true hrow hcol
      (hv sequences hvalid)
    exact ⟨b, hb, key sequences hrow hcol hvalid b hb⟩
  · intro rng sequences n_class l_motif center_shift bg_class seed hd hvalid hK hKN hW hWL n
    obtain ⟨e, he, _, _, _, _, hb, _⟩ := construct_run lm hlm c hc rng sequences n_class
      l_motif true center_shift bg_class seed hd (hv sequences hvalid) hK hKN hW hWL n
    exact ⟨e, he, hb, key sequences (by omega) (by omega) hvalid _ hb⟩
  · intro sequences m0 rest center_shift bg_class hvalid hKN hW hWL hcol hrow hpos n
    obtain ⟨e, he, _, _, _, _, hb, _⟩ := construct_from_motifs_run lm hlm c hc sequences m0
      rest true center_shift bg_class (hv sequences hvalid) hKN hW hWL hcol hrow hpos n
    exact ⟨e, he, hb, key sequences
      (by simp only [List.length_cons] at hKN; omega) (by omega) hvalid _ hb⟩

/-- C18, on the two sequences "ACGT" and "AAAA". -/
theorem base_composition_palindromic_witness :
    ∃ b : Nat → ℝ, dna.base_composition acgt_aaaa true = .ok b ∧ b 0 = b 3 ∧ b 1 = b 2 :=
  (base_composition_palindromic (⟨Real.log, Real.exp, Real.sqrt, Real.pi⟩ : Libm ℝ)
    real_libm_sound ⟨1 / 1000000, 1 / 100000000⟩ (by norm_num)).1 acgt_aaaa (by decide)
    (by decide) (fun i hi j hj => by
      have := acgt_aaaa_valid i hi j hj
      by_contra hc
      exact this ((hash_map_eq_none_iff _).mpr hc))

/-- On a base, `dna::hash` returns `hash_val`. -/
theorem hash_eq_ok_hash_val {b : Char} (h : dna.hash_map b ≠ none) :
    dna.hash b false = .ok (dna.hash_val b false) := by
  simp only [dna.hash_val, dna.hash, Bool.false_eq_true, if_false]
  cases hb : dna.hash_map b with
  | none => exact absurd hb h
  | some x => rfl

/-- C20: on a matrix of valid bases, a row index within it, a matrix `M` of four rows and a
window within the sequence, `dna::score_sequence` returns the sum over the columns `j` of `M` of
`M[dna::hash(S[i, from + j]), j]`; and when `M` holds the natural logarithms of a strictly
positive motif, the exponential of the score is the product of the cells
`mu[dna::hash(S[i, from + j]), j]`. -/
theorem score_sequence_sum (sequences : Matrix2D Char) (seq_index start : Nat)
    (hvalid : ∀ i < sequences.nrow, ∀ j < sequences.ncol,
      sequences.elem i j ∈ dna.get_valid_dna_char)
    (hi : seq_index < sequences.nrow) :
    ∃ h : Nat → Nat,
      (∀ j, start + j < sequences.ncol →
        h j < 4 ∧ dna.hash (sequences.elem seq_index (start + j)) false = .ok (h j)) ∧
      (∀ M : Matrix2D (WithBot ℝ), M.nrow = 4 → start + M.ncol ≤ sequences.ncol →
        dna.score_sequence_call sequences seq_index start M =
          .ok (∑ j ∈ range M.ncol, M.elem (h j) j)) ∧
      (∀ mu : Matrix2D ℝ, mu.nrow = 4 → start + mu.ncol ≤ sequences.ncol →
        (∀ r < 4, ∀ j < mu.ncol, 0 < mu.elem r j) →
        ∃ score : ℝ,
          dna.score_sequence_call sequences seq_index start
            ⟨4, mu.ncol, fun r j => ((Real.log (mu.elem r j) : ℝ) : WithBot ℝ)⟩ = .ok score ∧
          Real.exp score = ∏ j ∈ range mu.ncol, mu.elem (h j) j) := by
  have hv : ∀ j, start + j < sequences.ncol →
      dna.hash_map (sequences.elem seq_index (start + j)) ≠ none := fun j hj h =>
    (hash_map_eq_none_iff _).mp h (hvalid seq_index hi _ hj)
  have hcall : ∀ M : Matrix2D (WithBot ℝ), M.nrow = 4 → start + M.ncol ≤ sequences.ncol →
      dna.score_sequence_call sequences seq_index start M =
        .ok (∑ j ∈ range M.ncol,
          M.elem (dna.hash_val (sequences.elem seq_index (start + j)) false) j) := by
    intro M hrow hwin
    have hg : ¬ ∃ j ∈ range M.ncol,
        dna.hash_map (sequences.elem seq_index (start + j)) = none := by
      push_neg
      intro j hj
      exact hv j (by have := mem_range.mp hj; omega)
    unfold dna.score_sequence_call
    rw [if_neg (by omega), if_neg (by omega), if_neg (by simp only [hrow, not_true_eq_false,
      not_false_eq_true]), if_neg (by omega), if_neg hg]
    rfl
  refine ⟨fun j => dna.hash_val (sequences.elem seq_index (start + j)) false, ?_, hcall, ?_⟩
  · intro j hj
    exact ⟨hash_val_lt _ _, hash_eq_ok_hash_val (hv j hj)⟩
  · intro mu hrow hwin hpos
    refine ⟨∑ j ∈ range mu.ncol,
      Real.log (mu.elem (dna.hash_val (sequences.elem seq_index (start + j)) false) j), ?_, ?_⟩
    · rw [hcall _ rfl hwin]
      simp only [WithBot.coe_sum]
    · rw [Real.exp_sum]
      refine Finset.prod_congr rfl fun j hj => ?_
      exact Real.exp_log (hpos _ (hash_val_lt _ _) j (mem_range.mp hj))

/-- C20, on the sequence "ACGT" and the uniform motif of width two, from the second base: the
exponential of the score is one sixteenth. -/
theorem score_sequence_sum_witness :
    ∃ score : ℝ,
      dna.score_sequence_call acgt 0 1
        ⟨4, 2, fun r j => ((Real.log ((uniform_motif : Matrix2D ℝ).elem r j) : ℝ) : WithBot ℝ)⟩
        = .ok score ∧
      Real.exp score = 1 / 16 := by
  obtain ⟨h, _, _, h3⟩ := score_sequence_sum acgt 0 1
    (fun i hi j hj => by
      have := acgt_valid i hi j hj
      by_contra hc
      exact this ((hash_map_eq_none_iff _).mpr hc)) (by decide)
  obtain ⟨score, hs, he⟩ := h3 uniform_motif rfl (by decide) (fun r _ j _ => by
    simp only [uniform_motif]
    norm_num)
  refine ⟨score, hs, ?_⟩
  rw [he]
  simp only [uniform_motif, prod_const, card_range]
  norm_num

/-- C11: with a number of motifs between one and the number of sequences and a first motif of
width between one and the sequence length, the constructor from initial motifs throws
`std::invalid_argument`, and returns no engine, when some motif has a number of columns that is
not that of the first. -/
theorem construct_from_motifs_width_mismatch (lm : Libm R) (c : Constants R)
    (sequences : Matrix2D Char) (m0 : Matrix2D R) (rest : List (Matrix2D R))
    (flip center_shift bg_class : Bool)
    (hKN : (m0 :: rest).length ≤ sequences.nrow)
    (hW : 0 < m0.ncol) (hWL : m0.ncol ≤ sequences.ncol)
    (hmis : ∃ m ∈ m0 :: rest, m.ncol ≠ m0.ncol) :
    construct_from_motifs lm c sequences (m0 :: rest) flip center_shift bg_class =
      .error .invalid_argument ∧
    ∀ e, construct_from_motifs lm c sequences (m0 :: rest) flip center_shift bg_class ≠
      .ok e := by
  have h : construct_from_motifs lm c sequences (m0 :: rest) flip center_shift bg_class =
      .error .invalid_argument := by
    unfold construct_from_motifs
    have hc1 : ¬ ((m0 :: rest).length = 0 ∨ (m0 :: rest).length > sequences.nrow) := by
      simp only [List.length_cons] at hKN ⊢
      omega
    simp only
    rw [if_neg hc1, if_neg (by omega), if_pos hmis]
  refine ⟨h, fun e he => ?_⟩
  rw [h] at he
  exact absurd he (by simp)

/-- C11, on the two sequences "ACGT" and "AAAA" with a motif of width two followed by a motif of
width one. -/
theorem construct_from_motifs_width_mismatch_witness :
    construct_from_motifs (⟨Real.log, Real.exp, Real.sqrt, Real.pi⟩ : Libm ℝ)
      ⟨1 / 1000000, 1 / 100000000⟩ acgt_aaaa [uniform_motif, one_hot_a] false false false =
      .error .invalid_argument ∧
    ∀ e, construct_from_motifs (⟨Real.log, Real.exp, Real.sqrt, Real.pi⟩ : Libm ℝ)
      ⟨1 / 1000000, 1 / 100000000⟩ acgt_aaaa [uniform_motif, one_hot_a] false false false ≠
      .ok e :=
  construct_from_motifs_width_mismatch (⟨Real.log, Real.exp, Real.sqrt, Real.pi⟩ : Libm ℝ)
    ⟨1 / 1000000, 1 / 100000000⟩ acgt_aaaa uniform_motif [one_hot_a] false false false
    (by decide) (by decide) (by decide) ⟨one_hot_a, by simp, by decide⟩

/-- The weighted variance of the shifts `1..n` is positive when the weights are not negative
and two shifts have a positive weight. -/
theorem variance_pos_of_two (n : Nat) (q : Nat → R) (m : R) (hq : ∀ i < n, 0 ≤ q i)
    {s1 s2 : Nat} (h1 : s1 < n) (h2 : s2 < n) (hne : s1 ≠ s2) (hp1 : 0 < q s1)
    (hp2 : 0 < q s2) :
    0 < ∑ i ∈ range n, (((i : R) + 1) - m) ^ 2 * q i := by
  have hnn : ∀ i ∈ range n, 0 ≤ (((i : R) + 1) - m) ^ 2 * q i := fun i hi =>
    mul_nonneg (sq_nonneg _) (hq i (mem_range.mp hi))
  have hsq : ∀ x : R, x ≠ 0 → 0 < x ^ 2 := fun x hx =>
    lt_of_le_of_ne (sq_nonneg x) (Ne.symm (pow_ne_zero 2 hx))
  by_cases hm : ((s1 : R) + 1) - m = 0
  · have hm2 : ((s2 : R) + 1) - m ≠ 0 := by
      intro h
      have : (s1 : R) = (s2 : R) := by linear_combination hm - h
      exact hne (Nat.cast_injective this)
    exact Finset.sum_pos' hnn ⟨s2, mem_range.mpr h2, mul_pos (hsq _ hm2) hp2⟩
  · exact Finset.sum_pos' hnn ⟨s1, mem_range.mpr h1, mul_pos (hsq _ hm) hp1⟩

/-- `center_shifts` with more than one shift state, class probabilities whose sums per shift
are not negative and are positive for two shifts at least: the standard deviation is computed
and is positive, the sum of the Gaussian densities is positive, and `center_shifts` returns. -/
theorem center_shifts_ok (lm : Libm R) (hlm : lm.Sound) (e : EMSequenceEngine R)
    (hS : 1 < e.n_shift) (hq : ∀ s < e.n_shift, 0 ≤ e.shifts_prob_measured s)
    {s1 s2 : Nat} (h1 : s1 < e.n_shift) (h2 : s2 < e.n_shift) (hne : s1 ≠ s2)
    (hp1 : 0 < e.shifts_prob_measured s1) (hp2 : 0 < e.shifts_prob_measured s2) :
    e.CenterShiftsDivisorsNonzero lm := by
  have hlen : ((List.range e.n_shift).map fun (s : Nat) => (s : R) + 1).length =
      ((List.range e.n_shift).map e.shifts_prob_measured).length := by
    simp
  have hqs : 0 < ((List.range e.n_shift).map e.shifts_prob_measured).sum := by
    rw [sum_map_range]
    exact Finset.sum_pos' (fun s hs => hq s (mem_range.mp hs)) ⟨s1, mem_range.mpr h1, hp1⟩
  have hvar : 0 < ∑ i ∈ range ((List.range e.n_shift).map fun (s : Nat) => (s : R) + 1).length,
      (((List.range e.n_shift).map fun (s : Nat) => (s : R) + 1).getD i 0 -
        ∑ i ∈ range ((List.range e.n_shift).map fun (s : Nat) => (s : R) + 1).length,
          ((List.range e.n_shift).map fun (s : Nat) => (s : R) + 1).getD i 0 *
            (((List.range e.n_shift).map e.shifts_prob_measured).getD i 0 /
              ((List.range e.n_shift).map e.shifts_prob_measured).sum)) ^ 2 *
      (((List.range e.n_shift).map e.shifts_prob_measured).getD i 0 /
        ((List.range e.n_shift).map e.shifts_prob_measured).sum) := by
    rw [List.length_map, List.length_range]
    have := variance_pos_of_two e.n_shift
      (fun i => e.shifts_prob_measured i /
        ((List.range e.n_shift).map e.shifts_prob_measured).sum)
      (∑ i ∈ range e.n_shift,
          ((List.range e.n_shift).map fun (s : Nat) => (s : R) + 1).getD i 0 *
            (((List.range e.n_shift).map e.shifts_prob_measured).getD i 0 /
              ((List.range e.n_shift).map e.shifts_prob_measured).sum))
      (fun i hi => div_nonneg (hq i hi) hqs.le) h1 h2 hne (div_pos hp1 hqs) (div_pos hp2 hqs)
    refine lt_of_lt_of_eq this (Finset.sum_congr rfl fun i hi => ?_)
    rw [getD_map_range _ _ _ _ (mem_range.mp hi), getD_map_range _ _ _ _ (mem_range.mp hi)]
  have hsd := hlm.sqrt_pos _ hvar
  have h2pi : 0 < lm.sqrt (2 * lm.pi) := hlm.sqrt_pos _ (mul_pos (by norm_num) hlm.pi_pos)
  have hsdeq := sd_biased_ok lm _ _ hlen hqs.ne'
  have hg : ∀ x : R, 0 < dnorm_val lm x ((e.n_shift / 2 + 1 : Nat) : R) _ := fun x =>
    dnorm_val_pos lm hlm x _ _ hsd
  have hgs := Finset.sum_pos (fun i (_ : i ∈ range
      ((List.range e.n_shift).map fun (s : Nat) => (s : R) + 1).length) =>
        hg (((List.range e.n_shift).map fun (s : Nat) => (s : R) + 1).getD i 0))
    (nonempty_range_iff.mpr (by simp; omega))
  refine ⟨_, by simp only [sd, Bool.false_eq_true, if_false]; exact hsdeq, hsd,
    mul_pos hsd h2pi,
    Finset.sum_pos (fun s _ => hg _) (nonempty_range_iff.mpr (by omega)), ?_⟩
  have hS1 : ¬ e.n_shift = 1 := by omega
  by_cases hF : e.n_flip = 0
  · refine ⟨_, by
      unfold center_shifts
      rw [if_neg hS1]
      simp only [sd, Bool.false_eq_true, if_false, bind, Except.bind]
      erw [hsdeq]
      simp only
      rw [if_neg, if_neg]
      · push_neg
        intro _ _ f hf
        rw [hF] at hf
        simp at hf
      · push_neg
        intro _ _
        exact ⟨(mul_pos hsd h2pi).ne', hsd.ne'⟩⟩
  · have hFR : (0 : R) < (e.n_flip : R) := Nat.cast_pos.mpr (Nat.pos_of_ne_zero hF)
    refine ⟨_, by
      unfold center_shifts
      rw [if_neg hS1]
      simp only [sd, Bool.false_eq_true, if_false, bind, Except.bind]
      erw [hsdeq]
      simp only
      rw [if_neg, if_neg]
      · push_neg
        intro _ _ _ _ _ _
        exact (mul_pos hFR hgs).ne'
      · push_neg
        intro _ _
        exact ⟨(mul_pos hsd h2pi).ne', hsd.ne'⟩⟩

/-- The cells `compute_motifs` writes in the motif of a trained class. -/
theorem compute_motifs_value {c : Constants R} {e e2 : EMSequenceEngine R}
    (h : compute_motifs c e = .ok e2) {k r j : Nat} (hk : k < e.n_trained)
    (hlen : k < e.motifs.length) (hr : r < 4) (hj : j < e.l_motif) :
    (e2.motif k).elem r j = (motif_counts e2 k r j + c.pseudo_counts) /
      ∑ r ∈ range 4, (motif_counts e2 k r j + c.pseudo_counts) ∧
    (e2.motif k).nrow = (e.motif k).nrow := by
  have k5 := compute_motifs_of_ok h
  have hm : e2.motif k = e2.motifs.getD k ⟨0, 0, fun _ _ => 0⟩ := rfl
  rw [hm, k5]
  simp only
  rw [getD_mapIdx, if_pos hlen,
    if_pos (show k < e.n_class - (if e.bg_class then 1 else 0) from hk)]
  simp only
  rw [if_pos ⟨hr, hj⟩]
  exact ⟨rfl, rfl⟩

/-- What `seeding_random` returns when it returns. -/
theorem seeding_random_of_ok {c : Constants R} {draws : Nat → R} {e e2 : EMSequenceEngine R}
    (h : seeding_random c draws e = .ok e2) :
    ∃ e1, compute_class_prob
        { e with
          post_prob :=
            { e.post_prob with
              elem := fun i k s f => draws (e.post_prob.offset i k s f) /
                ∑ k ∈ range e.n_class, ∑ s ∈ range e.n_shift, ∑ f ∈ range e.n_flip,
                  draws (e.post_prob.offset i k s f) } } = .ok e1 ∧
      compute_motifs c e1 = .ok e2 := by
  unfold seeding_random at h
  have h2 := ite_error_eq_ok h
  simp only [bind, Except.bind] at h2
  split at h2
  · exact absurd h2 (by simp)
  · rename_i e1 he1
    exact ⟨e1, he1, h2⟩

/-- The engine the constructor without initial motifs returns, field by field: the dimensions,
the posterior drawn and divided by its sum for each sequence, the class probabilities computed
from it by `compute_class_prob`, and the motifs of the trained classes computed from it by
`compute_motifs`. -/
theorem construct_of_ok {c : Constants R} {rng : String → Nat → R} {sequences : Matrix2D Char}
    {n_class l_motif : Nat} {flip center_shift bg_class : Bool} {seed : String}
    {e : EMSequenceEngine R}
    (h : construct c rng sequences n_class l_motif flip center_shift bg_class seed "random"
      = .ok e) :
    e.n_iter = 0 ∧ e.sequences = sequences ∧ e.n_seq = sequences.nrow ∧
    e.l_seq = sequences.ncol ∧ e.n_class = n_class + (if bg_class then 1 else 0) ∧
    e.l_motif = l_motif ∧ e.n_shift = sequences.ncol - l_motif + 1 ∧
    e.n_flip = 1 + (if flip then 1 else 0) ∧ e.bg_class = bg_class ∧
    e.shift_center = center_shift ∧
    e.post_prob.dim1 = e.n_seq ∧ e.post_prob.dim2 = e.n_class ∧
    e.post_prob.dim3 = e.n_shift ∧ e.post_prob.dim4 = e.n_flip ∧
    e.motifs.length = e.n_class ∧
    (∀ i k s f, e.post_prob.elem i k s f = rng seed (e.post_prob.offset i k s f) /
      ∑ k ∈ range e.n_class, ∑ s ∈ range e.n_shift, ∑ f ∈ range e.n_flip,
        rng seed (e.post_prob.offset i k s f)) ∧
    (∀ k s f, e.class_prob.elem k s f = (∑ i ∈ range e.n_seq, e.post_prob.elem i k s f) /
      ∑ k ∈ range e.n_class, ∑ s ∈ range e.n_shift, ∑ f ∈ range e.n_flip,
        ∑ i ∈ range e.n_seq, e.post_prob.elem i k s f) ∧
    (∀ k < n_class, ∀ r < 4, ∀ j < l_motif,
      (e.motif k).elem r j = (motif_counts e k r j + c.pseudo_counts) /
        ∑ r ∈ range 4, (motif_counts e k r j + c.pseudo_counts)) := by
  unfold construct at h
  have h2 := ite_error_eq_ok (ite_error_eq_ok h)
  simp only [bind, Except.bind] at h2
  split at h2
  · exact absurd h2 (by simp)
  · rename_i b hb
    simp only [seeding, if_true] at h2
    obtain ⟨e1, h3, h4⟩ := seeding_random_of_ok h2
    have k3 := compute_class_prob_of_ok h3
    have k4 := compute_motifs_of_ok h4
    have hval : ∀ k < e1.n_trained, k < e1.motifs.length → ∀ r < 4, ∀ j < e1.l_motif,
        (e.motif k).elem r j = (motif_counts e k r j + c.pseudo_counts) /
          ∑ r ∈ range 4, (motif_counts e k r j + c.pseudo_counts) :=
      fun k hk hlen r hr j hj => (compute_motifs_value h4 hk hlen hr hj).1
    cases bg_class
    · simp only [Bool.false_eq_true, if_false, Nat.add_zero] at k3 k4 hval ⊢
      have hv2 : ∀ k < n_class, ∀ r < 4, ∀ j < l_motif,
          (e.motif k).elem r j = (motif_counts e k r j + c.pseudo_counts) /
            ∑ r ∈ range 4, (motif_counts e k r j + c.pseudo_counts) := by
        intro k hk r hr j hj
        refine hval k ?_ ?_ r hr j ?_
        · rw [k3]
          simpa [n_trained] using hk
        · rw [k3]
          simpa using hk
        · rw [k3]
          exact hj
      rw [k4, k3]
      rw [k4, k3] at hv2
      simp only [List.length_mapIdx, List.length_replicate, true_and]
      refine ⟨?_, ?_, hv2⟩ <;> intros <;> first | rfl | trivial
    · simp only [if_true] at k3 k4 hval ⊢
      have hv2 : ∀ k < n_class, ∀ r < 4, ∀ j < l_motif,
          (e.motif k).elem r j = (motif_counts e k r j + c.pseudo_counts) /
            ∑ r ∈ range 4, (motif_counts e k r j + c.pseudo_counts) := by
        intro k hk r hr j hj
        refine hval k ?_ ?_ r hr j ?_
        · rw [k3]
          simpa [n_trained, add_background_class] using hk
        · rw [k3]
          simp [add_background_class]
          omega
        · rw [k3]
          exact hj
      rw [k4, k3]
      rw [k4, k3] at hv2
      simp only [add_background_class, List.length_mapIdx, List.length_append,
        List.length_replicate, List.length_singleton, true_and]
      refine ⟨?_, ?_, hv2⟩ <;> intros <;> first | rfl | trivial

/-- The posterior after a call of `cluster()`: the likelihood computed from the motifs of the
engine times its class probability, divided by the sum of these products for the sequence, or
the pseudo-count where the quotient is zero; the dimensions are kept. -/
theorem cluster_post_prob {lm : Libm R} {c : Constants R} {e e2 : EMSequenceEngine R}
    {code : clustering_codes} (h : cluster lm c e = .ok (code, e2)) :
    e2.post_prob.dim1 = e.post_prob.dim1 ∧ e2.post_prob.dim2 = e.post_prob.dim2 ∧
    e2.post_prob.dim3 = e.post_prob.dim3 ∧ e2.post_prob.dim4 = e.post_prob.dim4 ∧
    ∀ i k s f, e2.post_prob.elem i k s f =
      if likelihood_value lm e i k s f * e.class_prob.elem k s f /
          (∑ k ∈ range e.n_class, ∑ s ∈ range e.n_shift, ∑ f ∈ range e.n_flip,
            likelihood_value lm e i k s f * e.class_prob.elem k s f) = 0
      then c.pseudo_counts
      else likelihood_value lm e i k s f * e.class_prob.elem k s f /
        (∑ k ∈ range e.n_class, ∑ s ∈ range e.n_shift, ∑ f ∈ range e.n_flip,
          likelihood_value lm e i k s f * e.class_prob.elem k s f) := by
  obtain ⟨e1, e3, e4, e5, e6, h1, h3, h4, h5, h6, h7, _⟩ := cluster_of_ok h
  have k1 := compute_likelihood_of_ok h1
  have k3 := compute_posterior_prob_of_ok h3
  have k4 := compute_class_prob_of_ok h4
  have k5 := compute_motifs_of_ok h5
  have k6 := normalise_motifs_of_ok h6
  have hP6 : e6.post_prob = e3.post_prob := by rw [k6, k5, k4]
  have hP2 : e2.post_prob = e3.post_prob := by
    by_cases hsc : e6.shift_center = true
    · rw [if_pos hsc] at h7
      rw [center_shifts_of_ok h7]
      exact hP6
    · rw [if_neg hsc] at h7
      rw [← Except.ok.inj h7]
      exact hP6
  rw [hP2, k3, k1]
  by_cases hn : e.n_iter > 0
  · simp only [if_pos hn, likelihood_value, motif_log, motif_log_rev, motif, true_and]
    intro i k s f
    trivial
  · simp only [if_neg hn, likelihood_value, motif_log, motif_log_rev, motif, true_and]
    intro i k s f
    trivial

/-- The likelihood `compute_likelihood` writes for a flip state of an engine with at most two of
them is not negative. -/
theorem likelihood_value_nonneg (lm : Libm R) (hlm : lm.Sound) (e : EMSequenceEngine R)
    (hF2 : e.n_flip ≤ 2) (i k s : Nat) {f : Nat} (hf : f < e.n_flip) :
    0 ≤ likelihood_value lm e i k s f := by
  unfold likelihood_value
  split_ifs with h1 h2
  · exact dexp_nonneg lm hlm _
  · exact dexp_nonneg lm hlm _
  · exfalso
    simp only [FORWARD, REVERSE] at h1 h2
    omega

/-- The engine `cluster()` passes to `center_shifts`, or returns when the shifts are not
centred. A call of `cluster()` that returns, on an engine with sequences, classes, shifts, at
most two flip states and class probabilities that are not negative, has computed class
probabilities that are all positive: each is a sum of posterior probabilities, which are
quotients that are not negative, and the pseudo-count where the quotient is zero. -/
theorem cluster_center_shifts_input (lm : Libm R) (hlm : lm.Sound) {c : Constants R}
    (hc : 0 < c.pseudo_counts) {e e2 : EMSequenceEngine R} {code : clustering_codes}
    (h : cluster lm c e = .ok (code, e2))
    (hN : 0 < e.n_seq) (hK : 0 < e.n_class) (hS : 0 < e.n_shift) (hF : 0 < e.n_flip)
    (hF2 : e.n_flip ≤ 2)
    (hC : ∀ k < e.n_class, ∀ s < e.n_shift, ∀ f < e.n_flip, 0 ≤ e.class_prob.elem k s f) :
    ∃ e6 : EMSequenceEngine R,
      (if e.shift_center then center_shifts lm e6 else .ok e6) = .ok e2 ∧
      same_setup e e6 ∧ e6.n_iter = e.n_iter + 1 ∧ e6.post_prob = e2.post_prob ∧
      ∀ k < e6.n_class, ∀ s < e6.n_shift, ∀ f < e6.n_flip, 0 < e6.class_prob.elem k s f := by
  obtain ⟨hss, hit, _, _, _, _⟩ := cluster_frame h
  obtain ⟨_, _, _, _, hP⟩ := cluster_post_prob h
  obtain ⟨e1, e3, e4, e5, e6, h1, h3, h4, h5, h6, h7, _⟩ := cluster_of_ok h
  have g3 := compute_posterior_prob_of_ok h3
  have g4 := compute_class_prob_of_ok h4
  have g5 := compute_motifs_of_ok h5
  have g6 := normalise_motifs_of_ok h6
  have g7 : e2 = { e6 with n_iter := e6.n_iter + 1, class_prob := e2.class_prob } := by
    by_cases hsc : e6.shift_center = true
    · rw [if_pos hsc] at h7
      exact center_shifts_of_ok h7
    · rw [if_neg hsc] at h7
      rw [← Except.ok.inj h7]
  obtain ⟨s1, s2, s3, s4, s5, s6, s7, s8, s9, s10⟩ := hss
  have d1 : e6.n_seq = e.n_seq := by rw [← s3, g7]
  have d2 : e6.n_class = e.n_class := by rw [← s5, g7]
  have d3 : e6.n_shift = e.n_shift := by rw [← s7, g7]
  have d4 : e6.n_flip = e.n_flip := by rw [← s8, g7]
  have d5 : e6.shift_center = e.shift_center := by rw [← s10, g7]
  have d6 : e6.post_prob = e2.post_prob := by rw [g7]
  have d7 : e6.n_iter + 1 = e.n_iter + 1 := by rw [← hit, g7]
  have c1 : e6.class_prob = e4.class_prob := by rw [g6, g5]
  have c2 : e3.post_prob = e6.post_prob := by rw [g6, g5, g4]
  have c3 : e3.n_seq = e6.n_seq ∧ e3.n_class = e6.n_class ∧ e3.n_shift = e6.n_shift ∧
      e3.n_flip = e6.n_flip := by
    rw [g6, g5, g4]
    exact ⟨rfl, rfl, rfl, rfl⟩
  -- the posterior is positive
  have hPpos : ∀ i, ∀ k < e.n_class, ∀ s < e.n_shift, ∀ f < e.n_flip,
      0 < e2.post_prob.elem i k s f := by
    intro i k hk s hs f hf
    rw [hP i k s f]
    have hnum : 0 ≤ likelihood_value lm e i k s f * e.class_prob.elem k s f :=
      mul_nonneg (likelihood_value_nonneg lm hlm e hF2 i k s hf) (hC k hk s hs f hf)
    have hden : 0 ≤ ∑ k ∈ range e.n_class, ∑ s ∈ range e.n_shift, ∑ f ∈ range e.n_flip,
        likelihood_value lm e i k s f * e.class_prob.elem k s f :=
      Finset.sum_nonneg fun k hk => Finset.sum_nonneg fun s hs => Finset.sum_nonneg fun f hf =>
        mul_nonneg (likelihood_value_nonneg lm hlm e hF2 i k s (mem_range.mp hf))
          (hC k (mem_range.mp hk) s (mem_range.mp hs) f (mem_range.mp hf))
    split_ifs with hz
    · exact hc
    · exact lt_of_le_of_ne (div_nonneg hnum hden) (Ne.symm hz)
  refine ⟨{ e6 with n_iter := e6.n_iter + 1 }, ?_, ?_, d7, d6, ?_⟩
  · rw [← d5]
    exact h7
  · exact ⟨by rw [← s1, g7], by rw [← s2, g7], d1, by rw [← s4, g7], d2, by rw [← s6, g7], d3,
      d4, by rw [← s9, g7], d5⟩
  · intro k hk s hs f hf
    have hk : k < e.n_class := by rw [← d2]; exact hk
    have hs : s < e.n_shift := by rw [← d3]; exact hs
    have hf : f < e.n_flip := by rw [← d4]; exact hf
    show 0 < e6.class_prob.elem k s f
    rw [c1, g4]
    show 0 < (∑ i ∈ range e3.n_seq, e3.post_prob.elem i k s f) /
      (∑ k ∈ range e3.n_class, ∑ s ∈ range e3.n_shift, ∑ f ∈ range e3.n_flip,
        ∑ i ∈ range e3.n_seq, e3.post_prob.elem i k s f)
    rw [c3.1, c3.2.1, c3.2.2.1, c3.2.2.2, c2, d1, d2, d3, d4, d6]
    have hprob : ∀ k < e.n_class, ∀ s < e.n_shift, ∀ f < e.n_flip,
        0 < ∑ i ∈ range e.n_seq, e2.post_prob.elem i k s f := fun k hk s hs f hf =>
      Finset.sum_pos (fun i _ => hPpos i k hk s hs f hf) (nonempty_range_iff.mpr hN.ne')
    exact div_pos (hprob k hk s hs f hf) (sum3_pos hK hS hF _ hprob)

/-- C14: in `center_shifts`, with more than one shift state, no division has divisor zero: the
shift distribution `q[s]`, the sum of the class probabilities over classes and flip states, is
positive, the standard deviation passed to `dnorm` is positive, and so is the sum of the
Gaussian densities. `center_shifts` is private and only `cluster()` calls it, on the class
probabilities `compute_class_prob` has just computed from a posterior whose every entry is
positive. First, every call of `cluster()` that centres the shifts and returns, on an engine
with class probabilities that are not negative, has called `center_shifts` on such an engine.
Second, on an engine that satisfies the invariant of the engines reached from the constructors,
`cluster()` returns, having called `center_shifts` on such an engine, and the engine itself is
one. Third, what `center_shifts` needs is a shift distribution that is nowhere negative and is
positive for two shifts. -/
theorem center_shifts_no_division_by_zero (lm : Libm R) (hlm : lm.Sound) :
    (∀ (c : Constants R) (e e2 : EMSequenceEngine R) (code : clustering_codes),
      0 < c.pseudo_counts → 0 < e.n_seq → 0 < e.n_class → 0 < e.n_flip → e.n_flip ≤ 2 →
      (∀ k < e.n_class, ∀ s < e.n_shift, ∀ f < e.n_flip, 0 ≤ e.class_prob.elem k s f) →
      e.shift_center = true → 1 < e.n_shift → cluster lm c e = .ok (code, e2) →
      ∃ e6, center_shifts lm e6 = .ok e2 ∧ same_setup e e6 ∧
        (∀ s < e6.n_shift, 0 < e6.shifts_prob_measured s) ∧
        e6.CenterShiftsDivisorsNonzero lm) ∧
    (∀ (c : Constants R) (e : EMSequenceEngine R), 0 < c.pseudo_counts → e.Inv →
      1 < e.n_shift →
      ((∀ s < e.n_shift, 0 < e.shifts_prob_measured s) ∧ e.CenterShiftsDivisorsNonzero lm) ∧
      (e.shift_center = true →
        ∃ code e2 e6, cluster lm c e = .ok (code, e2) ∧ center_shifts lm e6 = .ok e2 ∧
          same_setup e e6 ∧ (∀ s < e6.n_shift, 0 < e6.shifts_prob_measured s) ∧
          e6.CenterShiftsDivisorsNonzero lm)) ∧
    (∀ (e : EMSequenceEngine R) (s1 s2 : Nat), 1 < e.n_shift →
      (∀ s < e.n_shift, 0 ≤ e.shifts_prob_measured s) →
      s1 < e.n_shift → s2 < e.n_shift → s1 ≠ s2 →
      0 < e.shifts_prob_measured s1 → 0 < e.shifts_prob_measured s2 →
      e.CenterShiftsDivisorsNonzero lm) := by
  have pos : ∀ e : EMSequenceEngine R, 0 < e.n_class → 0 < e.n_flip → 1 < e.n_shift →
      (∀ k < e.n_class, ∀ s < e.n_shift, ∀ f < e.n_flip, 0 < e.class_prob.elem k s f) →
      (∀ s < e.n_shift, 0 < e.shifts_prob_measured s) ∧ e.CenterShiftsDivisorsNonzero lm := by
    intro e hK hF hS hC
    have hq : ∀ s < e.n_shift, 0 < e.shifts_prob_measured s := fun s hs =>
      sum2_pos hK hF _ fun k hk f hf => hC k hk s hs f hf
    exact ⟨hq, center_shifts_ok lm hlm e hS (fun s hs => (hq s hs).le)
      (show 0 < e.n_shift by omega) hS (by omega) (hq 0 (by omega)) (hq 1 hS)⟩
  have call : ∀ (c : Constants R) (e e2 : EMSequenceEngine R) (code : clustering_codes),
      0 < c.pseudo_counts → 0 < e.n_seq → 0 < e.n_class → 0 < e.n_flip → e.n_flip ≤ 2 →
      (∀ k < e.n_class, ∀ s < e.n_shift, ∀ f < e.n_flip, 0 ≤ e.class_prob.elem k s f) →
      e.shift_center = true → 1 < e.n_shift → cluster lm c e = .ok (code, e2) →
      ∃ e6, center_shifts lm e6 = .ok e2 ∧ same_setup e e6 ∧
        (∀ s < e6.n_shift, 0 < e6.shifts_prob_measured s) ∧
        e6.CenterShiftsDivisorsNonzero lm := by
    intro c e e2 code hc hN hK hF hF2 hC hsc hS h
    obtain ⟨e6, h7, hss, _, _, hC6⟩ := cluster_center_shifts_input lm hlm hc h hN hK
      (by omega) hF hF2 hC
    rw [if_pos hsc] at h7
    obtain ⟨hq, hd⟩ := pos e6 (by rw [hss.2.2.2.2.1]; exact hK)
      (by rw [hss.2.2.2.2.2.2.2.1]; exact hF) (by rw [hss.2.2.2.2.2.2.1]; exact hS) hC6
    exact ⟨e6, h7, hss, hq, hd⟩
  refine ⟨call, fun c e hc hI hS => ⟨pos e hI.n_class_pos hI.n_flip_pos hS hI.class_pos,
    fun hsc => ?_⟩, fun e s1 s2 hS hq h1 h2 hne hp1 hp2 =>
      center_shifts_ok lm hlm e hS hq h1 h2 hne hp1 hp2⟩
  obtain ⟨e2, h, _⟩ := cluster_inv lm hlm c hc hI
  obtain ⟨e6, h7, hss, hq, hd⟩ := call c e e2 _ hc hI.n_seq_pos hI.n_class_pos hI.n_flip_pos
    hI.n_flip_le (fun k hk s hs f hf => (hI.class_pos k hk s hs f hf).le) hsc hS h
  exact ⟨_, e2, e6, h, h7, hss, hq, hd⟩

/-- C14, on an instance: the engine the constructor from initial motifs returns for the sequence
"ACGT" and one motif of width two, with shift centring: three shift states, and a call of
`cluster()` that returns, having called `center_shifts` with no divisor zero. -/
theorem center_shifts_no_division_by_zero_witness :
    ∃ e code e2 e6,
      construct_from_motifs (⟨Real.log, Real.exp, Real.sqrt, Real.pi⟩ : Libm ℝ)
        ⟨1 / 1000000, 1 / 100000000⟩ acgt [uniform_motif] false true false = .ok e ∧
      e.n_shift = 3 ∧
      cluster (⟨Real.log, Real.exp, Real.sqrt, Real.pi⟩ : Libm ℝ) ⟨1 / 1000000, 1 / 100000000⟩ e
        = .ok (code, e2) ∧
      center_shifts (⟨Real.log, Real.exp, Real.sqrt, Real.pi⟩ : Libm ℝ) e6 = .ok e2 ∧
      e6.n_shift = 3 ∧ (∀ s < e6.n_shift, 0 < e6.shifts_prob_measured s) ∧
      e6.CenterShiftsDivisorsNonzero (⟨Real.log, Real.exp, Real.sqrt, Real.pi⟩ : Libm ℝ) := by
  obtain ⟨e, he, hI, _, _, _, _, _, _, _, hsc⟩ := construct_from_motifs_inv
    (⟨Real.log, Real.exp, Real.sqrt, Real.pi⟩ : Libm ℝ) real_libm_sound
    ⟨1 / 1000000, 1 / 100000000⟩ acgt uniform_motif [] false true false acgt_valid
    (by decide) (by decide) (by decide) uniform_motif_props.1 uniform_motif_props.2.1
    uniform_motif_props.2.2
  obtain ⟨e0, he0, _, _, _, _, _, _, hS, _⟩ := construct_from_motifs_ok
    (⟨Real.log, Real.exp, Real.sqrt, Real.pi⟩ : Libm ℝ) real_libm_sound
    ⟨1 / 1000000, 1 / 100000000⟩ (by norm_num) acgt uniform_motif [] false true false acgt_valid
    (by decide) (by decide) (by decide) uniform_motif_props.1
    (fun m hm => (uniform_motif_props.2.1 m hm).ge)
  have hee : e0 = e := Except.ok.inj (he0.symm.trans he)
  subst hee
  have hS3 : e0.n_shift = 3 := hS
  obtain ⟨code, e2, e6, h, h7, hss, hq, hd⟩ :=
    ((center_shifts_no_division_by_zero (⟨Real.log, Real.exp, Real.sqrt, Real.pi⟩ : Libm ℝ)
      real_libm_sound).2.1 ⟨1 / 1000000, 1 / 100000000⟩ e0 (by norm_num) hI
      (by rw [hS3]; decide)).2 hsc
  exact ⟨e0, code, e2, e6, he, hS3, h, h7, hss.2.2.2.2.2.2.1.trans hS3, hq, hd⟩

/-- The weighted base counts depend on the sequences, the dimensions and the posterior only. -/
theorem motif_counts_congr {e e2 : EMSequenceEngine R} (hseq : e2.sequences = e.sequences)
    (hN : e2.n_seq = e.n_seq) (hS : e2.n_shift = e.n_shift) (hW : e2.l_motif = e.l_motif)
    (hF : e2.n_flip = e.n_flip) (hP : e2.post_prob = e.post_prob) (k r j : Nat) :
    motif_counts e2 k r j = motif_counts e k r j := by
  simp only [motif_counts, base_prob, base_prob_rev, hseq, hN, hS, hW, hF, hP]

/-- The motifs after a call of `cluster()` on an engine that satisfies the invariant: every cell
of a trained motif is the weighted count of its base under the new posterior plus the
pseudo-count, divided by the sum of these over the four bases. -/
theorem cluster_motif_value (lm : Libm R) (hlm : lm.Sound) (c : Constants R)
    (hc : 0 < c.pseudo_counts) {e e2 : EMSequenceEngine R} {code : clustering_codes}
    (hI : e.Inv) (h : cluster lm c e = .ok (code, e2)) :
    ∀ k < e.n_trained, ∀ r < 4, ∀ j < e.l_motif,
      (e2.motif k).elem r j = (motif_counts e2 k r j + c.pseudo_counts) /
        ∑ r ∈ range 4, (motif_counts e2 k r j + c.pseudo_counts) := by
  obtain ⟨e2', h', hI2, _, _, _⟩ := cluster_inv lm hlm c hc hI
  have hee : e2 = e2' := congrArg Prod.snd (Except.ok.inj (h.symm.trans h'))
  rw [← hee] at hI2
  obtain ⟨⟨s1, s2, s3, s4, s5, s6, s7, s8, s9, s10⟩, _, _, _, _, _⟩ := cluster_frame h
  obtain ⟨e1, e3, e4, e5, e6, h1, h3, h4, h5, h6, h7, _⟩ := cluster_of_ok h
  obtain ⟨e0, he0⟩ : ∃ e0, e0 =
      (if e.n_iter > 0 then { e with post_prob_prev := e.post_prob } else e) := ⟨_, rfl⟩
  rw [← he0] at h1
  have g0 : e0.sequences = e.sequences ∧ e0.n_seq = e.n_seq ∧ e0.n_shift = e.n_shift ∧
      e0.l_motif = e.l_motif ∧ e0.n_flip = e.n_flip ∧ e0.n_class = e.n_class ∧
      e0.bg_class = e.bg_class ∧ e0.motifs = e.motifs := by
    rw [he0]
    split_ifs <;> exact ⟨rfl, rfl, rfl, rfl, rfl, rfl, rfl, rfl⟩
  have k1 := compute_likelihood_of_ok h1
  have k3 := compute_posterior_prob_of_ok h3
  have k4 := compute_class_prob_of_ok h4
  have k5 := compute_motifs_of_ok h5
  have k6 := normalise_motifs_of_ok h6
  -- the engine `compute_motifs` runs on
  have g4 : e4.sequences = e.sequences ∧ e4.n_seq = e.n_seq ∧ e4.n_shift = e.n_shift ∧
      e4.l_motif = e.l_motif ∧ e4.n_flip = e.n_flip ∧ e4.n_class = e.n_class ∧
      e4.bg_class = e.bg_class ∧ e4.motifs = e.motifs := by
    rw [k4, k3, k1]
    exact g0
  obtain ⟨g4a, g4b, g4c, g4d, g4e, g4f, g4g, g4h⟩ := g4
  have g5 : e5.sequences = e4.sequences ∧ e5.n_seq = e4.n_seq ∧ e5.n_shift = e4.n_shift ∧
      e5.l_motif = e4.l_motif ∧ e5.n_flip = e4.n_flip ∧ e5.n_class = e4.n_class ∧
      e5.bg_class = e4.bg_class ∧ e5.post_prob = e4.post_prob ∧
      e5.motifs.length = e4.motifs.length := by
    rw [k5]
    exact ⟨rfl, rfl, rfl, rfl, rfl, rfl, rfl, rfl, List.length_mapIdx⟩
  obtain ⟨g5a, g5b, g5c, g5d, g5e, g5f, g5g, g5h, g5i⟩ := g5
  have hP6 : e6.post_prob = e4.post_prob := by rw [k6]; exact g5h
  have hP2 : e2.post_prob = e4.post_prob ∧ e2.motifs = e6.motifs := by
    by_cases hsc : e6.shift_center = true
    · rw [if_pos hsc] at h7
      rw [center_shifts_of_ok h7]
      exact ⟨hP6, rfl⟩
    · rw [if_neg hsc] at h7
      rw [← Except.ok.inj h7]
      exact ⟨hP6, rfl⟩
  obtain ⟨hP2, hM2⟩ := hP2
  have hc52 : ∀ k r j, motif_counts e5 k r j = motif_counts e2 k r j := fun k r j =>
    motif_counts_congr (g5a.trans (g4a.trans s1.symm)) (g5b.trans (g4b.trans s3.symm))
      (g5c.trans (g4c.trans s7.symm)) (g5d.trans (g4d.trans s6.symm))
      (g5e.trans (g4e.trans s8.symm)) (g5h.trans hP2.symm) k r j
  intro k hk r hr j hj
  have hk4 : k < e4.n_trained := by
    simp only [n_trained, g4f, g4g]
    exact hk
  have hlen4 : k < e4.motifs.length := by
    rw [g4h, hI.motifs_len]
    exact lt_of_lt_of_le hk (n_trained_le e)
  -- the cells `compute_motifs` writes
  have hv5 : ∀ r < 4, ∀ j < e.l_motif,
      (e5.motif k).elem r j = (motif_counts e2 k r j + c.pseudo_counts) /
        ∑ r ∈ range 4, (motif_counts e2 k r j + c.pseudo_counts) := by
    intro r hr j hj
    rw [(compute_motifs_value h5 hk4 hlen4 hr (by rw [g4d]; exact hj)).1, hc52]
    congr 1
    exact Finset.sum_congr rfl fun r _ => by rw [hc52]
  have hrow5 : (e5.motif k).nrow = 4 := by
    rw [(compute_motifs_value h5 hk4 hlen4 hr (by rw [g4d]; exact hj)).2]
    have : e4.motif k = e.motif k := by simp only [motif, g4h]
    rw [this]
    exact hI.motif_nrow k hk
  have hcnt : ∀ r j, 0 ≤ motif_counts e2 k r j := fun r j =>
    motif_counts_nonneg r j hI2.n_flip_pos fun i hi s hs f hf =>
      (hI2.post_pos i hi k (by rw [s5]; exact lt_of_lt_of_le hk (n_trained_le e)) s hs f hf).le
  have hS : ∀ j, 0 < ∑ r ∈ range 4, (motif_counts e2 k r j + c.pseudo_counts) := fun j =>
    Finset.sum_pos (fun r _ => add_pos_of_nonneg_of_pos (hcnt r j) hc)
      (nonempty_range_iff.mpr (by omega))
  have hpos5 : ∀ r < 4, ∀ j < e.l_motif, 0 < (e5.motif k).elem r j := fun r hr j hj => by
    rw [hv5 r hr j hj]
    exact div_pos (add_pos_of_nonneg_of_pos (hcnt r j) hc) (hS j)
  have hcol5 : ∀ j < e.l_motif, (∑ r ∈ range 4, (e5.motif k).elem r j) = 1 := fun j hj => by
    rw [Finset.sum_congr rfl fun r hr => hv5 r (mem_range.mp hr) j hj, ← Finset.sum_div,
      div_self (hS j).ne']
  -- `normalise_motifs` leaves them as they are
  have hm2 : e2.motif k = e6.motifs.getD k ⟨0, 0, fun _ _ => 0⟩ := by
    simp only [motif, hM2]
  rw [hm2, k6]
  simp only
  rw [getD_mapIdx, if_pos (by rw [g5i]; exact hlen4),
    if_pos (by
      rw [g5f, g5g]
      exact hk4)]
  simp only
  rw [if_pos ⟨by show r < (e5.motif k).nrow; rw [hrow5]; exact hr, by rw [g5d, g4d]; exact hj⟩,
    hrow5, hcol5 j hj, div_one, div_self, div_one]
  · exact hv5 r hr j hj
  · rw [g5d, g4d]
    exact (Finset.sum_pos (fun j hj => hpos5 r hr j (mem_range.mp hj))
      (nonempty_range_iff.mpr (by omega))).ne'

/-- The base at position `j` of the sequence "ACGT" has hash `j`, and its complement has hash
`3 - j`. -/
theorem acgt_hash_val (j : Nat) (hj : j < 4) :
    dna.hash_val (acgt.elem 0 j) false = j ∧ dna.hash_val (acgt.elem 0 j) true = 3 - j := by
  interval_cases j <;> exact ⟨rfl, rfl⟩

/-- C13: for the single sequence "ACGT" with one class, motifs of width four, one strand, no
background class and any seed whose draws are positive, the constructor returns an engine on
which the first call of `cluster()` returns with `P[0,0,0,0] = 1` and with a motif that has
`(1 + eps) / (1 + 4 eps)` on the row of the base of each column and `eps / (1 + 4 eps)` on the
three other rows, which are within `12 eps^2` of `1 - 3 eps` and within `4 eps^2` of `eps`. -/
theorem scenario_single_acgt (lm : Libm R) (hlm : lm.Sound) (c : Constants R)
    (hc : 0 < c.pseudo_counts) (rng : String → Nat → R) (seed : String)
    (center_shift : Bool) (hd : ∀ u, 0 < rng seed u) :
    ∃ e0 code e1,
      construct c rng acgt 1 4 false center_shift false seed "random" = .ok e0 ∧
      cluster lm c e0 = .ok (code, e1) ∧
      e1.post_prob.elem 0 0 0 0 = 1 ∧
      (∀ r < 4, ∀ j < 4, (e1.motif 0).elem r j =
        if r = j then (1 + c.pseudo_counts) / (1 + 4 * c.pseudo_counts)
        else c.pseudo_counts / (1 + 4 * c.pseudo_counts)) ∧
      |(1 + c.pseudo_counts) / (1 + 4 * c.pseudo_counts) - (1 - 3 * c.pseudo_counts)| ≤
        12 * c.pseudo_counts ^ 2 ∧
      |c.pseudo_counts / (1 + 4 * c.pseudo_counts) - c.pseudo_counts| ≤
        4 * c.pseudo_counts ^ 2 := by
  obtain ⟨e0, h0, hI0, _⟩ := construct_inv c hc rng acgt 1 4 false center_shift false seed hd
    acgt_valid (by decide) (by decide) (by decide) (by decide)
  obtain ⟨f1, f2, f3, f4, f5, f6, f7, f8, f9, f10, _⟩ := construct_of_ok h0
  obtain ⟨e1, h1, hI1, _, ⟨s1, s2, s3, s4, s5, s6, s7, s8, s9, s10⟩, _⟩ :=
    cluster_inv lm hlm c hc hI0
  have hN : e1.n_seq = 1 := s3.trans f3
  have hK : e1.n_class = 1 := s5.trans f5
  have hW : e1.l_motif = 4 := s6.trans f6
  have hS : e1.n_shift = 1 := s7.trans f7
  have hF : e1.n_flip = 1 := s8.trans f8
  have hseq : e1.sequences = acgt := s1.trans f2
  have hP : e1.post_prob.elem 0 0 0 0 = 1 := by
    have := hI1.post_sum 0 (by omega)
    simpa only [post_prob_sum, hK, hS, hF, sum_range_one] using this
  have hcnt : ∀ r, ∀ j < 4, motif_counts e1 0 r j = if j = r then 1 else 0 := by
    intro r j hj
    simp only [motif_counts, base_prob, hS, hW, hF, hN, hseq, sum_range_one, Nat.zero_add,
      FORWARD, hP, (acgt_hash_val _ _).1]
    rw [Finset.sum_eq_single_of_mem j (mem_range.mpr hj)]
    · simp [(acgt_hash_val j hj).1]
    · intro b _ hb
      simp [hb]
  have heps : (0 : R) < 1 + 4 * c.pseudo_counts := by linarith
  refine ⟨e0, _, e1, h0, h1, hP, ?_, ?_, ?_⟩
  · intro r hr j hj
    have hk0 : 0 < e0.n_trained := hI0.n_trained_pos
    rw [cluster_motif_value lm hlm c hc hI0 h1 0 hk0 r hr j (by rw [f6]; exact hj)]
    have hsum : (∑ r ∈ range 4, (motif_counts e1 0 r j + c.pseudo_counts)) =
        1 + 4 * c.pseudo_counts := by
      simp only [hcnt _ j hj, sum_add_distrib, sum_const, card_range, nsmul_eq_mul]
      rw [Finset.sum_ite_eq (range 4) j (fun _ => (1 : R)), if_pos (mem_range.mpr hj)]
      norm_num
    rw [hsum, hcnt r j hj]
    by_cases hrj : r = j
    · rw [if_pos hrj, if_pos hrj.symm]
    · rw [if_neg hrj, if_neg (Ne.symm hrj), zero_add]
  · have : (1 + c.pseudo_counts) / (1 + 4 * c.pseudo_counts) - (1 - 3 * c.pseudo_counts) =
        12 * c.pseudo_counts ^ 2 / (1 + 4 * c.pseudo_counts) := by
      field_simp
      ring
    rw [this, abs_of_nonneg (by positivity)]
    exact div_le_self (by positivity) (by linarith)
  · have : c.pseudo_counts / (1 + 4 * c.pseudo_counts) - c.pseudo_counts =
        -(4 * c.pseudo_counts ^ 2 / (1 + 4 * c.pseudo_counts)) := by
      field_simp
      ring
    rw [this, abs_neg, abs_of_nonneg (by positivity)]
    exact div_le_self (by positivity) (by linarith)

/-- C13, with the pseudo-count `1e-8`, every draw equal to one half, and the exponential and
logarithm of the real numbers. -/
theorem scenario_single_acgt_witness :
    ∃ e0 code e1,
      construct (⟨1 / 1000000, 1 / 100000000⟩ : Constants ℝ) (fun _ _ => 1 / 2) acgt 1 4 false
        false false "" "random" = .ok e0 ∧
      cluster (⟨Real.log, Real.exp, Real.sqrt, Real.pi⟩ : Libm ℝ) ⟨1 / 1000000, 1 / 100000000⟩
        e0 = .ok (code, e1) ∧
      e1.post_prob.elem 0 0 0 0 = 1 ∧
      (e1.motif 0).elem 0 0 = 100000001 / 100000004 ∧
      (e1.motif 0).elem 1 0 = 1 / 100000004 := by
  obtain ⟨e0, code, e1, h0, h1, hP, hM, _⟩ := scenario_single_acgt
    (⟨Real.log, Real.exp, Real.sqrt, Real.pi⟩ : Libm ℝ) real_libm_sound
    ⟨1 / 1000000, 1 / 100000000⟩ (by norm_num) (fun _ _ => 1 / 2) "" false
    (fun _ => by norm_num)
  refine ⟨e0, code, e1, h0, h1, hP, ?_, ?_⟩
  · rw [hM 0 (by omega) 0 (by omega)]
    norm_num
  · rw [hM 1 (by omega) 0 (by omega)]
    norm_num

/-- With two flip states and a palindromic motif, the likelihood of a window is the same on both
strands. -/
theorem likelihood_value_flip_eq (lm : Libm R) {e : EMSequenceEngine R} {k : Nat}
    (hF : e.n_flip = 2) (hpal : e.Palindromic k) (i s : Nat) :
    likelihood_value lm e i k s 0 = likelihood_value lm e i k s 1 := by
  simp only [likelihood_value, FORWARD, REVERSE, if_true, one_ne_zero, if_false, hF, and_self,
    dna.score_sequence, motif_log, motif_log_rev]
  congr 1
  refine Finset.sum_congr rfl fun j hj => ?_
  have hj := mem_range.mp hj
  have hlt := hash_val_lt (e.sequences.elem i (s + j)) false
  rw [hpal _ (by omega) (e.l_motif - j - 1) (by omega)]
  congr 2 <;> omega

/-- What the constructor from initial motifs leaves in the likelihood: the value
`compute_likelihood` writes. -/
theorem construct_from_motifs_likelihood {lm : Libm R} {c : Constants R}
    {sequences : Matrix2D Char} {motifs : List (Matrix2D R)} {flip center_shift bg_class : Bool}
    {e : EMSequenceEngine R}
    (h : construct_from_motifs lm c sequences motifs flip center_shift bg_class = .ok e) :
    ∀ i k s f, e.likelihood.elem i k s f = likelihood_value lm e i k s f := by
  unfold construct_from_motifs at h
  cases motifs with
  | nil => exact absurd h (by simp)
  | cons m0 rest =>
    simp only at h
    have h2 := ite_error_eq_ok (ite_error_eq_ok (ite_error_eq_ok h))
    simp only [bind, Except.bind] at h2
    split at h2
    · exact absurd h2 (by simp)
    · rename_i b hb
      have h2 := ite_error_eq_ok h2
      split at h2
      · exact absurd h2 (by simp)
      · rename_i e1 he1
        have k1 := compute_likelihood_of_ok he1
        have k2 := compute_class_prob_of_ok (ite_error_eq_ok h2)
        intro i k s f
        rw [k2]
        simp only [likelihood_value, motif_log, motif_log_rev, motif]
        rw [k1]
        simp only [motif_log, motif_log_rev, motif]
        split_ifs <;> rfl

/-- On an engine that satisfies the invariant, the likelihood of a window on the forward strand
is positive. -/
theorem likelihood_value_pos (lm : Libm R) (hlm : lm.Sound) {e : EMSequenceEngine R}
    (hI : e.Inv) {i k s : Nat} (hi : i < e.n_seq) (hk : k < e.n_class) (hs : s < e.n_shift) :
    0 < likelihood_value lm e i k s 0 := by
  simp only [likelihood_value, FORWARD, if_true, dna.score_sequence, motif_log]
  exact dexp_sum_dlog_pos lm hlm _ _ fun j hj =>
    (hI.toSetup.scored_ne_zero hI.motif_pos hi hk hs (mem_range.mp hj)).1

/-- After a call of `cluster()` on an engine with two flip states, a palindromic motif for class
`k` and class probabilities of class `k` that are the same for both flip states, the posterior
of class `k` is the same for both flip states. -/
theorem cluster_flip_symmetric {lm : Libm R} {c : Constants R} {e e2 : EMSequenceEngine R}
    {code : clustering_codes} {k : Nat} (h : cluster lm c e = .ok (code, e2))
    (hF : e.n_flip = 2) (hpal : e.Palindromic k)
    (hC : ∀ s, e.class_prob.elem k s 0 = e.class_prob.elem k s 1) (i s : Nat) :
    e2.post_prob.elem i k s 0 = e2.post_prob.elem i k s 1 := by
  obtain ⟨_, _, _, _, hP⟩ := cluster_post_prob h
  rw [hP i k s 0, hP i k s 1, likelihood_value_flip_eq lm hF hpal i s, hC s]

/-- The engine the constructor from initial motifs returns with both strands: when the motif of
class `k` is palindromic, the class probabilities of class `k` are the same for both flip
states. -/
theorem construct_from_motifs_flip_symmetric {lm : Libm R} {c : Constants R}
    {sequences : Matrix2D Char} {motifs : List (Matrix2D R)} {center_shift bg_class : Bool}
    {e : EMSequenceEngine R} {k : Nat}
    (h : construct_from_motifs lm c sequences motifs true center_shift bg_class = .ok e)
    (hF : e.n_flip = 2) (hpal : e.Palindromic k)
    (hpost : ∀ i k s f, e.post_prob.elem i k s f =
      if e.likelihood.elem i k s f = 0 then c.pseudo_counts
      else e.likelihood.elem i k s f /
        ∑ k ∈ range e.n_class, ∑ s ∈ range e.n_shift, ∑ f ∈ range e.n_flip,
          e.likelihood.elem i k s f)
    (hclass : ∀ k s f, e.class_prob.elem k s f =
      (∑ i ∈ range e.n_seq, e.post_prob.elem i k s f) /
        ∑ k ∈ range e.n_class, ∑ s ∈ range e.n_shift, ∑ f ∈ range e.n_flip,
          ∑ i ∈ range e.n_seq, e.post_prob.elem i k s f) (s : Nat) :
    e.class_prob.elem k s 0 = e.class_prob.elem k s 1 := by
  have hL := construct_from_motifs_likelihood h
  have hP : ∀ i, e.post_prob.elem i k s 0 = e.post_prob.elem i k s 1 := by
    intro i
    rw [hpost i k s 0, hpost i k s 1, hL i k s 0, hL i k s 1,
      likelihood_value_flip_eq lm hF hpal i s]
  rw [hclass k s 0, hclass k s 1]
  congr 1
  exact Finset.sum_congr rfl fun i _ => hP i

/-- C12 (amended): with two flip states, when the motif of class `k` is palindromic and the
class probabilities of class `k` are the same for both flip states as `cluster()` runs its
E-step, the posterior it computes is the same for both flip states, for every sequence and
shift; on an engine that satisfies the invariant of the reachable engines the call returns; and
such is the engine the constructor from initial motifs returns, with both strands, when the
motif of class `k` is palindromic. -/
theorem posterior_flip_symmetric (lm : Libm R) (hlm : lm.Sound) (c : Constants R)
    (hc : 0 < c.pseudo_counts) :
    (∀ (e e2 : EMSequenceEngine R) (code : clustering_codes) (k : Nat),
      cluster lm c e = .ok (code, e2) → e.n_flip = 2 → e.Palindromic k →
      (∀ s, e.class_prob.elem k s 0 = e.class_prob.elem k s 1) →
      ∀ i s, e2.post_prob.elem i k s 0 = e2.post_prob.elem i k s 1) ∧
    (∀ (e : EMSequenceEngine R) (k : Nat), e.Inv → e.n_flip = 2 → e.Palindromic k →
      (∀ s, e.class_prob.elem k s 0 = e.class_prob.elem k s 1) →
      ∃ code e2, cluster lm c e = .ok (code, e2) ∧
        ∀ i s, e2.post_prob.elem i k s 0 = e2.post_prob.elem i k s 1) ∧
    (∀ (sequences : Matrix2D Char) (m0 : Matrix2D R) (rest : List (Matrix2D R))
        (center_shift bg_class : Bool) (k : Nat),
      (∀ i < sequences.nrow, ∀ j < sequences.ncol, dna.hash_map (sequences.elem i j) ≠ none) →
      (m0 :: rest).length ≤ sequences.nrow → 0 < m0.ncol → m0.ncol ≤ sequences.ncol →
      (∀ m ∈ m0 :: rest, m.ncol = m0.ncol) → (∀ m ∈ m0 :: rest, m.nrow = 4) →
      (∀ m ∈ m0 :: rest, ∀ r < 4, ∀ j < m0.ncol, 0 < m.elem r j) →
      k < (m0 :: rest).length →
      (∀ r < 4, ∀ j < m0.ncol, ((m0 :: rest).getD k ⟨0, 0, fun _ _ => 0⟩).elem r j =
        ((m0 :: rest).getD k ⟨0, 0, fun _ _ => 0⟩).elem (3 - r) (m0.ncol - 1 - j)) →
      ∃ e0 code e1,
        construct_from_motifs lm c sequences (m0 :: rest) true center_shift bg_class = .ok e0 ∧
        cluster lm c e0 = .ok (code, e1) ∧
        ∀ i s, e1.post_prob.elem i k s 0 = e1.post_prob.elem i k s 1) := by
  refine ⟨fun e e2 code k h hF hpal hC i s => cluster_flip_symmetric h hF hpal hC i s,
    fun e k hI hF hpal hC => ?_, ?_⟩
  · obtain ⟨e2, h, _⟩ := cluster_inv lm hlm c hc hI
    exact ⟨_, e2, h, fun i s => cluster_flip_symmetric h hF hpal hC i s⟩
  · intro sequences m0 rest center_shift bg_class k hvalid hKN hW hWL hcol hrow hpos hk hpal
    obtain ⟨e0, h0, hI0, _⟩ := construct_from_motifs_inv lm hlm c sequences m0 rest true
      center_shift bg_class hvalid hKN hW hWL hcol hrow hpos
    obtain ⟨e0', h0', _, _, _, _, _, f6, _, f8, _, _, f11, _, f13, _, _, _, f17, _⟩ :=
      construct_from_motifs_ok lm hlm c hc sequences m0 rest true center_shift bg_class hvalid
        hKN hW hWL hcol (fun m hm => (hrow m hm).ge)
    have hee : e0' = e0 := Except.ok.inj (h0'.symm.trans h0)
    rw [hee] at f6 f8 f11 f13 f17
    have hF : e0.n_flip = 2 := f8
    have hp : e0.Palindromic k := by
      intro r hr j hj
      rw [f11 k hk, f6]
      exact hpal r hr j (by rw [← f6]; exact hj)
    have hC := construct_from_motifs_flip_symmetric h0 hF hp f13 f17
    obtain ⟨e1, h1, _⟩ := cluster_inv lm hlm c hc hI0
    exact ⟨e0, _, e1, h0, h1, fun i s => cluster_flip_symmetric h1 hF hp hC i s⟩

/-- C12 (amended), on the engine built from the sequence "ACGT" and the uniform motif of width
four, with both strands. -/
theorem posterior_flip_symmetric_witness :
    ∃ e0 code e1,
      construct_from_motifs (⟨Real.log, Real.exp, Real.sqrt, Real.pi⟩ : Libm ℝ)
        ⟨1 / 1000000, 1 / 100000000⟩ acgt [uniform_motif4] true false false = .ok e0 ∧
      cluster (⟨Real.log, Real.exp, Real.sqrt, Real.pi⟩ : Libm ℝ) ⟨1 / 1000000, 1 / 100000000⟩
        e0 = .ok (code, e1) ∧
      ∀ i s, e1.post_prob.elem i 0 s 0 = e1.post_prob.elem i 0 s 1 :=
  (posterior_flip_symmetric (⟨Real.log, Real.exp, Real.sqrt, Real.pi⟩ : Libm ℝ)
    real_libm_sound ⟨1 / 1000000, 1 / 100000000⟩ (by norm_num)).2.2 acgt uniform_motif4 []
    false false 0 acgt_valid (by decide) (by decide) (by decide)
    (fun m hm => by rw [List.mem_singleton.mp hm])
    (fun m hm => by rw [List.mem_singleton.mp hm]; rfl)
    (fun m hm r _ j _ => by
      rw [List.mem_singleton.mp hm]
      simp only [uniform_motif4]
      norm_num)
    (by decide) (fun r _ j _ => rfl)

/-- C12, as stated, fails: the constructor without initial motifs, on the single sequence "ACGT"
with one class, motifs of width four, both strands and the draws `3/4` and `1/4`, returns an
engine whose motif is palindromic and whose class probabilities are `3/4` and `1/4` for the two
flip states; after one call of `cluster()` the posterior is `3/4` for the forward strand and
`1/4` for the reverse strand. -/
theorem posterior_flip_asymmetric :
    ∃ e0 code e1,
      construct (⟨1 / 1000000, 1 / 100000000⟩ : Constants ℝ)
        (fun _ u => if u = 0 then 3 / 4 else 1 / 4) acgt 1 4 true false false ""
        "random" = .ok e0 ∧
      e0.n_flip = 2 ∧ e0.Palindromic 0 ∧
      cluster (⟨Real.log, Real.exp, Real.sqrt, Real.pi⟩ : Libm ℝ) ⟨1 / 1000000, 1 / 100000000⟩
        e0 = .ok (code, e1) ∧
      e1.post_prob.elem 0 0 0 0 = 3 / 4 ∧ e1.post_prob.elem 0 0 0 1 = 1 / 4 ∧
      ¬ |e1.post_prob.elem 0 0 0 0 - e1.post_prob.elem 0 0 0 1| ≤ 10 * (1 / 100000000) := by
  obtain ⟨e0, h0, hI0, _⟩ := construct_inv (⟨1 / 1000000, 1 / 100000000⟩ : Constants ℝ)
    (by norm_num) (fun _ u => if u = 0 then 3 / 4 else 1 / 4) acgt 1 4 true false false ""
    (fun u => by
      show (0 : ℝ) < if u = 0 then 3 / 4 else 1 / 4
      split_ifs <;> norm_num) acgt_valid (by decide) (by decide) (by decide)
    (by decide)
  obtain ⟨_, f2, f3, _, f5, f6, f7, f8, _, _, _, f12, f13, f14, _, f16, f17, f18⟩ :=
    construct_of_ok h0
  have hN : e0.n_seq = 1 := f3
  have hK : e0.n_class = 1 := f5
  have hW : e0.l_motif = 4 := f6
  have hS : e0.n_shift = 1 := f7
  have hF : e0.n_flip = 2 := f8
  have hP0 : e0.post_prob.elem 0 0 0 0 = 3 / 4 := by
    rw [f16]
    simp only [Matrix4D.offset, f12, f13, f14, hK, hS, hF, sum_range_succ, sum_range_zero]
    norm_num
  have hP1 : e0.post_prob.elem 0 0 0 1 = 1 / 4 := by
    rw [f16]
    simp only [Matrix4D.offset, f12, f13, f14, hK, hS, hF, sum_range_succ, sum_range_zero]
    norm_num
  have hC0 : e0.class_prob.elem 0 0 0 = 3 / 4 := by
    rw [f17]
    simp only [hN, hK, hS, hF, sum_range_succ, sum_range_zero, hP0, hP1]
    norm_num
  have hC1 : e0.class_prob.elem 0 0 1 = 1 / 4 := by
    rw [f17]
    simp only [hN, hK, hS, hF, sum_range_succ, sum_range_zero, hP0, hP1]
    norm_num
  have hcnt : ∀ r, ∀ j < 4, motif_counts e0 0 r j = if j = r then 1 else 0 := by
    intro r j hj
    have h3 : ∀ j2 < 4, (4 - j2 - 1 = j ↔ j2 = 3 - j) := fun j2 hj2 => by omega
    simp only [motif_counts, base_prob, base_prob_rev, hS, hW, hF, hN, f2, sum_range_one,
      Nat.zero_add, FORWARD, REVERSE, hP0, hP1, true_and, sum_add_distrib]
    rw [Finset.sum_eq_single_of_mem j (mem_range.mpr hj) (fun b _ hb => by simp [hb]),
      Finset.sum_eq_single_of_mem (3 - j) (mem_range.mpr (by omega)) (fun b hb hb2 => by
        have := mem_range.mp hb
        rw [if_neg (by omega)])]
    rw [if_pos rfl, (acgt_hash_val j hj).1, if_pos (show 4 - (3 - j) - 1 = j by omega),
      (acgt_hash_val (3 - j) (by omega)).2, show 3 - (3 - j) = j by omega]
    split_ifs <;> norm_num
  have hden : ∀ j < 4, (∑ r ∈ range 4, (motif_counts e0 0 r j + 1 / 100000000 : ℝ)) =
      1 + 4 / 100000000 := by
    intro j hj
    simp only [hcnt _ j hj, sum_add_distrib, sum_const, card_range, nsmul_eq_mul]
    rw [Finset.sum_ite_eq (range 4) j (fun _ => (1 : ℝ)), if_pos (mem_range.mpr hj)]
    norm_num
  have hpal : e0.Palindromic 0 := by
    intro r hr j hj
    rw [hW] at hj
    have hv1 := f18 0 (by omega) r hr j hj
    have hv2 := f18 0 (by omega) (3 - r) (by omega) (e0.l_motif - 1 - j) (by rw [hW]; omega)
    simp only at hv1 hv2
    rw [hv1, hv2, hW, hden j hj, hden (4 - 1 - j) (by omega), hcnt r j hj,
      hcnt (3 - r) (4 - 1 - j) (by omega)]
    have hiff : (4 - 1 - j = 3 - r) ↔ (j = r) := by omega
    simp only [hiff]
  obtain ⟨e1, h1, _⟩ := cluster_inv (⟨Real.log, Real.exp, Real.sqrt, Real.pi⟩ : Libm ℝ)
    real_libm_sound ⟨1 / 1000000, 1 / 100000000⟩ (by norm_num) hI0
  obtain ⟨_, _, _, _, hP⟩ := cluster_post_prob h1
  have hl := likelihood_value_flip_eq (⟨Real.log, Real.exp, Real.sqrt, Real.pi⟩ : Libm ℝ) hF
    hpal 0 0
  have hlpos := likelihood_value_pos (⟨Real.log, Real.exp, Real.sqrt, Real.pi⟩ : Libm ℝ)
    real_libm_sound hI0 (i := 0) (k := 0) (s := 0) (by omega) (by omega) (by omega)
  have hQ0 : e1.post_prob.elem 0 0 0 0 = 3 / 4 := by
    rw [hP]
    simp only [hK, hS, hF, sum_range_succ, sum_range_zero, zero_add, hC0, hC1, ← hl]
    have : likelihood_value (⟨Real.log, Real.exp, Real.sqrt, Real.pi⟩ : Libm ℝ) e0 0 0 0 0 *
        (3 / 4) / (likelihood_value (⟨Real.log, Real.exp, Real.sqrt, Real.pi⟩ : Libm ℝ) e0 0 0
          0 0 * (3 / 4) + likelihood_value (⟨Real.log, Real.exp, Real.sqrt, Real.pi⟩ : Libm ℝ)
          e0 0 0 0 0 * (1 / 4)) = 3 / 4 := by
      field_simp
      ring
    rw [this]
    norm_num
  have hQ1 : e1.post_prob.elem 0 0 0 1 = 1 / 4 := by
    rw [hP]
    simp only [hK, hS, hF, sum_range_succ, sum_range_zero, zero_add, hC0, hC1, ← hl]
    have : likelihood_value (⟨Real.log, Real.exp, Real.sqrt, Real.pi⟩ : Libm ℝ) e0 0 0 0 0 *
        (1 / 4) / (likelihood_value (⟨Real.log, Real.exp, Real.sqrt, Real.pi⟩ : Libm ℝ) e0 0 0
          0 0 * (3 / 4) + likelihood_value (⟨Real.log, Real.exp, Real.sqrt, Real.pi⟩ : Libm ℝ)
          e0 0 0 0 0 * (1 / 4)) = 1 / 4 := by
      field_simp
      ring
    rw [this]
    norm_num
  refine ⟨e0, _, e1, h0, hF, hpal, h1, hQ0, hQ1, ?_⟩
  rw [hQ0, hQ1]
  norm_num [abs_le]

/-- C29: a call of `cluster()` that returns leaves an engine whose iteration counter is one more
than before; when the counter was positive before the call, the previous-posterior tensor after
the call is the posterior tensor of before the call (and it is unchanged when the counter was
zero); the sequence matrix, the background vector, the dimensions and the flags are the same
after the call as before it.  On an engine that satisfies the invariant of the reachable states
the call does return. -/
theorem cluster_frame_effect (lm : Libm R) (c : Constants R) (e : EMSequenceEngine R) :
    (∀ code e2, cluster lm c e = .ok (code, e2) →
      e2.n_iter = e.n_iter + 1 ∧
      (e.n_iter > 0 → e2.post_prob_prev = e.post_prob) ∧
      (e.n_iter = 0 → e2.post_prob_prev = e.post_prob_prev) ∧
      e2.sequences = e.sequences ∧ e2.bg_prob = e.bg_prob ∧ e2.n_seq = e.n_seq ∧
      e2.l_seq = e.l_seq ∧ e2.n_class = e.n_class ∧ e2.l_motif = e.l_motif ∧
      e2.n_shift = e.n_shift ∧ e2.n_flip = e.n_flip ∧ e2.bg_class = e.bg_class ∧
      e2.shift_center = e.shift_center) ∧
    (lm.Sound → 0 < c.pseudo_counts → e.Inv → ∃ code e2, cluster lm c e = .ok (code, e2)) := by
  refine ⟨fun code e2 h => ?_, fun hlm hc hinv => ?_⟩
  · obtain ⟨hs, hn, hp, -⟩ := cluster_frame h
    refine ⟨hn, fun h0 => ?_, fun h0 => ?_, hs⟩
    · rw [hp, if_pos h0]
    · rw [hp, if_neg (by omega)]
  · obtain ⟨e2, h, -⟩ := cluster_inv lm hlm c hc hinv
    exact ⟨_, e2, h⟩

/-- Two lists of the same length with the same cells are equal. -/
theorem list_eq_of_getD {α : Type} (l1 l2 : List α) (d : α) (hlen : l1.length = l2.length)
    (h : ∀ k < l1.length, l1.getD k d = l2.getD k d) : l1 = l2 := by
  refine List.ext_getElem hlen fun k h1 h2 => ?_
  have := h k h1
  rwa [List.getD_eq_getElem _ _ h1, List.getD_eq_getElem _ _ h2] at this

/-- Two matrices with the same shape and the same cells are equal. -/
theorem matrix2D_eq {α : Type} (m1 m2 : Matrix2D α) (h1 : m1.nrow = m2.nrow)
    (h2 : m1.ncol = m2.ncol) (h3 : ∀ i j, m1.elem i j = m2.elem i j) : m1 = m2 := by
  cases m1
  cases m2
  simp only at h1 h2 h3
  subst h1
  subst h2
  congr
  funext i j
  exact h3 i j

/-- `normalise_motifs` on trained motifs with at least one row and positive cells: it succeeds,
each of these cells is divided by the sum of its column, and nothing else changes. -/
theorem normalise_motifs_value {e : EMSequenceEngine R} (hW : 0 < e.l_motif)
    (hrow : ∀ k < e.n_trained, 0 < (e.motif k).nrow)
    (hM : ∀ k < e.n_trained, ∀ r < (e.motif k).nrow, ∀ j < e.l_motif,
      0 < (e.motif k).elem r j) :
    ∃ M : List (Matrix2D R), normalise_motifs e = .ok { e with motifs := M } ∧
      M.length = e.motifs.length ∧
      (∀ k < e.n_trained,
        (M.getD k ⟨0, 0, fun _ _ => 0⟩).nrow = (e.motif k).nrow ∧
        (M.getD k ⟨0, 0, fun _ _ => 0⟩).ncol = (e.motif k).ncol ∧
        ∀ r j, (M.getD k ⟨0, 0, fun _ _ => 0⟩).elem r j =
          if r < (e.motif k).nrow ∧ j < e.l_motif then
            (e.motif k).elem r j / ∑ i ∈ range (e.motif k).nrow, (e.motif k).elem i j
          else (e.motif k).elem r j) ∧
      (∀ k, e.n_trained ≤ k → M.getD k ⟨0, 0, fun _ _ => 0⟩ = e.motif k) := by
  have hrs : ∀ k < e.n_trained, ∀ r < (e.motif k).nrow,
      0 < ∑ j ∈ range e.l_motif, (e.motif k).elem r j :=
    fun k hk r hr => Finset.sum_pos (fun j hj => hM k hk r hr j (mem_range.mp hj))
      (nonempty_range_iff.mpr hW.ne')
  have hbc : ∀ k < e.n_trained, ∀ r < (e.motif k).nrow,
      (∑ j ∈ range e.l_motif, (e.motif k).elem r j) /
        (∑ j ∈ range e.l_motif, (e.motif k).elem r j) = 1 :=
    fun k hk r hr => div_self (hrs k hk r hr).ne'
  have hcs : ∀ k < e.n_trained, ∀ j < e.l_motif,
      0 < ∑ i ∈ range (e.motif k).nrow, (e.motif k).elem i j :=
    fun k hk j hj => Finset.sum_pos (fun r hr => hM k hk r (mem_range.mp hr) j hj)
      (nonempty_range_iff.mpr (hrow k hk).ne')
  have hkl : ∀ k < e.n_trained, k < e.motifs.length := by
    intro k hk
    by_contra hh
    have h0 := hrow k hk
    unfold motif at h0
    rw [List.getD_eq_getElem?_getD, List.getElem?_eq_none (by omega)] at h0
    exact absurd h0 (lt_irrefl 0)
  have hg : ¬ ∃ k ∈ range (e.n_class - (if e.bg_class then 1 else 0)),
      (∃ i ∈ range (e.motif k).nrow, (∑ j ∈ range e.l_motif, (e.motif k).elem i j) = 0) ∨
      (∃ _j ∈ range e.l_motif, ∃ i ∈ range (e.motif k).nrow,
        (∑ j ∈ range e.l_motif, (e.motif k).elem i j) /
          (∑ j ∈ range e.l_motif, (e.motif k).elem i j) = 0) ∨
      (∃ j ∈ range e.l_motif, ∃ _i ∈ range (e.motif k).nrow,
        (∑ i ∈ range (e.motif k).nrow, (e.motif k).elem i j) = 0) := by
    push_neg
    intro k hk
    have hk := mem_range.mp hk
    refine ⟨fun i hi => ?_, fun _ _ i hi => ?_, fun j hj _ _ => ?_⟩
    · exact (hrs k hk i (mem_range.mp hi)).ne'
    · rw [hbc k hk i (mem_range.mp hi)]
      exact one_ne_zero
    · exact (hcs k hk j (mem_range.mp hj)).ne'
  refine ⟨_, by unfold normalise_motifs; rw [if_neg hg], ?_, ?_, ?_⟩
  · exact List.length_mapIdx
  · intro k hk
    have hk2 : k < e.n_class - (if e.bg_class then 1 else 0) := hk
    rw [getD_mapIdx, if_pos (hkl k hk), if_pos hk2]
    refine ⟨rfl, rfl, fun r j => ?_⟩
    show (if r < (e.motif k).nrow ∧ j < e.l_motif then _ else _) = _
    by_cases hrj : r < (e.motif k).nrow ∧ j < e.l_motif
    · rw [if_pos hrj, if_pos hrj]
      show (e.motif k).elem r j / ((∑ j ∈ range e.l_motif, (e.motif k).elem r j) /
        (∑ j ∈ range e.l_motif, (e.motif k).elem r j)) / _ = _
      rw [hbc k hk r hrj.1, div_one]
    · rw [if_neg hrj, if_neg hrj]
      rfl
  · intro k hk
    have hk2 : ¬ k < e.n_class - (if e.bg_class then 1 else 0) := not_lt.mpr hk
    exact getD_mapIdx_of_fix _ _ _ _ fun m => by rw [if_neg hk2]

/-- On trained motifs with positive cells whose columns sum to one, `normalise_motifs` changes
nothing. -/
theorem normalise_motifs_fix {e : EMSequenceEngine R} (hW : 0 < e.l_motif)
    (hrow : ∀ k < e.n_trained, 0 < (e.motif k).nrow)
    (hM : ∀ k < e.n_trained, ∀ r < (e.motif k).nrow, ∀ j < e.l_motif,
      0 < (e.motif k).elem r j)
    (hsum : ∀ k < e.n_trained, ∀ j < e.l_motif,
      ∑ i ∈ range (e.motif k).nrow, (e.motif k).elem i j = 1) :
    normalise_motifs e = .ok e := by
  obtain ⟨M, h, hl, hv, hu⟩ := normalise_motifs_value hW hrow hM
  have hMe : M = e.motifs := by
    refine list_eq_of_getD M e.motifs ⟨0, 0, fun _ _ => 0⟩ hl fun k _ => ?_
    by_cases hk : k < e.n_trained
    · obtain ⟨h1, h2, h3⟩ := hv k hk
      refine matrix2D_eq _ _ h1 h2 fun r j => ?_
      rw [h3 r j]
      split_ifs with hrj
      · rw [hsum k hk j hrj.2, div_one]
        rfl
      · rfl
    · exact hu k (not_lt.mp hk)
  rw [h, hMe]

/-- C27: on trained motifs with strictly positive cells, the composition `normalise_motifs`
computes for each row is one, and `normalise_motifs` returns the engine in which each of these
cells is divided by the sum of its column and nothing else is changed; applied to its own result
it returns that result again; when the columns already sum to one it returns the engine it was
given; and such is the engine `compute_motifs` returns, on which `normalise_motifs` is the
identity. -/
theorem normalise_motifs_column_sum {e : EMSequenceEngine R} (hW : 0 < e.l_motif)
    (hrow : ∀ k < e.n_trained, 0 < (e.motif k).nrow)
    (hM : ∀ k < e.n_trained, ∀ r < (e.motif k).nrow, ∀ j < e.l_motif,
      0 < (e.motif k).elem r j) :
    (∀ k < e.n_trained, ∀ r < (e.motif k).nrow,
      (∑ j ∈ range e.l_motif, (e.motif k).elem r j) /
        (∑ j ∈ range e.l_motif, (e.motif k).elem r j) = 1) ∧
    (∃ e2, normalise_motifs e = .ok e2 ∧ e2 = { e with motifs := e2.motifs } ∧
      e2.motifs.length = e.motifs.length ∧
      (∀ k < e.n_trained, (e2.motif k).nrow = (e.motif k).nrow ∧
        (e2.motif k).ncol = (e.motif k).ncol ∧
        ∀ r j, (e2.motif k).elem r j =
          if r < (e.motif k).nrow ∧ j < e.l_motif then
            (e.motif k).elem r j / ∑ i ∈ range (e.motif k).nrow, (e.motif k).elem i j
          else (e.motif k).elem r j) ∧
      (∀ k, e.n_trained ≤ k → e2.motif k = e.motif k) ∧
      normalise_motifs e2 = .ok e2) ∧
    ((∀ k < e.n_trained, ∀ j < e.l_motif,
        ∑ i ∈ range (e.motif k).nrow, (e.motif k).elem i j = 1) →
      normalise_motifs e = .ok e) ∧
    (∀ (c : Constants R) (e0 : EMSequenceEngine R), 0 < c.pseudo_counts → 0 < e0.n_flip →
      0 < e0.l_motif → e0.n_shift + e0.l_motif ≤ e0.l_seq + 1 →
      (∀ i < e0.n_seq, ∀ j < e0.l_seq, dna.hash_map (e0.sequences.elem i j) ≠ none) →
      e0.motifs.length = e0.n_class → (∀ k < e0.n_trained, (e0.motif k).nrow = 4) →
      (∀ i < e0.n_seq, ∀ k < e0.n_class, ∀ s < e0.n_shift, ∀ f < e0.n_flip,
        0 ≤ e0.post_prob.elem i k s f) →
      ∃ e5, compute_motifs c e0 = .ok e5 ∧ normalise_motifs e5 = .ok e5) := by
  have hcs : ∀ k < e.n_trained, ∀ j < e.l_motif,
      0 < ∑ i ∈ range (e.motif k).nrow, (e.motif k).elem i j :=
    fun k hk j hj => Finset.sum_pos (fun r hr => hM k hk r (mem_range.mp hr) j hj)
      (nonempty_range_iff.mpr (hrow k hk).ne')
  refine ⟨fun k hk r hr => div_self (ne_of_gt ?_), ?_, normalise_motifs_fix hW hrow hM, ?_⟩
  · exact Finset.sum_pos (fun j hj => hM k hk r hr j (mem_range.mp hj))
      (nonempty_range_iff.mpr hW.ne')
  · obtain ⟨M, h, hl, hv, hu⟩ := normalise_motifs_value hW hrow hM
    refine ⟨_, h, rfl, hl, hv, hu, ?_⟩
    have hW2 : 0 < ({ e with motifs := M } : EMSequenceEngine R).l_motif := hW
    refine normalise_motifs_fix hW2 (fun k hk => ?_) (fun k hk r hr j hj => ?_)
      (fun k hk j hj => ?_)
    · have hk2 : k < e.n_trained := hk
      exact (hv k hk2).1 ▸ hrow k hk2
    · have hk2 : k < e.n_trained := hk
      have hr2 : r < (e.motif k).nrow := (hv k hk2).1 ▸ hr
      have hj2 : j < e.l_motif := hj
      show 0 < (M.getD k ⟨0, 0, fun _ _ => 0⟩).elem r j
      rw [(hv k hk2).2.2 r j, if_pos ⟨hr2, hj2⟩]
      exact div_pos (hM k hk2 r hr2 j hj2) (hcs k hk2 j hj2)
    · have hk2 : k < e.n_trained := hk
      have hj2 : j < e.l_motif := hj
      show ∑ i ∈ range (M.getD k ⟨0, 0, fun _ _ => 0⟩).nrow,
        (M.getD k ⟨0, 0, fun _ _ => 0⟩).elem i j = 1
      rw [(hv k hk2).1, Finset.sum_congr rfl fun i hi => by
        rw [(hv k hk2).2.2 i j, if_pos ⟨mem_range.mp hi, hj2⟩], ← Finset.sum_div,
        div_self (hcs k hk2 j hj2).ne']
  · intro c e0 hc hF hW0 hwin hvalid hlen hrow0 hP
    obtain ⟨M, h, _, hn, hpos, hsum, _⟩ := compute_motifs_pos c hc hF hwin hvalid hlen hP
    refine ⟨_, h, ?_⟩
    have hW2 : 0 < ({ e0 with motifs := M } : EMSequenceEngine R).l_motif := hW0
    have hn4 : ∀ k < e0.n_trained, (M.getD k ⟨0, 0, fun _ _ => 0⟩).nrow = 4 :=
      fun k hk => (hn k hk).trans (hrow0 k hk)
    refine normalise_motifs_fix hW2 (fun k hk => ?_) (fun k hk r hr j hj => ?_)
      (fun k hk j hj => ?_)
    · show 0 < (M.getD k ⟨0, 0, fun _ _ => 0⟩).nrow
      rw [hn4 k hk]
      norm_num
    · have hr2 : r < (M.getD k ⟨0, 0, fun _ _ => 0⟩).nrow := hr
      rw [hn4 k hk] at hr2
      exact hpos k hk r hr2 j hj
    · show ∑ i ∈ range (M.getD k ⟨0, 0, fun _ _ => 0⟩).nrow,
        (M.getD k ⟨0, 0, fun _ _ => 0⟩).elem i j = 1
      rw [hn4 k hk]
      exact hsum k hk j hj

/-- C27 on an engine with one class and the motif of width one whose four cells are one
quarter: `normalise_motifs` returns the engine it was given. -/
theorem normalise_motifs_column_sum_witness :
    normalise_motifs (shift_engine (1 / 2 : ℚ) (1 / 2)) = .ok (shift_engine (1 / 2) (1 / 2)) := by
  have hrow : ∀ k < (shift_engine (1 / 2 : ℚ) (1 / 2)).n_trained,
      0 < ((shift_engine (1 / 2 : ℚ) (1 / 2)).motif k).nrow := by
    intro k hk
    have hk0 : k = 0 := by
      simp only [n_trained, shift_engine] at hk
      omega
    subst hk0
    simp [motif, shift_engine]
  have hM : ∀ k < (shift_engine (1 / 2 : ℚ) (1 / 2)).n_trained,
      ∀ r < ((shift_engine (1 / 2 : ℚ) (1 / 2)).motif k).nrow,
      ∀ j < (shift_engine (1 / 2 : ℚ) (1 / 2)).l_motif,
      0 < ((shift_engine (1 / 2 : ℚ) (1 / 2)).motif k).elem r j := by
    intro k hk r _ j _
    have hk0 : k = 0 := by
      simp only [n_trained, shift_engine] at hk
      omega
    subst hk0
    simp [motif, shift_engine]
  refine (normalise_motifs_column_sum (e := shift_engine (1 / 2 : ℚ) (1 / 2)) (by decide)
    hrow hM).2.2.1 fun k hk j hj => ?_
  have hk0 : k = 0 := by
    simp only [n_trained, shift_engine] at hk
    omega
  subst hk0
  simp [motif, shift_engine, Finset.sum_range_succ]

/-- On a base, the code of the complement is three minus the code of the base. -/
theorem hash_val_rev {b : Char} (h : dna.hash_map b ≠ none) :
    dna.hash_val b true = 3 - dna.hash_val b false := by
  have hb : b ∈ dna.get_valid_dna_char := by
    by_contra hc
    exact h ((hash_map_eq_none_iff b).mpr hc)
  simp only [dna.get_valid_dna_char, List.mem_cons, List.mem_singleton, List.not_mem_nil,
    or_false] at hb
  rcases hb with rfl | rfl | rfl | rfl | rfl | rfl | rfl | rfl <;> decide

/-- The value the accumulation loops of `compute_motifs` leave in a cell is the weighted count of
the specification, when the bases the loops read are valid. -/
theorem motif_counts_eq_weighted_count {e : EMSequenceEngine R}
    (hv : ∀ i < e.n_seq, ∀ s < e.n_shift, ∀ j < e.l_motif,
      dna.hash_map (e.sequences.elem i (s + j)) ≠ none)
    (k : Nat) {r j : Nat} (hr : r < 4) (hj : j < e.l_motif) :
    motif_counts e k r j = weighted_count e k r j := by
  unfold motif_counts weighted_count
  simp only [Finset.sum_add_distrib]
  congr 1
  · have h1 : ∀ s ∈ range e.n_shift,
        (∑ j2 ∈ range e.l_motif, if j2 = j then base_prob e k s j2 r else 0) =
          base_prob e k s j r := by
      intro s _
      rw [Finset.sum_ite_eq', if_pos (mem_range.mpr hj)]
    rw [Finset.sum_congr rfl h1]
    unfold base_prob
    rw [Finset.sum_comm]
    rfl
  · by_cases hF : e.n_flip = 2
    · rw [if_pos hF]
      have h2 : ∀ s ∈ range e.n_shift,
          (∑ j2 ∈ range e.l_motif,
            if e.n_flip = 2 ∧ e.l_motif - j2 - 1 = j then base_prob_rev e k s j2 r else 0) =
            base_prob_rev e k s (e.l_motif - 1 - j) r := by
        intro s _
        have hc : ∀ j2 ∈ range e.l_motif,
            (if e.n_flip = 2 ∧ e.l_motif - j2 - 1 = j then base_prob_rev e k s j2 r else 0) =
            if j2 = e.l_motif - 1 - j then base_prob_rev e k s j2 r else 0 := by
          intro j2 hj2
          have hj2 := mem_range.mp hj2
          by_cases hjj : j2 = e.l_motif - 1 - j
          · rw [if_pos ⟨hF, by omega⟩, if_pos hjj]
          · rw [if_neg (fun hh => hjj (by omega)), if_neg hjj]
        rw [Finset.sum_congr rfl hc, Finset.sum_ite_eq', if_pos (mem_range.mpr (by omega))]
      rw [Finset.sum_congr rfl h2]
      unfold base_prob_rev
      rw [Finset.sum_comm]
      refine Finset.sum_congr rfl fun i hi => Finset.sum_congr rfl fun s hs => ?_
      have hv := hv i (mem_range.mp hi) s (mem_range.mp hs) (e.l_motif - 1 - j) (by omega)
      have hlt := hash_val_lt (e.sequences.elem i (s + (e.l_motif - 1 - j))) false
      rw [hash_val_rev hv]
      by_cases hh : dna.hash_val (e.sequences.elem i (s + (e.l_motif - 1 - j))) false = 3 - r
      · rw [if_pos hh, if_pos (by omega)]
        rfl
      · rw [if_neg hh, if_neg (by omega)]
    · rw [if_neg hF]
      refine Finset.sum_eq_zero fun s _ => Finset.sum_eq_zero fun j2 _ => ?_
      rw [if_neg (fun hh => hF hh.1)]

/-- C25: on an engine with as many motifs as classes, whenever `compute_motifs` returns, every
cell `(r, j)` of the motif of a class `k` that is not the background class is, in the engine it
returns, `(A_k[r,j] + eps) / (sum over r2 of A_k[r2,j] + 4 eps)`, `A_k` being the weighted counts
of the specification under the posterior; and `compute_motifs` does return on valid sequences
with windows inside them and a posterior without negative entries. -/
theorem compute_motifs_weighted_counts (c : Constants R) {e : EMSequenceEngine R}
    (hlen : e.motifs.length = e.n_class) :
    (∀ e2, compute_motifs c e = .ok e2 →
      ∀ k < e.n_trained, ∀ r < 4, ∀ j < e.l_motif,
        (e2.motif k).elem r j = (weighted_count e k r j + c.pseudo_counts) /
          ((∑ r2 ∈ range 4, weighted_count e k r2 j) + 4 * c.pseudo_counts)) ∧
    (0 < c.pseudo_counts → 0 < e.n_flip → e.n_shift + e.l_motif ≤ e.l_seq + 1 →
      (∀ i < e.n_seq, ∀ j < e.l_seq, dna.hash_map (e.sequences.elem i j) ≠ none) →
      (∀ i < e.n_seq, ∀ k < e.n_class, ∀ s < e.n_shift, ∀ f < e.n_flip,
        0 ≤ e.post_prob.elem i k s f) →
      ∃ e2, compute_motifs c e = .ok e2) := by
  refine ⟨fun e2 h k hk r hr j hj => ?_, fun hc hF hwin hvalid hP => ?_⟩
  · have hg := (ite_error_eq_ok_guard h).1
    push_neg at hg
    have hv : ∀ i < e.n_seq, ∀ s < e.n_shift, ∀ j < e.l_motif,
        dna.hash_map (e.sequences.elem i (s + j)) ≠ none := fun i hi s hs j hj =>
      hg k (mem_range.mpr hk) s (mem_range.mpr hs) j (mem_range.mpr hj) i (mem_range.mpr hi)
    have hkl : k < e.motifs.length := by
      rw [hlen]
      exact lt_of_lt_of_le hk (n_trained_le e)
    rw [(compute_motifs_value h hk hkl hr hj).1]
    have hmc : ∀ r2, motif_counts e2 k r2 j = motif_counts e k r2 j := fun r2 => by
      rw [compute_motifs_of_ok h]
      rfl
    rw [hmc, Finset.sum_congr rfl fun r2 _ => by rw [hmc r2],
      motif_counts_eq_weighted_count hv k hr hj,
      Finset.sum_congr rfl fun r2 hr2 => by
        rw [motif_counts_eq_weighted_count hv k (mem_range.mp hr2) hj],
      Finset.sum_add_distrib]
    simp only [sum_const, card_range, nsmul_eq_mul, Nat.cast_ofNat]
  · obtain ⟨M, h, -⟩ := compute_motifs_pos c hc hF hwin hvalid hlen hP
    exact ⟨_, h⟩

/-- C25 on the engine with the sequence "AA", one class, motifs of width one and the posterior
one half on each of the two shifts, with the pseudo-count `1e-8`: `compute_motifs` returns, the
weighted count of `A` is one and its cell becomes `(1 + 1e-8) / (1 + 4e-8)`. -/
theorem compute_motifs_weighted_counts_witness :
    ∃ e2, compute_motifs (⟨1 / 1000000, 1 / 100000000⟩ : Constants ℚ)
        (shift_engine (1 / 2) (1 / 2)) = .ok e2 ∧
      (e2.motif 0).elem 0 0 = 100000001 / 100000004 := by
  have hA : dna.hash_val 'A' false = 0 := by decide
  obtain ⟨hv, hex⟩ := compute_motifs_weighted_counts
    (⟨1 / 1000000, 1 / 100000000⟩ : Constants ℚ) (e := shift_engine (1 / 2) (1 / 2)) rfl
  obtain ⟨e2, h⟩ := hex (by norm_num) (by decide) (by decide)
    (fun i _ j _ => by simp [shift_engine, dna.hash_map])
    (fun i _ k _ s _ f _ => by
      simp only [shift_engine]
      split_ifs <;> norm_num)
  refine ⟨e2, h, ?_⟩
  rw [hv e2 h 0 (by decide) 0 (by decide) 0 (by decide)]
  simp [weighted_count, shift_engine, Finset.sum_range_succ, hA]
  norm_num

/-- On a base, `dna::complement` returns `complement_val`, which is a base whose code is three
minus the code of the base. -/
theorem complement_val_spec {b : Char} (h : dna.hash_map b ≠ none) :
    dna.complement b = .ok (dna.complement_val b) ∧
    dna.hash_map (dna.complement_val b) ≠ none ∧
    dna.hash_val (dna.complement_val b) false = 3 - dna.hash_val b false := by
  have hb : b ∈ dna.get_valid_dna_char := by
    by_contra hc
    exact h ((hash_map_eq_none_iff b).mpr hc)
  simp only [dna.get_valid_dna_char, List.mem_cons, List.mem_singleton, List.not_mem_nil,
    or_false] at hb
  rcases hb with rfl | rfl | rfl | rfl | rfl | rfl | rfl | rfl <;>
    exact ⟨rfl, by decide, by decide⟩

/-- Scoring a window of valid bases with the index-transformed logarithm of a motif is scoring
the reverse complement of the window with the logarithm of the motif. -/
theorem score_sequence_rev (lm : Libm R) {e : EMSequenceEngine R} (k : Nat) {i s : Nat}
    (hv : ∀ j < e.l_motif, dna.hash_map (e.sequences.elem i (s + j)) ≠ none) :
    dna.score_sequence e.sequences i s (motif_log_rev lm e k) =
      dna.score_sequence (dna.reverse_complement_window e.sequences i s e.l_motif) 0 0
        (motif_log lm e k) := by
  simp only [dna.score_sequence, motif_log, motif_log_rev, dna.reverse_complement_window,
    Nat.zero_add]
  rw [← Finset.sum_range_reflect]
  refine Finset.sum_congr rfl fun j hj => ?_
  have hj := mem_range.mp hj
  have hv := hv (e.l_motif - 1 - j) (by omega)
  have hlt := hash_val_lt (e.sequences.elem i (s + (e.l_motif - 1 - j))) false
  rw [(complement_val_spec hv).2.2]
  congr 2 <;> omega

/-- With the exponential and the logarithm of the real numbers, the exponential of a sum of
logarithms of positive numbers is their product. -/
theorem dexp_sum_dlog_real (n : Nat) (x : Nat → ℝ) (h : ∀ j < n, 0 < x j) :
    dexp ⟨Real.log, Real.exp, Real.sqrt, Real.pi⟩
      (∑ j ∈ range n, dlog ⟨Real.log, Real.exp, Real.sqrt, Real.pi⟩ (x j)) =
      ∏ j ∈ range n, x j := by
  have h1 : (∑ j ∈ range n, dlog (⟨Real.log, Real.exp, Real.sqrt, Real.pi⟩ : Libm ℝ) (x j)) =
      ((∑ j ∈ range n, Real.log (x j) : ℝ) : WithBot ℝ) := by
    rw [WithBot.coe_sum]
    exact Finset.sum_congr rfl fun j hj =>
      dlog_of_ne_zero _ (h j (mem_range.mp hj)).ne'
  rw [h1, dexp_coe]
  show Real.exp _ = _
  rw [Real.exp_sum]
  exact Finset.prod_congr rfl fun j hj => Real.exp_log (h j (mem_range.mp hj))

/-- C24: with the exponential and the logarithm of the real numbers, whenever
`compute_likelihood` returns, for every class `k` with a strictly positive motif, every sequence
`i` and every shift `s`: the likelihood on the forward strand is the product over `j` of
`mu_k[hash(S[i, s+j]), j]`; with two flip states the likelihood on the reverse strand is the
product over `j` of `mu_k[hash(complement(S[i, s+W-1-j])), j]`, the score under the
index-transformed motif being the score of the materialised reverse complement of the window
under the forward motif.  On valid sequences with windows inside them `compute_likelihood`
does return. -/
theorem compute_likelihood_products (e : EMSequenceEngine ℝ) :
    (∀ e2, compute_likelihood ⟨Real.log, Real.exp, Real.sqrt, Real.pi⟩ e = .ok e2 →
      ∀ k < e.n_class, (∀ r < 4, ∀ j < e.l_motif, 0 < (e.motif k).elem r j) →
        ∀ i < e.n_seq, ∀ s < e.n_shift,
          e2.likelihood.elem i k s 0 = ∏ j ∈ range e.l_motif,
            (e.motif k).elem (dna.hash_val (e.sequences.elem i (s + j)) false) j ∧
          (e.n_flip = 2 →
            e2.likelihood.elem i k s 1 = ∏ j ∈ range e.l_motif,
              (e.motif k).elem (dna.hash_val (dna.complement_val
                (e.sequences.elem i (s + (e.l_motif - 1 - j)))) false) j ∧
            dna.score_sequence e.sequences i s
                (motif_log_rev ⟨Real.log, Real.exp, Real.sqrt, Real.pi⟩ e k) =
              dna.score_sequence (dna.reverse_complement_window e.sequences i s e.l_motif) 0 0
                (motif_log ⟨Real.log, Real.exp, Real.sqrt, Real.pi⟩ e k) ∧
            ∀ j < e.l_motif,
              dna.complement (e.sequences.elem i (s + (e.l_motif - 1 - j))) =
                .ok (dna.complement_val (e.sequences.elem i (s + (e.l_motif - 1 - j)))) ∧
              dna.hash (dna.complement_val (e.sequences.elem i (s + (e.l_motif - 1 - j))))
                false = .ok (dna.hash_val (dna.complement_val
                  (e.sequences.elem i (s + (e.l_motif - 1 - j)))) false))) ∧
    (e.n_shift + e.l_motif ≤ e.l_seq + 1 →
      (∀ i < e.n_seq, ∀ j < e.l_seq, dna.hash_map (e.sequences.elem i j) ≠ none) →
      ∃ e2, compute_likelihood ⟨Real.log, Real.exp, Real.sqrt, Real.pi⟩ e = .ok e2) := by
  refine ⟨fun e2 h k hk hM i hi s hs => ?_,
    fun hwin hvalid => ⟨_, compute_likelihood_ok _ hwin hvalid⟩⟩
  have hg := (ite_error_eq_ok_guard h).1
  push_neg at hg
  have hv : ∀ j < e.l_motif, dna.hash_map (e.sequences.elem i (s + j)) ≠ none :=
    fun j hj => hg k (mem_range.mpr hk) i (mem_range.mpr hi) s (mem_range.mpr hs) j
      (mem_range.mpr hj)
  rw [compute_likelihood_of_ok h]
  refine ⟨?_, fun hF => ⟨?_, score_sequence_rev _ k hv, fun j hj => ?_⟩⟩
  · dsimp only
    rw [if_pos (show (0 : Nat) = FORWARD from rfl)]
    simp only [dna.score_sequence, motif_log]
    exact dexp_sum_dlog_real _ _ fun j hj => hM _ (hash_val_lt _ _) j hj
  · dsimp only
    rw [if_neg (show ¬ (1 : Nat) = FORWARD by decide),
      if_pos (show e.n_flip = 2 ∧ (1 : Nat) = REVERSE from ⟨hF, rfl⟩),
      score_sequence_rev _ k hv]
    simp only [dna.score_sequence, motif_log, dna.reverse_complement_window, Nat.zero_add]
    exact dexp_sum_dlog_real _ _ fun j hj => hM _ (hash_val_lt _ _) j hj
  · have hv2 := hv (e.l_motif - 1 - j) (by omega)
    exact ⟨(complement_val_spec hv2).1, hash_eq_ok_hash_val (complement_val_spec hv2).2.1⟩

/-- C24 on the engine the constructor from initial motifs returns for the sequence "AC", the
tilted motif of width one and both strands: the likelihood of the first shift is the cell of `A`
on the forward strand and the cell of `T`, the complement, on the reverse strand. -/
theorem compute_likelihood_products_witness :
    ∃ e e2,
      construct_from_motifs (⟨Real.log, Real.exp, Real.sqrt, Real.pi⟩ : Libm ℝ)
        ⟨1 / 1000000, 1 / 100000000⟩ ac [tilted_motif] true false false = .ok e ∧
      compute_likelihood ⟨Real.log, Real.exp, Real.sqrt, Real.pi⟩ e = .ok e2 ∧
      e2.likelihood.elem 0 0 0 0 = 1250001 / 5000000 ∧
      e2.likelihood.elem 0 0 0 1 = 1 / 4 := by
  obtain ⟨e, he, _, f2, f3, f4, f5, f6, f7, f8, _, _, f11, _⟩ :=
    construct_from_motifs_ok (⟨Real.log, Real.exp, Real.sqrt, Real.pi⟩ : Libm ℝ)
      real_libm_sound ⟨1 / 1000000, 1 / 100000000⟩ (by norm_num) ac tilted_motif [] true false
      false ac_valid (by simp [ac]) (by simp [tilted_motif]) (by simp [tilted_motif, ac])
      tilted_motif_props.1 (fun m hm => (tilted_motif_props.2.1 m hm).ge)
  have hN : e.n_seq = 1 := f3
  have hL : e.l_seq = 2 := f4
  have hK : e.n_class = 1 := f5
  have hW : e.l_motif = 1 := f6
  have hS : e.n_shift = 2 := f7
  have hF : e.n_flip = 2 := f8
  have hm : e.motif 0 = tilted_motif := f11 0 (by decide)
  obtain ⟨hv, hex⟩ := compute_likelihood_products e
  obtain ⟨e2, h2⟩ := hex (by omega)
    (fun i hi j hj => by
      rw [f2]
      exact ac_valid i (by rw [hN] at hi; exact hi) j (by rw [hL] at hj; exact hj))
  have hpos : ∀ r < 4, ∀ j < e.l_motif, 0 < (e.motif 0).elem r j := by
    intro r hr j hj
    rw [hm]
    exact tilted_motif_props.2.2 _ (List.mem_singleton.mpr rfl) r hr j (by
      rw [hW] at hj
      exact hj)
  obtain ⟨g1, g2⟩ := hv e2 h2 0 (by omega) hpos 0 (by omega) 0 (by omega)
  have hA : dna.hash_val 'A' false = 0 := by decide
  have hT : dna.hash_val (dna.complement_val 'A') false = 3 := by decide
  refine ⟨e, e2, he, h2, ?_, ?_⟩
  · rw [g1, hW, hm, f2]
    simp [ac, tilted_motif, hA]
  · rw [(g2 hF).1, hW, hm, f2]
    simp [ac, tilted_motif, hT]

/-- The steps of a call of `cluster()` on an engine that satisfies the invariant, up to
`normalise_motifs`: every trained motif that `normalise_motifs` receives has four rows and the
cells `compute_motifs` has written, and the motifs `normalise_motifs` returns are those of the
engine after the call. -/
theorem cluster_normalise_input {lm : Libm R} {c : Constants R}
    {e e2 : EMSequenceEngine R} {code : clustering_codes}
    (hI : e.Inv) (h : cluster lm c e = .ok (code, e2)) :
    ∃ e1 e3 e4 e5 e6,
      compute_likelihood lm
        (if e.n_iter > 0 then { e with post_prob_prev := e.post_prob } else e) = .ok e1 ∧
      compute_posterior_prob c e1 = .ok e3 ∧ compute_class_prob e3 = .ok e4 ∧
      compute_motifs c e4 = .ok e5 ∧ normalise_motifs e5 = .ok e6 ∧
      e2.motifs = e6.motifs ∧ e5.l_motif = e.l_motif ∧
      ∀ k < e.n_trained, (e5.motif k).nrow = 4 ∧ ∀ r < 4, ∀ j < e.l_motif,
        (e5.motif k).elem r j = (motif_counts e2 k r j + c.pseudo_counts) /
          ∑ r ∈ range 4, (motif_counts e2 k r j + c.pseudo_counts) := by
  obtain ⟨⟨s1, s2, s3, s4, s5, s6, s7, s8, s9, s10⟩, _, _, _, _, _⟩ := cluster_frame h
  obtain ⟨e1, e3, e4, e5, e6, h1, h3, h4, h5, h6, h7, _⟩ := cluster_of_ok h
  refine ⟨e1, e3, e4, e5, e6, h1, h3, h4, h5, h6, ?_⟩
  obtain ⟨e0, he0⟩ : ∃ e0, e0 =
      (if e.n_iter > 0 then { e with post_prob_prev := e.post_prob } else e) := ⟨_, rfl⟩
  rw [← he0] at h1
  have g0 : e0.sequences = e.sequences ∧ e0.n_seq = e.n_seq ∧ e0.n_shift = e.n_shift ∧
      e0.l_motif = e.l_motif ∧ e0.n_flip = e.n_flip ∧ e0.n_class = e.n_class ∧
      e0.bg_class = e.bg_class ∧ e0.motifs = e.motifs := by
    rw [he0]
    split_ifs <;> exact ⟨rfl, rfl, rfl, rfl, rfl, rfl, rfl, rfl⟩
  have k1 := compute_likelihood_of_ok h1
  have k3 := compute_posterior_prob_of_ok h3
  have k4 := compute_class_prob_of_ok h4
  have k5 := compute_motifs_of_ok h5
  have k6 := normalise_motifs_of_ok h6
  have g4 : e4.sequences = e.sequences ∧ e4.n_seq = e.n_seq ∧ e4.n_shift = e.n_shift ∧
      e4.l_motif = e.l_motif ∧ e4.n_flip = e.n_flip ∧ e4.n_class = e.n_class ∧
      e4.bg_class = e.bg_class ∧ e4.motifs = e.motifs := by
    rw [k4, k3, k1]
    exact g0
  obtain ⟨g4a, g4b, g4c, g4d, g4e, g4f, g4g, g4h⟩ := g4
  have g5 : e5.sequences = e4.sequences ∧ e5.n_seq = e4.n_seq ∧ e5.n_shift = e4.n_shift ∧
      e5.l_motif = e4.l_motif ∧ e5.n_flip = e4.n_flip ∧ e5.n_class = e4.n_class ∧
      e5.bg_class = e4.bg_class ∧ e5.post_prob = e4.post_prob ∧
      e5.motifs.length = e4.motifs.length := by
    rw [k5]
    exact ⟨rfl, rfl, rfl, rfl, rfl, rfl, rfl, rfl, List.length_mapIdx⟩
  obtain ⟨g5a, g5b, g5c, g5d, g5e, g5f, g5g, g5h, g5i⟩ := g5
  have hP6 : e6.post_prob = e4.post_prob := by rw [k6]; exact g5h
  have hP2 : e2.post_prob = e4.post_prob ∧ e2.motifs = e6.motifs := by
    by_cases hsc : e6.shift_center = true
    · rw [if_pos hsc] at h7
      rw [center_shifts_of_ok h7]
      exact ⟨hP6, rfl⟩
    · rw [if_neg hsc] at h7
      rw [← Except.ok.inj h7]
      exact ⟨hP6, rfl⟩
  obtain ⟨hP2, hM2⟩ := hP2
  have hc52 : ∀ k r j, motif_counts e5 k r j = motif_counts e2 k r j := fun k r j =>
    motif_counts_congr (g5a.trans (g4a.trans s1.symm)) (g5b.trans (g4b.trans s3.symm))
      (g5c.trans (g4c.trans s7.symm)) (g5d.trans (g4d.trans s6.symm))
      (g5e.trans (g4e.trans s8.symm)) (g5h.trans hP2.symm) k r j
  refine ⟨hM2, g5d.trans g4d, fun k hk => ?_⟩
  have hk4 : k < e4.n_trained := by
    simp only [n_trained, g4f, g4g]
    exact hk
  have hlen4 : k < e4.motifs.length := by
    rw [g4h, hI.motifs_len]
    exact lt_of_lt_of_le hk (n_trained_le e)
  refine ⟨?_, fun r hr j hj => ?_⟩
  · rw [(compute_motifs_value h5 hk4 hlen4 (show 0 < 4 by norm_num)
      (show 0 < e4.l_motif by rw [g4d]; exact hI.l_motif_pos)).2]
    have : e4.motif k = e.motif k := by simp only [motif, g4h]
    rw [this]
    exact hI.motif_nrow k hk
  · rw [(compute_motifs_value h5 hk4 hlen4 hr (by rw [g4d]; exact hj)).1, hc52]
    congr 1
    exact Finset.sum_congr rfl fun r _ => by rw [hc52]

theorem aa_valid : ∀ i < aa.nrow, ∀ j < aa.ncol, dna.hash_map (aa.elem i j) ≠ none := by
  intro i _ j _
  simp only [aa]
  decide

/-- On a motif whose rows are constant and positive, the documented normalisation gives every
cell the inverse of the number of rows. -/
theorem normalise_documented_const_rows (m : Matrix2D R) (W : Nat) (hW : 0 < W)
    (hrow : 0 < m.nrow) (hpos : ∀ i < m.nrow, 0 < m.elem i 0)
    (hconst : ∀ i < m.nrow, ∀ j < W, m.elem i j = m.elem i 0) :
    ∀ i < m.nrow, ∀ j < W, normalise_documented m W i j = 1 / (m.nrow : R) := by
  intro i hi j hj
  have hrs : ∀ i2 < m.nrow, ∑ j2 ∈ range W, m.elem i2 j2 = (W : R) * m.elem i2 0 := by
    intro i2 hi2
    rw [Finset.sum_congr rfl fun j2 hj2 => hconst i2 hi2 j2 (mem_range.mp hj2)]
    simp
  have hWR : (0 : R) < W := by exact_mod_cast hW
  have hnR : (0 : R) < m.nrow := by exact_mod_cast hrow
  obtain ⟨T, hT⟩ : ∃ T, T = ∑ i2 ∈ range m.nrow, ∑ j2 ∈ range W, m.elem i2 j2 := ⟨_, rfl⟩
  have hTpos : 0 < T := by
    rw [hT]
    refine Finset.sum_pos (fun i2 hi2 => ?_) (nonempty_range_iff.mpr hrow.ne')
    rw [hrs i2 (mem_range.mp hi2)]
    exact mul_pos hWR (hpos i2 (mem_range.mp hi2))
  have hratio : ∀ i2 < m.nrow,
      m.elem i2 j / ((∑ j2 ∈ range W, m.elem i2 j2) / T) = T / W := by
    intro i2 hi2
    rw [hconst i2 hi2 j hj, hrs i2 hi2]
    have := (hpos i2 hi2).ne'
    field_simp
    ring
  simp only [normalise_documented, ← hT]
  rw [hratio i hi, Finset.sum_congr rfl fun i2 hi2 => hratio i2 (mem_range.mp hi2)]
  simp only [sum_const, card_range, nsmul_eq_mul]
  field_simp
  ring

/-- The first call of `cluster()` on the engine built for the single sequence "AA" with one
class, motifs of width two, one strand and no background class, with positive draws: the motif
that `normalise_motifs` receives has `(1 + eps) / (1 + 4 eps)` on the row of `A` and
`eps / (1 + 4 eps)` on the three other rows, `normalise_motifs` returns it unchanged, and the
documented normalisation of it has one quarter in every cell. -/
theorem cluster_aa (lm : Libm R) (hlm : lm.Sound) (c : Constants R) (hc : 0 < c.pseudo_counts)
    (rng : String → Nat → R) (seed : String) (hd : ∀ u, 0 < rng seed u) :
    ∃ e0 code e2 e1 e3 e4 e5 e6,
      construct c rng aa 1 2 false false false seed "random" = .ok e0 ∧
      cluster lm c e0 = .ok (code, e2) ∧
      compute_likelihood lm e0 = .ok e1 ∧ compute_posterior_prob c e1 = .ok e3 ∧
      compute_class_prob e3 = .ok e4 ∧ compute_motifs c e4 = .ok e5 ∧
      normalise_motifs e5 = .ok e6 ∧ e2.motifs = e6.motifs ∧
      (∀ r < 4, ∀ j < 2, (e5.motif 0).elem r j =
        if r = 0 then (1 + c.pseudo_counts) / (1 + 4 * c.pseudo_counts)
        else c.pseudo_counts / (1 + 4 * c.pseudo_counts)) ∧
      (∀ r < 4, ∀ j < 2, (e6.motif 0).elem r j = (e5.motif 0).elem r j) ∧
      (∀ r < 4, ∀ j < 2, normalise_documented (e5.motif 0) e5.l_motif r j = 1 / 4) := by
  obtain ⟨e0, h0, hI0, _, hn0, _⟩ := construct_inv c hc rng aa 1 2 false false false seed hd
    aa_valid (by decide) (by decide) (by decide) (by decide)
  obtain ⟨f1, f2, f3, f4, f5, f6, f7, f8, f9, f10, _⟩ := construct_of_ok h0
  obtain ⟨e2, h2, hI2, _, ⟨s1, s2, s3, s4, s5, s6, s7, s8, s9, s10⟩, _⟩ :=
    cluster_inv lm hlm c hc hI0
  obtain ⟨e1, e3, e4, e5, e6, h1, h3, h4, h5, h6, hM, hW5, hv⟩ := cluster_normalise_input hI0 h2
  rw [if_neg (by omega)] at h1
  have hN : e2.n_seq = 1 := s3.trans f3
  have hK : e2.n_class = 1 := s5.trans f5
  have hW : e2.l_motif = 2 := s6.trans f6
  have hS : e2.n_shift = 1 := s7.trans f7
  have hF : e2.n_flip = 1 := s8.trans f8
  have hseq : e2.sequences = aa := s1.trans f2
  have hP : e2.post_prob.elem 0 0 0 0 = 1 := by
    have := hI2.post_sum 0 (by omega)
    simpa only [post_prob_sum, hK, hS, hF, sum_range_one] using this
  have hA : dna.hash_val 'A' false = 0 := by decide
  have hcnt : ∀ r, ∀ j < 2, motif_counts e2 0 r j = if r = 0 then 1 else 0 := by
    intro r j hj
    simp only [motif_counts, base_prob, hS, hW, hF, hN, hseq, sum_range_one, Nat.zero_add,
      FORWARD, hP, aa, hA]
    rw [Finset.sum_eq_single_of_mem j (mem_range.mpr hj)]
    · simp [eq_comm]
    · intro b _ hb
      simp [hb]
  have heps : (0 : R) < 1 + 4 * c.pseudo_counts := by linarith
  have hk0 : 0 < e0.n_trained := hI0.n_trained_pos
  obtain ⟨hrow5, hv5⟩ := hv 0 hk0
  have hW5' : e5.l_motif = 2 := hW5.trans f6
  have hval : ∀ r < 4, ∀ j < 2, (e5.motif 0).elem r j =
      if r = 0 then (1 + c.pseudo_counts) / (1 + 4 * c.pseudo_counts)
      else c.pseudo_counts / (1 + 4 * c.pseudo_counts) := by
    intro r hr j hj
    rw [hv5 r hr j (by rw [f6]; exact hj), hcnt r j hj,
      Finset.sum_congr rfl fun r2 _ => by rw [hcnt r2 j hj]]
    simp only [Finset.sum_range_succ, Finset.sum_range_zero]
    by_cases hr0 : r = 0
    · simp only [hr0, if_true]
      norm_num
      congr 1
      ring
    · simp only [hr0, if_false]
      norm_num
      congr 1
      ring
  refine ⟨e0, _, e2, e1, e3, e4, e5, e6, h0, h2, h1, h3, h4, h5, h6, hM, hval, ?_, ?_⟩
  · intro r hr j hj
    have hm : e6.motif 0 = e2.motif 0 := by simp only [motif, hM]
    rw [hm, cluster_motif_value lm hlm c hc hI0 h2 0 hk0 r hr j (by rw [f6]; exact hj),
      hv5 r hr j (by rw [f6]; exact hj)]
  · intro r hr j hj
    have h4 : ((e5.motif 0).nrow : R) = 4 := by
      rw [hrow5]
      norm_num
    rw [hW5', normalise_documented_const_rows (e5.motif 0) 2 (by decide)
      (by rw [hrow5]; decide) (fun i hi => ?_) (fun i hi j2 hj2 => ?_) r
      (by rw [hrow5]; exact hr) j hj, h4]
    · rw [hrow5] at hi
      rw [hval i hi 0 (by decide)]
      split_ifs
      · exact div_pos (by linarith) heps
      · exact div_pos hc heps
    · rw [hrow5] at hi
      rw [hval i hi j2 hj2, hval i hi 0 (by decide)]

/-- C26 does not hold of the code.  On the single sequence "AA" with one class, motifs of width
two, one strand, no background class, the pseudo-count `1e-8` and every draw equal to one half,
the first call of `cluster()` gives `normalise_motifs` a motif whose cell `(A, 0)` is
`(1 + 1e-8) / (1 + 4e-8)`; `normalise_motifs` returns the same value in that cell, and the motifs
it returns are those of the engine after the call; the normalisation the claim states, which is
the documented one, has one quarter in that cell. -/
theorem normalise_motifs_not_documented :
    ∃ e0 code e2 e1 e3 e4 e5 e6,
      construct (⟨1 / 1000000, 1 / 100000000⟩ : Constants ℝ) (fun _ _ => 1 / 2) aa 1 2 false
        false false "" "random" = .ok e0 ∧
      cluster (⟨Real.log, Real.exp, Real.sqrt, Real.pi⟩ : Libm ℝ) ⟨1 / 1000000, 1 / 100000000⟩
        e0 = .ok (code, e2) ∧
      compute_likelihood (⟨Real.log, Real.exp, Real.sqrt, Real.pi⟩ : Libm ℝ) e0 = .ok e1 ∧
      compute_posterior_prob ⟨1 / 1000000, 1 / 100000000⟩ e1 = .ok e3 ∧
      compute_class_prob e3 = .ok e4 ∧
      compute_motifs ⟨1 / 1000000, 1 / 100000000⟩ e4 = .ok e5 ∧
      normalise_motifs e5 = .ok e6 ∧ e2.motifs = e6.motifs ∧
      (e5.motif 0).elem 0 0 = 100000001 / 100000004 ∧
      (e6.motif 0).elem 0 0 = 100000001 / 100000004 ∧
      normalise_documented (e5.motif 0) e5.l_motif 0 0 = 1 / 4 := by
  obtain ⟨e0, code, e2, e1, e3, e4, e5, e6, h0, h2, h1, h3, h4, h5, h6, hM, hv, hn, hd⟩ :=
    cluster_aa (⟨Real.log, Real.exp, Real.sqrt, Real.pi⟩ : Libm ℝ) real_libm_sound
      ⟨1 / 1000000, 1 / 100000000⟩ (by norm_num) (fun _ _ => 1 / 2) "" (fun _ => by norm_num)
  have hv0 : (e5.motif 0).elem 0 0 = 100000001 / 100000004 := by
    rw [hv 0 (by omega) 0 (by omega)]
    norm_num
  refine ⟨e0, code, e2, e1, e3, e4, e5, e6, h0, h2, h1, h3, h4, h5, h6, hM, hv0, ?_,
    hd 0 (by omega) 0 (by omega)⟩
  rw [hn 0 (by omega) 0 (by omega), hv0]

/-- An engine with the shapes of a constructed engine makes no element access out of range in
`compute_likelihood`, `dna::score_sequence`, `compute_posterior_prob`, `compute_class_prob` and
`compute_motifs`. -/
theorem Shapes.in_range (lm : Libm R) {e : EMSequenceEngine R} (h : e.Shapes) :
    compute_likelihood_in_range lm e ∧ compute_posterior_prob_in_range e ∧
    compute_class_prob_in_range e ∧ compute_motifs_in_range e := by
  obtain ⟨h1, h2, h3, h4, h5, h6, h7, h8, ⟨l1, l2, l3, l4⟩, ⟨p1, p2, p3, p4⟩, c1, c2, c3⟩ := h
  have hF0 : 0 < e.n_flip := by omega
  have hscore : ∀ k, ∀ i < e.n_seq, ∀ s < e.n_shift,
      dna.score_sequence_in_range e.sequences i s (motif_log lm e k) ∧
      dna.score_sequence_in_range e.sequences i s (motif_log_rev lm e k) := by
    intro k i hi s hs
    have hh := fun j => hash_val_lt (e.sequences.elem i (s + j)) false
    refine ⟨⟨?_, ?_, rfl, ?_, fun j hj => ⟨⟨?_, ?_⟩, hh j, hj⟩⟩,
      ⟨?_, ?_, rfl, ?_, fun j hj => ⟨⟨?_, ?_⟩, hh j, hj⟩⟩⟩ <;>
      simp only [motif_log, motif_log_rev] at * <;> omega
  refine ⟨fun k hk => ⟨by omega, fun i hi j hj => ?_, fun i hi s hs => ?_⟩,
    fun i hi k hk s hs f hf => ?_, fun k hk s hs f hf => ?_, fun k hk => ?_⟩
  · obtain ⟨g1, g2⟩ := h8 k hk
    refine ⟨⟨by omega, by omega⟩, ⟨hi, hj⟩, by omega, by omega, ?_, ?_⟩
    · show 4 - i - 1 < 4
      omega
    · show e.l_motif - j - 1 < e.l_motif
      omega
  · refine ⟨⟨by omega, by omega, by omega, by simp only [FORWARD]; omega⟩,
      (hscore k i hi s hs).1, fun hF => ⟨⟨by omega, by omega, by omega, ?_⟩,
      (hscore k i hi s hs).2⟩⟩
    simp only [REVERSE]
    omega
  · exact ⟨⟨by omega, by omega, by omega, by omega⟩, ⟨by omega, by omega, by omega, by omega⟩,
      by omega, by omega, by omega⟩
  · exact ⟨fun i hi => ⟨by omega, by omega, by omega, by omega⟩,
      ⟨by omega, by omega, by omega⟩, hk⟩
  · have hkn : k < e.n_class := lt_of_lt_of_le hk (n_trained_le e)
    obtain ⟨g1, g2⟩ := h8 k hkn
    refine ⟨by omega, fun i hi j hj => ⟨by omega, by omega⟩, fun s hs j hj =>
      ⟨fun i hi => ⟨⟨by omega, by omega⟩, hash_val_lt _ _,
        ⟨by omega, by omega, by omega, by simp only [FORWARD]; omega⟩,
        fun hF => ⟨hash_val_lt _ _, by omega, by omega, by omega, by simp only [REVERSE]; omega⟩⟩,
      fun i hi => ⟨hi, ⟨by omega, by omega⟩, fun hF => ⟨by omega, by omega, by omega⟩⟩⟩⟩

/-- An engine with the dimension fields, the number of motifs and the shapes of the matrices of
an engine that has the shapes of a constructed engine has them too. -/
theorem Shapes.of_same {e e2 : EMSequenceEngine R} (h : e.Shapes)
    (hseq : e2.sequences = e.sequences) (hN : e2.n_seq = e.n_seq) (hL : e2.l_seq = e.l_seq)
    (hK : e2.n_class = e.n_class) (hW : e2.l_motif = e.l_motif) (hS : e2.n_shift = e.n_shift)
    (hF : e2.n_flip = e.n_flip) (hlen : e2.motifs.length = e.motifs.length)
    (hm : ∀ k, (e2.motif k).nrow = (e.motif k).nrow ∧ (e2.motif k).ncol = (e.motif k).ncol)
    (hl : e2.likelihood.dim1 = e.likelihood.dim1 ∧ e2.likelihood.dim2 = e.likelihood.dim2 ∧
      e2.likelihood.dim3 = e.likelihood.dim3 ∧ e2.likelihood.dim4 = e.likelihood.dim4)
    (hp : e2.post_prob.dim1 = e.post_prob.dim1 ∧ e2.post_prob.dim2 = e.post_prob.dim2 ∧
      e2.post_prob.dim3 = e.post_prob.dim3 ∧ e2.post_prob.dim4 = e.post_prob.dim4)
    (hc : e2.class_prob.dim1 = e.class_prob.dim1 ∧ e2.class_prob.dim2 = e.class_prob.dim2 ∧
      e2.class_prob.dim3 = e.class_prob.dim3) : e2.Shapes := by
  obtain ⟨h1, h2, h3, h4, h5, h6, h7, h8, ⟨l1, l2, l3, l4⟩, ⟨p1, p2, p3, p4⟩, c1, c2, c3⟩ := h
  obtain ⟨hl1, hl2, hl3, hl4⟩ := hl
  obtain ⟨hp1, hp2, hp3, hp4⟩ := hp
  obtain ⟨hc1, hc2, hc3⟩ := hc
  refine ⟨by rw [hseq, hN]; exact h1, by rw [hseq, hL]; exact h2, by omega, by omega, by omega,
    by omega, by omega, fun k hk => ?_, ⟨by omega, by omega, by omega, by omega⟩,
    ⟨by omega, by omega, by omega, by omega⟩, by omega, by omega, by omega⟩
  rw [(hm k).1, (hm k).2, hW]
  exact h8 k (by omega)

/-- The shape of a motif read in a list transformed by `mapIdx` with a function that keeps the
shapes. -/
theorem motif_shape_mapIdx {α : Type} (l : List (Matrix2D α))
    (F : Nat → Matrix2D α → Matrix2D α)
    (hF : ∀ k m, (F k m).nrow = m.nrow ∧ (F k m).ncol = m.ncol) (k : Nat) (d : Matrix2D α) :
    ((l.mapIdx F).getD k d).nrow = (l.getD k d).nrow ∧
    ((l.mapIdx F).getD k d).ncol = (l.getD k d).ncol := by
  rw [getD_mapIdx]
  split_ifs with hk
  · exact hF _ _
  · rw [List.getD_eq_getElem?_getD, List.getElem?_eq_none (by omega)]
    exact ⟨rfl, rfl⟩

theorem compute_likelihood_shapes {lm : Libm R} {e e2 : EMSequenceEngine R} (hS : e.Shapes)
    (h : compute_likelihood lm e = .ok e2) : e2.Shapes := by
  rw [compute_likelihood_of_ok h]
  exact hS

theorem compute_posterior_prob_shapes {c : Constants R} {e e2 : EMSequenceEngine R}
    (hS : e.Shapes) (h : compute_posterior_prob c e = .ok e2) : e2.Shapes := by
  rw [compute_posterior_prob_of_ok h]
  exact hS

theorem compute_class_prob_shapes {e e2 : EMSequenceEngine R} (hS : e.Shapes)
    (h : compute_class_prob e = .ok e2) : e2.Shapes := by
  rw [compute_class_prob_of_ok h]
  exact hS

theorem compute_motifs_shapes {c : Constants R} {e e2 : EMSequenceEngine R} (hS : e.Shapes)
    (h : compute_motifs c e = .ok e2) : e2.Shapes := by
  have k := compute_motifs_of_ok h
  refine hS.of_same (by rw [k]) (by rw [k]) (by rw [k]) (by rw [k]) (by rw [k]) (by rw [k])
    (by rw [k]) (by rw [k]; exact List.length_mapIdx) (fun j => ?_) (by rw [k]; simp)
    (by rw [k]; simp) (by rw [k]; simp)
  rw [k]
  exact motif_shape_mapIdx _ _ (fun k m => by split_ifs <;> exact ⟨rfl, rfl⟩) j _

theorem normalise_motifs_shapes {e e2 : EMSequenceEngine R} (hS : e.Shapes)
    (h : normalise_motifs e = .ok e2) : e2.Shapes := by
  have k := normalise_motifs_of_ok h
  refine hS.of_same (by rw [k]) (by rw [k]) (by rw [k]) (by rw [k]) (by rw [k]) (by rw [k])
    (by rw [k]) (by rw [k]; exact List.length_mapIdx) (fun j => ?_) (by rw [k]; simp)
    (by rw [k]; simp) (by rw [k]; simp)
  rw [k]
  exact motif_shape_mapIdx _ _ (fun k m => by split_ifs <;> exact ⟨rfl, rfl⟩) j _

theorem center_shifts_shapes {lm : Libm R} {e e2 : EMSequenceEngine R} (hS : e.Shapes)
    (h : center_shifts lm e = .ok e2) : e2.Shapes := by
  unfold center_shifts at h
  dsimp only at h
  split_ifs at h with h1
  · rw [← Except.ok.inj h]
    exact hS
  · simp only [bind, Except.bind] at h
    split at h
    · exact absurd h (by simp)
    · split_ifs at h
      rw [← Except.ok.inj h]
      exact hS

/-- A call of `cluster()` that returns keeps the shapes of a constructed engine. -/
theorem cluster_shapes {lm : Libm R} {c : Constants R} {e e2 : EMSequenceEngine R}
    {code : clustering_codes} (hS : e.Shapes) (h : cluster lm c e = .ok (code, e2)) :
    e2.Shapes := by
  obtain ⟨e1, e3, e4, e5, e6, h1, h3, h4, h5, h6, h7, _⟩ := cluster_of_ok h
  have hS0 : (if e.n_iter > 0 then { e with post_prob_prev := e.post_prob } else e).Shapes := by
    split_ifs
    · exact hS
    · exact hS
  have hS6 := normalise_motifs_shapes (compute_motifs_shapes (compute_class_prob_shapes
    (compute_posterior_prob_shapes (compute_likelihood_shapes hS0 h1) h3) h4) h5) h6
  have hS7 : ({ e6 with n_iter := e6.n_iter + 1 } : EMSequenceEngine R).Shapes := hS6
  by_cases hsc : e6.shift_center = true
  · rw [if_pos hsc] at h7
    exact center_shifts_shapes hS7 h7
  · rw [if_neg hsc] at h7
    rw [← Except.ok.inj h7]
    exact hS7

/-- What holds of every element of a list holds of the element read at an index within it. -/
theorem getD_of_forall_mem {α : Type} {P : α → Prop} (l : List α) (d : α)
    (h : ∀ m ∈ l, P m) {k : Nat} (hk : k < l.length) : P (l.getD k d) := by
  rw [List.getD_eq_getElem _ _ hk]
  exact h _ (List.getElem_mem hk)

/-- The engine a constructor allocates, with or without a background class, has the shapes of a
constructed engine when its motifs have at least four rows and `l_motif` columns. -/
theorem initial_shapes (e : EMSequenceEngine R)
    (h1 : e.sequences.nrow = e.n_seq) (h2 : e.sequences.ncol = e.l_seq)
    (h3 : 1 ≤ e.l_motif) (h4 : e.l_motif ≤ e.l_seq) (h5 : e.n_shift = e.l_seq - e.l_motif + 1)
    (h6 : e.n_flip = 1 ∨ e.n_flip = 2) (h7 : e.motifs.length = e.n_class)
    (h8 : ∀ m ∈ e.motifs, 4 ≤ m.nrow ∧ m.ncol = e.l_motif)
    (bg : Nat) (hbg : bg = if e.bg_class then 1 else 0)
    (hl : e.likelihood.dim1 = e.n_seq ∧ e.likelihood.dim2 = e.n_class + bg ∧
      e.likelihood.dim3 = e.n_shift ∧ e.likelihood.dim4 = e.n_flip)
    (hp : e.post_prob.dim1 = e.n_seq ∧ e.post_prob.dim2 = e.n_class + bg ∧
      e.post_prob.dim3 = e.n_shift ∧ e.post_prob.dim4 = e.n_flip)
    (hc : e.class_prob.dim1 = e.n_class + bg ∧ e.class_prob.dim2 = e.n_shift ∧
      e.class_prob.dim3 = e.n_flip) :
    (if e.bg_class then add_background_class e else e).Shapes := by
  by_cases hb : e.bg_class = true
  · rw [if_pos hb]
    rw [if_pos hb] at hbg
    subst hbg
    refine ⟨h1, h2, h3, h4, h5, h6, ?_, fun k hk => ?_, hl, hp, hc⟩
    · simp only [add_background_class, List.length_append, List.length_singleton, h7]
    · refine getD_of_forall_mem (P := fun m : Matrix2D R => 4 ≤ m.nrow ∧ m.ncol = e.l_motif) _ _
        (fun m hm => ?_) ?_
      · simp only [add_background_class, List.mem_append, List.mem_singleton] at hm
        rcases hm with hm | hm
        · exact h8 m hm
        · rw [hm]
          exact ⟨le_refl 4, rfl⟩
      · simp only [add_background_class, List.length_append, List.length_singleton, h7]
        exact hk
  · rw [if_neg hb]
    rw [if_neg hb] at hbg
    subst hbg
    exact ⟨h1, h2, h3, h4, h5, h6, h7, fun k hk =>
      getD_of_forall_mem (P := fun m : Matrix2D R => 4 ≤ m.nrow ∧ m.ncol = e.l_motif) _ _ h8
        (by rw [h7]; exact hk), hl, hp, hc⟩

/-- The engine the constructor without initial motifs returns has the shapes of a constructed
engine. -/
theorem construct_shapes {c : Constants R} {rng : String → Nat → R} {sequences : Matrix2D Char}
    {n_class l_motif : Nat} {flip center_shift bg_class : Bool} {seed method : String}
    {e : EMSequenceEngine R}
    (h : construct c rng sequences n_class l_motif flip center_shift bg_class seed method
      = .ok e) : e.Shapes := by
  unfold construct at h
  obtain ⟨hg1, h⟩ := ite_error_eq_ok_guard h
  obtain ⟨hg2, h⟩ := ite_error_eq_ok_guard h
  simp only [bind, Except.bind] at h
  split at h
  · exact absurd h (by simp)
  · rename_i b hb
    have hsr : seeding_random c (rng seed)
        (if bg_class then add_background_class
          ({ sequences := sequences
             motifs := List.replicate n_class ⟨4, l_motif, fun _ _ => 0⟩
             bg_prob := b
             class_prob := ⟨n_class + (if bg_class then 1 else 0), sequences.ncol - l_motif + 1,
               1 + (if flip then 1 else 0), fun _ _ _ => 0⟩
             class_prob_tot := fun _ => 0
             post_prob := ⟨sequences.nrow, n_class + (if bg_class then 1 else 0),
               sequences.ncol - l_motif + 1, 1 + (if flip then 1 else 0), fun _ _ _ _ => 0⟩
             post_prob_prev := ⟨0, 0, 0, 0, fun _ _ _ _ => 0⟩
             likelihood := ⟨sequences.nrow, n_class + (if bg_class then 1 else 0),
               sequences.ncol - l_motif + 1, 1 + (if flip then 1 else 0), fun _ _ _ _ => 0⟩
             n_iter := 0
             n_seq := sequences.nrow
             l_seq := sequences.ncol
             n_class := n_class
             l_motif := l_motif
             n_shift := sequences.ncol - l_motif + 1
             n_flip := 1 + (if flip then 1 else 0)
             bg_class := bg_class
             shift_center := center_shift } : EMSequenceEngine R)
        else
          { sequences := sequences
            motifs := List.replicate n_class ⟨4, l_motif, fun _ _ => 0⟩
            bg_prob := b
            class_prob := ⟨n_class + (if bg_class then 1 else 0), sequences.ncol - l_motif + 1,
              1 + (if flip then 1 else 0), fun _ _ _ => 0⟩
            class_prob_tot := fun _ => 0
            post_prob := ⟨sequences.nrow, n_class + (if bg_class then 1 else 0),
              sequences.ncol - l_motif + 1, 1 + (if flip then 1 else 0), fun _ _ _ _ => 0⟩
            post_prob_prev := ⟨0, 0, 0, 0, fun _ _ _ _ => 0⟩
            likelihood := ⟨sequences.nrow, n_class + (if bg_class then 1 else 0),
              sequences.ncol - l_motif + 1, 1 + (if flip then 1 else 0), fun _ _ _ _ => 0⟩
            n_iter := 0
            n_seq := sequences.nrow
            l_seq := sequences.ncol
            n_class := n_class
            l_motif := l_motif
            n_shift := sequences.ncol - l_motif + 1
            n_flip := 1 + (if flip then 1 else 0)
            bg_class := bg_class
            shift_center := center_shift }) = .ok e := by
      unfold seeding at h
      by_cases hmeth : method = "random"
      · rw [if_pos hmeth] at h
        exact h
      · rw [if_neg hmeth] at h
        exact absurd h (by simp)
    obtain ⟨e1, h3, h4⟩ := seeding_random_of_ok hsr
    refine compute_motifs_shapes (compute_class_prob_shapes ?_ h3) h4
    have hS0 := initial_shapes
      ({ sequences := sequences
         motifs := List.replicate n_class ⟨4, l_motif, fun _ _ => 0⟩
         bg_prob := b
         class_prob := ⟨n_class + (if bg_class then 1 else 0), sequences.ncol - l_motif + 1,
           1 + (if flip then 1 else 0), fun _ _ _ => 0⟩
         class_prob_tot := fun _ => 0
         post_prob := ⟨sequences.nrow, n_class + (if bg_class then 1 else 0),
           sequences.ncol - l_motif + 1, 1 + (if flip then 1 else 0), fun _ _ _ _ => 0⟩
         post_prob_prev := ⟨0, 0, 0, 0, fun _ _ _ _ => 0⟩
         likelihood := ⟨sequences.nrow, n_class + (if bg_class then 1 else 0),
           sequences.ncol - l_motif + 1, 1 + (if flip then 1 else 0), fun _ _ _ _ => 0⟩
         n_iter := 0
         n_seq := sequences.nrow
         l_seq := sequences.ncol
         n_class := n_class
         l_motif := l_motif
         n_shift := sequences.ncol - l_motif + 1
         n_flip := 1 + (if flip then 1 else 0)
         bg_class := bg_class
         shift_center := center_shift } : EMSequenceEngine R)
      rfl rfl (by show 1 ≤ l_motif; omega) (by show l_motif ≤ sequences.ncol; omega) rfl
      (by show 1 + (if flip then 1 else 0) = 1 ∨ 1 + (if flip then 1 else 0) = 2
          cases flip <;> simp)
      (by simp)
      (fun m hm => by
        rw [List.eq_of_mem_replicate hm]
        exact ⟨le_refl 4, rfl⟩)
      _ rfl ⟨rfl, rfl, rfl, rfl⟩ ⟨rfl, rfl, rfl, rfl⟩ ⟨rfl, rfl, rfl⟩
    exact hS0

/-- The engine the constructor from initial motifs returns has the shapes of a constructed
engine. -/
theorem construct_from_motifs_shapes {lm : Libm R} {c : Constants R}
    {sequences : Matrix2D Char} {motifs : List (Matrix2D R)} {flip center_shift bg_class : Bool}
    {e : EMSequenceEngine R}
    (h : construct_from_motifs lm c sequences motifs flip center_shift bg_class = .ok e) :
    e.Shapes := by
  unfold construct_from_motifs at h
  cases motifs with
  | nil => exact absurd h (by simp)
  | cons m0 rest =>
    simp only at h
    obtain ⟨hg1, h⟩ := ite_error_eq_ok_guard h
    obtain ⟨hg2, h⟩ := ite_error_eq_ok_guard h
    obtain ⟨hg3, h⟩ := ite_error_eq_ok_guard h
    simp only [bind, Except.bind] at h
    split at h
    · exact absurd h (by simp)
    · rename_i b hb
      obtain ⟨hg4, h⟩ := ite_error_eq_ok_guard h
      split at h
      · exact absurd h (by simp)
      · rename_i e1 he1
        obtain ⟨-, h⟩ := ite_error_eq_ok_guard h
        push_neg at hg3 hg4
        refine compute_class_prob_shapes ?_ h
        have hS1 : e1.Shapes := compute_likelihood_shapes ?_ he1
        · exact hS1
        exact initial_shapes
          ({ sequences := sequences
             motifs := m0 :: rest
             bg_prob := b
             class_prob := ⟨(m0 :: rest).length + (if bg_class then 1 else 0),
               sequences.ncol - m0.ncol + 1, 1 + (if flip then 1 else 0), fun _ _ _ => 0⟩
             class_prob_tot := fun _ => 0
             post_prob := ⟨sequences.nrow, (m0 :: rest).length + (if bg_class then 1 else 0),
               sequences.ncol - m0.ncol + 1, 1 + (if flip then 1 else 0), fun _ _ _ _ => 0⟩
             post_prob_prev := ⟨0, 0, 0, 0, fun _ _ _ _ => 0⟩
             likelihood := ⟨sequences.nrow, (m0 :: rest).length + (if bg_class then 1 else 0),
               sequences.ncol - m0.ncol + 1, 1 + (if flip then 1 else 0), fun _ _ _ _ => 0⟩
             n_iter := 0
             n_seq := sequences.nrow
             l_seq := sequences.ncol
             n_class := (m0 :: rest).length
             l_motif := m0.ncol
             n_shift := sequences.ncol - m0.ncol + 1
             n_flip := 1 + (if flip then 1 else 0)
             bg_class := bg_class
             shift_center := center_shift } : EMSequenceEngine R)
          rfl rfl (by show 1 ≤ m0.ncol; omega) (by show m0.ncol ≤ sequences.ncol; omega) rfl
          (by show 1 + (if flip then 1 else 0) = 1 ∨ 1 + (if flip then 1 else 0) = 2
              cases flip <;> simp)
          rfl (fun m hm => ⟨hg4 m hm, hg3 m hm⟩) _ rfl ⟨rfl, rfl, rfl, rfl⟩
          ⟨rfl, rfl, rfl, rfl⟩ ⟨rfl, rfl, rfl⟩

/-- C30: an engine that either constructor has returned has the shapes of a constructed engine,
among which `1 ≤ l_motif ≤ l_seq` and `n_shift = l_seq - l_motif + 1`; every step of `cluster()`
and `cluster()` itself keep these shapes when they return; and on an engine with these shapes
every element access of `compute_likelihood`, of the calls of `dna::score_sequence` it makes, of
`compute_posterior_prob`, of `compute_class_prob` and of `compute_motifs` is in range: the
sequence columns `s + j` are below `l_seq`, the motif rows are below four and the motif columns,
also the mirrored ones, below `l_motif`, the indices of the likelihood, the posterior and the
class probabilities are within their dimensions, and the four assertions of
`dna::score_sequence` hold. -/
theorem accesses_in_range (lm : Libm R) (c : Constants R) :
    (∀ (rng : String → Nat → R) (sequences : Matrix2D Char) (n_class l_motif : Nat)
        (flip center_shift bg_class : Bool) (seed method : String) (e : EMSequenceEngine R),
      construct c rng sequences n_class l_motif flip center_shift bg_class seed method = .ok e →
      e.Shapes) ∧
    (∀ (sequences : Matrix2D Char) (motifs : List (Matrix2D R))
        (flip center_shift bg_class : Bool) (e : EMSequenceEngine R),
      construct_from_motifs lm c sequences motifs flip center_shift bg_class = .ok e →
      e.Shapes) ∧
    (∀ e : EMSequenceEngine R, e.Shapes →
      (∀ e2, compute_likelihood lm e = .ok e2 → e2.Shapes) ∧
      (∀ e2, compute_posterior_prob c e = .ok e2 → e2.Shapes) ∧
      (∀ e2, compute_class_prob e = .ok e2 → e2.Shapes) ∧
      (∀ e2, compute_motifs c e = .ok e2 → e2.Shapes) ∧
      (∀ e2, normalise_motifs e = .ok e2 → e2.Shapes) ∧
      (∀ e2, center_shifts lm e = .ok e2 → e2.Shapes) ∧
      (∀ code e2, cluster lm c e = .ok (code, e2) → e2.Shapes)) ∧
    (∀ e : EMSequenceEngine R, e.Shapes →
      1 ≤ e.l_motif ∧ e.l_motif ≤ e.l_seq ∧ e.n_shift = e.l_seq - e.l_motif + 1 ∧
      (∀ s < e.n_shift, ∀ j < e.l_motif,
        s + j < e.l_seq ∧ s + j < e.sequences.ncol ∧ e.l_motif - j - 1 < e.l_motif) ∧
      compute_likelihood_in_range lm e ∧ compute_posterior_prob_in_range e ∧
      compute_class_prob_in_range e ∧ compute_motifs_in_range e) := by
  refine ⟨fun _ _ _ _ _ _ _ _ _ _ h => construct_shapes h,
    fun _ _ _ _ _ _ h => construct_from_motifs_shapes h,
    fun e hS => ⟨fun _ h => compute_likelihood_shapes hS h,
      fun _ h => compute_posterior_prob_shapes hS h, fun _ h => compute_class_prob_shapes hS h,
      fun _ h => compute_motifs_shapes hS h, fun _ h => normalise_motifs_shapes hS h,
      fun _ h => center_shifts_shapes hS h, fun _ _ h => cluster_shapes hS h⟩,
    fun e hS => ⟨hS.2.2.1, hS.2.2.2.1, hS.2.2.2.2.1, fun s hs j hj => ?_, hS.in_range lm⟩⟩
  obtain ⟨h1, h2, h3, h4, h5, -⟩ := hS
  omega

/-- C30 on the engine built for the sequence "ACGT" with one class, motifs of width two, both
strands, shift centring and a background class: the constructor returns it, and the element
accesses of the four functions on it are in range. -/
theorem accesses_in_range_witness :
    ∃ e, construct (⟨1 / 1000000, 1 / 100000000⟩ : Constants ℝ) (fun _ _ => 1 / 2) acgt 1 2
        true true true "" "random" = .ok e ∧
      e.l_motif = 2 ∧ e.l_seq = 4 ∧ e.n_shift = 3 ∧
      compute_likelihood_in_range (⟨Real.log, Real.exp, Real.sqrt, Real.pi⟩ : Libm ℝ) e ∧
      compute_posterior_prob_in_range e ∧ compute_class_prob_in_range e ∧
      compute_motifs_in_range e := by
  obtain ⟨e, he, _⟩ := construct_inv (⟨1 / 1000000, 1 / 100000000⟩ : Constants ℝ)
    (by norm_num) (fun _ _ => 1 / 2) acgt 1 2 true true true "" (fun _ => by norm_num)
    acgt_valid (by decide) (by decide) (by decide) (by decide)
  obtain ⟨_, _, _, f4, _, f6, f7, _⟩ := construct_of_ok he
  obtain ⟨h1, -, -, h4⟩ := accesses_in_range
    (⟨Real.log, Real.exp, Real.sqrt, Real.pi⟩ : Libm ℝ) ⟨1 / 1000000, 1 / 100000000⟩
  obtain ⟨-, -, -, -, g⟩ := h4 e (h1 _ _ _ _ _ _ _ _ _ e he)
  exact ⟨e, he, f6, f4, f7, g⟩

end EMSequenceEngine

end EMSeq
